import Mathlib

/-!
Order-statistics trees: static balanced BST and dynamic Red-Black tree

Shallow embedding of `main.cpp` (static tree, `BTNode`) and `rb.cpp`
(Red-Black tree, `RBNode`) together with the properties proved about them.

`int` values are modelled on `Int`. Keys are only compared, and the size fields
are counts of nodes. The index arithmetic of `buildTreeBT` can leave the range of
the 32-bit `int`; there the model checks the range and returns `none` on overflow.
-/

/-! ## Machine integers -/

/-- The smallest `int`; the value stored in the sentinel's key. -/
def INT32_MIN : Int := -2147483648

/-- The largest `int`. -/
def INT32_MAX : Int := 2147483647

/-- The value is representable as a 32-bit `int`. -/
abbrev inInt32 (x : Int) : Prop := INT32_MIN ≤ x ∧ x ≤ INT32_MAX

/-! ## Arrays -/

/-- Read of `v[i]` for an `int *v` holding the elements of the list `v`
(an index outside the array reads `0`). -/
def arrayGet (v : List Int) (i : Int) : Int :=
  if i < 0 then 0 else v.getD i.toNat 0

/-! ## Static tree (`main.cpp`) -/

/-- A `BTNode *`: either `nullptr` or a node with `key`, `size`, `left`, `right`. -/
inductive BTNode where
  | nullptr : BTNode
  | node (key size : Int) (left right : BTNode) : BTNode
deriving DecidableEq, Repr

namespace BTNode

/-- The field `root->key` (reading through `nullptr` gives `0`). -/
def key : BTNode → Int
  | nullptr => 0
  | node k _ _ _ => k

/-- The field `root->size` of a node, `0` for an absent child. -/
def size0 : BTNode → Int
  | nullptr => 0
  | node _ s _ _ => s

/-- In-order sequence of the keys. -/
def keys : BTNode → List Int
  | nullptr => []
  | node k _ l r => keys l ++ k :: keys r

/-- Every node satisfies `size == 1 + size(left) + size(right)`. -/
def SizeInv : BTNode → Prop
  | nullptr => True
  | node _ s l r => s = 1 + size0 l + size0 r ∧ SizeInv l ∧ SizeInv r

/-- Strict binary-search-tree order. -/
def BST : BTNode → Prop
  | nullptr => True
  | node k _ l r => (∀ x ∈ keys l, x < k) ∧ (∀ x ∈ keys r, k < x) ∧ BST l ∧ BST r

/-- Number of nodes on the longest root-to-leaf path. -/
def height : BTNode → Nat
  | nullptr => 0
  | node _ _ l r => max (height l) (height r) + 1

end BTNode

/-- Recursion of `buildTreeBT`, structural on a bound of the range length. The
result is `none` when `i + j`, `j - i` or `j - i + 1` is not an `int` (signed
overflow, undefined behaviour in the source). -/
def buildTreeBT.go (v : List Int) : Nat → Int → Int → Option BTNode
  | 0, _, _ => some BTNode.nullptr
  | fuel + 1, i, j =>
    if i ≤ j then
      if inInt32 (i + j) ∧ inInt32 (j - i) ∧ inInt32 (j - i + 1) then
        let pos := Int.tdiv (i + j) 2
        match buildTreeBT.go v fuel i (pos - 1) with
        | none => none
        | some left =>
          match buildTreeBT.go v fuel (pos + 1) j with
          | none => none
          | some right => some (BTNode.node (arrayGet v pos) (j - i + 1) left right)
      else none
    else some BTNode.nullptr

/-- `buildTreeBT(v, i, j)` of `main.cpp`; the recursion runs on the range length. -/
def buildTreeBT (v : List Int) (i j : Int) : Option BTNode :=
  buildTreeBT.go v (j + 1 - i).toNat i j

/-- The index ranges on which no `int` operation of `buildTreeBT` overflows: the
empty ranges, and the ranges inside `[-2^30, 2^30)` with fewer than `2^31` elements. -/
abbrev buildTreeBT.Safe (i j : Int) : Prop :=
  j < i ∨ (-1073741824 ≤ i ∧ j < 1073741824 ∧ j - i + 1 ≤ 2147483647)

/-- The tree with the midpoint of the index range `i..j` at the root, computed on
unbounded integers: the value of `buildTreeBT` where it returns. -/
def balancedBT.go (v : List Int) : Nat → Int → Int → BTNode
  | 0, _, _ => BTNode.nullptr
  | fuel + 1, i, j =>
    if i ≤ j then
      let pos := Int.tdiv (i + j) 2
      BTNode.node (arrayGet v pos) (j - i + 1)
        (balancedBT.go v fuel i (pos - 1)) (balancedBT.go v fuel (pos + 1) j)
    else BTNode.nullptr

/-- The tree `buildTreeBT(v, i, j)` returns when its index arithmetic does not
overflow (`buildTreeBT_eq`). -/
def balancedBT (v : List Int) (i j : Int) : BTNode :=
  balancedBT.go v (j + 1 - i).toNat i j

/-- `treeMinBT(root)` of `main.cpp`: the leftmost node of the subtree. -/
def treeMinBT : BTNode → BTNode
  | BTNode.nullptr => BTNode.nullptr
  | BTNode.node k s l r =>
    match l with
    | BTNode.nullptr => BTNode.node k s l r
    | BTNode.node _ _ _ _ => treeMinBT l

/-- The statement `root->size++` (no effect through `nullptr`, which the code guards). -/
def BTNode.incSize : BTNode → BTNode
  | BTNode.nullptr => BTNode.nullptr
  | BTNode.node k s l r => BTNode.node k (s + 1) l r

/-- The final `if(root != nullptr) root->size--`. -/
def BTNode.decSize : BTNode → BTNode
  | BTNode.nullptr => BTNode.nullptr
  | BTNode.node k s l r => BTNode.node k (s - 1) l r

/-- `deleteBT(root, key)` of `main.cpp`. -/
def deleteBT : BTNode → Int → BTNode
  | BTNode.nullptr, _ => BTNode.nullptr
  | BTNode.node k s l r, key =>
    BTNode.decSize
      (if key < k then BTNode.node k s (deleteBT l key) r
       else if key > k then BTNode.node k s l (deleteBT r key)
       else if l ≠ BTNode.nullptr ∧ r ≠ BTNode.nullptr then
         BTNode.node (treeMinBT r).key s l (deleteBT r (treeMinBT r).key)
       else
         BTNode.incSize (if l ≠ BTNode.nullptr then l else r))

/-- `selectBT(root, i)` of `main.cpp`. -/
def selectBT : BTNode → Int → Int
  | BTNode.nullptr, _ => -1
  | BTNode.node key _ left right, i =>
    let pos : Int := if left ≠ BTNode.nullptr then 1 + left.size0 else 1
    if i = pos then key
    else if i < pos then selectBT left i
    else selectBT right (i - pos)

/-- The outputs `selectBT(root, 1), ..., selectBT(root, m)`. -/
def selectAllBT (t : BTNode) (m : Nat) : List Int :=
  (List.range m).map (fun (k : Nat) => selectBT t ((k : Int) + 1))

namespace BTNode

/-- Number of nodes of the tree. -/
def count : BTNode → Nat
  | nullptr => 0
  | node _ _ l r => count l + count r + 1

/-- At every node the node counts of the two subtrees differ by at most one. -/
def Balanced : BTNode → Prop
  | nullptr => True
  | node _ _ l r => (count l ≤ count r + 1 ∧ count r ≤ count l + 1) ∧ Balanced l ∧ Balanced r

/-- The tree `t` with the size field decremented at every node that the search
for `key` visits before it falls off the tree (or finds the key). -/
def decSearchPath (key : Int) : BTNode → BTNode
  | nullptr => nullptr
  | node k s l r =>
    if key < k then node k (s - 1) (decSearchPath key l) r
    else if key > k then node k (s - 1) l (decSearchPath key r)
    else node k s l r

/-- Removal of the leftmost node as the specification words it: the size is
decremented at every node above the leftmost one, the leftmost node is replaced
by its right subtree, and nothing else changes. -/
def removeMinSpec : BTNode → BTNode
  | nullptr => nullptr
  | node _ _ nullptr r => r
  | node k s (node lk ls ll lr) r => node k (s - 1) (removeMinSpec (node lk ls ll lr)) r

/-- Deletion of `key` as the specification words it: the size is decremented at
every surviving node on the path from the root to the node that is removed
physically. That node is the matched one when it has at most one child (its child
takes its place, unchanged); otherwise the matched node receives the key of its
in-order successor and the successor is removed from the right subtree. -/
def removeSpec (key : Int) : BTNode → BTNode
  | nullptr => nullptr
  | node k s l r =>
    if key < k then node k (s - 1) (removeSpec key l) r
    else if key > k then node k (s - 1) l (removeSpec key r)
    else if l ≠ nullptr ∧ r ≠ nullptr then node (treeMinBT r).key (s - 1) l (removeMinSpec r)
    else if l ≠ nullptr then l else r

end BTNode

/-- Static trees the program can reach: a build from a strictly ascending
array followed by deletions of keys that are present. -/
inductive BTReachable : BTNode → Prop where
  | build (v : List Int) (hv : v.Sorted (· < ·)) (t : BTNode)
      (h : buildTreeBT v 0 ((v.length : Int) - 1) = some t) : BTReachable t
  | delete (t : BTNode) (key : Int) (ht : BTReachable t) (hk : key ∈ t.keys) :
      BTReachable (deleteBT t key)

/-! ## Dynamic tree (`rb.cpp`): memory model -/

/-- Address of the sentinel `NIL`: the first object `buildTreeRB` allocates
(address `0` is `nullptr`). -/
def NIL : Nat := 1

/-- A field of all objects after the assignment `a->field = v`. -/
def upd {α : Type} (f : Nat → α) (a : Nat) (v : α) : Nat → α :=
  fun b => if b = a then v else f b

/-- Program state. The heap of `struct RBNode` objects is stored field by
field (`key a` is `a->key`, ...; `color` is `false` for red (`0`) and `true`
for black (`1`)), with the allocation pointer, the trace of `delete` calls and
the caller's variable `*root`. -/
structure State where
  key : Nat → Int
  size : Nat → Int
  parent : Nat → Nat
  left : Nat → Nat
  right : Nat → Nat
  color : Nat → Bool
  next : Nat
  freed : List Nat
  root : Nat

namespace State

def setKey (s : State) (a : Nat) (v : Int) : State := { s with key := upd s.key a v }
def setSize (s : State) (a : Nat) (v : Int) : State := { s with size := upd s.size a v }
def setParent (s : State) (a : Nat) (v : Nat) : State := { s with parent := upd s.parent a v }
def setLeft (s : State) (a : Nat) (v : Nat) : State := { s with left := upd s.left a v }
def setRight (s : State) (a : Nat) (v : Nat) : State := { s with right := upd s.right a v }
def setColor (s : State) (a : Nat) (v : Bool) : State := { s with color := upd s.color a v }
def setRoot (s : State) (v : Nat) : State := { s with root := v }

/-- The expression `new RBNode`: the fresh address and the state after the allocation. -/
def alloc (s : State) : Nat × State := (s.next, { s with next := s.next + 1 })

/-- The statement `delete p`. -/
def free (s : State) (p : Nat) : State := { s with freed := s.freed ++ [p] }

end State

/-- `leftRotateRB(root, x)` of `rb.cpp`. -/
def leftRotateRB (s : State) (x : Nat) : State :=
  let y := s.right x
  let s := s.setRight x (s.left y)
  let s := if s.left y ≠ NIL then s.setParent (s.left y) x else s
  let s := s.setParent y (s.parent x)
  let s :=
    if s.parent x = NIL then s.setRoot y
    else if x = s.left (s.parent x) then s.setLeft (s.parent x) y
    else s.setRight (s.parent x) y
  let s := s.setLeft y x
  let s := s.setParent x y
  let s := s.setSize y (s.size x)
  s.setSize x (s.size (s.left x) + s.size (s.right x) + 1)

/-- `rightRotateRB(root, x)` of `rb.cpp`. -/
def rightRotateRB (s : State) (x : Nat) : State :=
  let y := s.left x
  let s := s.setLeft x (s.right y)
  let s := if s.right y ≠ NIL then s.setParent (s.right y) x else s
  let s := s.setParent y (s.parent x)
  let s :=
    if s.parent x = NIL then s.setRoot y
    else if x = s.left (s.parent x) then s.setLeft (s.parent x) y
    else s.setRight (s.parent x) y
  let s := s.setRight y x
  let s := s.setParent x y
  let s := s.setSize y (s.size x)
  s.setSize x (s.size (s.left x) + s.size (s.right x) + 1)

/-- `insertRBFix(root, z)` of `rb.cpp`; `fuel` bounds the iterations of the loop. -/
def insertRBFix : Nat → State → Nat → Option State
  | 0, _, _ => none
  | fuel + 1, s, z =>
    if s.color (s.parent z) = false then
      if s.parent z = s.left (s.parent (s.parent z)) then
        let y := s.right (s.parent (s.parent z))
        if s.color y = false then
          let s := s.setColor (s.parent z) true
          let s := s.setColor y true
          let s := s.setColor (s.parent (s.parent z)) false
          insertRBFix fuel s (s.parent (s.parent z))
        else
          let zs : Nat × State :=
            if z = s.right (s.parent z) then (s.parent z, leftRotateRB s (s.parent z))
            else (z, s)
          let z := zs.1
          let s := zs.2
          let s := s.setColor (s.parent z) true
          let s := s.setColor (s.parent (s.parent z)) false
          let s := rightRotateRB s (s.parent (s.parent z))
          insertRBFix fuel s z
      else
        let y := s.left (s.parent (s.parent z))
        if s.color y = false then
          let s := s.setColor (s.parent z) true
          let s := s.setColor y true
          let s := s.setColor (s.parent (s.parent z)) false
          insertRBFix fuel s (s.parent (s.parent z))
        else
          let zs : Nat × State :=
            if z = s.left (s.parent z) then (s.parent z, rightRotateRB s (s.parent z))
            else (z, s)
          let z := zs.1
          let s := zs.2
          let s := s.setColor (s.parent z) true
          let s := s.setColor (s.parent (s.parent z)) false
          let s := leftRotateRB s (s.parent (s.parent z))
          insertRBFix fuel s z
    else some (s.setColor s.root true)

/-- The descent loop of `insertRB` (`while(x != NIL)`); returns the state and `y`. -/
def insertRB.descend (key : Int) : Nat → State → Nat → Nat → Option (State × Nat)
  | 0, _, _, _ => none
  | fuel + 1, s, y, x =>
    if x ≠ NIL then
      let y := x
      let s := s.setSize y (s.size y + 1)
      if key < s.key x then insertRB.descend key fuel s y (s.left x)
      else insertRB.descend key fuel s y (s.right x)
    else some (s, y)

/-- `insertRB(root, key)` of `rb.cpp`. -/
def insertRB (fuel : Nat) (s : State) (key : Int) : Option State :=
  match insertRB.descend key fuel s NIL s.root with
  | none => none
  | some (s, y) =>
    let z := s.alloc.1
    let s := s.alloc.2
    let s := s.setKey z key
    let s := s.setLeft z NIL
    let s := s.setRight z NIL
    let s := s.setParent z y
    let s := s.setColor z false
    let s := s.setSize z 1
    let s :=
      if y = NIL then s.setRoot z
      else if s.key z < s.key y then s.setLeft y z
      else s.setRight y z
    insertRBFix fuel s z

/-- `transplantRB(root, u, v)` of `rb.cpp`. -/
def transplantRB (s : State) (u v : Nat) : State :=
  let s :=
    if s.parent u = NIL then s.setRoot v
    else if u = s.left (s.parent u) then s.setLeft (s.parent u) v
    else s.setRight (s.parent u) v
  s.setParent v (s.parent u)

/-- `treeMinRB(root)` of `rb.cpp`; `fuel` bounds the recursion depth. -/
def treeMinRB : Nat → State → Nat → Option Nat
  | 0, _, _ => none
  | fuel + 1, s, root =>
    if s.left root ≠ NIL then treeMinRB fuel s (s.left root)
    else some root

/-- `deleteRBFix(root, x)` of `rb.cpp`; `fuel` bounds the iterations of the loop. -/
def deleteRBFix : Nat → State → Nat → Option State
  | 0, _, _ => none
  | fuel + 1, s, x =>
    if x ≠ s.root ∧ s.color x = true then
      if x = s.left (s.parent x) then
        let w := s.right (s.parent x)
        let sw : State × Nat :=
          if s.color w = false then
            let s := s.setColor w true
            let s := s.setColor (s.parent x) false
            let s := leftRotateRB s (s.parent x)
            (s, s.right (s.parent x))
          else (s, w)
        let s := sw.1
        let w := sw.2
        if s.color (s.left w) = true ∧ s.color (s.right w) = true then
          let s := s.setColor w false
          deleteRBFix fuel s (s.parent x)
        else
          let sw : State × Nat :=
            if s.color (s.right w) = true then
              let s := s.setColor (s.left w) true
              let s := s.setColor w false
              let s := rightRotateRB s w
              (s, s.right (s.parent x))
            else (s, w)
          let s := sw.1
          let w := sw.2
          let s := s.setColor w (s.color (s.parent x))
          let s := s.setColor (s.parent x) true
          let s := s.setColor (s.right w) true
          let s := leftRotateRB s (s.parent x)
          deleteRBFix fuel s s.root
      else
        let w := s.left (s.parent x)
        let sw : State × Nat :=
          if s.color w = false then
            let s := s.setColor w true
            let s := s.setColor (s.parent x) false
            let s := rightRotateRB s (s.parent x)
            (s, s.left (s.parent x))
          else (s, w)
        let s := sw.1
        let w := sw.2
        if s.color (s.left w) = true ∧ s.color (s.right w) = true then
          let s := s.setColor w false
          deleteRBFix fuel s (s.parent x)
        else
          let sw : State × Nat :=
            if s.color (s.left w) = true then
              let s := s.setColor (s.right w) true
              let s := s.setColor w false
              let s := leftRotateRB s w
              (s, s.left (s.parent x))
            else (s, w)
          let s := sw.1
          let w := sw.2
          let s := s.setColor w (s.color (s.parent x))
          let s := s.setColor (s.parent x) true
          let s := s.setColor (s.left w) true
          let s := rightRotateRB s (s.parent x)
          deleteRBFix fuel s s.root
    else some (s.setColor x true)

/-- The last group of statements of the loop body of `deleteRBFix` in the branch
`x == x->parent->left` (the right child of `w` is red), followed by the
remaining iterations `k`. -/
def deleteRBFix.case4L (k : State → Nat → Option State) (s : State) (x w : Nat) :
    Option State :=
  let s := s.setColor w (s.color (s.parent x))
  let s := s.setColor (s.parent x) true
  let s := s.setColor (s.right w) true
  let s := leftRotateRB s (s.parent x)
  k s s.root

/-- The loop body of `deleteRBFix` in the branch `x == x->parent->left` from the
test on the colours of `w`'s children on, followed by the remaining iterations `k`. -/
def deleteRBFix.tailL (k : State → Nat → Option State) (s : State) (x w : Nat) :
    Option State :=
  if s.color (s.left w) = true ∧ s.color (s.right w) = true then
    let s := s.setColor w false
    k s (s.parent x)
  else
    let sw : State × Nat :=
      if s.color (s.right w) = true then
        let s := s.setColor (s.left w) true
        let s := s.setColor w false
        let s := rightRotateRB s w
        (s, s.right (s.parent x))
      else (s, w)
    deleteRBFix.case4L k sw.1 x sw.2

/-- The last group of statements of the loop body of `deleteRBFix` in the branch
`x == x->parent->right` (the left child of `w` is red), followed by the
remaining iterations `k`. -/
def deleteRBFix.case4R (k : State → Nat → Option State) (s : State) (x w : Nat) :
    Option State :=
  let s := s.setColor w (s.color (s.parent x))
  let s := s.setColor (s.parent x) true
  let s := s.setColor (s.left w) true
  let s := rightRotateRB s (s.parent x)
  k s s.root

/-- The loop body of `deleteRBFix` in the branch `x == x->parent->right` from the
test on the colours of `w`'s children on, followed by the remaining iterations `k`. -/
def deleteRBFix.tailR (k : State → Nat → Option State) (s : State) (x w : Nat) :
    Option State :=
  if s.color (s.left w) = true ∧ s.color (s.right w) = true then
    let s := s.setColor w false
    k s (s.parent x)
  else
    let sw : State × Nat :=
      if s.color (s.left w) = true then
        let s := s.setColor (s.right w) true
        let s := s.setColor w false
        let s := leftRotateRB s w
        (s, s.left (s.parent x))
      else (s, w)
    deleteRBFix.case4R k sw.1 x sw.2

/-- The search loop of `deleteRB` (`while(z->key != key)`). -/
def deleteRB.search (key : Int) : Nat → State → Nat → Option Nat
  | 0, _, _ => none
  | fuel + 1, s, z =>
    if s.key z ≠ key then
      if key < s.key z then deleteRB.search key fuel s (s.left z)
      else deleteRB.search key fuel s (s.right z)
    else some z

/-- The size-repair loop of `deleteRB` (`while(aux != NIL)`). -/
def deleteRB.repair : Nat → State → Nat → Option State
  | 0, _, _ => none
  | fuel + 1, s, aux =>
    if aux ≠ NIL then
      let s := s.setSize aux (s.size aux - 1)
      deleteRB.repair fuel s (s.parent aux)
    else some s

/-- The tail of `deleteRB` after the splice: size repair, then the fixup when
the removed colour was black. -/
def deleteRB.finish (fuel : Nat) (s : State) (x : Nat) (original : Bool) : Option State :=
  match deleteRB.repair fuel s (s.parent x) with
  | none => none
  | some s => if original = true then deleteRBFix fuel s x else some s

/-- `deleteRB(root, key)` of `rb.cpp`. -/
def deleteRB (fuel : Nat) (s : State) (key : Int) : Option State :=
  if s.root = NIL then some s
  else
    match deleteRB.search key fuel s s.root with
    | none => none
    | some z =>
      if s.left z = NIL then
        let original := s.color z
        let x := s.right z
        let s := transplantRB s z (s.right z)
        let s := s.free z
        deleteRB.finish fuel s x original
      else if s.right z = NIL then
        let original := s.color z
        let x := s.left z
        let s := transplantRB s z (s.left z)
        let s := s.free z
        deleteRB.finish fuel s x original
      else
        match treeMinRB fuel s (s.right z) with
        | none => none
        | some y =>
          let original := s.color y
          let x := s.right y
          let s :=
            if s.parent y = z then s.setParent x y
            else
              let s := transplantRB s y (s.right y)
              let s := s.setRight y (s.right z)
              s.setParent (s.right y) y
          let s := transplantRB s z y
          let s := s.setLeft y (s.left z)
          let s := s.setParent (s.left y) y
          let s := s.setColor y (s.color z)
          let s := s.setSize y (s.size z)
          let s := s.free z
          deleteRB.finish fuel s x original

/-- The state in which `buildTreeRB` has allocated and initialised the
sentinel (`NIL = new RBNode; ...`) and set `root = NIL`. -/
def buildTreeRB.init : State :=
  { key := fun _ => INT32_MIN
    size := fun _ => 0
    parent := fun _ => NIL
    left := fun _ => NIL
    right := fun _ => NIL
    color := fun _ => true
    next := NIL + 1
    freed := []
    root := NIL }

/-- The loop `for(i = 0; i < n; i++) insertRB(&root, v[i])`, counted on the
remaining iterations. -/
def buildTreeRB.loop (fuel : Nat) (v : List Int) (n : Int) : Nat → Int → State → Option State
  | 0, _, s => some s
  | cnt + 1, i, s =>
    if i < n then
      match insertRB fuel s (arrayGet v i) with
      | none => none
      | some s => buildTreeRB.loop fuel v n cnt (i + 1) s
    else some s

/-- `buildTreeRB(v, n)` of `rb.cpp`; the returned state holds the result in `root`. -/
def buildTreeRB (fuel : Nat) (v : List Int) (n : Int) : Option State :=
  buildTreeRB.loop fuel v n n.toNat 0 buildTreeRB.init

/-- `selectRB(root, i)` of `rb.cpp`; `fuel` bounds the recursion depth. -/
def selectRB : Nat → State → Nat → Int → Option Int
  | 0, _, _, _ => none
  | fuel + 1, s, root, i =>
    if root = NIL then some (-1)
    else
      let pos : Int := if s.left root ≠ NIL then 1 + s.size (s.left root) else 1
      if i = pos then some (s.key root)
      else if i < pos then selectRB fuel s (s.left root) i
      else selectRB fuel s (s.right root) (i - pos)

/-- The outputs `selectRB(root, 1), ..., selectRB(root, m)`. -/
def selectAllRB (fuel : Nat) (s : State) (m : Nat) : List (Option Int) :=
  (List.range m).map (fun (k : Nat) => selectRB fuel s s.root ((k : Int) + 1))


/-! ## Dynamic tree: the tree a heap represents -/

/-- The tree stored in a heap: every node with its address, colour, key and size field. -/
inductive RBTree where
  | nil : RBTree
  | node (a : Nat) (c : Bool) (k : Int) (s : Int) (l r : RBTree) : RBTree
deriving DecidableEq, Repr

namespace RBTree

/-- Pointer to the root of the tree (`NIL` for the empty tree). -/
def addr : RBTree → Nat
  | nil => NIL
  | node a _ _ _ _ _ => a

/-- The size field read through the root pointer (the sentinel stores `0`). -/
def size0 : RBTree → Int
  | nil => 0
  | node _ _ _ s _ _ => s

/-- Colour read through the root pointer (the sentinel is black). -/
def color0 : RBTree → Bool
  | nil => true
  | node _ c _ _ _ _ => c

/-- Addresses of the nodes, in order. -/
def addrs : RBTree → List Nat
  | nil => []
  | node a _ _ _ l r => addrs l ++ a :: addrs r

/-- In-order sequence of the keys. -/
def keys : RBTree → List Int
  | nil => []
  | node _ _ k _ l r => keys l ++ k :: keys r

/-- State `m` stores the tree, whose root has parent pointer `par`. -/
def Rep (m : State) (par : Nat) : RBTree → Prop
  | nil => True
  | node a c k s l r =>
    (m.key a = k ∧ m.size a = s ∧ m.parent a = par ∧ m.left a = l.addr ∧
      m.right a = r.addr ∧ m.color a = c) ∧ Rep m a l ∧ Rep m a r

/-- Every node satisfies `size == 1 + size(left) + size(right)`. -/
def SizeInv : RBTree → Prop
  | nil => True
  | node _ _ _ s l r => s = 1 + l.size0 + r.size0 ∧ SizeInv l ∧ SizeInv r

/-- Binary-search-tree order (equal keys may sit on either side). -/
def BST : RBTree → Prop
  | nil => True
  | node _ _ k _ l r => (∀ x ∈ keys l, x ≤ k) ∧ (∀ x ∈ keys r, k ≤ x) ∧ BST l ∧ BST r

/-- No red node has a red child. -/
def NoRedRed : RBTree → Prop
  | nil => True
  | node _ c _ _ l r => (c = false → l.color0 = true ∧ r.color0 = true) ∧ NoRedRed l ∧ NoRedRed r

/-- Number of black nodes on the leftmost path to a leaf. -/
def blackHeight : RBTree → Nat
  | nil => 0
  | node _ c _ _ l _ => blackHeight l + (if c then 1 else 0)

/-- Every path from a node to a descendant leaf has the same number of black nodes. -/
def BlackBalanced : RBTree → Prop
  | nil => True
  | node _ _ _ _ l r => blackHeight l = blackHeight r ∧ BlackBalanced l ∧ BlackBalanced r

/-- The Red-Black properties 2, 4 and 5 (1 and 3 hold by construction). -/
def RedBlack (t : RBTree) : Prop :=
  t.color0 = true ∧ NoRedRed t ∧ BlackBalanced t

/-- Number of nodes on the longest path from the root to a leaf. -/
def height : RBTree → Nat
  | nil => 0
  | node _ _ _ _ l r => max (height l) (height r) + 1

end RBTree

/-- One step of the path from a node up to the root: the parent `a` with its
fields and the sibling subtree. `L`: the node below is the left child. -/
inductive RBFrame where
  | L (a : Nat) (c : Bool) (k : Int) (s : Int) (r : RBTree) : RBFrame
  | R (a : Nat) (c : Bool) (k : Int) (s : Int) (l : RBTree) : RBFrame
deriving DecidableEq, Repr

namespace RBFrame

def addr : RBFrame → Nat
  | L a _ _ _ _ => a
  | R a _ _ _ _ => a

def color : RBFrame → Bool
  | L _ c _ _ _ => c
  | R _ c _ _ _ => c

def size : RBFrame → Int
  | L _ _ _ s _ => s
  | R _ _ _ s _ => s

/-- The sibling subtree. -/
def sib : RBFrame → RBTree
  | L _ _ _ _ r => r
  | R _ _ _ _ l => l

def addrs : RBFrame → List Nat
  | L a _ _ _ r => a :: r.addrs
  | R a _ _ _ l => a :: l.addrs

/-- The subtree rooted at the frame's node once `t` hangs below it. -/
def fill : RBFrame → RBTree → RBTree
  | L a c k s r, t => RBTree.node a c k s t r
  | R a c k s l, t => RBTree.node a c k s l t

/-- The frame with its size field decremented. -/
def decSize : RBFrame → RBFrame
  | L a c k s r => L a c k (s - 1) r
  | R a c k s l => R a c k (s - 1) l

end RBFrame

/-- Path from a node up to the root, innermost frame first. -/
abbrev RBPath := List RBFrame

namespace RBPath

/-- Address of the innermost frame, `top` for the empty path. -/
def addr (cs : RBPath) (top : Nat) : Nat :=
  match cs with
  | [] => top
  | f :: _ => f.addr

def addrs : RBPath → List Nat
  | [] => []
  | f :: cs => f.addrs ++ addrs cs

/-- The whole tree: `t` placed below the path. -/
def plug : RBTree → RBPath → RBTree
  | t, [] => t
  | t, f :: cs => plug (f.fill t) cs

/-- State `m` stores the path above the node at address `child`; the outermost
frame has parent pointer `top`. -/
def Rep (m : State) (child : Nat) : RBPath → Nat → Prop
  | [], _ => True
  | RBFrame.L a c k s r :: cs, top =>
    (m.key a = k ∧ m.size a = s ∧ m.parent a = addr cs top ∧ m.left a = child ∧
      m.right a = r.addr ∧ m.color a = c) ∧ RBTree.Rep m a r ∧ Rep m a cs top
  | RBFrame.R a c k s l :: cs, top =>
    (m.key a = k ∧ m.size a = s ∧ m.parent a = addr cs top ∧ m.left a = l.addr ∧
      m.right a = child ∧ m.color a = c) ∧ RBTree.Rep m a l ∧ Rep m a cs top

/-- Address of the root of `plug t cs` when `t` has root address `d`. -/
def rootAddr : RBPath → Nat → Nat
  | [], d => d
  | f :: cs, _ => rootAddr cs f.addr

end RBPath

/-- Object `a` has the same fields in both states. -/
def State.SameAt (s s' : State) (a : Nat) : Prop :=
  s'.key a = s.key a ∧ s'.size a = s.size a ∧ s'.parent a = s.parent a ∧
    s'.left a = s.left a ∧ s'.right a = s.right a ∧ s'.color a = s.color a

/-- The sentinel object: black, size `0`, key `INT32_MIN`, children `NIL`;
only its parent field varies. -/
def Sentinel (s : State) : Prop :=
  s.key NIL = INT32_MIN ∧ s.size NIL = 0 ∧ s.left NIL = NIL ∧ s.right NIL = NIL ∧
    s.color NIL = true

/-- State `s` holds the tree `t`: the heap stores it below `*root`, its nodes
are distinct allocated objects other than the sentinel. -/
structure Shape (s : State) (t : RBTree) : Prop where
  rep : RBTree.Rep s NIL t
  root : s.root = t.addr
  nodup : t.addrs.Nodup
  alloc : ∀ a ∈ t.addrs, a ≠ NIL ∧ a < s.next
  sentinel : Sentinel s
  nilAlloc : NIL < s.next

/-- The state holds `plug t cs`, spelled out on the subtree and the path. -/
structure ShapeZ (s : State) (t : RBTree) (cs : RBPath) : Prop where
  rep : RBTree.Rep s (RBPath.addr cs NIL) t
  path : RBPath.Rep s t.addr cs NIL
  root : s.root = RBPath.rootAddr cs t.addr
  nodup : (t.addrs ++ RBPath.addrs cs).Nodup
  alloc : ∀ a ∈ t.addrs ++ RBPath.addrs cs, a ≠ NIL ∧ a < s.next
  sentinel : Sentinel s
  nilAlloc : NIL < s.next


namespace RBTree

/-- The tree after `root->color = 1`. -/
def setBlack : RBTree → RBTree
  | nil => nil
  | node a _ k s l r => node a true k s l r

/-- The subtree rooted at the leftmost node: the node `treeMinRB` returns. -/
def minNode : RBTree → RBTree
  | nil => nil
  | node a c k s nil r => node a c k s nil r
  | node _ _ _ _ (node la lc lk ls ll lr) _ => minNode (node la lc lk ls ll lr)

/-- Subtree whose nodes satisfy the Red-Black properties 4 and 5 (any root colour). -/
def WF (t : RBTree) : Prop := NoRedRed t ∧ BlackBalanced t

/-- The descent of `insertRB` seen on the tree: sizes on the search path grow
by one and the new node `z` replaces the leaf that is reached. -/
def ins (key : Int) (z : RBTree) : RBTree → RBTree
  | nil => z
  | node a c k s l r =>
    if key < k then node a c k (s + 1) (ins key z l) r
    else node a c k (s + 1) l (ins key z r)

end RBTree

namespace RBPath

/-- Keys before the focused subtree, in order. -/
def before : RBPath → List Int
  | [] => []
  | RBFrame.L _ _ _ _ _ :: cs => before cs
  | RBFrame.R _ _ k _ l :: cs => before cs ++ l.keys ++ [k]

/-- Keys after the focused subtree, in order. -/
def after : RBPath → List Int
  | [] => []
  | RBFrame.L _ _ k _ r :: cs => k :: r.keys ++ after cs
  | RBFrame.R _ _ _ _ _ :: cs => after cs

/-- The size fields along the path are exact when the focused subtree has size `n`. -/
def SizeInv : RBPath → Int → Prop
  | [], _ => True
  | f :: cs, n => f.size = 1 + n + f.sib.size0 ∧ f.sib.SizeInv ∧ SizeInv cs f.size

/-- The path accepts a focused subtree with root colour `c` and black height `n`:
filling it in gives a tree with black root satisfying properties 4 and 5. -/
def Accepts : RBPath → Bool → Nat → Prop
  | [], c, _ => c = true
  | f :: cs, c, n =>
    (f.color = false → c = true ∧ f.sib.color0 = true) ∧ f.sib.WF ∧ f.sib.blackHeight = n ∧
      Accepts cs f.color (n + (if f.color then 1 else 0))

/-- The path that the descent of `insertRB` adds above the leaf it reaches. -/
def ins (key : Int) : RBTree → RBPath → RBPath
  | RBTree.nil, cs => cs
  | RBTree.node a c k s l r, cs =>
    if key < k then ins key l (RBFrame.L a c k (s + 1) r :: cs)
    else ins key r (RBFrame.R a c k (s + 1) l :: cs)

/-- The search loop of `deleteRB` seen on the tree: the subtree rooted at the
node the loop stops at, and the path above it (`none` when the loop runs off
the tree). -/
def find (key : Int) : RBTree → RBPath → Option (RBTree × RBPath)
  | RBTree.nil, _ => none
  | RBTree.node a c k s l r, cs =>
    if k ≠ key then
      if key < k then find key l (RBFrame.L a c k s r :: cs)
      else find key r (RBFrame.R a c k s l :: cs)
    else some (RBTree.node a c k s l r, cs)

/-- The path from the leftmost node of `t` up to the root of `t`. -/
def minSpine : RBTree → RBPath
  | RBTree.nil => []
  | RBTree.node _ _ _ _ RBTree.nil _ => []
  | RBTree.node a c k s (RBTree.node la lc lk ls ll lr) r =>
    minSpine (RBTree.node la lc lk ls ll lr) ++ [RBFrame.L a c k s r]

/-- The path after the size-repair loop of `deleteRB`. -/
def decSizes (cs : RBPath) : RBPath := cs.map RBFrame.decSize

/-- The innermost frame lies on the side where `insertRB` links a node with key `key`. -/
def Dir (key : Int) : RBPath → Prop
  | [] => True
  | RBFrame.L _ _ k _ _ :: _ => key < k
  | RBFrame.R _ _ k _ _ :: _ => ¬ key < k

end RBPath

/-- The whole-tree invariant of the dynamic tree: search-tree order, exact
sizes and the Red-Black properties. -/
def RBTree.Good (t : RBTree) : Prop := t.BST ∧ t.SizeInv ∧ t.RedBlack

/-- Result of a fixup loop started in state `s` on the tree `T0`: it returns a
state holding a tree with the Red-Black properties on the same keys and nodes,
and exact sizes when `T0` has them. -/
def FixPost (s : State) (T0 : RBTree) (res : Option State) : Prop :=
  ∃ s' T, res = some s' ∧ Shape s' T ∧ T.RedBlack ∧ T.keys = T0.keys ∧
    T.addrs.Perm T0.addrs ∧ (T0.SizeInv → T.SizeInv) ∧ s'.next = s.next ∧ s'.freed = s.freed

/-- Dynamic-tree states the program can reach: the result of `buildTreeRB`,
then calls of `insertRB` and calls of `deleteRB` on keys that are stored. -/
inductive RBReachable : State → Prop where
  | build (fuel : Nat) (v : List Int) (s : State)
      (h : buildTreeRB fuel v (v.length : Int) = some s) : RBReachable s
  | insert (fuel : Nat) (s s' : State) (key : Int) (hs : RBReachable s)
      (h : insertRB fuel s key = some s') : RBReachable s'
  | delete (fuel : Nat) (s s' : State) (key : Int) (T : RBTree) (hs : RBReachable s)
      (hT : Shape s T) (hk : key ∈ T.keys) (h : deleteRB fuel s key = some s') : RBReachable s'

/-- The state `buildTreeRB(v, n)` leaves for the array `v` of length `n`
(the initial state if the call did not return). -/
def builtRB (v : List Int) : State :=
  (buildTreeRB (v.length + 1) v (v.length : Int)).getD buildTreeRB.init

/-- A heap holding one red node with key `5` as the root (a search tree with exact
sizes whose root is not black). -/
def redRootState : State :=
  { key := upd (fun _ => INT32_MIN) 2 5
    size := upd (fun _ => 0) 2 1
    parent := fun _ => NIL
    left := fun _ => NIL
    right := fun _ => NIL
    color := upd (fun _ => true) 2 false
    next := 3
    freed := []
    root := 2 }

/-! ## Static view of a dynamic tree -/

/-- The static tree with the same keys and size fields as the dynamic tree: every
link to the sentinel becomes an absent child. -/
def RBTree.toBT : RBTree → BTNode
  | .nil => BTNode.nullptr
  | .node _ _ k s l r => BTNode.node k s l.toBT r.toBT

/-! ## Tear-down of the dynamic tree -/

/-- The null pointer as the address of an `RBNode` (no object lives there). -/
def RBNode.nullptr : Nat := 0

/-- `destroyRB(root)` of `rb.cpp`; `fuel` bounds the recursion depth. The trace of
the `delete` statements is the field `freed` of the state. -/
def destroyRB : Nat → State → Nat → Option State
  | 0, _, _ => none
  | fuel + 1, s, root =>
    if root = NIL then some s
    else
      match (if s.left root ≠ RBNode.nullptr then destroyRB fuel s (s.left root) else some s) with
      | none => none
      | some s =>
        match (if s.right root ≠ RBNode.nullptr then destroyRB fuel s (s.right root)
          else some s) with
        | none => none
        | some s =>
          let s := s.free root
          some (s.free NIL)

/-- `destroyRB(root)` of `main.cpp`; `fuel` bounds the recursion depth. -/
def MainCpp.destroyRB : Nat → State → Nat → Option State
  | 0, _, _ => none
  | fuel + 1, s, root =>
    if root = NIL then some s
    else
      match (if s.left root ≠ RBNode.nullptr then MainCpp.destroyRB fuel s (s.left root)
        else some s) with
      | none => none
      | some s =>
        match (if s.right root ≠ RBNode.nullptr then MainCpp.destroyRB fuel s (s.right root)
          else some s) with
        | none => none
        | some s => some (s.free root)

/-- The tear-down at the end of `demo` and of `analysis` in `main.cpp`:
`destroyRB(rbRoot); delete NIL;`. -/
def MainCpp.teardown (fuel : Nat) (s : State) : Option State :=
  match MainCpp.destroyRB fuel s s.root with
  | none => none
  | some s => some (s.free NIL)

namespace RBTree

/-- The nodes of the tree in post-order. -/
def postorder : RBTree → List Nat
  | nil => []
  | node a _ _ _ l r => postorder l ++ postorder r ++ [a]

/-- The nodes of the tree in post-order, each followed by the sentinel. -/
def postorderNil : RBTree → List Nat
  | nil => []
  | node a _ _ _ l r => postorderNil l ++ postorderNil r ++ [a, NIL]

end RBTree

/-! ## Fixup loops with a record of what they do -/

/-- What a fixup loop does, as recorded by the traced versions of the loops.
`grandparent z g`: an iteration of `insertRBFix` on the node `z` reads
`z->parent->parent == g`. `recolor z`: the iteration of `insertRBFix` on `z` took
the branch of the red uncle (recolouring only). `rotateLeft x y`: a call
`leftRotateRB(root, x)`, where `y` is `x->right` at the call. `rotateRight x y`: a
call `rightRotateRB(root, x)`, where `y` is `x->left` at the call.
`uncleBlackEnd z c`: an iteration of `insertRBFix` that took the branch of the black
uncle ends with the tracked node `z`; `c` is the colour of `z->parent` at that
moment. `sibling x w`: an iteration of `deleteRBFix` on `x` reads its sibling `w`. -/
inductive FixEvent where
  | grandparent (z g : Nat)
  | recolor (z : Nat)
  | rotateLeft (x y : Nat)
  | rotateRight (x y : Nat)
  | uncleBlackEnd (z : Nat) (c : Bool)
  | sibling (x w : Nat)
deriving DecidableEq, Repr

namespace FixEvent

/-- The event is a call of a rotation. -/
def isRotate : FixEvent → Bool
  | rotateLeft _ _ => true
  | rotateRight _ _ => true
  | _ => false

/-- The event belongs to an iteration of `insertRBFix` that only recolours. -/
def isRecolorStep : FixEvent → Bool
  | grandparent _ _ => true
  | recolor _ => true
  | _ => false

/-- The node the event dereferences is a real node: the grandparent, the sibling,
and for a rotation the node and the child that moves up. -/
def Real : FixEvent → Prop
  | grandparent _ g => g ≠ NIL
  | sibling _ w => w ≠ NIL
  | rotateLeft x y => x ≠ NIL ∧ y ≠ NIL
  | rotateRight x y => x ≠ NIL ∧ y ≠ NIL
  | _ => True

end FixEvent

/-- Put the events `evs` in front of the record of the remaining iterations. -/
def FixEvent.before (evs : List FixEvent) (r : Option (State × List FixEvent)) :
    Option (State × List FixEvent) :=
  r.map (fun p => (p.1, evs ++ p.2))

/-- `insertRBFix(root, z)` of `rb.cpp` with a record of its steps. -/
def insertRBFix.traced : Nat → State → Nat → Option (State × List FixEvent)
  | 0, _, _ => none
  | fuel + 1, s, z =>
    if s.color (s.parent z) = false then
      let g := s.parent (s.parent z)
      if s.parent z = s.left (s.parent (s.parent z)) then
        let y := s.right (s.parent (s.parent z))
        if s.color y = false then
          let s := s.setColor (s.parent z) true
          let s := s.setColor y true
          let s := s.setColor (s.parent (s.parent z)) false
          FixEvent.before [.grandparent z g, .recolor z]
            (insertRBFix.traced fuel s (s.parent (s.parent z)))
        else
          let zs : Nat × State × List FixEvent :=
            if z = s.right (s.parent z) then
              (s.parent z, leftRotateRB s (s.parent z),
                [.rotateLeft (s.parent z) (s.right (s.parent z))])
            else (z, s, [])
          let z0 := z
          let z := zs.1
          let s := zs.2.1
          let s := s.setColor (s.parent z) true
          let s := s.setColor (s.parent (s.parent z)) false
          let ev := FixEvent.rotateRight (s.parent (s.parent z)) (s.left (s.parent (s.parent z)))
          let s := rightRotateRB s (s.parent (s.parent z))
          FixEvent.before
            (.grandparent z0 g :: zs.2.2 ++ [ev, .uncleBlackEnd z (s.color (s.parent z))])
            (insertRBFix.traced fuel s z)
      else
        let y := s.left (s.parent (s.parent z))
        if s.color y = false then
          let s := s.setColor (s.parent z) true
          let s := s.setColor y true
          let s := s.setColor (s.parent (s.parent z)) false
          FixEvent.before [.grandparent z g, .recolor z]
            (insertRBFix.traced fuel s (s.parent (s.parent z)))
        else
          let zs : Nat × State × List FixEvent :=
            if z = s.left (s.parent z) then
              (s.parent z, rightRotateRB s (s.parent z),
                [.rotateRight (s.parent z) (s.left (s.parent z))])
            else (z, s, [])
          let z0 := z
          let z := zs.1
          let s := zs.2.1
          let s := s.setColor (s.parent z) true
          let s := s.setColor (s.parent (s.parent z)) false
          let ev := FixEvent.rotateLeft (s.parent (s.parent z)) (s.right (s.parent (s.parent z)))
          let s := leftRotateRB s (s.parent (s.parent z))
          FixEvent.before
            (.grandparent z0 g :: zs.2.2 ++ [ev, .uncleBlackEnd z (s.color (s.parent z))])
            (insertRBFix.traced fuel s z)
    else some (s.setColor s.root true, [])

/-- `insertRB(root, key)` of `rb.cpp` with the record of its call of `insertRBFix`. -/
def insertRB.traced (fuel : Nat) (s : State) (key : Int) : Option (State × List FixEvent) :=
  match insertRB.descend key fuel s NIL s.root with
  | none => none
  | some (s, y) =>
    let z := s.alloc.1
    let s := s.alloc.2
    let s := s.setKey z key
    let s := s.setLeft z NIL
    let s := s.setRight z NIL
    let s := s.setParent z y
    let s := s.setColor z false
    let s := s.setSize z 1
    let s :=
      if y = NIL then s.setRoot z
      else if s.key z < s.key y then s.setLeft y z
      else s.setRight y z
    insertRBFix.traced fuel s z

/-- The shape of a record of `insertRBFix`: iterations that only recolour (each
reads a real grandparent), then at most one iteration of the black-uncle branch,
which reads a real grandparent, issues one or two rotations on real nodes and ends
with the parent of the tracked node black; nothing follows it. -/
def InsertFixLog (log : List FixEvent) : Prop :=
  ∃ (steps : List FixEvent) (last : List FixEvent), log = steps ++ last ∧
    (∀ e ∈ steps, e.isRecolorStep = true ∧ e.Real) ∧
    (last = [] ∨
      ∃ (z g z1 : Nat) (rots : List FixEvent),
        last = FixEvent.grandparent z g :: rots ++ [FixEvent.uncleBlackEnd z1 true] ∧ g ≠ NIL ∧
          1 ≤ rots.length ∧ rots.length ≤ 2 ∧ ∀ e ∈ rots, e.isRotate = true ∧ e.Real)

/-- The last group of statements of the loop body of `deleteRBFix` in the branch
`x == x->parent->left`, with the record of its rotation, followed by the
remaining iterations `k`. -/
def deleteRBFix.tracedCase4L (k : State → Nat → Option (State × List FixEvent)) (s : State)
    (x w : Nat) : Option (State × List FixEvent) :=
  let s := s.setColor w (s.color (s.parent x))
  let s := s.setColor (s.parent x) true
  let s := s.setColor (s.right w) true
  let ev := FixEvent.rotateLeft (s.parent x) (s.right (s.parent x))
  let s := leftRotateRB s (s.parent x)
  FixEvent.before [ev] (k s s.root)

/-- The loop body of `deleteRBFix` in the branch `x == x->parent->left` from the
test on the colours of `w`'s children on, with the record of its steps, followed
by the remaining iterations `k`. -/
def deleteRBFix.tracedTailL (k : State → Nat → Option (State × List FixEvent)) (s : State)
    (x w : Nat) : Option (State × List FixEvent) :=
  if s.color (s.left w) = true ∧ s.color (s.right w) = true then
    let s := s.setColor w false
    k s (s.parent x)
  else
    let sw : State × Nat × List FixEvent :=
      if s.color (s.right w) = true then
        let s := s.setColor (s.left w) true
        let s := s.setColor w false
        let ev := FixEvent.rotateRight w (s.left w)
        let s := rightRotateRB s w
        (s, s.right (s.parent x), [ev, FixEvent.sibling x (s.right (s.parent x))])
      else (s, w, [])
    FixEvent.before sw.2.2 (deleteRBFix.tracedCase4L k sw.1 x sw.2.1)

/-- The last group of statements of the loop body of `deleteRBFix` in the branch
`x == x->parent->right`, with the record of its rotation, followed by the
remaining iterations `k`. -/
def deleteRBFix.tracedCase4R (k : State → Nat → Option (State × List FixEvent)) (s : State)
    (x w : Nat) : Option (State × List FixEvent) :=
  let s := s.setColor w (s.color (s.parent x))
  let s := s.setColor (s.parent x) true
  let s := s.setColor (s.left w) true
  let ev := FixEvent.rotateRight (s.parent x) (s.left (s.parent x))
  let s := rightRotateRB s (s.parent x)
  FixEvent.before [ev] (k s s.root)

/-- The loop body of `deleteRBFix` in the branch `x == x->parent->right` from the
test on the colours of `w`'s children on, with the record of its steps, followed
by the remaining iterations `k`. -/
def deleteRBFix.tracedTailR (k : State → Nat → Option (State × List FixEvent)) (s : State)
    (x w : Nat) : Option (State × List FixEvent) :=
  if s.color (s.left w) = true ∧ s.color (s.right w) = true then
    let s := s.setColor w false
    k s (s.parent x)
  else
    let sw : State × Nat × List FixEvent :=
      if s.color (s.left w) = true then
        let s := s.setColor (s.right w) true
        let s := s.setColor w false
        let ev := FixEvent.rotateLeft w (s.right w)
        let s := leftRotateRB s w
        (s, s.left (s.parent x), [ev, FixEvent.sibling x (s.left (s.parent x))])
      else (s, w, [])
    FixEvent.before sw.2.2 (deleteRBFix.tracedCase4R k sw.1 x sw.2.1)

/-- `deleteRBFix(root, x)` of `rb.cpp` with a record of its steps: every value the
sibling `w` takes and every rotation. -/
def deleteRBFix.traced : Nat → State → Nat → Option (State × List FixEvent)
  | 0, _, _ => none
  | fuel + 1, s, x =>
    if x ≠ s.root ∧ s.color x = true then
      if x = s.left (s.parent x) then
        let w := s.right (s.parent x)
        let sw : State × Nat × List FixEvent :=
          if s.color w = false then
            let s := s.setColor w true
            let s := s.setColor (s.parent x) false
            let ev := FixEvent.rotateLeft (s.parent x) (s.right (s.parent x))
            let s := leftRotateRB s (s.parent x)
            (s, s.right (s.parent x),
              [FixEvent.sibling x w, ev, FixEvent.sibling x (s.right (s.parent x))])
          else (s, w, [FixEvent.sibling x w])
        FixEvent.before sw.2.2
          (deleteRBFix.tracedTailL (deleteRBFix.traced fuel) sw.1 x sw.2.1)
      else
        let w := s.left (s.parent x)
        let sw : State × Nat × List FixEvent :=
          if s.color w = false then
            let s := s.setColor w true
            let s := s.setColor (s.parent x) false
            let ev := FixEvent.rotateRight (s.parent x) (s.left (s.parent x))
            let s := rightRotateRB s (s.parent x)
            (s, s.left (s.parent x),
              [FixEvent.sibling x w, ev, FixEvent.sibling x (s.left (s.parent x))])
          else (s, w, [FixEvent.sibling x w])
        FixEvent.before sw.2.2
          (deleteRBFix.tracedTailR (deleteRBFix.traced fuel) sw.1 x sw.2.1)
    else some (s.setColor x true, [])

/-- The tail of `deleteRB` after the splice, with the record of the fixup (empty
when the fixup is not called). -/
def deleteRB.tracedFinish (fuel : Nat) (s : State) (x : Nat) (original : Bool) :
    Option (State × List FixEvent) :=
  match deleteRB.repair fuel s (s.parent x) with
  | none => none
  | some s => if original = true then deleteRBFix.traced fuel s x else some (s, [])

/-- `deleteRB(root, key)` of `rb.cpp` with the record of its call of `deleteRBFix`. -/
def deleteRB.traced (fuel : Nat) (s : State) (key : Int) : Option (State × List FixEvent) :=
  if s.root = NIL then some (s, [])
  else
    match deleteRB.search key fuel s s.root with
    | none => none
    | some z =>
      if s.left z = NIL then
        let original := s.color z
        let x := s.right z
        let s := transplantRB s z (s.right z)
        let s := s.free z
        deleteRB.tracedFinish fuel s x original
      else if s.right z = NIL then
        let original := s.color z
        let x := s.left z
        let s := transplantRB s z (s.left z)
        let s := s.free z
        deleteRB.tracedFinish fuel s x original
      else
        match treeMinRB fuel s (s.right z) with
        | none => none
        | some y =>
          let original := s.color y
          let x := s.right y
          let s :=
            if s.parent y = z then s.setParent x y
            else
              let s := transplantRB s y (s.right y)
              let s := s.setRight y (s.right z)
              s.setParent (s.right y) y
          let s := transplantRB s z y
          let s := s.setLeft y (s.left z)
          let s := s.setParent (s.left y) y
          let s := s.setColor y (s.color z)
          let s := s.setSize y (s.size z)
          let s := s.free z
          deleteRB.tracedFinish fuel s x original

/-- The traced run returns, and every node its record dereferences is real. -/
def TracePost (res : Option (State × List FixEvent)) : Prop :=
  ∃ s' log, res = some (s', log) ∧ ∀ e ∈ log, e.Real

/-! ## The instrumented functions of `main.cpp`

`main.cpp` repeats the functions of `rb.cpp` with calls
`p.countOperation(series, problem_size, n)` between the statements. The profiler is
kept abstract: its state has any type `P`, and `cnt kind n` is the effect of
`p.countOperation(kind, problem_size, n)` on it. -/

/-- The series an operation is charged to: `comp` or `assign`. -/
inductive OpKind where
  | comp
  | assign
deriving DecidableEq, Repr

namespace MainCpp

/-- `leftRotateRB(root, x)` of `main.cpp`. -/
def leftRotateRB {P : Type} (cnt : OpKind → Nat → P → P) (s : State) (p : P) (x : Nat) :
    State × P :=
  let y := s.right x
  let p := cnt .assign 1 p
  let s := s.setRight x (s.left y)
  let p := cnt .comp 1 p
  let sp : State × P :=
    if s.left y ≠ NIL then (s.setParent (s.left y) x, cnt .assign 1 p) else (s, p)
  let s := sp.1
  let p := sp.2
  let p := cnt .assign 1 p
  let s := s.setParent y (s.parent x)
  let p := cnt .comp 1 p
  let sp : State × P :=
    if s.parent x = NIL then (s.setRoot y, cnt .assign 1 p)
    else
      let p := cnt .comp 1 p
      if x = s.left (s.parent x) then (s.setLeft (s.parent x) y, cnt .assign 1 p)
      else (s.setRight (s.parent x) y, cnt .assign 1 p)
  let s := sp.1
  let p := sp.2
  let p := cnt .assign 4 p
  let s := s.setLeft y x
  let s := s.setParent x y
  let s := s.setSize y (s.size x)
  (s.setSize x (s.size (s.left x) + s.size (s.right x) + 1), p)

/-- `rightRotateRB(root, x)` of `main.cpp`. -/
def rightRotateRB {P : Type} (cnt : OpKind → Nat → P → P) (s : State) (p : P) (x : Nat) :
    State × P :=
  let y := s.left x
  let p := cnt .assign 1 p
  let s := s.setLeft x (s.right y)
  let p := cnt .comp 1 p
  let sp : State × P :=
    if s.right y ≠ NIL then (s.setParent (s.right y) x, cnt .assign 1 p) else (s, p)
  let s := sp.1
  let p := sp.2
  let p := cnt .assign 1 p
  let s := s.setParent y (s.parent x)
  let p := cnt .comp 1 p
  let sp : State × P :=
    if s.parent x = NIL then (s.setRoot y, cnt .assign 1 p)
    else
      let p := cnt .comp 1 p
      if x = s.left (s.parent x) then (s.setLeft (s.parent x) y, cnt .assign 1 p)
      else (s.setRight (s.parent x) y, cnt .assign 1 p)
  let s := sp.1
  let p := sp.2
  let p := cnt .assign 4 p
  let s := s.setRight y x
  let s := s.setParent x y
  let s := s.setSize y (s.size x)
  (s.setSize x (s.size (s.left x) + s.size (s.right x) + 1), p)

/-- The loop `while(z->parent->color == 0)` of `insertRBFix` in `main.cpp`, from a
test of its condition on; returns the state, the profiler and `z`. -/
def insertRBFix.loop {P : Type} (cnt : OpKind → Nat → P → P) :
    Nat → State → P → Nat → Option (State × P)
  | 0, _, _, _ => none
  | fuel + 1, s, p, z =>
    if s.color (s.parent z) = false then
      let p := cnt .comp 1 p
      let p := cnt .comp 1 p
      if s.parent z = s.left (s.parent (s.parent z)) then
        let y := s.right (s.parent (s.parent z))
        let p := cnt .comp 1 p
        if s.color y = false then
          let p := cnt .assign 4 p
          let s := s.setColor (s.parent z) true
          let s := s.setColor y true
          let s := s.setColor (s.parent (s.parent z)) false
          insertRBFix.loop cnt fuel s p (s.parent (s.parent z))
        else
          let p := cnt .comp 1 p
          let zsp : Nat × State × P :=
            if z = s.right (s.parent z) then
              let p := cnt .assign 1 p
              (s.parent z, leftRotateRB cnt s p (s.parent z))
            else (z, s, p)
          let z := zsp.1
          let s := zsp.2.1
          let p := zsp.2.2
          let p := cnt .assign 2 p
          let s := s.setColor (s.parent z) true
          let s := s.setColor (s.parent (s.parent z)) false
          let sp := rightRotateRB cnt s p (s.parent (s.parent z))
          insertRBFix.loop cnt fuel sp.1 sp.2 z
      else
        let y := s.left (s.parent (s.parent z))
        let p := cnt .comp 1 p
        if s.color y = false then
          let p := cnt .assign 4 p
          let s := s.setColor (s.parent z) true
          let s := s.setColor y true
          let s := s.setColor (s.parent (s.parent z)) false
          insertRBFix.loop cnt fuel s p (s.parent (s.parent z))
        else
          let p := cnt .comp 1 p
          let zsp : Nat × State × P :=
            if z = s.left (s.parent z) then
              let p := cnt .assign 1 p
              (s.parent z, rightRotateRB cnt s p (s.parent z))
            else (z, s, p)
          let z := zsp.1
          let s := zsp.2.1
          let p := zsp.2.2
          let p := cnt .assign 2 p
          let s := s.setColor (s.parent z) true
          let s := s.setColor (s.parent (s.parent z)) false
          let sp := leftRotateRB cnt s p (s.parent (s.parent z))
          insertRBFix.loop cnt fuel sp.1 sp.2 z
    else some (s, p)

/-- `insertRBFix(root, z)` of `main.cpp`. -/
def insertRBFix {P : Type} (cnt : OpKind → Nat → P → P) (fuel : Nat) (s : State) (p : P)
    (z : Nat) : Option (State × P) :=
  let p := cnt .comp 1 p
  match insertRBFix.loop cnt fuel s p z with
  | none => none
  | some (s, p) =>
    let p := cnt .assign 1 p
    some (s.setColor s.root true, p)

/-- The loop `while(x != NIL)` of `insertRB` in `main.cpp`, from a test of its
condition on; returns the state, the profiler and `y`. -/
def insertRB.descend {P : Type} (cnt : OpKind → Nat → P → P) (key : Int) :
    Nat → State → P → Nat → Nat → Option (State × P × Nat)
  | 0, _, _, _, _ => none
  | fuel + 1, s, p, y, x =>
    if x ≠ NIL then
      let p := cnt .comp 1 p
      let y := x
      let p := cnt .assign 1 p
      let s := s.setSize y (s.size y + 1)
      let p := cnt .comp 1 p
      let p := cnt .assign 1 p
      if key < s.key x then insertRB.descend cnt key fuel s p y (s.left x)
      else insertRB.descend cnt key fuel s p y (s.right x)
    else some (s, p, y)

/-- `insertRB(root, key)` of `main.cpp`. -/
def insertRB {P : Type} (cnt : OpKind → Nat → P → P) (fuel : Nat) (s : State) (p : P)
    (key : Int) : Option (State × P) :=
  let p := cnt .comp 1 p
  match insertRB.descend cnt key fuel s p NIL s.root with
  | none => none
  | some (s, p, y) =>
    let z := s.alloc.1
    let s := s.alloc.2
    let p := cnt .assign 2 p
    let s := s.setKey z key
    let s := s.setLeft z NIL
    let s := s.setRight z NIL
    let s := s.setParent z y
    let s := s.setColor z false
    let s := s.setSize z 1
    let p := cnt .comp 1 p
    let sp : State × P :=
      if y = NIL then (s.setRoot z, cnt .assign 1 p)
      else
        let p := cnt .comp 1 p
        let p := cnt .assign 1 p
        if s.key z < s.key y then (s.setLeft y z, p)
        else (s.setRight y z, p)
    insertRBFix cnt fuel sp.1 sp.2 z

/-- `transplantRB(root, u, v)` of `main.cpp`. -/
def transplantRB {P : Type} (cnt : OpKind → Nat → P → P) (s : State) (p : P) (u v : Nat) :
    State × P :=
  let p := cnt .comp 1 p
  let sp : State × P :=
    if s.parent u = NIL then (s.setRoot v, cnt .assign 1 p)
    else
      let p := cnt .comp 1 p
      let p := cnt .assign 1 p
      if u = s.left (s.parent u) then (s.setLeft (s.parent u) v, p)
      else (s.setRight (s.parent u) v, p)
  let s := sp.1
  let p := sp.2
  let p := cnt .assign 1 p
  (s.setParent v (s.parent u), p)

/-- `treeMinRB(root)` of `main.cpp`; returns the node and the profiler. -/
def treeMinRB {P : Type} (cnt : OpKind → Nat → P → P) : Nat → State → P → Nat → Option (Nat × P)
  | 0, _, _, _ => none
  | fuel + 1, s, p, root =>
    let p := cnt .comp 1 p
    if s.left root ≠ NIL then treeMinRB cnt fuel s p (s.left root)
    else some (root, p)

/-- The loop `while(x != *root && x->color == 1)` of `deleteRBFix` in `main.cpp`,
from a test of its condition on; returns the state, the profiler and `x`. -/
def deleteRBFix.loop {P : Type} (cnt : OpKind → Nat → P → P) :
    Nat → State → P → Nat → Option (State × P × Nat)
  | 0, _, _, _ => none
  | fuel + 1, s, p, x =>
    if x ≠ s.root ∧ s.color x = true then
      let p := cnt .comp 2 p
      let p := cnt .comp 1 p
      if x = s.left (s.parent x) then
        let w := s.right (s.parent x)
        let p := cnt .comp 1 p
        let spw : State × P × Nat :=
          if s.color w = false then
            let p := cnt .assign 3 p
            let s := s.setColor w true
            let s := s.setColor (s.parent x) false
            let sp := leftRotateRB cnt s p (s.parent x)
            (sp.1, sp.2, sp.1.right (sp.1.parent x))
          else (s, p, w)
        let s := spw.1
        let p := spw.2.1
        let w := spw.2.2
        let p := cnt .comp 1 p
        let p := if s.color (s.left w) = true then cnt .comp 1 p else p
        if s.color (s.left w) = true ∧ s.color (s.right w) = true then
          let p := cnt .assign 2 p
          let s := s.setColor w false
          deleteRBFix.loop cnt fuel s p (s.parent x)
        else
          let p := cnt .comp 1 p
          let spw : State × P × Nat :=
            if s.color (s.right w) = true then
              let p := cnt .assign 3 p
              let s := s.setColor (s.left w) true
              let s := s.setColor w false
              let sp := rightRotateRB cnt s p w
              (sp.1, sp.2, sp.1.right (sp.1.parent x))
            else (s, p, w)
          let s := spw.1
          let p := spw.2.1
          let w := spw.2.2
          let p := cnt .assign 4 p
          let s := s.setColor w (s.color (s.parent x))
          let s := s.setColor (s.parent x) true
          let s := s.setColor (s.right w) true
          let sp := leftRotateRB cnt s p (s.parent x)
          deleteRBFix.loop cnt fuel sp.1 sp.2 sp.1.root
      else
        let w := s.left (s.parent x)
        let p := cnt .comp 1 p
        let spw : State × P × Nat :=
          if s.color w = false then
            let p := cnt .assign 3 p
            let s := s.setColor w true
            let s := s.setColor (s.parent x) false
            let sp := rightRotateRB cnt s p (s.parent x)
            (sp.1, sp.2, sp.1.left (sp.1.parent x))
          else (s, p, w)
        let s := spw.1
        let p := spw.2.1
        let w := spw.2.2
        let p := cnt .comp 1 p
        let p := if s.color (s.left w) = true then cnt .comp 1 p else p
        if s.color (s.left w) = true ∧ s.color (s.right w) = true then
          let p := cnt .assign 2 p
          let s := s.setColor w false
          deleteRBFix.loop cnt fuel s p (s.parent x)
        else
          let p := cnt .comp 1 p
          let spw : State × P × Nat :=
            if s.color (s.left w) = true then
              let p := cnt .assign 3 p
              let s := s.setColor (s.right w) true
              let s := s.setColor w false
              let sp := leftRotateRB cnt s p w
              (sp.1, sp.2, sp.1.left (sp.1.parent x))
            else (s, p, w)
          let s := spw.1
          let p := spw.2.1
          let w := spw.2.2
          let p := cnt .assign 4 p
          let s := s.setColor w (s.color (s.parent x))
          let s := s.setColor (s.parent x) true
          let s := s.setColor (s.left w) true
          let sp := rightRotateRB cnt s p (s.parent x)
          deleteRBFix.loop cnt fuel sp.1 sp.2 sp.1.root
    else some (s, p, x)

/-- `deleteRBFix(root, x)` of `main.cpp`. -/
def deleteRBFix {P : Type} (cnt : OpKind → Nat → P → P) (fuel : Nat) (s : State) (p : P)
    (x : Nat) : Option (State × P) :=
  let p := cnt .comp 2 p
  match deleteRBFix.loop cnt fuel s p x with
  | none => none
  | some (s, p, x) =>
    let p := cnt .assign 1 p
    some (s.setColor x true, p)

/-- The loop `while(z->key != key)` of `deleteRB` in `main.cpp`, from a test of its
condition on; returns `z` and the profiler. -/
def deleteRB.search {P : Type} (cnt : OpKind → Nat → P → P) (key : Int) :
    Nat → State → P → Nat → Option (Nat × P)
  | 0, _, _, _ => none
  | fuel + 1, s, p, z =>
    if s.key z ≠ key then
      let p := cnt .comp 1 p
      let p := cnt .comp 1 p
      let p := cnt .assign 1 p
      if key < s.key z then deleteRB.search cnt key fuel s p (s.left z)
      else deleteRB.search cnt key fuel s p (s.right z)
    else some (z, p)

/-- The loop `while(aux != NIL)` of `deleteRB` in `main.cpp`, from a test of its
condition on. -/
def deleteRB.repair {P : Type} (cnt : OpKind → Nat → P → P) :
    Nat → State → P → Nat → Option (State × P)
  | 0, _, _, _ => none
  | fuel + 1, s, p, aux =>
    if aux ≠ NIL then
      let p := cnt .comp 1 p
      let p := cnt .assign 2 p
      let s := s.setSize aux (s.size aux - 1)
      deleteRB.repair cnt fuel s p (s.parent aux)
    else some (s, p)

/-- The tail of `deleteRB` in `main.cpp` after the splice. -/
def deleteRB.finish {P : Type} (cnt : OpKind → Nat → P → P) (fuel : Nat) (s : State) (p : P)
    (x : Nat) (original : Bool) : Option (State × P) :=
  let p := cnt .comp 1 p
  match deleteRB.repair cnt fuel s p (s.parent x) with
  | none => none
  | some (s, p) =>
    let p := cnt .comp 1 p
    if original = true then deleteRBFix cnt fuel s p x else some (s, p)

/-- `deleteRB(root, key)` of `main.cpp`. -/
def deleteRB {P : Type} (cnt : OpKind → Nat → P → P) (fuel : Nat) (s : State) (p : P)
    (key : Int) : Option (State × P) :=
  if s.root = NIL then some (s, p)
  else
    let p := cnt .comp 1 p
    match deleteRB.search cnt key fuel s p s.root with
    | none => none
    | some (z, p) =>
      let p := cnt .assign 1 p
      let p := cnt .comp 1 p
      let p := if s.left z ≠ NIL then cnt .comp 1 p else p
      if s.left z = NIL then
        let original := s.color z
        let p := cnt .assign 1 p
        let x := s.right z
        let sp := transplantRB cnt s p z (s.right z)
        let s := sp.1.free z
        deleteRB.finish cnt fuel s sp.2 x original
      else if s.right z = NIL then
        let original := s.color z
        let p := cnt .assign 1 p
        let x := s.left z
        let sp := transplantRB cnt s p z (s.left z)
        let s := sp.1.free z
        deleteRB.finish cnt fuel s sp.2 x original
      else
        match treeMinRB cnt fuel s p (s.right z) with
        | none => none
        | some (y, p) =>
          let p := cnt .assign 2 p
          let original := s.color y
          let x := s.right y
          let p := cnt .comp 1 p
          let sp : State × P :=
            if s.parent y = z then (s.setParent x y, cnt .assign 1 p)
            else
              let p := cnt .assign 2 p
              let sp := transplantRB cnt s p y (s.right y)
              let s := sp.1.setRight y (sp.1.right z)
              (s.setParent (s.right y) y, sp.2)
          let p := cnt .assign 4 sp.2
          let sp := transplantRB cnt sp.1 p z y
          let s := sp.1
          let s := s.setLeft y (s.left z)
          let s := s.setParent (s.left y) y
          let s := s.setColor y (s.color z)
          let s := s.setSize y (s.size z)
          let s := s.free z
          deleteRB.finish cnt fuel s sp.2 x original

/-- The loop of `buildTreeRB` in `main.cpp`, counted on the remaining iterations. -/
def buildTreeRB.loop {P : Type} (cnt : OpKind → Nat → P → P) (fuel : Nat) (v : List Int)
    (n : Int) : Nat → Int → State → P → Option (State × P)
  | 0, _, s, p => some (s, p)
  | k + 1, i, s, p =>
    if i < n then
      match insertRB cnt fuel s p (arrayGet v i) with
      | none => none
      | some (s, p) => buildTreeRB.loop cnt fuel v n k (i + 1) s p
    else some (s, p)

/-- `buildTreeRB(v, n)` of `main.cpp`. -/
def buildTreeRB {P : Type} (cnt : OpKind → Nat → P → P) (fuel : Nat) (v : List Int) (n : Int)
    (p : P) : Option (State × P) :=
  buildTreeRB.loop cnt fuel v n n.toNat 0 buildTreeRB.init p

/-- `selectRB(root, i)` of `main.cpp`; returns the result and the profiler. -/
def selectRB {P : Type} (cnt : OpKind → Nat → P → P) :
    Nat → State → P → Nat → Int → Option (Int × P)
  | 0, _, _, _, _ => none
  | fuel + 1, s, p, root, i =>
    if root = NIL then some (-1, p)
    else
      let p := cnt .assign 1 p
      let p := cnt .comp 1 p
      let posp : Int × P :=
        if s.left root ≠ NIL then (1 + s.size (s.left root), cnt .assign 1 p) else (1, p)
      let pos := posp.1
      let p := posp.2
      let p := cnt .comp 1 p
      let p := if i ≠ pos then cnt .comp 1 p else p
      if i = pos then some (s.key root, p)
      else if i < pos then selectRB cnt fuel s p (s.left root) i
      else selectRB cnt fuel s p (s.right root) (i - pos)

end MainCpp

/-- A profiler that keeps the two totals `(comparisons, assignments)`. -/
def countTotals (k : OpKind) (n : Nat) (p : Nat × Nat) : Nat × Nat :=
  match k with
  | .comp => (p.1 + n, p.2)
  | .assign => (p.1, p.2 + n)

/-! ## Dynamic tree: the writes and the rotations of `insertRB` and `deleteRB` -/

namespace RBTree

/-- The nodes of the tree in order, each with its key. -/
def entries : RBTree → List (Nat × Int)
  | nil => []
  | node a _ k _ l r => entries l ++ (a, k) :: entries r

end RBTree

namespace RBPath

/-- Nodes before the focused subtree, in order. -/
def beforeE : RBPath → List (Nat × Int)
  | [] => []
  | RBFrame.L _ _ _ _ _ :: cs => beforeE cs
  | RBFrame.R a _ k _ l :: cs => beforeE cs ++ l.entries ++ [(a, k)]

/-- Nodes after the focused subtree, in order. -/
def afterE : RBPath → List (Nat × Int)
  | [] => []
  | RBFrame.L a _ k _ r :: cs => (a, k) :: r.entries ++ afterE cs
  | RBFrame.R _ _ _ _ _ :: cs => afterE cs

/-- The root of the tree around the focused subtree is black (no condition when the
focused subtree is the whole tree). -/
def RootBlack : RBPath → Prop
  | [] => True
  | [f] => f.color = true
  | _ :: g :: cs => RootBlack (g :: cs)

end RBPath

/-- What `insertRB` and `deleteRB` do to the heap, as recorded by the functions
`insertRB.steps` and `deleteRB.steps`. `colorWrite a c`: the statement
`a->color = c` (`false` is red). `sizeWrite a v`: a statement that stores `v` in
`a->size`. `rotated st`: a call of `leftRotateRB` or `rightRotateRB` has returned
and `st` is the heap at that moment. -/
inductive HeapStep where
  | colorWrite (a : Nat) (c : Bool)
  | sizeWrite (a : Nat) (v : Int)
  | rotated (st : State)

namespace HeapStep

/-- The address a step writes to, with `true` for a write of the colour red or of a
size (`none` for the return of a rotation). -/
def target : HeapStep → Option (Nat × Bool)
  | colorWrite a c => some (a, !c)
  | sizeWrite a _ => some (a, true)
  | rotated _ => none

/-- The step respects the sentinel and the sizes: a colour written to the sentinel
is black, no size is written to the sentinel, and the heap after a rotation
satisfies `P`. -/
def Ok (P : State → Prop) : HeapStep → Prop
  | colorWrite a c => a = NIL → c = true
  | sizeWrite a _ => a ≠ NIL
  | rotated st => P st

/-- Put the steps `evs` in front of the record of the remaining statements. -/
def before (evs : List HeapStep) (r : Option (State × List HeapStep)) :
    Option (State × List HeapStep) :=
  r.map (fun p => (p.1, evs ++ p.2))

end HeapStep

/-- The heap holds a tree with the keys `K` in order; if `c` holds (the sizes were
exact before the call), every node of that tree satisfies
`size == 1 + size(left) + size(right)`. -/
def HeapSizedIf (c : Prop) (K : List Int) (st : State) : Prop :=
  ∃ T, Shape st T ∧ (c → T.SizeInv) ∧ T.keys = K

/-- The heap holds a tree with the keys `K` in order in which every node satisfies
`size == 1 + size(left) + size(right)`, read on the heap with the size `0` of the
sentinel, and the size at the root is the number of keys. -/
def HeapExact (K : List Int) (st : State) : Prop :=
  ∃ T, Shape st T ∧ T.SizeInv ∧ T.keys = K ∧
    (∀ a ∈ T.addrs, st.size a = 1 + st.size (st.left a) + st.size (st.right a)) ∧
    st.size NIL = 0 ∧ st.size st.root = (K.length : Int)

/-- The steps of a call `leftRotateRB(root, x)` in the state `s`: the two writes of
sizes (`y->size = x->size` and `x->size = ...`, with the values they store) and the
return. -/
def leftRotateRB.steps (s : State) (x : Nat) : List HeapStep :=
  [HeapStep.sizeWrite (s.right x) (s.size x),
    HeapStep.sizeWrite x ((leftRotateRB s x).size x),
    HeapStep.rotated (leftRotateRB s x)]

/-- The steps of a call `rightRotateRB(root, x)` in the state `s`. -/
def rightRotateRB.steps (s : State) (x : Nat) : List HeapStep :=
  [HeapStep.sizeWrite (s.left x) (s.size x),
    HeapStep.sizeWrite x ((rightRotateRB s x).size x),
    HeapStep.rotated (rightRotateRB s x)]

/-- `insertRBFix(root, z)` of `rb.cpp` with the record of its writes of colours and
of its rotations. -/
def insertRBFix.steps : Nat → State → Nat → Option (State × List HeapStep)
  | 0, _, _ => none
  | fuel + 1, s, z =>
    if s.color (s.parent z) = false then
      if s.parent z = s.left (s.parent (s.parent z)) then
        let y := s.right (s.parent (s.parent z))
        if s.color y = false then
          let e1 := HeapStep.colorWrite (s.parent z) true
          let s := s.setColor (s.parent z) true
          let e2 := HeapStep.colorWrite y true
          let s := s.setColor y true
          let e3 := HeapStep.colorWrite (s.parent (s.parent z)) false
          let s := s.setColor (s.parent (s.parent z)) false
          HeapStep.before [e1, e2, e3] (insertRBFix.steps fuel s (s.parent (s.parent z)))
        else
          let zs : Nat × State × List HeapStep :=
            if z = s.right (s.parent z) then
              (s.parent z, leftRotateRB s (s.parent z), leftRotateRB.steps s (s.parent z))
            else (z, s, [])
          let z := zs.1
          let s := zs.2.1
          let e1 := HeapStep.colorWrite (s.parent z) true
          let s := s.setColor (s.parent z) true
          let e2 := HeapStep.colorWrite (s.parent (s.parent z)) false
          let s := s.setColor (s.parent (s.parent z)) false
          let e3 := rightRotateRB.steps s (s.parent (s.parent z))
          let s := rightRotateRB s (s.parent (s.parent z))
          HeapStep.before (zs.2.2 ++ e1 :: e2 :: e3) (insertRBFix.steps fuel s z)
      else
        let y := s.left (s.parent (s.parent z))
        if s.color y = false then
          let e1 := HeapStep.colorWrite (s.parent z) true
          let s := s.setColor (s.parent z) true
          let e2 := HeapStep.colorWrite y true
          let s := s.setColor y true
          let e3 := HeapStep.colorWrite (s.parent (s.parent z)) false
          let s := s.setColor (s.parent (s.parent z)) false
          HeapStep.before [e1, e2, e3] (insertRBFix.steps fuel s (s.parent (s.parent z)))
        else
          let zs : Nat × State × List HeapStep :=
            if z = s.left (s.parent z) then
              (s.parent z, rightRotateRB s (s.parent z), rightRotateRB.steps s (s.parent z))
            else (z, s, [])
          let z := zs.1
          let s := zs.2.1
          let e1 := HeapStep.colorWrite (s.parent z) true
          let s := s.setColor (s.parent z) true
          let e2 := HeapStep.colorWrite (s.parent (s.parent z)) false
          let s := s.setColor (s.parent (s.parent z)) false
          let e3 := leftRotateRB.steps s (s.parent (s.parent z))
          let s := leftRotateRB s (s.parent (s.parent z))
          HeapStep.before (zs.2.2 ++ e1 :: e2 :: e3) (insertRBFix.steps fuel s z)
    else some (s.setColor s.root true, [HeapStep.colorWrite s.root true])

/-- The descent loop of `insertRB` with the record of its writes `y->size++`. -/
def insertRB.descendSteps (key : Int) :
    Nat → State → Nat → Nat → Option (State × Nat × List HeapStep)
  | 0, _, _, _ => none
  | fuel + 1, s, y, x =>
    if x ≠ NIL then
      let y := x
      let e := HeapStep.sizeWrite y (s.size y + 1)
      let s := s.setSize y (s.size y + 1)
      match (if key < s.key x then insertRB.descendSteps key fuel s y (s.left x)
        else insertRB.descendSteps key fuel s y (s.right x)) with
      | none => none
      | some (s, y, log) => some (s, y, e :: log)
    else some (s, y, [])

/-- `insertRB(root, key)` of `rb.cpp` with the record of its writes of colours and
sizes and of the rotations of `insertRBFix`. -/
def insertRB.steps (fuel : Nat) (s : State) (key : Int) : Option (State × List HeapStep) :=
  match insertRB.descendSteps key fuel s NIL s.root with
  | none => none
  | some (s, y, log) =>
    let z := s.alloc.1
    let s := s.alloc.2
    let s := s.setKey z key
    let s := s.setLeft z NIL
    let s := s.setRight z NIL
    let s := s.setParent z y
    let s := s.setColor z false
    let s := s.setSize z 1
    let s :=
      if y = NIL then s.setRoot z
      else if s.key z < s.key y then s.setLeft y z
      else s.setRight y z
    HeapStep.before (log ++ [HeapStep.colorWrite z false, HeapStep.sizeWrite z 1])
      (insertRBFix.steps fuel s z)

/-- The last group of statements of the loop body of `deleteRBFix` in the branch
`x == x->parent->left`, with the record of its steps, followed by the remaining
iterations `k`. -/
def deleteRBFix.stepsCase4L (k : State → Nat → Option (State × List HeapStep)) (s : State)
    (x w : Nat) : Option (State × List HeapStep) :=
  let e1 := HeapStep.colorWrite w (s.color (s.parent x))
  let s := s.setColor w (s.color (s.parent x))
  let e2 := HeapStep.colorWrite (s.parent x) true
  let s := s.setColor (s.parent x) true
  let e3 := HeapStep.colorWrite (s.right w) true
  let s := s.setColor (s.right w) true
  let e4 := leftRotateRB.steps s (s.parent x)
  let s := leftRotateRB s (s.parent x)
  HeapStep.before (e1 :: e2 :: e3 :: e4) (k s s.root)

/-- The loop body of `deleteRBFix` in the branch `x == x->parent->left` from the
test on the colours of `w`'s children on, with the record of its steps, followed
by the remaining iterations `k`. -/
def deleteRBFix.stepsTailL (k : State → Nat → Option (State × List HeapStep)) (s : State)
    (x w : Nat) : Option (State × List HeapStep) :=
  if s.color (s.left w) = true ∧ s.color (s.right w) = true then
    let e := HeapStep.colorWrite w false
    let s := s.setColor w false
    HeapStep.before [e] (k s (s.parent x))
  else
    let sw : State × Nat × List HeapStep :=
      if s.color (s.right w) = true then
        let e1 := HeapStep.colorWrite (s.left w) true
        let s := s.setColor (s.left w) true
        let e2 := HeapStep.colorWrite w false
        let s := s.setColor w false
        let e3 := rightRotateRB.steps s w
        let s := rightRotateRB s w
        (s, s.right (s.parent x), e1 :: e2 :: e3)
      else (s, w, [])
    HeapStep.before sw.2.2 (deleteRBFix.stepsCase4L k sw.1 x sw.2.1)

/-- The last group of statements of the loop body of `deleteRBFix` in the branch
`x == x->parent->right`, with the record of its steps, followed by the remaining
iterations `k`. -/
def deleteRBFix.stepsCase4R (k : State → Nat → Option (State × List HeapStep)) (s : State)
    (x w : Nat) : Option (State × List HeapStep) :=
  let e1 := HeapStep.colorWrite w (s.color (s.parent x))
  let s := s.setColor w (s.color (s.parent x))
  let e2 := HeapStep.colorWrite (s.parent x) true
  let s := s.setColor (s.parent x) true
  let e3 := HeapStep.colorWrite (s.left w) true
  let s := s.setColor (s.left w) true
  let e4 := rightRotateRB.steps s (s.parent x)
  let s := rightRotateRB s (s.parent x)
  HeapStep.before (e1 :: e2 :: e3 :: e4) (k s s.root)

/-- The loop body of `deleteRBFix` in the branch `x == x->parent->right` from the
test on the colours of `w`'s children on, with the record of its steps, followed
by the remaining iterations `k`. -/
def deleteRBFix.stepsTailR (k : State → Nat → Option (State × List HeapStep)) (s : State)
    (x w : Nat) : Option (State × List HeapStep) :=
  if s.color (s.left w) = true ∧ s.color (s.right w) = true then
    let e := HeapStep.colorWrite w false
    let s := s.setColor w false
    HeapStep.before [e] (k s (s.parent x))
  else
    let sw : State × Nat × List HeapStep :=
      if s.color (s.left w) = true then
        let e1 := HeapStep.colorWrite (s.right w) true
        let s := s.setColor (s.right w) true
        let e2 := HeapStep.colorWrite w false
        let s := s.setColor w false
        let e3 := leftRotateRB.steps s w
        let s := leftRotateRB s w
        (s, s.left (s.parent x), e1 :: e2 :: e3)
      else (s, w, [])
    HeapStep.before sw.2.2 (deleteRBFix.stepsCase4R k sw.1 x sw.2.1)

/-- `deleteRBFix(root, x)` of `rb.cpp` with the record of its writes of colours and
of its rotations. -/
def deleteRBFix.steps : Nat → State → Nat → Option (State × List HeapStep)
  | 0, _, _ => none
  | fuel + 1, s, x =>
    if x ≠ s.root ∧ s.color x = true then
      if x = s.left (s.parent x) then
        let w := s.right (s.parent x)
        let sw : State × Nat × List HeapStep :=
          if s.color w = false then
            let e1 := HeapStep.colorWrite w true
            let s := s.setColor w true
            let e2 := HeapStep.colorWrite (s.parent x) false
            let s := s.setColor (s.parent x) false
            let e3 := leftRotateRB.steps s (s.parent x)
            let s := leftRotateRB s (s.parent x)
            (s, s.right (s.parent x), e1 :: e2 :: e3)
          else (s, w, [])
        HeapStep.before sw.2.2
          (deleteRBFix.stepsTailL (deleteRBFix.steps fuel) sw.1 x sw.2.1)
      else
        let w := s.left (s.parent x)
        let sw : State × Nat × List HeapStep :=
          if s.color w = false then
            let e1 := HeapStep.colorWrite w true
            let s := s.setColor w true
            let e2 := HeapStep.colorWrite (s.parent x) false
            let s := s.setColor (s.parent x) false
            let e3 := rightRotateRB.steps s (s.parent x)
            let s := rightRotateRB s (s.parent x)
            (s, s.left (s.parent x), e1 :: e2 :: e3)
          else (s, w, [])
        HeapStep.before sw.2.2
          (deleteRBFix.stepsTailR (deleteRBFix.steps fuel) sw.1 x sw.2.1)
    else some (s.setColor x true, [HeapStep.colorWrite x true])

/-- The size-repair loop of `deleteRB` with the record of its writes `aux->size--`. -/
def deleteRB.repairSteps : Nat → State → Nat → Option (State × List HeapStep)
  | 0, _, _ => none
  | fuel + 1, s, aux =>
    if aux ≠ NIL then
      let e := HeapStep.sizeWrite aux (s.size aux - 1)
      let s := s.setSize aux (s.size aux - 1)
      HeapStep.before [e] (deleteRB.repairSteps fuel s (s.parent aux))
    else some (s, [])

/-- The tail of `deleteRB` after the splice, with the record of its steps. -/
def deleteRB.stepsFinish (fuel : Nat) (s : State) (x : Nat) (original : Bool) :
    Option (State × List HeapStep) :=
  match deleteRB.repairSteps fuel s (s.parent x) with
  | none => none
  | some (s, log) =>
    if original = true then HeapStep.before log (deleteRBFix.steps fuel s x) else some (s, log)

/-- `deleteRB(root, key)` of `rb.cpp` with the record of its writes of colours and
sizes and of the rotations of `deleteRBFix`. -/
def deleteRB.steps (fuel : Nat) (s : State) (key : Int) : Option (State × List HeapStep) :=
  if s.root = NIL then some (s, [])
  else
    match deleteRB.search key fuel s s.root with
    | none => none
    | some z =>
      if s.left z = NIL then
        let original := s.color z
        let x := s.right z
        let s := transplantRB s z (s.right z)
        let s := s.free z
        deleteRB.stepsFinish fuel s x original
      else if s.right z = NIL then
        let original := s.color z
        let x := s.left z
        let s := transplantRB s z (s.left z)
        let s := s.free z
        deleteRB.stepsFinish fuel s x original
      else
        match treeMinRB fuel s (s.right z) with
        | none => none
        | some y =>
          let original := s.color y
          let x := s.right y
          let s :=
            if s.parent y = z then s.setParent x y
            else
              let s := transplantRB s y (s.right y)
              let s := s.setRight y (s.right z)
              s.setParent (s.right y) y
          let s := transplantRB s z y
          let s := s.setLeft y (s.left z)
          let s := s.setParent (s.left y) y
          let e1 := HeapStep.colorWrite y (s.color z)
          let s := s.setColor y (s.color z)
          let e2 := HeapStep.sizeWrite y (s.size z)
          let s := s.setSize y (s.size z)
          let s := s.free z
          HeapStep.before [e1, e2] (deleteRB.stepsFinish fuel s x original)

/-- The recorded run returns, the heap it returns satisfies `R`, and every recorded
step is `Ok`. -/
def StepsPost (P R : State → Prop) (res : Option (State × List HeapStep)) : Prop :=
  ∃ s' log, res = some (s', log) ∧ R s' ∧ ∀ e ∈ log, e.Ok P

/-! ## Static tree: lemmas -/

namespace BTNode

theorem tdiv_two_bounds (i j : Int) (h : i ≤ j) :
    i ≤ Int.tdiv (i + j) 2 ∧ Int.tdiv (i + j) 2 ≤ j := by
  rcases Int.le_total 0 (i + j) with h0 | h0
  · rw [Int.tdiv_eq_ediv h0 (by decide)]; omega
  · have : Int.tdiv (i + j) 2 = -((-(i + j)) / 2) := by
      rw [← Int.tdiv_eq_ediv (by omega) (by decide), Int.neg_tdiv, neg_neg]
    rw [this]; omega

theorem go_fuel_irrel (v : List Int) :
    ∀ (f1 f2 : Nat) (i j : Int), (j + 1 - i).toNat ≤ f1 → (j + 1 - i).toNat ≤ f2 →
      balancedBT.go v f1 i j = balancedBT.go v f2 i j := by
  intro f1
  induction f1 with
  | zero =>
    intro f2 i j h1 _
    have hij : ¬ i ≤ j := by omega
    cases f2 with
    | zero => rfl
    | succ f2 => simp [balancedBT.go, hij]
  | succ f1 ih =>
    intro f2 i j h1 h2
    by_cases hij : i ≤ j
    · cases f2 with
      | zero => omega
      | succ f2 =>
        have hb := tdiv_two_bounds i j hij
        simp only [balancedBT.go, hij, if_true]
        rw [ih f2 i (Int.tdiv (i + j) 2 - 1) (by omega) (by omega),
          ih f2 (Int.tdiv (i + j) 2 + 1) j (by omega) (by omega)]
    · cases f2 with
      | zero => simp [balancedBT.go, hij]
      | succ f2 => simp [balancedBT.go, hij]

/-- The recursion equation of `balancedBT`, as written in the source. -/
theorem balancedBT_unfold (v : List Int) (i j : Int) :
    balancedBT v i j =
      if i ≤ j then
        BTNode.node (arrayGet v (Int.tdiv (i + j) 2)) (j - i + 1)
          (balancedBT v i (Int.tdiv (i + j) 2 - 1))
          (balancedBT v (Int.tdiv (i + j) 2 + 1) j)
      else BTNode.nullptr := by
  unfold balancedBT
  by_cases hij : i ≤ j
  · have hb := tdiv_two_bounds i j hij
    obtain ⟨n, hn⟩ : ∃ n, (j + 1 - i).toNat = n + 1 := ⟨(j + 1 - i).toNat - 1, by omega⟩
    rw [hn]
    simp only [balancedBT.go, hij, if_true]
    rw [go_fuel_irrel v n _ i (Int.tdiv (i + j) 2 - 1) (by omega) (le_refl _),
      go_fuel_irrel v n _ (Int.tdiv (i + j) 2 + 1) j (by omega) (le_refl _)]
  · have h0 : (j + 1 - i).toNat = 0 := by omega
    simp [h0, balancedBT.go, hij]

theorem balancedBT_null (v : List Int) (i j : Int) (h : j < i) :
    balancedBT v i j = BTNode.nullptr := by
  rw [balancedBT_unfold]; simp [not_le.mpr h]

/-- Induction principle following the recursion of `balancedBT`. -/
theorem range_induction (P : Int → Int → Prop)
    (hnull : ∀ i j, j < i → P i j)
    (hnode : ∀ i j, i ≤ j → P i (Int.tdiv (i + j) 2 - 1) → P (Int.tdiv (i + j) 2 + 1) j → P i j) :
    ∀ i j, P i j := by
  have key : ∀ (n : Nat) (i j : Int), (j + 1 - i).toNat ≤ n → P i j := by
    intro n
    induction n with
    | zero => intro i j h; exact hnull i j (by omega)
    | succ n ih =>
      intro i j h
      by_cases hij : i ≤ j
      · have hb := tdiv_two_bounds i j hij
        exact hnode i j hij (ih _ _ (by omega)) (ih _ _ (by omega))
      · exact hnull i j (by omega)
  intro i j
  exact key _ i j (le_refl _)

theorem size0_eq_keys_length : ∀ t : BTNode, SizeInv t → t.size0 = (t.keys.length : Int)
  | nullptr, _ => rfl
  | node k s l r, h => by
    obtain ⟨hs, hl, hr⟩ := h
    have := size0_eq_keys_length l hl
    have := size0_eq_keys_length r hr
    simp only [size0, keys, List.length_append, List.length_cons]
    push_cast
    omega

theorem keys_eq_nil : ∀ t : BTNode, t.keys = [] ↔ t = nullptr
  | nullptr => by simp [keys]
  | node k s l r => by simp [keys]

theorem balancedBT_sizeInv (v : List Int) :
    ∀ i j, SizeInv (balancedBT v i j) ∧ (balancedBT v i j).size0 = max 0 (j - i + 1) := by
  apply range_induction
  · intro i j h
    rw [balancedBT_null v i j h]
    refine ⟨trivial, ?_⟩
    simp only [size0]
    omega
  · intro i j hij ihl ihr
    have hb := tdiv_two_bounds i j hij
    rw [balancedBT_unfold, if_pos hij]
    refine ⟨⟨?_, ihl.1, ihr.1⟩, ?_⟩
    · rw [ihl.2, ihr.2]; omega
    · simp only [size0]; omega

/-- The integers `i, i+1, ..., i+n-1`. -/
theorem map_arrayGet_range (v : List Int) :
    (List.range v.length).map (fun (d : Nat) => arrayGet v (d : Int)) = v := by
  apply List.ext_getElem
  · simp
  · intro n h1 h2
    simp only [List.length_map, List.length_range] at h1
    have hn : ¬ ((n : Int) < 0) := by omega
    simp [arrayGet, hn, List.getElem?_eq_getElem h1]

theorem balancedBT_keys (v : List Int) :
    ∀ i j, (balancedBT v i j).keys =
      (List.range (j + 1 - i).toNat).map (fun (d : Nat) => arrayGet v (i + (d : Int))) := by
  apply range_induction
  · intro i j h
    rw [balancedBT_null v i j h]
    have h0 : (j + 1 - i).toNat = 0 := by omega
    simp [h0, keys]
  · intro i j hij ihl ihr
    have hb := tdiv_two_bounds i j hij
    rw [balancedBT_unfold, if_pos hij]
    simp only [keys, ihl, ihr]
    generalize hp : Int.tdiv (i + j) 2 = p at *
    obtain ⟨a, ha⟩ : ∃ a : Nat, p = i + a := ⟨(p - i).toNat, by omega⟩
    obtain ⟨b, hb'⟩ : ∃ b : Nat, j = p + b := ⟨(j - p).toNat, by omega⟩
    subst ha; subst hb'
    have e1 : (i + (a : Int) - 1 + 1 - i).toNat = a := by omega
    have e2 : (i + (a : Int) + (b : Int) + 1 - (i + (a : Int) + 1)).toNat = b := by omega
    have e3 : (i + (a : Int) + (b : Int) + 1 - i).toNat = a + (1 + b) := by omega
    rw [e1, e2, e3, List.range_add, List.map_append, List.map_map]
    congr 1
    rw [List.range_add, List.map_append, List.map_map]
    rw [show List.range 1 = [0] from rfl]
    simp only [List.map_cons, List.map_nil, List.singleton_append, Function.comp]
    congr 1
    · simp
      intro d _
      congr 1
      omega

theorem selectBT_nth : ∀ (t : BTNode), SizeInv t → ∀ (k : Nat), k < t.keys.length →
    selectBT t ((k : Int) + 1) = t.keys.getD k 0
  | nullptr, _, k, hk => by simp [keys] at hk
  | node key s l r, h, k, hk => by
    obtain ⟨_, hl, hr⟩ := h
    have el := size0_eq_keys_length l hl
    have hpos : (if l ≠ nullptr then 1 + l.size0 else 1) = (l.keys.length : Int) + 1 := by
      by_cases hn : l = nullptr
      · subst hn; simp [keys]
      · simp [hn, el]; omega
    simp only [selectBT, hpos]
    rcases Nat.lt_trichotomy k l.keys.length with hlt | heq | hgt
    · have h1 : ¬ ((k : Int) + 1 = (l.keys.length : Int) + 1) := by omega
      have h2 : (k : Int) + 1 < (l.keys.length : Int) + 1 := by omega
      rw [if_neg h1, if_pos h2, selectBT_nth l hl k hlt]
      simp only [keys]
      rw [List.getD_append _ _ _ _ hlt]
    · subst heq
      simp only [keys, if_true]
      rw [List.getD_append_right _ _ _ _ (le_refl _)]
      simp
    · have h1 : ¬ ((k : Int) + 1 = (l.keys.length : Int) + 1) := by omega
      have h2 : ¬ ((k : Int) + 1 < (l.keys.length : Int) + 1) := by omega
      rw [if_neg h1, if_neg h2]
      obtain ⟨m, hm⟩ : ∃ m, k = l.keys.length + 1 + m := ⟨k - l.keys.length - 1, by omega⟩
      subst hm
      have hm' : m < r.keys.length := by
        simp only [keys, List.length_append, List.length_cons] at hk; omega
      have e : ((l.keys.length + 1 + m : Nat) : Int) + 1 - ((l.keys.length : Int) + 1) =
          (m : Int) + 1 := by push_cast; omega
      rw [e, selectBT_nth r hr m hm']
      simp only [keys]
      rw [List.getD_append_right _ _ _ _ (by omega)]
      have : l.keys.length + 1 + m - l.keys.length = m + 1 := by omega
      rw [this]
      simp

theorem selectAllBT_eq (t : BTNode) (h : SizeInv t) :
    selectAllBT t t.keys.length = t.keys := by
  unfold selectAllBT
  apply List.ext_getElem
  · simp
  · intro n h1 h2
    simp only [List.length_map, List.length_range] at h1
    simp only [List.getElem_map, List.getElem_range]
    rw [selectBT_nth t h n h1, List.getD_eq_getElem _ _ h1]

theorem selectBT_out_of_range : ∀ (t : BTNode), SizeInv t → ∀ (i : Int),
    (i < 1 ∨ t.size0 < i) → selectBT t i = -1
  | nullptr, _, _, _ => rfl
  | node key s l r, h, i, hi => by
    obtain ⟨hs, hl, hr⟩ := h
    have el := size0_eq_keys_length l hl
    have er := size0_eq_keys_length r hr
    have hpos : (if l ≠ nullptr then 1 + l.size0 else 1) = l.size0 + 1 := by
      by_cases hn : l = nullptr
      · subst hn; simp [size0]
      · simp [hn]; omega
    simp only [selectBT, hpos]
    simp only [size0] at hi
    rcases hi with hi | hi
    · rw [if_neg (by omega), if_pos (by omega)]
      exact selectBT_out_of_range l hl i (Or.inl hi)
    · rw [if_neg (by omega), if_neg (by omega)]
      exact selectBT_out_of_range r hr _ (Or.inr (by omega))

end BTNode

namespace BTNode

theorem bst_iff_sorted_lt : ∀ t : BTNode, BST t ↔ t.keys.Sorted (· < ·)
  | nullptr => by simp [BST, keys]
  | node k s l r => by
    simp only [BST, keys, List.Sorted, List.pairwise_append, List.pairwise_cons,
      List.mem_cons, bst_iff_sorted_lt l, bst_iff_sorted_lt r]
    constructor
    · rintro ⟨h1, h2, h3, h4⟩
      refine ⟨h3, ⟨h2, h4⟩, ?_⟩
      intro a ha b hb
      rcases hb with rfl | hb
      · exact h1 a ha
      · exact lt_trans (h1 a ha) (h2 b hb)
    · rintro ⟨h3, ⟨h2, h4⟩, h5⟩
      exact ⟨fun x hx => h5 x hx k (Or.inl rfl), h2, h3, h4⟩

theorem treeMinBT_keys : ∀ t : BTNode, t ≠ nullptr →
    ∃ tl, t.keys = (treeMinBT t).key :: tl
  | nullptr, h => absurd rfl h
  | node k s l r, _ => by
    cases l with
    | nullptr => exact ⟨r.keys, by simp [treeMinBT, keys, key]⟩
    | node k' s' l' r' =>
      obtain ⟨tl, htl⟩ := treeMinBT_keys (node k' s' l' r') (by simp)
      refine ⟨tl ++ k :: r.keys, ?_⟩
      have e : treeMinBT (node k s (node k' s' l' r') r) = treeMinBT (node k' s' l' r') := by
        simp only [treeMinBT]
      rw [e, keys, htl]
      simp

theorem keys_decSize (t : BTNode) : t.decSize.keys = t.keys := by
  cases t <;> rfl

theorem keys_incSize (t : BTNode) : t.incSize.keys = t.keys := by
  cases t <;> rfl

theorem decSize_incSize (t : BTNode) : t.incSize.decSize = t := by
  cases t <;> simp [incSize, decSize]

theorem deleteBT_spec : ∀ (t : BTNode) (key : Int), BST t → SizeInv t → key ∈ t.keys →
    (deleteBT t key).keys = t.keys.erase key ∧ SizeInv (deleteBT t key) ∧
      (deleteBT t key).size0 = t.size0 - 1
  | nullptr, key, _, _, hk => by simp [keys] at hk
  | node k s l r, key, hb, hs, hk => by
    obtain ⟨hlk, hrk, hbl, hbr⟩ := hb
    obtain ⟨hsz, hsl, hsr⟩ := hs
    simp only [keys, List.mem_append, List.mem_cons] at hk
    simp only [deleteBT]
    by_cases h1 : key < k
    · have hkl : key ∈ l.keys := by
        rcases hk with hk | rfl | hk
        · exact hk
        · exact absurd h1 (lt_irrefl _)
        · exact absurd (lt_trans h1 (hrk _ hk)) (lt_irrefl _)
      obtain ⟨e1, e2, e3⟩ := deleteBT_spec l key hbl hsl hkl
      rw [if_pos h1]
      refine ⟨?_, ⟨?_, e2, hsr⟩, ?_⟩
      · simp only [decSize, keys, e1]
        rw [List.erase_append_left _ hkl]
      · rw [e3]; omega
      · simp [size0, decSize]
    · rw [if_neg h1]
      by_cases h2 : key > k
      · have hkr : key ∈ r.keys := by
          rcases hk with hk | rfl | hk
          · exact absurd (hlk _ hk) h1
          · exact absurd h2 (lt_irrefl _)
          · exact hk
        have hnl : key ∉ l.keys := fun h => h1 (hlk _ h)
        obtain ⟨e1, e2, e3⟩ := deleteBT_spec r key hbr hsr hkr
        rw [if_pos h2]
        refine ⟨?_, ⟨?_, hsl, e2⟩, ?_⟩
        · simp only [decSize, keys, e1]
          rw [List.erase_append_right _ hnl, List.erase_cons_tail]
          simpa using (ne_of_lt h2)
        · rw [e3]; omega
        · simp [size0, decSize]
      · rw [if_neg h2]
        have hkk : key = k := le_antisymm (not_lt.mp h2) (not_lt.mp h1)
        subst hkk
        have hnl : key ∉ l.keys := fun h => lt_irrefl _ (hlk _ h)
        have herase : (l.keys ++ key :: r.keys).erase key = l.keys ++ r.keys := by
          rw [List.erase_append_right _ hnl, List.erase_cons_head]
        by_cases h3 : l ≠ nullptr ∧ r ≠ nullptr
        · rw [if_pos h3]
          obtain ⟨tl, htl⟩ := treeMinBT_keys r h3.2
          have hmem : (treeMinBT r).key ∈ r.keys := by rw [htl]; simp
          obtain ⟨e1, e2, e3⟩ := deleteBT_spec r _ hbr hsr hmem
          refine ⟨?_, ⟨?_, hsl, e2⟩, ?_⟩
          · simp only [decSize, keys, e1, herase]
            rw [htl, List.erase_cons_head]
          · rw [e3]; omega
          · simp [size0, decSize]
        · rw [if_neg h3, decSize_incSize]
          by_cases hl : l = nullptr
          · subst hl
            simp only [ne_eq, not_true_eq_false, if_false]
            refine ⟨?_, hsr, ?_⟩
            · show _ = (_ ++ _ :: _).erase _
              rw [herase]; simp [keys]
            · simp only [size0] at hsz ⊢; omega
          · have hr : r = nullptr := by
              by_contra hr; exact h3 ⟨hl, hr⟩
            subst hr
            simp only [ne_eq, hl, not_false_eq_true, if_true]
            refine ⟨?_, hsl, ?_⟩
            · show _ = (_ ++ _ :: _).erase _
              rw [herase]; simp [keys]
            · simp only [size0] at hsz ⊢; omega

theorem sorted_erase {l : List Int} (h : l.Sorted (· < ·)) (a : Int) :
    (l.erase a).Sorted (· < ·) :=
  List.Pairwise.sublist (List.erase_sublist a l) h

theorem not_mem_erase_of_sorted {l : List Int} (h : l.Sorted (· < ·)) (a : Int) :
    a ∉ l.erase a := by
  have hn : l.Nodup := h.nodup
  exact fun hm => (List.Nodup.mem_erase_iff hn).mp hm |>.1 rfl

theorem balancedBT_keys_full (v : List Int) :
    (balancedBT v 0 ((v.length : Int) - 1)).keys = v := by
  rw [balancedBT_keys]
  have e : ((v.length : Int) - 1 + 1 - 0).toNat = v.length := by omega
  rw [e]
  simpa using map_arrayGet_range v

end BTNode

/-! ## Static tree: deletion of absent keys, balance, height, size bookkeeping -/

namespace BTNode

/-- `deleteBT` of a key that is not stored walks the search path and decrements
the size of every node on it. -/
theorem deleteBT_absent : ∀ (t : BTNode) (key : Int), key ∉ t.keys →
    deleteBT t key = decSearchPath key t
  | nullptr, _, _ => rfl
  | node k s l r, key, h => by
    simp only [keys, List.mem_append, List.mem_cons, not_or] at h
    obtain ⟨h1, h2, h3⟩ := h
    simp only [deleteBT, decSearchPath]
    by_cases hlt : key < k
    · rw [if_pos hlt, if_pos hlt, deleteBT_absent l key h1]
      rfl
    · have hgt : key > k := by omega
      rw [if_neg hlt, if_neg hlt, if_pos hgt, if_pos hgt, deleteBT_absent r key h3]
      rfl

theorem decSearchPath_keys (key : Int) : ∀ t : BTNode, (decSearchPath key t).keys = t.keys
  | nullptr => rfl
  | node k s l r => by
    simp only [decSearchPath]
    split_ifs
    · simp only [keys, decSearchPath_keys key l]
    · simp only [keys, decSearchPath_keys key r]
    · rfl

theorem decSearchPath_size0 (key : Int) (k s : Int) (l r : BTNode)
    (h : key ∉ (node k s l r).keys) : (decSearchPath key (node k s l r)).size0 = s - 1 := by
  simp only [keys, List.mem_append, List.mem_cons, not_or] at h
  simp only [decSearchPath]
  split_ifs with h1 h2
  · rfl
  · rfl
  · omega

/-- After `deleteBT` of an absent key the size invariant is broken. -/
theorem decSearchPath_not_sizeInv (key : Int) : ∀ t : BTNode, t ≠ nullptr → SizeInv t →
    key ∉ t.keys → ¬ SizeInv (decSearchPath key t)
  | nullptr, h, _, _ => absurd rfl h
  | node k s l r, _, hs, hk => by
    obtain ⟨e, hl, hr⟩ := hs
    simp only [keys, List.mem_append, List.mem_cons, not_or] at hk
    simp only [decSearchPath]
    split_ifs with h1 h2
    · cases l with
      | nullptr =>
        intro hc
        have := hc.1
        simp only [decSearchPath, size0] at this e
        omega
      | node k' s' l' r' =>
        exact fun hc => decSearchPath_not_sizeInv key (node k' s' l' r') (by simp) hl hk.1 hc.2.1
    · cases r with
      | nullptr =>
        intro hc
        have := hc.1
        simp only [decSearchPath, size0] at this e
        omega
      | node k' s' l' r' =>
        exact fun hc => decSearchPath_not_sizeInv key (node k' s' l' r') (by simp) hr hk.2.2 hc.2.2
    · omega

/-! ### The root of a freshly built tree -/

theorem balancedBT_root (v : List Int) (hn : 0 < v.length) :
    ∃ l r, balancedBT v 0 ((v.length : Int) - 1) =
        node (v.getD ((v.length - 1) / 2) 0) (v.length : Int) l r ∧
      selectBT (balancedBT v 0 ((v.length : Int) - 1)) ((((v.length - 1) / 2 : Nat) : Int) + 1) =
        v.getD ((v.length - 1) / 2) 0 := by
  obtain ⟨p, hp⟩ : ∃ p : Nat, p = (v.length - 1) / 2 := ⟨_, rfl⟩
  rw [← hp]
  have hb : 2 * p ≤ v.length - 1 ∧ v.length - 1 ≤ 2 * p + 1 := by omega
  have hpos : Int.tdiv (0 + ((v.length : Int) - 1)) 2 = (p : Int) := by
    rw [Int.tdiv_eq_ediv (by omega) (by decide)]
    omega
  have hget : arrayGet v (p : Int) = v.getD p 0 := by
    have : ¬ ((p : Int) < 0) := by omega
    simp [arrayGet, this]
  have hunf := balancedBT_unfold v 0 ((v.length : Int) - 1)
  rw [if_pos (by omega), hpos, hget] at hunf
  have hsz := (balancedBT_sizeInv v 0 ((p : Int) - 1)).2
  have hposeq : (if balancedBT v 0 ((p : Int) - 1) ≠ nullptr then
      1 + (balancedBT v 0 ((p : Int) - 1)).size0 else 1) = (p : Int) + 1 := by
    by_cases hl : balancedBT v 0 ((p : Int) - 1) = nullptr
    · rw [hl] at hsz
      simp only [size0] at hsz
      rw [if_neg (by simpa using hl)]
      omega
    · rw [if_pos hl, hsz]
      omega
  refine ⟨_, _, by rw [hunf]; congr 1; omega, ?_⟩
  rw [hunf]
  simp only [selectBT, hposeq, if_true]

/-! ### A freshly built tree is perfectly balanced -/

theorem tdiv_two_split (i j : Int) :
    -1 ≤ i + j - 2 * Int.tdiv (i + j) 2 ∧ i + j - 2 * Int.tdiv (i + j) 2 ≤ 1 := by
  rcases Int.le_total 0 (i + j) with h0 | h0
  · rw [Int.tdiv_eq_ediv h0 (by decide)]; omega
  · have : Int.tdiv (i + j) 2 = -((-(i + j)) / 2) := by
      rw [← Int.tdiv_eq_ediv (by omega) (by decide), Int.neg_tdiv, neg_neg]
    rw [this]; omega

theorem clog_two_halves (a b : Nat) (h1 : a ≤ b + 1) (h2 : b ≤ a + 1) :
    max (Nat.clog 2 (a + 1)) (Nat.clog 2 (b + 1)) + 1 = Nat.clog 2 (a + b + 2) := by
  have e := @Nat.clog_of_two_le 2 (a + b + 2) (by decide) (by omega)
  rw [e]
  congr 1
  rcases Nat.le_total a b with hab | hab
  · rw [max_eq_right (Nat.clog_mono_right 2 (by omega : a + 1 ≤ b + 1))]
    congr 1
    omega
  · rw [max_eq_left (Nat.clog_mono_right 2 (by omega : b + 1 ≤ a + 1))]
    congr 1
    omega

theorem balancedBT_shape (v : List Int) :
    ∀ i j, (balancedBT v i j).count = (j + 1 - i).toNat ∧ Balanced (balancedBT v i j) ∧
      (balancedBT v i j).height = Nat.clog 2 ((j + 1 - i).toNat + 1) := by
  apply range_induction
  · intro i j h
    rw [balancedBT_null v i j h]
    have : (j + 1 - i).toNat = 0 := by omega
    rw [this]
    exact ⟨rfl, trivial, by simp [height]⟩
  · intro i j h ⟨c1, b1, h1⟩ ⟨c2, b2, h2⟩
    have hb := tdiv_two_bounds i j h
    have hs := tdiv_two_split i j
    rw [balancedBT_unfold, if_pos h]
    simp only [count, Balanced, height, c1, c2, h1, h2]
    have ea : (Int.tdiv (i + j) 2 - 1 + 1 - i).toNat + (j + 1 - (Int.tdiv (i + j) 2 + 1)).toNat + 1 =
        (j + 1 - i).toNat := by omega
    refine ⟨ea, ⟨⟨by omega, by omega⟩, b1, b2⟩, ?_⟩
    rw [clog_two_halves _ _ (by omega) (by omega)]
    congr 1
    omega

theorem count_eq_keys_length : ∀ t : BTNode, t.count = t.keys.length
  | nullptr => rfl
  | node k s l r => by
    simp only [count, keys, List.length_append, List.length_cons, count_eq_keys_length l,
      count_eq_keys_length r]
    omega

/-! ### `deleteBT` does not increase the height -/

theorem height_decSize (t : BTNode) : t.decSize.height = t.height := by
  cases t <;> rfl

theorem height_incSize (t : BTNode) : t.incSize.height = t.height := by
  cases t <;> rfl

theorem deleteBT_height : ∀ (t : BTNode) (key : Int), (deleteBT t key).height ≤ t.height
  | nullptr, _ => le_refl _
  | node k s l r, key => by
    have hl := deleteBT_height l key
    have hr := deleteBT_height r key
    have hr' := deleteBT_height r (treeMinBT r).key
    simp only [deleteBT, height_decSize]
    split_ifs
    · simp only [height]; omega
    · simp only [height]; omega
    · simp only [height]; omega
    · simp only [height_incSize, height]; omega
    · simp only [height_incSize, height]; omega

theorem foldl_deleteBT_height (ks : List Int) : ∀ t : BTNode,
    (ks.foldl deleteBT t).height ≤ t.height := by
  induction ks with
  | nil => intro t; exact le_refl _
  | cons k ks ih =>
    intro t
    exact le_trans (ih (deleteBT t k)) (deleteBT_height t k)

/-! ### Which size fields `deleteBT` changes -/

theorem treeMinBT_key_mem (t : BTNode) (h : t ≠ nullptr) : (treeMinBT t).key ∈ t.keys := by
  obtain ⟨tl, e⟩ := treeMinBT_keys t h
  rw [e]
  exact List.mem_cons_self _ _

/-- Deleting the smallest key removes the leftmost node. -/
theorem deleteBT_min : ∀ t : BTNode, BST t →
    deleteBT t (treeMinBT t).key = removeMinSpec t
  | nullptr, _ => rfl
  | node k s nullptr r, _ => by
    simp [deleteBT, treeMinBT, key, removeMinSpec, decSize_incSize]
  | node k s (node lk ls ll lr) r, hb => by
    obtain ⟨hlk, -, hbl, -⟩ := hb
    have ih := deleteBT_min (node lk ls ll lr) hbl
    have hm := treeMinBT_key_mem (node lk ls ll lr) (by simp)
    have hlt := hlk _ hm
    have e : treeMinBT (node k s (node lk ls ll lr) r) = treeMinBT (node lk ls ll lr) := by
      simp only [treeMinBT]
    rw [e]
    simp only [deleteBT, if_pos hlt, removeMinSpec]
    simp only [deleteBT] at ih
    rw [ih]
    rfl

/-- `deleteBT` on a search tree is the removal the specification describes. -/
theorem deleteBT_eq_removeSpec : ∀ (t : BTNode) (key : Int), BST t →
    deleteBT t key = removeSpec key t
  | nullptr, _, _ => rfl
  | node k s l r, key, hb => by
    obtain ⟨-, -, hbl, hbr⟩ := hb
    simp only [deleteBT, removeSpec]
    split_ifs with h1 h2 h3 h4
    · rw [deleteBT_eq_removeSpec l key hbl]; rfl
    · rw [deleteBT_eq_removeSpec r key hbr]; rfl
    · rw [deleteBT_min r hbr]; rfl
    · exact decSize_incSize l
    · exact decSize_incSize r

end BTNode

/-! ## Static tree: `buildTreeBT` and the range of `int` -/

namespace BTNode

theorem tdiv_two_gt_of_neg (i j : Int) (h : i < j) (hi : i < 0) : i < Int.tdiv (i + j) 2 := by
  rcases Int.le_total 0 (i + j) with h0 | h0
  · rw [Int.tdiv_eq_ediv h0 (by decide)]; omega
  · have : Int.tdiv (i + j) 2 = -((-(i + j)) / 2) := by
      rw [← Int.tdiv_eq_ediv (by omega) (by decide), Int.neg_tdiv, neg_neg]
    rw [this]; omega

theorem tdiv_two_lt (i j : Int) (h : i < j) (h0 : 0 ≤ i + j) : Int.tdiv (i + j) 2 < j := by
  rw [Int.tdiv_eq_ediv h0 (by decide)]; omega

/-- `buildTreeBT` returns exactly on the safe ranges, and there it returns the tree
computed on unbounded integers. -/
theorem buildTreeBT_go_eq (v : List Int) :
    ∀ (fuel : Nat) (i j : Int), (j + 1 - i).toNat ≤ fuel →
      (buildTreeBT.Safe i j → buildTreeBT.go v fuel i j = some (balancedBT.go v fuel i j)) ∧
      (¬ buildTreeBT.Safe i j → buildTreeBT.go v fuel i j = none) := by
  intro fuel
  induction fuel with
  | zero =>
    intro i j h
    have hij : j < i := by omega
    exact ⟨fun _ => rfl, fun hn => absurd (Or.inl hij) hn⟩
  | succ fuel ih =>
    intro i j h
    by_cases hij : i ≤ j
    · have hb := tdiv_two_bounds i j hij
      obtain ⟨ihl1, ihl2⟩ := ih i (Int.tdiv (i + j) 2 - 1) (by omega)
      obtain ⟨ihr1, ihr2⟩ := ih (Int.tdiv (i + j) 2 + 1) j (by omega)
      constructor
      · intro hs
        have hs' : -1073741824 ≤ i ∧ j < 1073741824 ∧ j - i + 1 ≤ 2147483647 := by
          rcases hs with hs | hs
          · omega
          · exact hs
        have hc : inInt32 (i + j) ∧ inInt32 (j - i) ∧ inInt32 (j - i + 1) := by
          simp only [inInt32, INT32_MIN, INT32_MAX]
          omega
        have sl : buildTreeBT.Safe i (Int.tdiv (i + j) 2 - 1) := by
          simp only [buildTreeBT.Safe]
          omega
        have sr : buildTreeBT.Safe (Int.tdiv (i + j) 2 + 1) j := by
          simp only [buildTreeBT.Safe]
          omega
        simp only [buildTreeBT.go, balancedBT.go, if_pos hij, if_pos hc, ihl1 sl, ihr1 sr]
      · intro hs
        simp only [buildTreeBT.Safe, not_or, not_lt, not_and, not_le] at hs
        by_cases hc : inInt32 (i + j) ∧ inInt32 (j - i) ∧ inInt32 (j - i + 1)
        · have hc' := hc
          simp only [inInt32, INT32_MIN, INT32_MAX] at hc'
          have hlt : i < j := by omega
          by_cases hi : i < -1073741824
          · have hp := tdiv_two_gt_of_neg i j hlt (by omega)
            have nl : ¬ buildTreeBT.Safe i (Int.tdiv (i + j) 2 - 1) := by
              simp only [buildTreeBT.Safe]
              omega
            simp only [buildTreeBT.go, if_pos hij, if_pos hc, ihl2 nl]
          · have hp := tdiv_two_lt i j hlt (by omega)
            have nr : ¬ buildTreeBT.Safe (Int.tdiv (i + j) 2 + 1) j := by
              simp only [buildTreeBT.Safe]
              omega
            simp only [buildTreeBT.go, if_pos hij, if_pos hc, ihr2 nr]
            cases buildTreeBT.go v fuel i (Int.tdiv (i + j) 2 - 1) <;> rfl
        · simp only [buildTreeBT.go, if_pos hij, if_neg hc]
    · constructor
      · intro _
        simp only [buildTreeBT.go, balancedBT.go, if_neg hij]
      · intro hn
        exact absurd (Or.inl (by omega)) hn

/-- On a safe range `buildTreeBT` returns the tree computed on unbounded integers. -/
theorem buildTreeBT_eq (v : List Int) (i j : Int) (h : buildTreeBT.Safe i j) :
    buildTreeBT v i j = some (balancedBT v i j) :=
  (buildTreeBT_go_eq v _ i j (le_refl _)).1 h

/-- Outside the safe ranges an `int` operation of `buildTreeBT` overflows. -/
theorem buildTreeBT_overflow (v : List Int) (i j : Int) (h : ¬ buildTreeBT.Safe i j) :
    buildTreeBT v i j = none :=
  (buildTreeBT_go_eq v _ i j (le_refl _)).2 h

theorem buildTreeBT_eq_none_iff (v : List Int) (i j : Int) :
    buildTreeBT v i j = none ↔ ¬ buildTreeBT.Safe i j := by
  constructor
  · intro h hs
    rw [buildTreeBT_eq v i j hs] at h
    exact absurd h (by simp)
  · exact buildTreeBT_overflow v i j

/-- Whenever `buildTreeBT` returns, the range is safe and the result is the tree
computed on unbounded integers. -/
theorem buildTreeBT_some (v : List Int) (i j : Int) (t : BTNode)
    (h : buildTreeBT v i j = some t) : buildTreeBT.Safe i j ∧ t = balancedBT v i j := by
  by_cases hs : buildTreeBT.Safe i j
  · rw [buildTreeBT_eq v i j hs] at h
    exact ⟨hs, (Option.some.inj h).symm⟩
  · rw [buildTreeBT_overflow v i j hs] at h
    exact absurd h (by simp)

/-- The whole array `v` is a safe range when it has at most `2^30` elements. -/
theorem safe_of_length (v : List Int) (h : v.length ≤ 1073741824) :
    buildTreeBT.Safe 0 ((v.length : Int) - 1) := by
  simp only [buildTreeBT.Safe]
  omega

/-- The whole array `v` is not a safe range when it has more than `2^30` elements. -/
theorem not_safe_of_length (v : List Int) (h : 1073741824 < v.length) :
    ¬ buildTreeBT.Safe 0 ((v.length : Int) - 1) := by
  simp only [buildTreeBT.Safe]
  omega

/-- An array of `n > 2^30` copies of one key is not a safe range. -/
theorem not_safe_of_replicate (n : Nat) (a : Int) (h : 1073741824 < n) :
    ¬ buildTreeBT.Safe 0 (((List.replicate n a).length : Int) - 1) :=
  not_safe_of_length _ (by rw [List.length_replicate]; exact h)

/-- Reachable static trees are search trees with exact sizes. -/
theorem reachable_inv : ∀ {t : BTNode}, BTReachable t → BST t ∧ SizeInv t := by
  intro t h
  induction h with
  | build v hv t h =>
    obtain ⟨-, rfl⟩ := buildTreeBT_some v _ _ t h
    refine ⟨?_, (balancedBT_sizeInv v _ _).1⟩
    rw [bst_iff_sorted_lt, balancedBT_keys_full]
    exact hv
  | delete t key _ hk ih =>
    obtain ⟨e1, e2, _⟩ := deleteBT_spec t key ih.1 ih.2 hk
    refine ⟨?_, e2⟩
    rw [bst_iff_sorted_lt, e1]
    exact sorted_erase ((bst_iff_sorted_lt t).mp ih.1) key


end BTNode

/-! ## Dynamic tree: memory lemmas -/

@[simp] theorem upd_same {α : Type} (f : Nat → α) (a : Nat) (v : α) : upd f a v a = v := by
  simp [upd]

theorem upd_ne {α : Type} (f : Nat → α) {a b : Nat} (v : α) (h : b ≠ a) : upd f a v b = f b := by
  simp [upd, h]

theorem upd_apply {α : Type} (f : Nat → α) (a b : Nat) (v : α) :
    upd f a v b = if b = a then v else f b := rfl

namespace State

@[simp] theorem setKey_key (s : State) (a : Nat) (v : Int) :
    (s.setKey a v).key = upd s.key a v := rfl
@[simp] theorem setKey_size (s : State) (a : Nat) (v : Int) :
    (s.setKey a v).size = s.size := rfl
@[simp] theorem setKey_parent (s : State) (a : Nat) (v : Int) :
    (s.setKey a v).parent = s.parent := rfl
@[simp] theorem setKey_left (s : State) (a : Nat) (v : Int) :
    (s.setKey a v).left = s.left := rfl
@[simp] theorem setKey_right (s : State) (a : Nat) (v : Int) :
    (s.setKey a v).right = s.right := rfl
@[simp] theorem setKey_color (s : State) (a : Nat) (v : Int) :
    (s.setKey a v).color = s.color := rfl
@[simp] theorem setKey_next (s : State) (a : Nat) (v : Int) :
    (s.setKey a v).next = s.next := rfl
@[simp] theorem setKey_freed (s : State) (a : Nat) (v : Int) :
    (s.setKey a v).freed = s.freed := rfl
@[simp] theorem setKey_root (s : State) (a : Nat) (v : Int) :
    (s.setKey a v).root = s.root := rfl
@[simp] theorem setSize_key (s : State) (a : Nat) (v : Int) :
    (s.setSize a v).key = s.key := rfl
@[simp] theorem setSize_size (s : State) (a : Nat) (v : Int) :
    (s.setSize a v).size = upd s.size a v := rfl
@[simp] theorem setSize_parent (s : State) (a : Nat) (v : Int) :
    (s.setSize a v).parent = s.parent := rfl
@[simp] theorem setSize_left (s : State) (a : Nat) (v : Int) :
    (s.setSize a v).left = s.left := rfl
@[simp] theorem setSize_right (s : State) (a : Nat) (v : Int) :
    (s.setSize a v).right = s.right := rfl
@[simp] theorem setSize_color (s : State) (a : Nat) (v : Int) :
    (s.setSize a v).color = s.color := rfl
@[simp] theorem setSize_next (s : State) (a : Nat) (v : Int) :
    (s.setSize a v).next = s.next := rfl
@[simp] theorem setSize_freed (s : State) (a : Nat) (v : Int) :
    (s.setSize a v).freed = s.freed := rfl
@[simp] theorem setSize_rootField (s : State) (a : Nat) (v : Int) :
    (s.setSize a v).root = s.root := rfl
@[simp] theorem setParent_key (s : State) (a : Nat) (v : Nat) :
    (s.setParent a v).key = s.key := rfl
@[simp] theorem setParent_size (s : State) (a : Nat) (v : Nat) :
    (s.setParent a v).size = s.size := rfl
@[simp] theorem setParent_parent (s : State) (a : Nat) (v : Nat) :
    (s.setParent a v).parent = upd s.parent a v := rfl
@[simp] theorem setParent_left (s : State) (a : Nat) (v : Nat) :
    (s.setParent a v).left = s.left := rfl
@[simp] theorem setParent_right (s : State) (a : Nat) (v : Nat) :
    (s.setParent a v).right = s.right := rfl
@[simp] theorem setParent_color (s : State) (a : Nat) (v : Nat) :
    (s.setParent a v).color = s.color := rfl
@[simp] theorem setParent_next (s : State) (a : Nat) (v : Nat) :
    (s.setParent a v).next = s.next := rfl
@[simp] theorem setParent_freed (s : State) (a : Nat) (v : Nat) :
    (s.setParent a v).freed = s.freed := rfl
@[simp] theorem setParent_root (s : State) (a : Nat) (v : Nat) :
    (s.setParent a v).root = s.root := rfl
@[simp] theorem setLeft_key (s : State) (a : Nat) (v : Nat) :
    (s.setLeft a v).key = s.key := rfl
@[simp] theorem setLeft_size (s : State) (a : Nat) (v : Nat) :
    (s.setLeft a v).size = s.size := rfl
@[simp] theorem setLeft_parent (s : State) (a : Nat) (v : Nat) :
    (s.setLeft a v).parent = s.parent := rfl
@[simp] theorem setLeft_left (s : State) (a : Nat) (v : Nat) :
    (s.setLeft a v).left = upd s.left a v := rfl
@[simp] theorem setLeft_right (s : State) (a : Nat) (v : Nat) :
    (s.setLeft a v).right = s.right := rfl
@[simp] theorem setLeft_color (s : State) (a : Nat) (v : Nat) :
    (s.setLeft a v).color = s.color := rfl
@[simp] theorem setLeft_next (s : State) (a : Nat) (v : Nat) :
    (s.setLeft a v).next = s.next := rfl
@[simp] theorem setLeft_freed (s : State) (a : Nat) (v : Nat) :
    (s.setLeft a v).freed = s.freed := rfl
@[simp] theorem setLeft_root (s : State) (a : Nat) (v : Nat) :
    (s.setLeft a v).root = s.root := rfl
@[simp] theorem setRight_key (s : State) (a : Nat) (v : Nat) :
    (s.setRight a v).key = s.key := rfl
@[simp] theorem setRight_size (s : State) (a : Nat) (v : Nat) :
    (s.setRight a v).size = s.size := rfl
@[simp] theorem setRight_parent (s : State) (a : Nat) (v : Nat) :
    (s.setRight a v).parent = s.parent := rfl
@[simp] theorem setRight_left (s : State) (a : Nat) (v : Nat) :
    (s.setRight a v).left = s.left := rfl
@[simp] theorem setRight_right (s : State) (a : Nat) (v : Nat) :
    (s.setRight a v).right = upd s.right a v := rfl
@[simp] theorem setRight_color (s : State) (a : Nat) (v : Nat) :
    (s.setRight a v).color = s.color := rfl
@[simp] theorem setRight_next (s : State) (a : Nat) (v : Nat) :
    (s.setRight a v).next = s.next := rfl
@[simp] theorem setRight_freed (s : State) (a : Nat) (v : Nat) :
    (s.setRight a v).freed = s.freed := rfl
@[simp] theorem setRight_root (s : State) (a : Nat) (v : Nat) :
    (s.setRight a v).root = s.root := rfl
@[simp] theorem setColor_key (s : State) (a : Nat) (v : Bool) :
    (s.setColor a v).key = s.key := rfl
@[simp] theorem setColor_size (s : State) (a : Nat) (v : Bool) :
    (s.setColor a v).size = s.size := rfl
@[simp] theorem setColor_parent (s : State) (a : Nat) (v : Bool) :
    (s.setColor a v).parent = s.parent := rfl
@[simp] theorem setColor_left (s : State) (a : Nat) (v : Bool) :
    (s.setColor a v).left = s.left := rfl
@[simp] theorem setColor_right (s : State) (a : Nat) (v : Bool) :
    (s.setColor a v).right = s.right := rfl
@[simp] theorem setColor_color (s : State) (a : Nat) (v : Bool) :
    (s.setColor a v).color = upd s.color a v := rfl
@[simp] theorem setColor_next (s : State) (a : Nat) (v : Bool) :
    (s.setColor a v).next = s.next := rfl
@[simp] theorem setColor_freed (s : State) (a : Nat) (v : Bool) :
    (s.setColor a v).freed = s.freed := rfl
@[simp] theorem setColor_rootField (s : State) (a : Nat) (v : Bool) :
    (s.setColor a v).root = s.root := rfl
@[simp] theorem setRoot_key (s : State) (v : Nat) : (s.setRoot v).key = s.key := rfl
@[simp] theorem free_key (s : State) (v : Nat) : (s.free v).key = s.key := rfl
@[simp] theorem alloc_key (s : State) : s.alloc.2.key = s.key := rfl
@[simp] theorem setRoot_size (s : State) (v : Nat) : (s.setRoot v).size = s.size := rfl
@[simp] theorem free_size (s : State) (v : Nat) : (s.free v).size = s.size := rfl
@[simp] theorem alloc_size (s : State) : s.alloc.2.size = s.size := rfl
@[simp] theorem setRoot_parent (s : State) (v : Nat) : (s.setRoot v).parent = s.parent := rfl
@[simp] theorem free_parent (s : State) (v : Nat) : (s.free v).parent = s.parent := rfl
@[simp] theorem alloc_parent (s : State) : s.alloc.2.parent = s.parent := rfl
@[simp] theorem setRoot_left (s : State) (v : Nat) : (s.setRoot v).left = s.left := rfl
@[simp] theorem free_left (s : State) (v : Nat) : (s.free v).left = s.left := rfl
@[simp] theorem alloc_left (s : State) : s.alloc.2.left = s.left := rfl
@[simp] theorem setRoot_right (s : State) (v : Nat) : (s.setRoot v).right = s.right := rfl
@[simp] theorem free_right (s : State) (v : Nat) : (s.free v).right = s.right := rfl
@[simp] theorem alloc_right (s : State) : s.alloc.2.right = s.right := rfl
@[simp] theorem setRoot_color (s : State) (v : Nat) : (s.setRoot v).color = s.color := rfl
@[simp] theorem free_color (s : State) (v : Nat) : (s.free v).color = s.color := rfl
@[simp] theorem alloc_color (s : State) : s.alloc.2.color = s.color := rfl
@[simp] theorem setRoot_root (s : State) (v : Nat) : (s.setRoot v).root = v := rfl
@[simp] theorem setRoot_next (s : State) (v : Nat) : (s.setRoot v).next = s.next := rfl
@[simp] theorem setRoot_freed (s : State) (v : Nat) : (s.setRoot v).freed = s.freed := rfl
@[simp] theorem free_root (s : State) (v : Nat) : (s.free v).root = s.root := rfl
@[simp] theorem free_next (s : State) (v : Nat) : (s.free v).next = s.next := rfl
@[simp] theorem free_freed (s : State) (v : Nat) : (s.free v).freed = s.freed ++ [v] := rfl
@[simp] theorem alloc_fst (s : State) : s.alloc.1 = s.next := rfl
@[simp] theorem alloc_next (s : State) : s.alloc.2.next = s.next + 1 := rfl
@[simp] theorem alloc_root (s : State) : s.alloc.2.root = s.root := rfl
@[simp] theorem alloc_freed (s : State) : s.alloc.2.freed = s.freed := rfl

end State

namespace RBTree

@[simp] theorem addr_nil : (nil : RBTree).addr = NIL := rfl
@[simp] theorem addr_node (a : Nat) (c : Bool) (k s : Int) (l r : RBTree) :
    (node a c k s l r).addr = a := rfl
@[simp] theorem addrs_nil : (nil : RBTree).addrs = [] := rfl
@[simp] theorem addrs_node (a : Nat) (c : Bool) (k s : Int) (l r : RBTree) :
    (node a c k s l r).addrs = l.addrs ++ a :: r.addrs := rfl
@[simp] theorem size0_nil : (nil : RBTree).size0 = 0 := rfl
@[simp] theorem size0_node (a : Nat) (c : Bool) (k s : Int) (l r : RBTree) :
    (node a c k s l r).size0 = s := rfl
@[simp] theorem color0_nil : (nil : RBTree).color0 = true := rfl
@[simp] theorem color0_node (a : Nat) (c : Bool) (k s : Int) (l r : RBTree) :
    (node a c k s l r).color0 = c := rfl
@[simp] theorem keys_nil : (nil : RBTree).keys = [] := rfl
@[simp] theorem keys_node (a : Nat) (c : Bool) (k s : Int) (l r : RBTree) :
    (node a c k s l r).keys = l.keys ++ k :: r.keys := rfl
@[simp] theorem rep_nil (m : State) (par : Nat) : Rep m par nil ↔ True := Iff.rfl
theorem rep_node (m : State) (par a : Nat) (c : Bool) (k s : Int) (l r : RBTree) :
    Rep m par (node a c k s l r) ↔
      (m.key a = k ∧ m.size a = s ∧ m.parent a = par ∧ m.left a = l.addr ∧
        m.right a = r.addr ∧ m.color a = c) ∧ Rep m a l ∧ Rep m a r := Iff.rfl

theorem Rep.congr_tree {m m' : State} : ∀ {t : RBTree} {par : Nat},
    (∀ a ∈ t.addrs, State.SameAt m m' a) → Rep m par t → Rep m' par t
  | nil, _, _, _ => trivial
  | node a c k s l r, par, h, hr => by
    obtain ⟨h1, h2, h3⟩ := hr
    refine ⟨?_, Rep.congr_tree (fun b hb => h b ?_) h2, Rep.congr_tree (fun b hb => h b ?_) h3⟩
    · obtain ⟨e1, e2, e3, e4, e5, e6⟩ := h a (by simp)
      rw [e1, e2, e3, e4, e5, e6]; exact h1
    · simp [hb]
    · simp [hb]

/-- A pointer to a subtree is not the address of a real node outside it. -/
theorem addr_ne {t : RBTree} {a : Nat} (hN : a ≠ NIL) (ha : a ∉ t.addrs) : t.addr ≠ a := by
  cases t with
  | nil => exact Ne.symm hN
  | node b c k s l r =>
    simp only [addr_node]
    rintro rfl
    exact ha (by simp)

theorem addr_mem {t : RBTree} (ht : t ≠ nil) : t.addr ∈ t.addrs := by
  cases t with
  | nil => exact absurd rfl ht
  | node a c k s l r => simp

theorem addr_eq_nil_iff {t : RBTree} (h : NIL ∉ t.addrs) : t.addr = NIL ↔ t = nil := by
  cases t with
  | nil => simp
  | node a c k s l r =>
    simp only [addr_node, reduceCtorEq, iff_false]
    rintro rfl
    exact h (by simp)

/-- The size field read through a child pointer. -/
theorem size_read {m : State} {par : Nat} {t : RBTree} (h : Rep m par t)
    (hs : m.size NIL = 0) : m.size t.addr = t.size0 := by
  cases t with
  | nil => exact hs
  | node a c k s l r => exact h.1.2.1

theorem color_read {m : State} {par : Nat} {t : RBTree} (h : Rep m par t)
    (hs : m.color NIL = true) : m.color t.addr = t.color0 := by
  cases t with
  | nil => exact hs
  | node a c k s l r => exact h.1.2.2.2.2.2

end RBTree

namespace RBFrame

@[simp] theorem addrs_L (a : Nat) (c : Bool) (k s : Int) (r : RBTree) :
    (L a c k s r).addrs = a :: r.addrs := rfl
@[simp] theorem addrs_R (a : Nat) (c : Bool) (k s : Int) (l : RBTree) :
    (R a c k s l).addrs = a :: l.addrs := rfl
@[simp] theorem addr_L (a : Nat) (c : Bool) (k s : Int) (r : RBTree) :
    (L a c k s r).addr = a := rfl
@[simp] theorem addr_R (a : Nat) (c : Bool) (k s : Int) (l : RBTree) :
    (R a c k s l).addr = a := rfl
@[simp] theorem fill_L (a : Nat) (c : Bool) (k s : Int) (r t : RBTree) :
    (L a c k s r).fill t = RBTree.node a c k s t r := rfl
@[simp] theorem fill_R (a : Nat) (c : Bool) (k s : Int) (l t : RBTree) :
    (R a c k s l).fill t = RBTree.node a c k s l t := rfl

end RBFrame

namespace RBPath

@[simp] theorem addr_empty (top : Nat) : addr [] top = top := rfl
@[simp] theorem addr_cons (f : RBFrame) (cs : RBPath) (top : Nat) :
    addr (f :: cs) top = f.addr := rfl
@[simp] theorem addrs_empty : addrs [] = [] := rfl
@[simp] theorem addrs_cons (f : RBFrame) (cs : RBPath) :
    addrs (f :: cs) = f.addrs ++ addrs cs := rfl
@[simp] theorem plug_nil (t : RBTree) : plug t [] = t := rfl
@[simp] theorem plug_cons (t : RBTree) (f : RBFrame) (cs : RBPath) :
    plug t (f :: cs) = plug (f.fill t) cs := rfl
@[simp] theorem rootAddr_nil (d : Nat) : rootAddr [] d = d := rfl
@[simp] theorem rootAddr_cons (f : RBFrame) (cs : RBPath) (d : Nat) :
    rootAddr (f :: cs) d = rootAddr cs f.addr := rfl
@[simp] theorem rep_empty (m : State) (child top : Nat) : Rep m child [] top ↔ True := Iff.rfl
theorem rep_L (m : State) (child top a : Nat) (c : Bool) (k s : Int) (r : RBTree)
    (cs : RBPath) : Rep m child (RBFrame.L a c k s r :: cs) top ↔
      (m.key a = k ∧ m.size a = s ∧ m.parent a = addr cs top ∧ m.left a = child ∧
        m.right a = r.addr ∧ m.color a = c) ∧ RBTree.Rep m a r ∧ Rep m a cs top := Iff.rfl
theorem rep_R (m : State) (child top a : Nat) (c : Bool) (k s : Int) (l : RBTree)
    (cs : RBPath) : Rep m child (RBFrame.R a c k s l :: cs) top ↔
      (m.key a = k ∧ m.size a = s ∧ m.parent a = addr cs top ∧ m.left a = l.addr ∧
        m.right a = child ∧ m.color a = c) ∧ RBTree.Rep m a l ∧ Rep m a cs top := Iff.rfl

theorem Rep.congr_path {m m' : State} : ∀ {cs : RBPath} {child top : Nat},
    (∀ a ∈ cs.addrs, State.SameAt m m' a) → Rep m child cs top → Rep m' child cs top
  | [], _, _, _, _ => trivial
  | RBFrame.L a c k s r :: cs, child, top, h, hr => by
    obtain ⟨h1, h2, h3⟩ := hr
    refine ⟨?_, RBTree.Rep.congr_tree (fun b hb => h b ?_) h2, Rep.congr_path (fun b hb => h b ?_) h3⟩
    · obtain ⟨e1, e2, e3, e4, e5, e6⟩ := h a (by simp)
      rw [e1, e2, e3, e4, e5, e6]; exact h1
    · simp [hb]
    · simp [hb]
  | RBFrame.R a c k s l :: cs, child, top, h, hr => by
    obtain ⟨h1, h2, h3⟩ := hr
    refine ⟨?_, RBTree.Rep.congr_tree (fun b hb => h b ?_) h2, Rep.congr_path (fun b hb => h b ?_) h3⟩
    · obtain ⟨e1, e2, e3, e4, e5, e6⟩ := h a (by simp)
      rw [e1, e2, e3, e4, e5, e6]; exact h1
    · simp [hb]
    · simp [hb]

theorem plug_addr : ∀ (cs : RBPath) (t : RBTree), (plug t cs).addr = rootAddr cs t.addr
  | [], _ => rfl
  | f :: cs, t => by
    rw [plug, plug_addr cs, rootAddr]
    cases f <;> rfl

theorem rep_plug {m : State} : ∀ (cs : RBPath) (t : RBTree) (top : Nat),
    RBTree.Rep m top (plug t cs) ↔ RBTree.Rep m (addr cs top) t ∧ Rep m t.addr cs top
  | [], t, top => by simp
  | RBFrame.L a c k s r :: cs, t, top => by
    rw [plug, rep_plug cs]
    simp only [RBFrame.fill_L, RBTree.rep_node, RBTree.addr_node, rep_L, addr_cons,
      RBFrame.addr_L]
    tauto
  | RBFrame.R a c k s l :: cs, t, top => by
    rw [plug, rep_plug cs]
    simp only [RBFrame.fill_R, RBTree.rep_node, RBTree.addr_node, rep_R, addr_cons,
      RBFrame.addr_R]
    tauto

theorem plug_addrs_perm : ∀ (cs : RBPath) (t : RBTree),
    (plug t cs).addrs.Perm (t.addrs ++ addrs cs)
  | [], t => by simp
  | RBFrame.L a c k s r :: cs, t => by
    rw [plug]
    refine (plug_addrs_perm cs _).trans ?_
    simp only [RBFrame.fill_L, RBTree.addrs_node, addrs_cons, RBFrame.addrs_L,
      List.append_assoc, List.cons_append]
    exact List.Perm.refl _
  | RBFrame.R a c k s l :: cs, t => by
    rw [plug]
    refine (plug_addrs_perm cs _).trans ?_
    simp only [RBFrame.fill_R, RBTree.addrs_node, addrs_cons, RBFrame.addrs_R,
      List.append_assoc, List.cons_append]
    have e1 : l.addrs ++ a :: (t.addrs ++ addrs cs) = (l.addrs ++ [a]) ++ t.addrs ++ addrs cs := by
      simp
    have e2 : t.addrs ++ a :: (l.addrs ++ addrs cs) = t.addrs ++ (a :: l.addrs) ++ addrs cs := by
      simp
    rw [e1, e2]
    refine List.Perm.append_right _ ?_
    have : (a :: l.addrs).Perm (l.addrs ++ [a]) := by
      simpa using (List.perm_append_singleton a l.addrs).symm
    exact List.perm_append_comm.trans (List.Perm.append_left _ this.symm)

end RBPath

theorem shape_plug_iff (s : State) (t : RBTree) (cs : RBPath) :
    Shape s (RBPath.plug t cs) ↔ ShapeZ s t cs := by
  have hp := RBPath.plug_addrs_perm cs t
  constructor
  · intro h
    have hr := (RBPath.rep_plug cs t NIL).mp h.rep
    exact ⟨hr.1, hr.2, by rw [h.root, RBPath.plug_addr], hp.nodup_iff.mp h.nodup,
      fun a ha => h.alloc a (hp.mem_iff.mpr ha), h.sentinel, h.nilAlloc⟩
  · intro h
    exact ⟨(RBPath.rep_plug cs t NIL).mpr ⟨h.rep, h.path⟩, by rw [h.root, RBPath.plug_addr],
      hp.nodup_iff.mpr h.nodup, fun a ha => h.alloc a (hp.mem_iff.mp ha), h.sentinel, h.nilAlloc⟩

/-! ## Dynamic tree: writes at the root of the focused subtree -/

namespace RBTree
theorem Rep.frame {s s' : State} {W : List Nat} (h : ∀ a, a ∉ W → State.SameAt s s' a)
    {t : RBTree} {par : Nat} (hd : ∀ w ∈ W, w ∉ t.addrs) (hr : Rep s par t) : Rep s' par t :=
  Rep.congr_tree (fun a ha => h a (fun hw => hd a hw ha)) hr
end RBTree

namespace RBPath
theorem Rep.frame_path {s s' : State} {W : List Nat} (h : ∀ a, a ∉ W → State.SameAt s s' a)
    {cs : RBPath} {child top : Nat} (hd : ∀ w ∈ W, w ∉ cs.addrs) (hr : Rep s child cs top) :
    Rep s' child cs top :=
  Rep.congr_path (fun a ha => h a (fun hw => hd a hw ha)) hr
end RBPath

theorem Sentinel.frame_nil {s s' : State} (hs : Sentinel s) (h : State.SameAt s s' NIL) :
    Sentinel s' := by
  obtain ⟨e1, e2, _, e4, e5, e6⟩ := h
  unfold Sentinel
  rw [e1, e2, e4, e5, e6]
  exact hs

set_option maxHeartbeats 4000000 in
/-- `leftRotateRB` at the focused node `x` with right child `y`. -/
theorem ShapeZ.leftRotate {s : State} {x y : Nat} {cx cy : Bool} {kx ky sx sy : Int}
    {A B C : RBTree} {cs : RBPath}
    (h : ShapeZ s (.node x cx kx sx A (.node y cy ky sy B C)) cs) :
    ShapeZ (leftRotateRB s x)
      (.node y cy ky sx (.node x cx kx (A.size0 + B.size0 + 1) A B) C) cs := by
  have hal := h.alloc
  obtain ⟨hx, hA, hy, hB, hC⟩ := h.rep
  have hpath := h.path
  have hsen := h.sentinel
  obtain ⟨hs1, hsz, hs3, hs4, hs5⟩ := h.sentinel
  have hsA := RBTree.size_read hA hsz
  have hsB := RBTree.size_read hB hsz
  have hnd' := h.nodup
  simp only [RBTree.addrs_node, List.nodup_append, List.nodup_cons, List.mem_cons,
    List.mem_append, List.append_assoc, List.cons_append, List.disjoint_cons_right,
    List.disjoint_append_right, List.disjoint_cons_left, List.disjoint_append_left, not_or]
    at hnd'
  have hxN : x ≠ NIL := (hal x (by simp)).1
  have hyN : y ≠ NIL := (hal y (by simp)).1
  have hNx := hxN.symm
  have hNy := hyN.symm
  have hxy : x ≠ y := by rintro rfl; simp_all
  have hyx := hxy.symm
  have hAx : A.addr ≠ x := RBTree.addr_ne hxN (by simp_all)
  have hAy : A.addr ≠ y := RBTree.addr_ne hyN (by simp_all)
  simp only [RBTree.addr_node] at hx hy hpath
  obtain ⟨hx1, hx2, hx3, hx4, hx5, hx6⟩ := hx
  obtain ⟨hy1, hy2, hy3, hy4, hy5, hy6⟩ := hy
  cases cs with
  | nil =>
    simp only [RBPath.addr_empty, RBPath.addrs_empty, List.append_nil] at hx3 hnd' hal
    cases B with
    | nil =>
      simp only [RBTree.addr_nil, RBTree.size0_nil] at hsB hy4 hy5 ⊢
      have e : (leftRotateRB s x).key = s.key ∧
          (leftRotateRB s x).size = upd (upd s.size y sx) x (A.size0 + 0 + 1) ∧
          (leftRotateRB s x).parent = upd (upd s.parent y NIL) x y ∧
          (leftRotateRB s x).left = upd s.left y x ∧
          (leftRotateRB s x).right = upd s.right x NIL ∧
          (leftRotateRB s x).color = s.color ∧
          (leftRotateRB s x).next = s.next ∧
          (leftRotateRB s x).root = y := by
        simp [leftRotateRB, upd_ne, *]
      generalize leftRotateRB s x = s' at e ⊢
      obtain ⟨e1, e2, e3, e4, e5, e6, e7, e8⟩ := e
      have hframe : ∀ a, a ∉ [x, y] → State.SameAt s s' a := by
        intro a ha
        simp only [List.mem_cons, List.mem_singleton, not_or, List.not_mem_nil, or_false] at ha
        simp [State.SameAt, upd_ne, ha, e1, e2, e3, e4, e5, e6]
      refine ⟨?_, ?_, ?_, ?_, ?_, ?_, ?_⟩
      · simp only [RBTree.rep_node, RBTree.addr_node, RBTree.rep_nil, RBPath.addr_cons,
          RBPath.addr_empty, RBFrame.addr_L, RBFrame.addr_R]
        refine ⟨?_, ⟨?_, ?_, ?_⟩, ?_⟩
        all_goals first
          | exact hA.frame hframe (by simp_all)
          | exact hC.frame hframe (by simp_all)
          | simp [upd_ne, *]
      · trivial
      · simpa [e8] using h.root
      · simpa using h.nodup
      · simpa [e7] using h.alloc
      · exact hsen.frame_nil (hframe _ (by simp [*]))
      · rw [e7]; exact h.nilAlloc
    | node b cb kb sb Bl Br =>
      obtain ⟨hb, hBl, hBr⟩ := hB
      obtain ⟨hb1, hb2, hb3, hb4, hb5, hb6⟩ := hb
      simp only [RBTree.addr_node, RBTree.size0_node, RBTree.addrs_node, List.mem_append,
        List.mem_cons, not_or, List.nodup_append, List.nodup_cons, List.disjoint_cons_right,
        List.disjoint_append_right, List.disjoint_cons_left, List.disjoint_append_left]
        at hsB hy4 hy5 hnd' hal ⊢
      have hbN : b ≠ NIL := (hal b (by simp)).1
      have hNb := hbN.symm
      have hbx : b ≠ x := by rintro rfl; simp_all
      have hby : b ≠ y := by rintro rfl; simp_all
      have hxb := hbx.symm
      have hyb := hby.symm
      have e : (leftRotateRB s x).key = s.key ∧
          (leftRotateRB s x).size = upd (upd s.size y sx) x (A.size0 + sb + 1) ∧
          (leftRotateRB s x).parent = upd (upd (upd s.parent b x) y NIL) x y ∧
          (leftRotateRB s x).left = upd s.left y x ∧
          (leftRotateRB s x).right = upd s.right x b ∧
          (leftRotateRB s x).color = s.color ∧
          (leftRotateRB s x).next = s.next ∧
          (leftRotateRB s x).root = y := by
        simp [leftRotateRB, upd_ne, *]
      generalize leftRotateRB s x = s' at e ⊢
      obtain ⟨e1, e2, e3, e4, e5, e6, e7, e8⟩ := e
      have hframe : ∀ a, a ∉ [x, y, b] → State.SameAt s s' a := by
        intro a ha
        simp only [List.mem_cons, List.mem_singleton, not_or, List.not_mem_nil, or_false] at ha
        simp [State.SameAt, upd_ne, ha, e1, e2, e3, e4, e5, e6]
      refine ⟨?_, ?_, ?_, ?_, ?_, ?_, ?_⟩
      · simp only [RBTree.rep_node, RBTree.addr_node, RBTree.rep_nil, RBPath.addr_cons,
          RBPath.addr_empty, RBFrame.addr_L, RBFrame.addr_R]
        refine ⟨?_, ⟨?_, ?_, ?_⟩, ?_⟩
        all_goals first
          | exact hA.frame hframe (by simp_all)
          | exact hC.frame hframe (by simp_all)
          | (refine ⟨?_, hBl.frame hframe (by simp_all), hBr.frame hframe (by simp_all)⟩
             simp [upd_ne, *])
          | simp [upd_ne, *]
      · trivial
      · simpa [e8] using h.root
      · simpa using h.nodup
      · simpa [e7] using h.alloc
      · exact hsen.frame_nil (hframe _ (by simp [*]))
      · rw [e7]; exact h.nilAlloc
  | cons f rest =>
    cases f with
    | L p cp kp sp r =>
      obtain ⟨hp, hr, hrest⟩ := hpath
      obtain ⟨hp1, hp2, hp3, hp4, hp5, hp6⟩ := hp
      simp only [RBPath.addr_cons, RBFrame.addr_L, RBPath.addrs_cons, RBFrame.addrs_L,
        List.mem_append, List.mem_cons, not_or, List.nodup_append, List.nodup_cons,
        List.disjoint_cons_right, List.disjoint_append_right, List.disjoint_cons_left,
        List.disjoint_append_left, List.cons_append] at hx3 hnd' hal
      have hpN : p ≠ NIL := (hal p (by simp)).1
      have hNp := hpN.symm
      have hpx : p ≠ x := by rintro rfl; simp_all
      have hpy : p ≠ y := by rintro rfl; simp_all
      have hxp := hpx.symm
      have hyp := hpy.symm
      cases B with
      | nil =>
        simp only [RBTree.addr_nil, RBTree.size0_nil] at hsB hy4 hy5 ⊢
        have e : (leftRotateRB s x).key = s.key ∧
            (leftRotateRB s x).size = upd (upd s.size y sx) x (A.size0 + 0 + 1) ∧
            (leftRotateRB s x).parent = upd (upd s.parent y p) x y ∧
            (leftRotateRB s x).left = upd (upd s.left p y) y x ∧
            (leftRotateRB s x).right = upd s.right x NIL ∧
            (leftRotateRB s x).color = s.color ∧
            (leftRotateRB s x).next = s.next ∧
            (leftRotateRB s x).root = s.root := by
          simp [leftRotateRB, upd_ne, *]
        generalize leftRotateRB s x = s' at e ⊢
        obtain ⟨e1, e2, e3, e4, e5, e6, e7, e8⟩ := e
        have hframe : ∀ a, a ∉ [x, y, p] → State.SameAt s s' a := by
          intro a ha
          simp only [List.mem_cons, List.mem_singleton, not_or, List.not_mem_nil, or_false] at ha
          simp [State.SameAt, upd_ne, ha, e1, e2, e3, e4, e5, e6]
        refine ⟨?_, ?_, ?_, ?_, ?_, ?_, ?_⟩
        · simp only [RBTree.rep_node, RBTree.addr_node, RBTree.rep_nil, RBPath.addr_cons,
            RBPath.addr_empty, RBFrame.addr_L, RBFrame.addr_R]
          refine ⟨?_, ⟨?_, ?_, ?_⟩, ?_⟩
          all_goals first
            | exact hA.frame hframe (by simp_all)
            | exact hC.frame hframe (by simp_all)
            | simp [upd_ne, *]
        · simp only [RBPath.rep_L, RBPath.rep_R, RBTree.addr_node]
          refine ⟨?_, hr.frame hframe (by simp_all), hrest.frame_path hframe (by simp_all)⟩
          simp [upd_ne, *]
        · simpa [e8] using h.root
        · simpa using h.nodup
        · simpa [e7] using h.alloc
        · exact hsen.frame_nil (hframe _ (by simp [*]))
        · rw [e7]; exact h.nilAlloc
      | node b cb kb sb Bl Br =>
        obtain ⟨hb, hBl, hBr⟩ := hB
        obtain ⟨hb1, hb2, hb3, hb4, hb5, hb6⟩ := hb
        simp only [RBTree.addr_node, RBTree.size0_node, RBTree.addrs_node, List.mem_append,
          List.mem_cons, not_or, List.nodup_append, List.nodup_cons, List.disjoint_cons_right,
          List.disjoint_append_right, List.disjoint_cons_left, List.disjoint_append_left]
          at hsB hy4 hy5 hnd' hal ⊢
        have hbN : b ≠ NIL := (hal b (by simp)).1
        have hNb := hbN.symm
        have hbx : b ≠ x := by rintro rfl; simp_all
        have hby : b ≠ y := by rintro rfl; simp_all
        have hbp : b ≠ p := by rintro rfl; simp_all
        have hxb := hbx.symm
        have hyb := hby.symm
        have hpb := hbp.symm
        have e : (leftRotateRB s x).key = s.key ∧
            (leftRotateRB s x).size = upd (upd s.size y sx) x (A.size0 + sb + 1) ∧
            (leftRotateRB s x).parent = upd (upd (upd s.parent b x) y p) x y ∧
            (leftRotateRB s x).left = upd (upd s.left p y) y x ∧
            (leftRotateRB s x).right = upd s.right x b ∧
            (leftRotateRB s x).color = s.color ∧
            (leftRotateRB s x).next = s.next ∧
            (leftRotateRB s x).root = s.root := by
          simp [leftRotateRB, upd_ne, *]
        generalize leftRotateRB s x = s' at e ⊢
        obtain ⟨e1, e2, e3, e4, e5, e6, e7, e8⟩ := e
        have hframe : ∀ a, a ∉ [x, y, b, p] → State.SameAt s s' a := by
          intro a ha
          simp only [List.mem_cons, List.mem_singleton, not_or, List.not_mem_nil, or_false] at ha
          simp [State.SameAt, upd_ne, ha, e1, e2, e3, e4, e5, e6]
        refine ⟨?_, ?_, ?_, ?_, ?_, ?_, ?_⟩
        · simp only [RBTree.rep_node, RBTree.addr_node, RBTree.rep_nil, RBPath.addr_cons,
            RBPath.addr_empty, RBFrame.addr_L, RBFrame.addr_R]
          refine ⟨?_, ⟨?_, ?_, ?_⟩, ?_⟩
          all_goals first
            | exact hA.frame hframe (by simp_all)
            | exact hC.frame hframe (by simp_all)
            | (refine ⟨?_, hBl.frame hframe (by simp_all), hBr.frame hframe (by simp_all)⟩
               simp [upd_ne, *])
            | simp [upd_ne, *]
        · simp only [RBPath.rep_L, RBPath.rep_R, RBTree.addr_node]
          refine ⟨?_, hr.frame hframe (by simp_all), hrest.frame_path hframe (by simp_all)⟩
          simp [upd_ne, *]
        · simpa [e8] using h.root
        · simpa using h.nodup
        · simpa [e7] using h.alloc
        · exact hsen.frame_nil (hframe _ (by simp [*]))
        · rw [e7]; exact h.nilAlloc
    | R p cp kp sp r =>
      obtain ⟨hp, hr, hrest⟩ := hpath
      obtain ⟨hp1, hp2, hp3, hp4, hp5, hp6⟩ := hp
      simp only [RBPath.addr_cons, RBFrame.addr_R, RBPath.addrs_cons, RBFrame.addrs_R,
        List.mem_append, List.mem_cons, not_or, List.nodup_append, List.nodup_cons,
        List.disjoint_cons_right, List.disjoint_append_right, List.disjoint_cons_left,
        List.disjoint_append_left, List.cons_append] at hx3 hnd' hal
      have hpN : p ≠ NIL := (hal p (by simp)).1
      have hNp := hpN.symm
      have hpx : p ≠ x := by rintro rfl; simp_all
      have hpy : p ≠ y := by rintro rfl; simp_all
      have hxp := hpx.symm
      have hyp := hpy.symm
      have hrx : x ≠ r.addr := (RBTree.addr_ne hxN (by simp_all)).symm
      cases B with
      | nil =>
        simp only [RBTree.addr_nil, RBTree.size0_nil] at hsB hy4 hy5 ⊢
        have e : (leftRotateRB s x).key = s.key ∧
            (leftRotateRB s x).size = upd (upd s.size y sx) x (A.size0 + 0 + 1) ∧
            (leftRotateRB s x).parent = upd (upd s.parent y p) x y ∧
            (leftRotateRB s x).left = upd s.left y x ∧
            (leftRotateRB s x).right = upd (upd s.right x NIL) p y ∧
            (leftRotateRB s x).color = s.color ∧
            (leftRotateRB s x).next = s.next ∧
            (leftRotateRB s x).root = s.root := by
          simp [leftRotateRB, upd_ne, *]
        generalize leftRotateRB s x = s' at e ⊢
        obtain ⟨e1, e2, e3, e4, e5, e6, e7, e8⟩ := e
        have hframe : ∀ a, a ∉ [x, y, p] → State.SameAt s s' a := by
          intro a ha
          simp only [List.mem_cons, List.mem_singleton, not_or, List.not_mem_nil, or_false] at ha
          simp [State.SameAt, upd_ne, ha, e1, e2, e3, e4, e5, e6]
        refine ⟨?_, ?_, ?_, ?_, ?_, ?_, ?_⟩
        · simp only [RBTree.rep_node, RBTree.addr_node, RBTree.rep_nil, RBPath.addr_cons,
            RBPath.addr_empty, RBFrame.addr_L, RBFrame.addr_R]
          refine ⟨?_, ⟨?_, ?_, ?_⟩, ?_⟩
          all_goals first
            | exact hA.frame hframe (by simp_all)
            | exact hC.frame hframe (by simp_all)
            | simp [upd_ne, *]
        · simp only [RBPath.rep_L, RBPath.rep_R, RBTree.addr_node]
          refine ⟨?_, hr.frame hframe (by simp_all), hrest.frame_path hframe (by simp_all)⟩
          simp [upd_ne, *]
        · simpa [e8] using h.root
        · simpa using h.nodup
        · simpa [e7] using h.alloc
        · exact hsen.frame_nil (hframe _ (by simp [*]))
        · rw [e7]; exact h.nilAlloc
      | node b cb kb sb Bl Br =>
        obtain ⟨hb, hBl, hBr⟩ := hB
        obtain ⟨hb1, hb2, hb3, hb4, hb5, hb6⟩ := hb
        simp only [RBTree.addr_node, RBTree.size0_node, RBTree.addrs_node, List.mem_append,
          List.mem_cons, not_or, List.nodup_append, List.nodup_cons, List.disjoint_cons_right,
          List.disjoint_append_right, List.disjoint_cons_left, List.disjoint_append_left]
          at hsB hy4 hy5 hnd' hal ⊢
        have hbN : b ≠ NIL := (hal b (by simp)).1
        have hNb := hbN.symm
        have hbx : b ≠ x := by rintro rfl; simp_all
        have hby : b ≠ y := by rintro rfl; simp_all
        have hbp : b ≠ p := by rintro rfl; simp_all
        have hxb := hbx.symm
        have hyb := hby.symm
        have hpb := hbp.symm
        have e : (leftRotateRB s x).key = s.key ∧
            (leftRotateRB s x).size = upd (upd s.size y sx) x (A.size0 + sb + 1) ∧
            (leftRotateRB s x).parent = upd (upd (upd s.parent b x) y p) x y ∧
            (leftRotateRB s x).left = upd s.left y x ∧
            (leftRotateRB s x).right = upd (upd s.right x b) p y ∧
            (leftRotateRB s x).color = s.color ∧
            (leftRotateRB s x).next = s.next ∧
            (leftRotateRB s x).root = s.root := by
          simp [leftRotateRB, upd_ne, *]
        generalize leftRotateRB s x = s' at e ⊢
        obtain ⟨e1, e2, e3, e4, e5, e6, e7, e8⟩ := e
        have hframe : ∀ a, a ∉ [x, y, b, p] → State.SameAt s s' a := by
          intro a ha
          simp only [List.mem_cons, List.mem_singleton, not_or, List.not_mem_nil, or_false] at ha
          simp [State.SameAt, upd_ne, ha, e1, e2, e3, e4, e5, e6]
        refine ⟨?_, ?_, ?_, ?_, ?_, ?_, ?_⟩
        · simp only [RBTree.rep_node, RBTree.addr_node, RBTree.rep_nil, RBPath.addr_cons,
            RBPath.addr_empty, RBFrame.addr_L, RBFrame.addr_R]
          refine ⟨?_, ⟨?_, ?_, ?_⟩, ?_⟩
          all_goals first
            | exact hA.frame hframe (by simp_all)
            | exact hC.frame hframe (by simp_all)
            | (refine ⟨?_, hBl.frame hframe (by simp_all), hBr.frame hframe (by simp_all)⟩
               simp [upd_ne, *])
            | simp [upd_ne, *]
        · simp only [RBPath.rep_L, RBPath.rep_R, RBTree.addr_node]
          refine ⟨?_, hr.frame hframe (by simp_all), hrest.frame_path hframe (by simp_all)⟩
          simp [upd_ne, *]
        · simpa [e8] using h.root
        · simpa using h.nodup
        · simpa [e7] using h.alloc
        · exact hsen.frame_nil (hframe _ (by simp [*]))
        · rw [e7]; exact h.nilAlloc

set_option maxHeartbeats 4000000 in
/-- `rightRotateRB` at the focused node `x` with left child `y`. -/
theorem ShapeZ.rightRotate {s : State} {x y : Nat} {cx cy : Bool} {kx ky sx sy : Int}
    {A B C : RBTree} {cs : RBPath}
    (h : ShapeZ s (.node x cx kx sx (.node y cy ky sy C B) A) cs) :
    ShapeZ (rightRotateRB s x)
      (.node y cy ky sx C (.node x cx kx (B.size0 + A.size0 + 1) B A)) cs := by
  have hal := h.alloc
  obtain ⟨hx, ⟨hy, hC, hB⟩, hA⟩ := h.rep
  have hpath := h.path
  have hsen := h.sentinel
  obtain ⟨hs1, hsz, hs3, hs4, hs5⟩ := h.sentinel
  have hsA := RBTree.size_read hA hsz
  have hsB := RBTree.size_read hB hsz
  have hnd' := h.nodup
  simp only [RBTree.addrs_node, List.nodup_append, List.nodup_cons, List.mem_cons,
    List.mem_append, List.append_assoc, List.cons_append, List.disjoint_cons_right,
    List.disjoint_append_right, List.disjoint_cons_left, List.disjoint_append_left, not_or]
    at hnd'
  have hxN : x ≠ NIL := (hal x (by simp)).1
  have hyN : y ≠ NIL := (hal y (by simp)).1
  have hNx := hxN.symm
  have hNy := hyN.symm
  have hxy : x ≠ y := by rintro rfl; simp_all
  have hyx := hxy.symm
  have hAx : A.addr ≠ x := RBTree.addr_ne hxN (by simp_all)
  have hAy : A.addr ≠ y := RBTree.addr_ne hyN (by simp_all)
  simp only [RBTree.addr_node] at hx hy hpath
  obtain ⟨hx1, hx2, hx3, hx4, hx5, hx6⟩ := hx
  obtain ⟨hy1, hy2, hy3, hy4, hy5, hy6⟩ := hy
  cases cs with
  | nil =>
    simp only [RBPath.addr_empty, RBPath.addrs_empty, List.append_nil] at hx3 hnd' hal
    cases B with
    | nil =>
      simp only [RBTree.addr_nil, RBTree.size0_nil] at hsB hy4 hy5 ⊢
      have e : (rightRotateRB s x).key = s.key ∧
          (rightRotateRB s x).size = upd (upd s.size y sx) x (0 + A.size0 + 1) ∧
          (rightRotateRB s x).parent = upd (upd s.parent y NIL) x y ∧
          (rightRotateRB s x).left = upd s.left x NIL ∧
          (rightRotateRB s x).right = upd s.right y x ∧
          (rightRotateRB s x).color = s.color ∧
          (rightRotateRB s x).next = s.next ∧
          (rightRotateRB s x).root = y := by
        simp [rightRotateRB, upd_ne, *]
      generalize rightRotateRB s x = s' at e ⊢
      obtain ⟨e1, e2, e3, e4, e5, e6, e7, e8⟩ := e
      have hframe : ∀ a, a ∉ [x, y] → State.SameAt s s' a := by
        intro a ha
        simp only [List.mem_cons, List.mem_singleton, not_or, List.not_mem_nil, or_false] at ha
        simp [State.SameAt, upd_ne, ha, e1, e2, e3, e4, e5, e6]
      refine ⟨?_, ?_, ?_, ?_, ?_, ?_, ?_⟩
      · simp only [RBTree.rep_node, RBTree.addr_node, RBTree.rep_nil, RBPath.addr_cons,
          RBPath.addr_empty, RBFrame.addr_L, RBFrame.addr_R]
        refine ⟨?_, ?_, ⟨?_, ?_, ?_⟩⟩
        all_goals first
          | exact hA.frame hframe (by simp_all)
          | exact hC.frame hframe (by simp_all)
          | simp [upd_ne, *]
      · trivial
      · simpa [e8] using h.root
      · simpa using h.nodup
      · simpa [e7] using h.alloc
      · exact hsen.frame_nil (hframe _ (by simp [*]))
      · rw [e7]; exact h.nilAlloc
    | node b cb kb sb Bl Br =>
      obtain ⟨hb, hBl, hBr⟩ := hB
      obtain ⟨hb1, hb2, hb3, hb4, hb5, hb6⟩ := hb
      simp only [RBTree.addr_node, RBTree.size0_node, RBTree.addrs_node, List.mem_append,
        List.mem_cons, not_or, List.nodup_append, List.nodup_cons, List.disjoint_cons_right,
        List.disjoint_append_right, List.disjoint_cons_left, List.disjoint_append_left]
        at hsB hy4 hy5 hnd' hal ⊢
      have hbN : b ≠ NIL := (hal b (by simp)).1
      have hNb := hbN.symm
      have hbx : b ≠ x := by rintro rfl; simp_all
      have hby : b ≠ y := by rintro rfl; simp_all
      have hxb := hbx.symm
      have hyb := hby.symm
      have e : (rightRotateRB s x).key = s.key ∧
          (rightRotateRB s x).size = upd (upd s.size y sx) x (sb + A.size0 + 1) ∧
          (rightRotateRB s x).parent = upd (upd (upd s.parent b x) y NIL) x y ∧
          (rightRotateRB s x).left = upd s.left x b ∧
          (rightRotateRB s x).right = upd s.right y x ∧
          (rightRotateRB s x).color = s.color ∧
          (rightRotateRB s x).next = s.next ∧
          (rightRotateRB s x).root = y := by
        simp [rightRotateRB, upd_ne, *]
      generalize rightRotateRB s x = s' at e ⊢
      obtain ⟨e1, e2, e3, e4, e5, e6, e7, e8⟩ := e
      have hframe : ∀ a, a ∉ [x, y, b] → State.SameAt s s' a := by
        intro a ha
        simp only [List.mem_cons, List.mem_singleton, not_or, List.not_mem_nil, or_false] at ha
        simp [State.SameAt, upd_ne, ha, e1, e2, e3, e4, e5, e6]
      refine ⟨?_, ?_, ?_, ?_, ?_, ?_, ?_⟩
      · simp only [RBTree.rep_node, RBTree.addr_node, RBTree.rep_nil, RBPath.addr_cons,
          RBPath.addr_empty, RBFrame.addr_L, RBFrame.addr_R]
        refine ⟨?_, ?_, ⟨?_, ?_, ?_⟩⟩
        all_goals first
          | exact hA.frame hframe (by simp_all)
          | exact hC.frame hframe (by simp_all)
          | (refine ⟨?_, hBl.frame hframe (by simp_all), hBr.frame hframe (by simp_all)⟩
             simp [upd_ne, *])
          | simp [upd_ne, *]
      · trivial
      · simpa [e8] using h.root
      · simpa using h.nodup
      · simpa [e7] using h.alloc
      · exact hsen.frame_nil (hframe _ (by simp [*]))
      · rw [e7]; exact h.nilAlloc
  | cons f rest =>
    cases f with
    | L p cp kp sp r =>
      obtain ⟨hp, hr, hrest⟩ := hpath
      obtain ⟨hp1, hp2, hp3, hp4, hp5, hp6⟩ := hp
      simp only [RBPath.addr_cons, RBFrame.addr_L, RBPath.addrs_cons, RBFrame.addrs_L,
        List.mem_append, List.mem_cons, not_or, List.nodup_append, List.nodup_cons,
        List.disjoint_cons_right, List.disjoint_append_right, List.disjoint_cons_left,
        List.disjoint_append_left, List.cons_append] at hx3 hnd' hal
      have hpN : p ≠ NIL := (hal p (by simp)).1
      have hNp := hpN.symm
      have hpx : p ≠ x := by rintro rfl; simp_all
      have hpy : p ≠ y := by rintro rfl; simp_all
      have hxp := hpx.symm
      have hyp := hpy.symm
      cases B with
      | nil =>
        simp only [RBTree.addr_nil, RBTree.size0_nil] at hsB hy4 hy5 ⊢
        have e : (rightRotateRB s x).key = s.key ∧
            (rightRotateRB s x).size = upd (upd s.size y sx) x (0 + A.size0 + 1) ∧
            (rightRotateRB s x).parent = upd (upd s.parent y p) x y ∧
            (rightRotateRB s x).left = upd (upd s.left x NIL) p y ∧
            (rightRotateRB s x).right = upd s.right y x ∧
            (rightRotateRB s x).color = s.color ∧
            (rightRotateRB s x).next = s.next ∧
            (rightRotateRB s x).root = s.root := by
          simp [rightRotateRB, upd_ne, *]
        generalize rightRotateRB s x = s' at e ⊢
        obtain ⟨e1, e2, e3, e4, e5, e6, e7, e8⟩ := e
        have hframe : ∀ a, a ∉ [x, y, p] → State.SameAt s s' a := by
          intro a ha
          simp only [List.mem_cons, List.mem_singleton, not_or, List.not_mem_nil, or_false] at ha
          simp [State.SameAt, upd_ne, ha, e1, e2, e3, e4, e5, e6]
        refine ⟨?_, ?_, ?_, ?_, ?_, ?_, ?_⟩
        · simp only [RBTree.rep_node, RBTree.addr_node, RBTree.rep_nil, RBPath.addr_cons,
            RBPath.addr_empty, RBFrame.addr_L, RBFrame.addr_R]
          refine ⟨?_, ?_, ⟨?_, ?_, ?_⟩⟩
          all_goals first
            | exact hA.frame hframe (by simp_all)
            | exact hC.frame hframe (by simp_all)
            | simp [upd_ne, *]
        · simp only [RBPath.rep_L, RBPath.rep_R, RBTree.addr_node]
          refine ⟨?_, hr.frame hframe (by simp_all), hrest.frame_path hframe (by simp_all)⟩
          simp [upd_ne, *]
        · simpa [e8] using h.root
        · simpa using h.nodup
        · simpa [e7] using h.alloc
        · exact hsen.frame_nil (hframe _ (by simp [*]))
        · rw [e7]; exact h.nilAlloc
      | node b cb kb sb Bl Br =>
        obtain ⟨hb, hBl, hBr⟩ := hB
        obtain ⟨hb1, hb2, hb3, hb4, hb5, hb6⟩ := hb
        simp only [RBTree.addr_node, RBTree.size0_node, RBTree.addrs_node, List.mem_append,
          List.mem_cons, not_or, List.nodup_append, List.nodup_cons, List.disjoint_cons_right,
          List.disjoint_append_right, List.disjoint_cons_left, List.disjoint_append_left]
          at hsB hy4 hy5 hnd' hal ⊢
        have hbN : b ≠ NIL := (hal b (by simp)).1
        have hNb := hbN.symm
        have hbx : b ≠ x := by rintro rfl; simp_all
        have hby : b ≠ y := by rintro rfl; simp_all
        have hbp : b ≠ p := by rintro rfl; simp_all
        have hxb := hbx.symm
        have hyb := hby.symm
        have hpb := hbp.symm
        have e : (rightRotateRB s x).key = s.key ∧
            (rightRotateRB s x).size = upd (upd s.size y sx) x (sb + A.size0 + 1) ∧
            (rightRotateRB s x).parent = upd (upd (upd s.parent b x) y p) x y ∧
            (rightRotateRB s x).left = upd (upd s.left x b) p y ∧
            (rightRotateRB s x).right = upd s.right y x ∧
            (rightRotateRB s x).color = s.color ∧
            (rightRotateRB s x).next = s.next ∧
            (rightRotateRB s x).root = s.root := by
          simp [rightRotateRB, upd_ne, *]
        generalize rightRotateRB s x = s' at e ⊢
        obtain ⟨e1, e2, e3, e4, e5, e6, e7, e8⟩ := e
        have hframe : ∀ a, a ∉ [x, y, b, p] → State.SameAt s s' a := by
          intro a ha
          simp only [List.mem_cons, List.mem_singleton, not_or, List.not_mem_nil, or_false] at ha
          simp [State.SameAt, upd_ne, ha, e1, e2, e3, e4, e5, e6]
        refine ⟨?_, ?_, ?_, ?_, ?_, ?_, ?_⟩
        · simp only [RBTree.rep_node, RBTree.addr_node, RBTree.rep_nil, RBPath.addr_cons,
            RBPath.addr_empty, RBFrame.addr_L, RBFrame.addr_R]
          refine ⟨?_, ?_, ⟨?_, ?_, ?_⟩⟩
          all_goals first
            | exact hA.frame hframe (by simp_all)
            | exact hC.frame hframe (by simp_all)
            | (refine ⟨?_, hBl.frame hframe (by simp_all), hBr.frame hframe (by simp_all)⟩
               simp [upd_ne, *])
            | simp [upd_ne, *]
        · simp only [RBPath.rep_L, RBPath.rep_R, RBTree.addr_node]
          refine ⟨?_, hr.frame hframe (by simp_all), hrest.frame_path hframe (by simp_all)⟩
          simp [upd_ne, *]
        · simpa [e8] using h.root
        · simpa using h.nodup
        · simpa [e7] using h.alloc
        · exact hsen.frame_nil (hframe _ (by simp [*]))
        · rw [e7]; exact h.nilAlloc
    | R p cp kp sp r =>
      obtain ⟨hp, hr, hrest⟩ := hpath
      obtain ⟨hp1, hp2, hp3, hp4, hp5, hp6⟩ := hp
      simp only [RBPath.addr_cons, RBFrame.addr_R, RBPath.addrs_cons, RBFrame.addrs_R,
        List.mem_append, List.mem_cons, not_or, List.nodup_append, List.nodup_cons,
        List.disjoint_cons_right, List.disjoint_append_right, List.disjoint_cons_left,
        List.disjoint_append_left, List.cons_append] at hx3 hnd' hal
      have hpN : p ≠ NIL := (hal p (by simp)).1
      have hNp := hpN.symm
      have hpx : p ≠ x := by rintro rfl; simp_all
      have hpy : p ≠ y := by rintro rfl; simp_all
      have hxp := hpx.symm
      have hyp := hpy.symm
      have hrx : x ≠ r.addr := (RBTree.addr_ne hxN (by simp_all)).symm
      cases B with
      | nil =>
        simp only [RBTree.addr_nil, RBTree.size0_nil] at hsB hy4 hy5 ⊢
        have e : (rightRotateRB s x).key = s.key ∧
            (rightRotateRB s x).size = upd (upd s.size y sx) x (0 + A.size0 + 1) ∧
            (rightRotateRB s x).parent = upd (upd s.parent y p) x y ∧
            (rightRotateRB s x).left = upd s.left x NIL ∧
            (rightRotateRB s x).right = upd (upd s.right p y) y x ∧
            (rightRotateRB s x).color = s.color ∧
            (rightRotateRB s x).next = s.next ∧
            (rightRotateRB s x).root = s.root := by
          simp [rightRotateRB, upd_ne, *]
        generalize rightRotateRB s x = s' at e ⊢
        obtain ⟨e1, e2, e3, e4, e5, e6, e7, e8⟩ := e
        have hframe : ∀ a, a ∉ [x, y, p] → State.SameAt s s' a := by
          intro a ha
          simp only [List.mem_cons, List.mem_singleton, not_or, List.not_mem_nil, or_false] at ha
          simp [State.SameAt, upd_ne, ha, e1, e2, e3, e4, e5, e6]
        refine ⟨?_, ?_, ?_, ?_, ?_, ?_, ?_⟩
        · simp only [RBTree.rep_node, RBTree.addr_node, RBTree.rep_nil, RBPath.addr_cons,
            RBPath.addr_empty, RBFrame.addr_L, RBFrame.addr_R]
          refine ⟨?_, ?_, ⟨?_, ?_, ?_⟩⟩
          all_goals first
            | exact hA.frame hframe (by simp_all)
            | exact hC.frame hframe (by simp_all)
            | simp [upd_ne, *]
        · simp only [RBPath.rep_L, RBPath.rep_R, RBTree.addr_node]
          refine ⟨?_, hr.frame hframe (by simp_all), hrest.frame_path hframe (by simp_all)⟩
          simp [upd_ne, *]
        · simpa [e8] using h.root
        · simpa using h.nodup
        · simpa [e7] using h.alloc
        · exact hsen.frame_nil (hframe _ (by simp [*]))
        · rw [e7]; exact h.nilAlloc
      | node b cb kb sb Bl Br =>
        obtain ⟨hb, hBl, hBr⟩ := hB
        obtain ⟨hb1, hb2, hb3, hb4, hb5, hb6⟩ := hb
        simp only [RBTree.addr_node, RBTree.size0_node, RBTree.addrs_node, List.mem_append,
          List.mem_cons, not_or, List.nodup_append, List.nodup_cons, List.disjoint_cons_right,
          List.disjoint_append_right, List.disjoint_cons_left, List.disjoint_append_left]
          at hsB hy4 hy5 hnd' hal ⊢
        have hbN : b ≠ NIL := (hal b (by simp)).1
        have hNb := hbN.symm
        have hbx : b ≠ x := by rintro rfl; simp_all
        have hby : b ≠ y := by rintro rfl; simp_all
        have hbp : b ≠ p := by rintro rfl; simp_all
        have hxb := hbx.symm
        have hyb := hby.symm
        have hpb := hbp.symm
        have e : (rightRotateRB s x).key = s.key ∧
            (rightRotateRB s x).size = upd (upd s.size y sx) x (sb + A.size0 + 1) ∧
            (rightRotateRB s x).parent = upd (upd (upd s.parent b x) y p) x y ∧
            (rightRotateRB s x).left = upd s.left x b ∧
            (rightRotateRB s x).right = upd (upd s.right p y) y x ∧
            (rightRotateRB s x).color = s.color ∧
            (rightRotateRB s x).next = s.next ∧
            (rightRotateRB s x).root = s.root := by
          simp [rightRotateRB, upd_ne, *]
        generalize rightRotateRB s x = s' at e ⊢
        obtain ⟨e1, e2, e3, e4, e5, e6, e7, e8⟩ := e
        have hframe : ∀ a, a ∉ [x, y, b, p] → State.SameAt s s' a := by
          intro a ha
          simp only [List.mem_cons, List.mem_singleton, not_or, List.not_mem_nil, or_false] at ha
          simp [State.SameAt, upd_ne, ha, e1, e2, e3, e4, e5, e6]
        refine ⟨?_, ?_, ?_, ?_, ?_, ?_, ?_⟩
        · simp only [RBTree.rep_node, RBTree.addr_node, RBTree.rep_nil, RBPath.addr_cons,
            RBPath.addr_empty, RBFrame.addr_L, RBFrame.addr_R]
          refine ⟨?_, ?_, ⟨?_, ?_, ?_⟩⟩
          all_goals first
            | exact hA.frame hframe (by simp_all)
            | exact hC.frame hframe (by simp_all)
            | (refine ⟨?_, hBl.frame hframe (by simp_all), hBr.frame hframe (by simp_all)⟩
               simp [upd_ne, *])
            | simp [upd_ne, *]
        · simp only [RBPath.rep_L, RBPath.rep_R, RBTree.addr_node]
          refine ⟨?_, hr.frame hframe (by simp_all), hrest.frame_path hframe (by simp_all)⟩
          simp [upd_ne, *]
        · simpa [e8] using h.root
        · simpa using h.nodup
        · simpa [e7] using h.alloc
        · exact hsen.frame_nil (hframe _ (by simp [*]))
        · rw [e7]; exact h.nilAlloc

namespace ShapeZ

theorem toShape {s : State} {t : RBTree} {cs : RBPath} (h : ShapeZ s t cs) :
    Shape s (RBPath.plug t cs) := (shape_plug_iff s t cs).mpr h

/-- Moving the focus to the parent. -/
theorem up {s : State} {t : RBTree} {f : RBFrame} {cs : RBPath} (h : ShapeZ s t (f :: cs)) :
    ShapeZ s (f.fill t) cs := (shape_plug_iff s _ cs).mp h.toShape

theorem downL {s : State} {a : Nat} {c : Bool} {k sz : Int} {l r : RBTree} {cs : RBPath}
    (h : ShapeZ s (.node a c k sz l r) cs) : ShapeZ s l (.L a c k sz r :: cs) :=
  (shape_plug_iff s l (.L a c k sz r :: cs)).mp h.toShape

theorem downR {s : State} {a : Nat} {c : Bool} {k sz : Int} {l r : RBTree} {cs : RBPath}
    (h : ShapeZ s (.node a c k sz l r) cs) : ShapeZ s r (.R a c k sz l :: cs) :=
  (shape_plug_iff s r (.R a c k sz l :: cs)).mp h.toShape

theorem key_root {s : State} {a : Nat} {c : Bool} {k sz : Int} {l r : RBTree} {cs : RBPath}
    (h : ShapeZ s (.node a c k sz l r) cs) : s.key a = k := h.rep.1.1
theorem size_root {s : State} {a : Nat} {c : Bool} {k sz : Int} {l r : RBTree} {cs : RBPath}
    (h : ShapeZ s (.node a c k sz l r) cs) : s.size a = sz := h.rep.1.2.1
theorem parent_root {s : State} {a : Nat} {c : Bool} {k sz : Int} {l r : RBTree} {cs : RBPath}
    (h : ShapeZ s (.node a c k sz l r) cs) : s.parent a = RBPath.addr cs NIL := h.rep.1.2.2.1
theorem left_root {s : State} {a : Nat} {c : Bool} {k sz : Int} {l r : RBTree} {cs : RBPath}
    (h : ShapeZ s (.node a c k sz l r) cs) : s.left a = l.addr := h.rep.1.2.2.2.1
theorem right_root {s : State} {a : Nat} {c : Bool} {k sz : Int} {l r : RBTree} {cs : RBPath}
    (h : ShapeZ s (.node a c k sz l r) cs) : s.right a = r.addr := h.rep.1.2.2.2.2.1
theorem color_root {s : State} {a : Nat} {c : Bool} {k sz : Int} {l r : RBTree} {cs : RBPath}
    (h : ShapeZ s (.node a c k sz l r) cs) : s.color a = c := h.rep.1.2.2.2.2.2

/-- The colour read through the pointer to the focused subtree. -/
theorem color_addr {s : State} {t : RBTree} {cs : RBPath} (h : ShapeZ s t cs) :
    s.color t.addr = t.color0 := RBTree.color_read h.rep h.sentinel.2.2.2.2
theorem size_addr {s : State} {t : RBTree} {cs : RBPath} (h : ShapeZ s t cs) :
    s.size t.addr = t.size0 := RBTree.size_read h.rep h.sentinel.2.1

theorem root_ne_nil {s : State} {a : Nat} {c : Bool} {k sz : Int} {l r : RBTree} {cs : RBPath}
    (h : ShapeZ s (.node a c k sz l r) cs) : a ≠ NIL := (h.alloc a (by simp)).1

theorem focus_eq_nil_iff {s : State} {t : RBTree} {cs : RBPath} (h : ShapeZ s t cs) :
    t.addr = NIL ↔ t = .nil :=
  RBTree.addr_eq_nil_iff (fun hm => (h.alloc NIL (by simp [hm])).1 rfl)

/-- Writing colour and size of the focused node. -/
theorem store_root {s s' : State} {a : Nat} {c : Bool} {k sz : Int} {l r : RBTree} {cs : RBPath}
    (h : ShapeZ s (.node a c k sz l r) cs) (c' : Bool) (sz' : Int)
    (hk : s'.key = s.key) (hs : s'.size = upd s.size a sz') (hp : s'.parent = s.parent)
    (hl : s'.left = s.left) (hr : s'.right = s.right) (hc : s'.color = upd s.color a c')
    (hn : s'.next = s.next) (hroot : s'.root = s.root) :
    ShapeZ s' (.node a c' k sz' l r) cs := by
  have hnd := h.nodup
  simp only [RBTree.addrs_node, List.nodup_append, List.nodup_cons, List.mem_cons,
    List.mem_append, List.append_assoc, List.cons_append, List.disjoint_cons_right,
    List.disjoint_append_right, List.disjoint_cons_left, List.disjoint_append_left, not_or]
    at hnd
  have haN : a ≠ NIL := h.root_ne_nil
  have hframe : ∀ b, b ∉ [a] → State.SameAt s s' b := by
    intro b hb
    simp only [List.mem_singleton] at hb
    simp [State.SameAt, upd_ne, hb, hk, hs, hp, hl, hr, hc]
  obtain ⟨⟨h1, h2, h3, h4, h5, h6⟩, hL, hR⟩ := h.rep
  refine ⟨⟨?_, hL.frame hframe (by simp_all), hR.frame hframe (by simp_all)⟩,
    h.path.frame_path hframe (by simp_all), by rw [hroot]; exact h.root, h.nodup, ?_, ?_, ?_⟩
  · simp [hk, hs, hp, hl, hr, hc, h1, h3, h4, h5]
  · simpa [hn] using h.alloc
  · exact h.sentinel.frame_nil (hframe _ (by simp [Ne.symm haN]))
  · rw [hn]; exact h.nilAlloc

theorem setColor_root {s : State} {a : Nat} {c : Bool} {k sz : Int} {l r : RBTree} {cs : RBPath}
    (h : ShapeZ s (.node a c k sz l r) cs) (c' : Bool) :
    ShapeZ (s.setColor a c') (.node a c' k sz l r) cs := by
  refine h.store_root c' sz rfl ?_ rfl rfl rfl rfl rfl rfl
  funext b
  by_cases hb : b = a
  · subst hb; simp [h.size_root]
  · simp [upd_ne, hb]

theorem setSize_root {s : State} {a : Nat} {c : Bool} {k sz : Int} {l r : RBTree} {cs : RBPath}
    (h : ShapeZ s (.node a c k sz l r) cs) (sz' : Int) :
    ShapeZ (s.setSize a sz') (.node a c k sz' l r) cs := by
  refine h.store_root c sz' rfl rfl rfl rfl rfl ?_ rfl rfl
  funext b
  by_cases hb : b = a
  · subst hb; simp [h.color_root]
  · simp [upd_ne, hb]

end ShapeZ

@[simp] theorem leftRotateRB_next (s : State) (x : Nat) : (leftRotateRB s x).next = s.next := by
  unfold leftRotateRB
  simp only [State.setSize_next, State.setParent_next, State.setLeft_next]
  split_ifs <;> simp

@[simp] theorem leftRotateRB_freed (s : State) (x : Nat) :
    (leftRotateRB s x).freed = s.freed := by
  unfold leftRotateRB
  simp only [State.setSize_freed, State.setParent_freed, State.setLeft_freed]
  split_ifs <;> simp

@[simp] theorem rightRotateRB_next (s : State) (x : Nat) : (rightRotateRB s x).next = s.next := by
  unfold rightRotateRB
  simp only [State.setSize_next, State.setParent_next, State.setRight_next]
  split_ifs <;> simp

@[simp] theorem rightRotateRB_freed (s : State) (x : Nat) :
    (rightRotateRB s x).freed = s.freed := by
  unfold rightRotateRB
  simp only [State.setSize_freed, State.setParent_freed, State.setRight_freed]
  split_ifs <;> simp

/-! ## Dynamic tree: invariants along a path -/

namespace RBTree

@[simp] theorem sizeInv_nil : SizeInv nil ↔ True := Iff.rfl
theorem sizeInv_node (a : Nat) (c : Bool) (k s : Int) (l r : RBTree) :
    SizeInv (node a c k s l r) ↔ s = 1 + l.size0 + r.size0 ∧ SizeInv l ∧ SizeInv r := Iff.rfl
@[simp] theorem noRedRed_nil : NoRedRed nil ↔ True := Iff.rfl
theorem noRedRed_node (a : Nat) (c : Bool) (k s : Int) (l r : RBTree) :
    NoRedRed (node a c k s l r) ↔
      (c = false → l.color0 = true ∧ r.color0 = true) ∧ NoRedRed l ∧ NoRedRed r := Iff.rfl
@[simp] theorem blackBalanced_nil : BlackBalanced nil ↔ True := Iff.rfl
theorem blackBalanced_node (a : Nat) (c : Bool) (k s : Int) (l r : RBTree) :
    BlackBalanced (node a c k s l r) ↔
      blackHeight l = blackHeight r ∧ BlackBalanced l ∧ BlackBalanced r := Iff.rfl
@[simp] theorem blackHeight_nil : blackHeight nil = 0 := rfl
@[simp] theorem blackHeight_node (a : Nat) (c : Bool) (k s : Int) (l r : RBTree) :
    blackHeight (node a c k s l r) = blackHeight l + (if c then 1 else 0) := rfl
@[simp] theorem wf_nil : WF nil := ⟨trivial, trivial⟩
theorem wf_node (a : Nat) (c : Bool) (k s : Int) (l r : RBTree) :
    WF (node a c k s l r) ↔
      (c = false → l.color0 = true ∧ r.color0 = true) ∧ blackHeight l = blackHeight r ∧
        WF l ∧ WF r := by
  simp only [WF, noRedRed_node, blackBalanced_node]
  tauto
@[simp] theorem bst_nil : BST nil ↔ True := Iff.rfl
theorem bst_node (a : Nat) (c : Bool) (k s : Int) (l r : RBTree) :
    BST (node a c k s l r) ↔
      (∀ x ∈ keys l, x ≤ k) ∧ (∀ x ∈ keys r, k ≤ x) ∧ BST l ∧ BST r := Iff.rfl

theorem bst_iff_sorted : ∀ t : RBTree, BST t ↔ t.keys.Sorted (· ≤ ·)
  | nil => by simp
  | node a c k s l r => by
    simp only [bst_node, keys_node, List.Sorted, List.pairwise_append, List.pairwise_cons,
      List.mem_cons, bst_iff_sorted l, bst_iff_sorted r]
    constructor
    · rintro ⟨h1, h2, h3, h4⟩
      refine ⟨h3, ⟨h2, h4⟩, ?_⟩
      intro x hx y hy
      rcases hy with rfl | hy
      · exact h1 x hx
      · exact le_trans (h1 x hx) (h2 y hy)
    · rintro ⟨h3, ⟨h2, h4⟩, h5⟩
      exact ⟨fun x hx => h5 x hx k (Or.inl rfl), h2, h3, h4⟩

theorem size0_eq_length : ∀ t : RBTree, SizeInv t → t.size0 = (t.keys.length : Int)
  | nil, _ => rfl
  | node a c k s l r, h => by
    obtain ⟨hs, hl, hr⟩ := h
    have := size0_eq_length l hl
    have := size0_eq_length r hr
    simp only [size0_node, keys_node, List.length_append, List.length_cons]
    push_cast
    omega

theorem keys_length_eq_addrs_length : ∀ t : RBTree, t.keys.length = t.addrs.length
  | nil => rfl
  | node a c k s l r => by
    simp [keys_length_eq_addrs_length l, keys_length_eq_addrs_length r]

theorem keys_ins_perm (key : Int) (z : RBTree) : ∀ t : RBTree,
    (ins key z t).keys.Perm (z.keys ++ t.keys)
  | nil => by simp [ins]
  | node a c k s l r => by
    unfold ins
    split
    · simp only [keys_node]
      have := keys_ins_perm key z l
      rw [← List.append_assoc]
      exact List.Perm.append_right _ this
    · simp only [keys_node]
      have := keys_ins_perm key z r
      have h1 : (l.keys ++ k :: (ins key z r).keys).Perm (l.keys ++ k :: (z.keys ++ r.keys)) :=
        List.Perm.append_left _ (List.Perm.cons _ this)
      refine h1.trans ?_
      have e1 : l.keys ++ k :: (z.keys ++ r.keys) = (l.keys ++ [k]) ++ z.keys ++ r.keys := by
        simp
      have e2 : z.keys ++ (l.keys ++ k :: r.keys) = z.keys ++ (l.keys ++ [k]) ++ r.keys := by
        simp
      rw [e1, e2]
      exact List.Perm.append_right _ List.perm_append_comm

theorem bst_ins (key : Int) (z : RBTree) (hz : z.keys = [key]) (hzb : BST z) :
    ∀ t : RBTree, BST t → BST (ins key z t)
  | nil, _ => by simpa [ins] using hzb
  | node a c k s l r, h => by
    obtain ⟨h1, h2, h3, h4⟩ := h
    unfold ins
    split
    · rename_i hlt
      refine ⟨?_, h2, bst_ins key z hz hzb l h3, h4⟩
      intro x hx
      have := (keys_ins_perm key z l).mem_iff.mp hx
      rw [hz] at this
      simp only [List.singleton_append, List.mem_cons] at this
      rcases this with rfl | hx'
      · exact le_of_lt hlt
      · exact h1 x hx'
    · rename_i hge
      refine ⟨h1, ?_, h3, bst_ins key z hz hzb r h4⟩
      intro x hx
      have := (keys_ins_perm key z r).mem_iff.mp hx
      rw [hz] at this
      simp only [List.singleton_append, List.mem_cons] at this
      rcases this with rfl | hx'
      · exact not_lt.mp hge
      · exact h2 x hx'

end RBTree

namespace RBPath

@[simp] theorem before_nil : before [] = [] := rfl
@[simp] theorem before_L (a : Nat) (c : Bool) (k s : Int) (r : RBTree) (cs : RBPath) :
    before (RBFrame.L a c k s r :: cs) = before cs := rfl
@[simp] theorem before_R (a : Nat) (c : Bool) (k s : Int) (l : RBTree) (cs : RBPath) :
    before (RBFrame.R a c k s l :: cs) = before cs ++ l.keys ++ [k] := rfl
@[simp] theorem after_nil : after [] = [] := rfl
@[simp] theorem after_L (a : Nat) (c : Bool) (k s : Int) (r : RBTree) (cs : RBPath) :
    after (RBFrame.L a c k s r :: cs) = k :: r.keys ++ after cs := rfl
@[simp] theorem after_R (a : Nat) (c : Bool) (k s : Int) (l : RBTree) (cs : RBPath) :
    after (RBFrame.R a c k s l :: cs) = after cs := rfl
@[simp] theorem sizeInv_empty (n : Int) : SizeInv [] n ↔ True := Iff.rfl
theorem sizeInv_cons (f : RBFrame) (cs : RBPath) (n : Int) :
    SizeInv (f :: cs) n ↔ f.size = 1 + n + f.sib.size0 ∧ f.sib.SizeInv ∧ SizeInv cs f.size :=
  Iff.rfl
@[simp] theorem accepts_nil (c : Bool) (n : Nat) : Accepts [] c n ↔ c = true := Iff.rfl
theorem accepts_cons (f : RBFrame) (cs : RBPath) (c : Bool) (n : Nat) :
    Accepts (f :: cs) c n ↔
      (f.color = false → c = true ∧ f.sib.color0 = true) ∧ f.sib.WF ∧ f.sib.blackHeight = n ∧
        Accepts cs f.color (n + (if f.color then 1 else 0)) := Iff.rfl

theorem keys_plug : ∀ (cs : RBPath) (t : RBTree),
    (plug t cs).keys = before cs ++ t.keys ++ after cs
  | [], t => by simp
  | RBFrame.L a c k s r :: cs, t => by
    rw [plug_cons, keys_plug cs]; simp
  | RBFrame.R a c k s l :: cs, t => by
    rw [plug_cons, keys_plug cs]; simp

theorem sizeInv_plug : ∀ (cs : RBPath) (t : RBTree),
    (plug t cs).SizeInv ↔ t.SizeInv ∧ SizeInv cs t.size0
  | [], t => by simp
  | RBFrame.L a c k s r :: cs, t => by
    rw [plug_cons, sizeInv_plug cs]
    simp only [RBFrame.fill_L, RBTree.sizeInv_node, RBTree.size0_node, sizeInv_cons,
      RBFrame.size, RBFrame.sib]
    tauto
  | RBFrame.R a c k s l :: cs, t => by
    rw [plug_cons, sizeInv_plug cs]
    simp only [RBFrame.fill_R, RBTree.sizeInv_node, RBTree.size0_node, sizeInv_cons,
      RBFrame.size, RBFrame.sib]
    constructor
    · rintro ⟨⟨h1, h2, h3⟩, h4⟩
      exact ⟨h3, by omega, h2, h4⟩
    · rintro ⟨h3, h1, h2, h4⟩
      exact ⟨⟨by omega, h2, h3⟩, h4⟩

theorem redBlack_plug : ∀ (cs : RBPath) (t : RBTree),
    (plug t cs).RedBlack ↔ t.WF ∧ Accepts cs t.color0 t.blackHeight
  | [], t => by
    simp only [plug_nil, RBTree.RedBlack, RBTree.WF, accepts_nil]
    tauto
  | RBFrame.L a c k s r :: cs, t => by
    rw [plug_cons, redBlack_plug cs]
    simp only [RBFrame.fill_L, RBTree.wf_node, RBTree.color0_node, RBTree.blackHeight_node,
      accepts_cons, RBFrame.color, RBFrame.sib]
    constructor
    · rintro ⟨⟨h1, h2, h3, h4⟩, h5⟩
      exact ⟨h3, h1, h4, h2.symm, h5⟩
    · rintro ⟨h3, h1, h4, h2, h5⟩
      exact ⟨⟨h1, h2.symm, h3, h4⟩, h5⟩
  | RBFrame.R a c k s l :: cs, t => by
    rw [plug_cons, redBlack_plug cs]
    simp only [RBFrame.fill_R, RBTree.wf_node, RBTree.color0_node, RBTree.blackHeight_node,
      accepts_cons, RBFrame.color, RBFrame.sib]
    constructor
    · rintro ⟨⟨h1, h2, h3, h4⟩, h5⟩
      refine ⟨h4, fun hc => ⟨(h1 hc).2, (h1 hc).1⟩, h3, h2, ?_⟩
      rw [← h2]; exact h5
    · rintro ⟨h4, h1, h3, h2, h5⟩
      refine ⟨⟨fun hc => ⟨(h1 hc).2, (h1 hc).1⟩, h2, h3, h4⟩, ?_⟩
      rw [h2]; exact h5

theorem plug_ins (key : Int) (z : RBTree) : ∀ (t : RBTree) (cs : RBPath),
    plug z (ins key t cs) = plug (RBTree.ins key z t) cs
  | RBTree.nil, cs => rfl
  | RBTree.node a c k s l r, cs => by
    unfold ins RBTree.ins
    split
    · rw [plug_ins key z l]; rfl
    · rw [plug_ins key z r]; rfl

/-- A path accepting a red subtree also accepts a black one. -/
theorem Accepts.black {cs : RBPath} {c : Bool} {n : Nat} (h : Accepts cs c n) :
    Accepts cs true n := by
  cases cs with
  | nil => rfl
  | cons f cs =>
    obtain ⟨h1, h2, h3, h4⟩ := h
    exact ⟨fun hc => ⟨rfl, (h1 hc).2⟩, h2, h3, h4⟩

end RBPath

/-! ## Dynamic tree: `insertRB` before the fixup -/

namespace RBPath

theorem dir_ins (key : Int) : ∀ (t : RBTree) (cs : RBPath), Dir key cs → Dir key (ins key t cs)
  | RBTree.nil, _, h => h
  | RBTree.node a c k s l r, cs, _ => by
    unfold ins
    split
    · rename_i hlt; exact dir_ins key l _ hlt
    · rename_i hge; exact dir_ins key r _ hge

end RBPath

/-- The descent loop of `insertRB` reaches the leaf below the path `ins key t cs`. -/
theorem insertRB_descend_spec (key : Int) : ∀ (t : RBTree) (cs : RBPath) (s : State) (fuel : Nat),
    ShapeZ s t cs → t.height < fuel →
    ∃ s', insertRB.descend key fuel s (RBPath.addr cs NIL) t.addr =
        some (s', RBPath.addr (RBPath.ins key t cs) NIL) ∧
      ShapeZ s' .nil (RBPath.ins key t cs) ∧ s'.next = s.next ∧ s'.freed = s.freed
  | .nil, cs, s, fuel, h, hf => by
    obtain ⟨fuel, rfl⟩ : ∃ n, fuel = n + 1 := ⟨fuel - 1, by omega⟩
    exact ⟨s, by simp [insertRB.descend, RBPath.ins], h, rfl, rfl⟩
  | .node a c k sz l r, cs, s, fuel, h, hf => by
    obtain ⟨fuel, rfl⟩ : ∃ n, fuel = n + 1 := ⟨fuel - 1, by omega⟩
    simp only [RBTree.height] at hf
    have haN := h.root_ne_nil
    have h1 := h.setSize_root (sz + 1)
    simp only [insertRB.descend, RBTree.addr_node, ne_eq, haN, not_false_eq_true, if_true,
      h.size_root, State.setSize_key, h.key_root, State.setSize_left, State.setSize_right,
      h.left_root, h.right_root]
    unfold RBPath.ins
    by_cases hlt : key < k
    · simp only [hlt, if_true]
      obtain ⟨s', e1, e2, e3, e4⟩ :=
        insertRB_descend_spec key l (.L a c k (sz + 1) r :: cs) _ fuel h1.downL (by omega)
      exact ⟨s', e1, e2, e3, e4⟩
    · simp only [hlt, if_false]
      obtain ⟨s', e1, e2, e3, e4⟩ :=
        insertRB_descend_spec key r (.R a c k (sz + 1) l :: cs) _ fuel h1.downR (by omega)
      exact ⟨s', e1, e2, e3, e4⟩

/-- The statements of `insertRB` between the descent and the fixup: the new
red node is created and linked below `y`. -/
theorem insertRB_link_spec (key : Int) (s : State) (cs : RBPath) (h : ShapeZ s .nil cs)
    (hd : RBPath.Dir key cs) :
    ∃ s', (let y := RBPath.addr cs NIL
           let z := s.alloc.1
           let s := s.alloc.2
           let s := s.setKey z key
           let s := s.setLeft z NIL
           let s := s.setRight z NIL
           let s := s.setParent z y
           let s := s.setColor z false
           let s := s.setSize z 1
           if y = NIL then s.setRoot z
           else if s.key z < s.key y then s.setLeft y z
           else s.setRight y z) = s' ∧
      ShapeZ s' (.node s.next false key 1 .nil .nil) cs ∧ s'.next = s.next + 1 ∧
      s'.freed = s.freed := by
  refine ⟨_, rfl, ?_⟩
  have hal := h.alloc
  have hzN : s.next ≠ NIL := Nat.ne_of_gt h.nilAlloc
  have hNz := hzN.symm
  have hnd' := h.nodup
  have hpath := h.path
  have hsen := h.sentinel
  simp only [RBTree.addrs_nil, List.nil_append] at hal hnd'
  have hfresh : s.next ∉ RBPath.addrs cs := fun hm => Nat.lt_irrefl _ (hal _ hm).2
  cases cs with
  | nil =>
    simp only [RBPath.addr_empty, if_true]
    generalize hs' : ((((((s.alloc.2.setKey s.alloc.1 key).setLeft s.alloc.1 NIL).setRight
      s.alloc.1 NIL).setParent s.alloc.1 NIL).setColor s.alloc.1 false).setSize
      s.alloc.1 1).setRoot s.alloc.1 = s'
    have e : s'.key = upd s.key s.next key ∧ s'.size = upd s.size s.next 1 ∧
        s'.parent = upd s.parent s.next NIL ∧ s'.left = upd s.left s.next NIL ∧
        s'.right = upd s.right s.next NIL ∧ s'.color = upd s.color s.next false ∧
        s'.next = s.next + 1 ∧ s'.root = s.next ∧ s'.freed = s.freed := by
      subst hs'; simp
    obtain ⟨e1, e2, e3, e4, e5, e6, e7, e8, e9⟩ := e
    have hframe : ∀ a, a ∉ [s.next] → State.SameAt s s' a := by
      intro a ha
      simp only [List.mem_singleton] at ha
      simp [State.SameAt, upd_ne, ha, e1, e2, e3, e4, e5, e6]
    refine ⟨⟨?_, trivial, ?_, ?_, ?_, hsen.frame_nil (hframe _ (by simp [hNz])), ?_⟩, e7, e9⟩
    · simp [RBTree.rep_node, e1, e2, e3, e4, e5, e6]
    · simp [e8]
    · simp
    · simp [e7, hzN]
    · rw [e7]; exact Nat.lt_succ_of_lt h.nilAlloc
  | cons f rest =>
    cases f with
    | L p cp kp sp r =>
      obtain ⟨hp, hr, hrest⟩ := hpath
      obtain ⟨hp1, hp2, hp3, hp4, hp5, hp6⟩ := hp
      simp only [RBPath.addr_cons, RBFrame.addr_L, RBPath.addrs_cons, RBFrame.addrs_L,
        List.mem_append, List.mem_cons, not_or, List.nodup_append, List.nodup_cons,
        List.disjoint_cons_right, List.disjoint_append_right, List.disjoint_cons_left,
        List.disjoint_append_left, List.cons_append] at hnd' hal hfresh ⊢
      have hpN : p ≠ NIL := (hal p (by simp)).1
      have hpz : p ≠ s.next := Ne.symm hfresh.1
      have hlt : key < kp := hd
      generalize hs' : (if p = NIL then _ else _ : State) = s'
      have e : s'.key = upd s.key s.next key ∧ s'.size = upd s.size s.next 1 ∧
          s'.parent = upd s.parent s.next p ∧ s'.left = upd (upd s.left s.next NIL) p s.next ∧
          s'.right = upd s.right s.next NIL ∧ s'.color = upd s.color s.next false ∧
          s'.next = s.next + 1 ∧ s'.root = s.root ∧ s'.freed = s.freed := by
        subst hs'; simp [hpN, upd_ne, hpz, hp1, hlt]
      obtain ⟨e1, e2, e3, e4, e5, e6, e7, e8, e9⟩ := e
      have hframe : ∀ a, a ∉ [s.next, p] → State.SameAt s s' a := by
        intro a ha
        simp only [List.mem_cons, List.mem_singleton, not_or, List.not_mem_nil, or_false] at ha
        simp [State.SameAt, upd_ne, ha, e1, e2, e3, e4, e5, e6]
      refine ⟨⟨?_, ⟨?_, hr.frame hframe (by simp_all), hrest.frame_path hframe (by simp_all)⟩,
        ?_, ?_, ?_, hsen.frame_nil (hframe _ (by simp [hNz, hpN.symm])), ?_⟩, e7, e9⟩
      · simp [RBTree.rep_node, e1, e2, e3, e4, e5, e6, upd_ne, hpz.symm]
      · simp [e1, e2, e3, e4, e5, e6, upd_ne, hpz, hp1, hp2, hp3, hp5, hp6]
      · simpa [e8] using h.root
      · simpa [hfresh] using h.nodup
      · intro a ha
        simp only [RBTree.addrs_node, RBTree.addrs_nil, List.nil_append, List.cons_append,
          RBPath.addrs_cons, RBFrame.addrs_L, List.mem_cons, List.mem_append] at ha
        rcases ha with rfl | ha
        · exact ⟨hzN, by omega⟩
        · have := hal a (by simpa using ha)
          exact ⟨this.1, by omega⟩
      · rw [e7]; exact Nat.lt_succ_of_lt h.nilAlloc
    | R p cp kp sp r =>
      obtain ⟨hp, hr, hrest⟩ := hpath
      obtain ⟨hp1, hp2, hp3, hp4, hp5, hp6⟩ := hp
      simp only [RBPath.addr_cons, RBFrame.addr_R, RBPath.addrs_cons, RBFrame.addrs_R,
        List.mem_append, List.mem_cons, not_or, List.nodup_append, List.nodup_cons,
        List.disjoint_cons_right, List.disjoint_append_right, List.disjoint_cons_left,
        List.disjoint_append_left, List.cons_append] at hnd' hal hfresh ⊢
      have hpN : p ≠ NIL := (hal p (by simp)).1
      have hpz : p ≠ s.next := Ne.symm hfresh.1
      have hlt : ¬ key < kp := hd
      generalize hs' : (if p = NIL then _ else _ : State) = s'
      have e : s'.key = upd s.key s.next key ∧ s'.size = upd s.size s.next 1 ∧
          s'.parent = upd s.parent s.next p ∧ s'.left = upd s.left s.next NIL ∧
          s'.right = upd (upd s.right s.next NIL) p s.next ∧
          s'.color = upd s.color s.next false ∧
          s'.next = s.next + 1 ∧ s'.root = s.root ∧ s'.freed = s.freed := by
        subst hs'; simp [hpN, upd_ne, hpz, hp1, hlt]
      obtain ⟨e1, e2, e3, e4, e5, e6, e7, e8, e9⟩ := e
      have hframe : ∀ a, a ∉ [s.next, p] → State.SameAt s s' a := by
        intro a ha
        simp only [List.mem_cons, List.mem_singleton, not_or, List.not_mem_nil, or_false] at ha
        simp [State.SameAt, upd_ne, ha, e1, e2, e3, e4, e5, e6]
      refine ⟨⟨?_, ⟨?_, hr.frame hframe (by simp_all), hrest.frame_path hframe (by simp_all)⟩,
        ?_, ?_, ?_, hsen.frame_nil (hframe _ (by simp [hNz, hpN.symm])), ?_⟩, e7, e9⟩
      · simp [RBTree.rep_node, e1, e2, e3, e4, e5, e6, upd_ne, hpz.symm]
      · simp [e1, e2, e3, e4, e5, e6, upd_ne, hpz, hp1, hp2, hp3, hp4, hp6]
      · simpa [e8] using h.root
      · simpa [hfresh] using h.nodup
      · intro a ha
        simp only [RBTree.addrs_node, RBTree.addrs_nil, List.nil_append, List.cons_append,
          RBPath.addrs_cons, RBFrame.addrs_R, List.mem_cons, List.mem_append] at ha
        rcases ha with rfl | ha
        · exact ⟨hzN, by omega⟩
        · have := hal a (by simpa using ha)
          exact ⟨this.1, by omega⟩
      · rw [e7]; exact Nat.lt_succ_of_lt h.nilAlloc

/-! ## Dynamic tree: `insertRBFix` -/

theorem State.setColor_same (s : State) (a : Nat) : s.setColor a (s.color a) = s := by
  cases s
  simp only [State.setColor, State.mk.injEq, true_and, and_true]
  funext b
  by_cases hb : b = a
  · subst hb; simp
  · simp [upd_ne, hb]

/-- The final `(*root)->color = 1` changes nothing when the root is black already. -/
theorem Shape.setColor_root_noop {s : State} {t : RBTree} (h : Shape s t)
    (hc : t.color0 = true) : s.setColor s.root true = s := by
  have : s.color s.root = true := by
    rw [h.root]
    exact RBTree.color_read h.rep h.sentinel.2.2.2.2 |>.trans hc
  rw [← this, State.setColor_same]

theorem RBTree.Good.of_keys {t t' : RBTree} (hk : t'.keys = t.keys)
    (hs : t.keys.Sorted (· ≤ ·)) (hsz : t'.SizeInv) (hrb : t'.RedBlack) : t'.Good :=
  ⟨(RBTree.bst_iff_sorted t').mpr (hk ▸ hs), hsz, hrb⟩

theorem RBPath.plug_addrs_congr {t t' : RBTree} (cs : RBPath) (h : t.addrs.Perm t'.addrs) :
    (RBPath.plug t cs).addrs.Perm (RBPath.plug t' cs).addrs :=
  (RBPath.plug_addrs_perm cs t).trans
    ((h.append_right _).trans (RBPath.plug_addrs_perm cs t').symm)

theorem RBPath.plug_keys_congr {t t' : RBTree} (cs : RBPath) (h : t.keys = t'.keys) :
    (RBPath.plug t cs).keys = (RBPath.plug t' cs).keys := by
  rw [RBPath.keys_plug, RBPath.keys_plug, h]

theorem RBPath.plug_sizeInv_congr {t t' : RBTree} (cs : RBPath) (h : t.size0 = t'.size0)
    (h' : t.SizeInv → t'.SizeInv) :
    (RBPath.plug t cs).SizeInv → (RBPath.plug t' cs).SizeInv := by
  rw [RBPath.sizeInv_plug, RBPath.sizeInv_plug, h]
  exact fun ⟨a, b⟩ => ⟨h' a, b⟩

/-! ## Dynamic tree: correctness of `insertRBFix` -/

set_option maxHeartbeats 4000000 in
theorem insertRBFix_spec (Q : Prop) : ∀ (n : Nat) (cs : RBPath) (s : State) (z : Nat) (k sz : Int)
    (l r : RBTree) (fuel : Nat), cs.length ≤ n →
    ShapeZ s (.node z false k sz l r) cs →
    (RBPath.plug (.node z false k sz l r) cs).keys.Sorted (· ≤ ·) →
    (Q → (RBPath.plug (.node z false k sz l r) cs).SizeInv) →
    (RBTree.node z false k sz l r).WF →
    RBPath.Accepts cs true (RBTree.node z false k sz l r).blackHeight →
    cs.length < fuel →
    ∃ s' T, insertRBFix fuel s z = some s' ∧ Shape s' T ∧ (T.BST ∧ (Q → T.SizeInv) ∧ T.RedBlack) ∧
      T.keys = (RBPath.plug (.node z false k sz l r) cs).keys ∧
      T.addrs.Perm (RBPath.plug (.node z false k sz l r) cs).addrs ∧
      s'.next = s.next ∧ s'.freed = s.freed := by
  intro n
  induction n using Nat.strong_induction_on with
  | _ n ih =>
  intro cs s z k sz l r fuel hlen h hS hSz hWF hAcc hfuel
  obtain ⟨fuel, rfl⟩ : ∃ m, fuel = m + 1 := ⟨fuel - 1, by omega⟩
  have hNc : s.color NIL = true := h.sentinel.2.2.2.2
  cases cs with
  | nil =>
    have e1 : s.parent z = NIL := h.parent_root
    have e2 : s.root = z := h.root
    refine ⟨s.setColor z true, .node z true k sz l r, ?_, (h.setColor_root true).toShape, ?_,
      ?_, ?_, rfl, rfl⟩
    · simp [insertRBFix, e1, hNc, e2]
    · refine ⟨(RBTree.bst_iff_sorted _).mpr (by simpa using hS), hSz, ?_⟩
      simp only [RBTree.wf_node] at hWF
      simp only [RBTree.RedBlack, RBTree.color0_node, RBTree.noRedRed_node,
        RBTree.blackBalanced_node, true_and]
      obtain ⟨-, h2, h3, h4⟩ := hWF
      exact ⟨⟨by simp, h3.1, h4.1⟩, h2, h3.2, h4.2⟩
    · simp
    · simp
  | cons P rest =>
    cases hPc : P.color with
    | true =>
      -- black parent: the loop exits and the tree is already valid
      have hup := h.up
      have e1 : s.parent z = P.addr := by simpa using h.parent_root
      have e2 : s.color P.addr = true := by
        cases P <;> simp only [RBFrame.fill_L, RBFrame.fill_R] at hup <;>
          simpa [RBFrame.color] using hPc ▸ hup.color_root
      have hrb : (RBPath.plug (.node z false k sz l r) (P :: rest)).RedBlack := by
        rw [RBPath.redBlack_plug]
        refine ⟨hWF, ?_⟩
        rw [RBPath.accepts_cons] at hAcc ⊢
        simp only [hPc, Bool.true_eq_false, false_implies, true_and] at hAcc ⊢
        exact hAcc
      have hsh := h.toShape
      refine ⟨s, _, ?_, hsh, ⟨(RBTree.bst_iff_sorted _).mpr hS, hSz, hrb⟩, rfl,
        List.Perm.refl _, rfl, rfl⟩
      simp [insertRBFix, e1, e2, hsh.setColor_root_noop hrb.1]
    | false =>
      -- red parent: it is not the root, and the grandparent is black
      rw [RBPath.accepts_cons] at hAcc
      obtain ⟨hA1, hA2, hA3, hA4⟩ := hAcc
      have hucol := (hA1 hPc).2
      rw [hPc] at hA4
      simp only [RBTree.blackHeight_node, Bool.false_eq_true, if_false, Nat.add_zero] at hA3 hA4
      cases rest with
      | nil => simp at hA4
      | cons G rest =>
      rw [RBPath.accepts_cons] at hA4
      obtain ⟨hG1, hG2, hG3, hG4⟩ := hA4
      have hGc : G.color = true := by
        cases hG : G.color with
        | true => rfl
        | false => exact absurd (hG1 hG).1 (by simp)
      rw [hGc] at hG4
      simp only [if_true] at hG4
      simp only [RBTree.wf_node, Bool.false_eq_true, false_implies, true_and] at hWF
      simp only [List.length_cons] at hlen hfuel
      cases G with
      | L g cg kg sg un =>
        simp only [RBFrame.color] at hGc
        subst hGc
        simp only [RBFrame.sib] at hG2 hG3
        cases P with
        | L p cp kp sp u =>
          simp only [RBFrame.color] at hPc
          subst hPc
          simp only [RBFrame.sib] at hA2 hA3 hucol
          have hp := h.up
          have hg := hp.up
          simp only [RBFrame.fill_L, RBFrame.fill_R] at hp hg
          have hun := hg.downR
          have e1 : s.parent z = p := by simpa using h.parent_root
          have e2 : s.color p = false := hp.color_root
          have e3 : s.parent p = g := by simpa using hp.parent_root
          have e4 : s.left g = p := by simpa using hg.left_root
          have e5 : s.right g = un.addr := hg.right_root
          have e6 : s.color un.addr = un.color0 := hun.color_addr
          have e7 : s.right p = u.addr := hp.right_root
          have hzu : z ≠ u.addr := by
            have hnd := hp.nodup
            simp only [RBTree.addrs_node, List.nodup_append, List.nodup_cons, List.mem_cons,
              List.mem_append, List.append_assoc, List.cons_append, List.disjoint_cons_right,
              List.disjoint_append_right, List.disjoint_cons_left, List.disjoint_append_left,
              not_or] at hnd
            exact (RBTree.addr_ne h.root_ne_nil (by tauto)).symm
          cases hunc : un.color0 with
          | false =>
            -- Case A: red uncle
            cases un with
            | nil => simp at hunc
            | node y cy ky sy yl yr =>
            simp only [RBTree.color0_node] at hunc
            subst hunc
            simp only [RBTree.addr_node, RBTree.color0_node] at e5 e6
            have h1 := hp.setColor_root true
            have h2 := (h1.up.downR).setColor_root true
            have h3 := h2.up.setColor_root false
            simp only [RBFrame.fill_L, RBFrame.fill_R] at h3
            obtain ⟨s', T, r1, r2, r3, r4, r5, r6, r7⟩ := ih rest.length (by omega) rest _ g kg sg
              (.node p true kp sp (.node z false k sz l r) u) (.node y true ky sy yl yr) fuel
              (le_refl _) h3
              (by simpa [RBPath.keys_plug] using hS)
              (fun q => by simpa [RBPath.sizeInv_plug, RBTree.sizeInv_node] using hSz q)
              (by simp [RBTree.wf_node] at hG2 hG3 ⊢; simp_all)
              (by simp at hG3 hA3 ⊢; simp_all)
              (by omega)
            refine ⟨s', T, ?_, r2, r3, ?_, ?_, by simpa using r6, by simpa using r7⟩
            · simp [insertRBFix, e1, e2, e3, e4, e5, e6, r1]
            · rw [r4]; simp [RBPath.keys_plug]
            · refine r5.trans ?_
              simp only [RBPath.plug_cons, RBFrame.fill_L, RBFrame.fill_R]
              exact RBPath.plug_addrs_congr _ (by simp)
          | true =>
            -- Case C: black uncle, `z` is the outer grandchild
            have h1 := hp.setColor_root true
            have h2 := h1.up.setColor_root false
            simp only [RBFrame.fill_L, RBFrame.fill_R] at h2
            have h3 := h2.rightRotate
            have h4 := h3.downL
            obtain ⟨s', T, r1, r2, r3, r4, r5, r6, r7⟩ := ih (rest.length + 1) (by omega) _ _ z k sz
              l r fuel (by simp) h4
              (by simpa [RBPath.keys_plug] using hS)
              (fun q => by
                have hSz := hSz q
                simp only [RBPath.plug_cons, RBFrame.fill_L, RBFrame.fill_R, RBPath.sizeInv_plug,
                  RBTree.sizeInv_node, RBTree.size0_node] at hSz ⊢
                repeat' apply And.intro
                all_goals first | omega | tauto)
              (by simpa [RBTree.wf_node] using hWF)
              (by
                simp only [RBPath.accepts_cons, RBFrame.color, RBFrame.sib, RBTree.wf_node,
                  RBTree.blackHeight_node]
                simp_all)
              (by simp only [List.length_cons]; omega)
            refine ⟨s', T, ?_, r2, r3, ?_, ?_, by simpa using r6, by simpa using r7⟩
            · simp [insertRBFix, e1, e2, e3, e4, e5, e6, e7, hzu, hunc, r1]
            · rw [r4]; simp [RBPath.keys_plug]
            · refine r5.trans ?_
              simp only [RBPath.plug_cons, RBFrame.fill_L, RBFrame.fill_R]
              exact RBPath.plug_addrs_congr _ (by simp)
        | R p cp kp sp u =>
          simp only [RBFrame.color] at hPc
          subst hPc
          simp only [RBFrame.sib] at hA2 hA3 hucol
          have hp := h.up
          have hg := hp.up
          simp only [RBFrame.fill_L, RBFrame.fill_R] at hp hg
          have hun := hg.downR
          have e1 : s.parent z = p := by simpa using h.parent_root
          have e2 : s.color p = false := hp.color_root
          have e3 : s.parent p = g := by simpa using hp.parent_root
          have e4 : s.left g = p := by simpa using hg.left_root
          have e5 : s.right g = un.addr := hg.right_root
          have e6 : s.color un.addr = un.color0 := hun.color_addr
          have e7 : s.right p = z := by simpa using hp.right_root
          cases hunc : un.color0 with
          | false =>
            -- Case A: red uncle
            cases un with
            | nil => simp at hunc
            | node y cy ky sy yl yr =>
            simp only [RBTree.color0_node] at hunc
            subst hunc
            simp only [RBTree.addr_node, RBTree.color0_node] at e5 e6
            have h1 := hp.setColor_root true
            have h2 := (h1.up.downR).setColor_root true
            have h3 := h2.up.setColor_root false
            simp only [RBFrame.fill_L, RBFrame.fill_R] at h3
            obtain ⟨s', T, r1, r2, r3, r4, r5, r6, r7⟩ := ih rest.length (by omega) rest _ g kg sg
              (.node p true kp sp u (.node z false k sz l r)) (.node y true ky sy yl yr) fuel
              (le_refl _) h3
              (by simpa [RBPath.keys_plug] using hS)
              (fun q => by simpa [RBPath.sizeInv_plug, RBTree.sizeInv_node] using hSz q)
              (by simp [RBTree.wf_node] at hG2 hG3 ⊢; simp_all)
              (by simp at hG3 hA3 ⊢; simp_all)
              (by omega)
            refine ⟨s', T, ?_, r2, r3, ?_, ?_, by simpa using r6, by simpa using r7⟩
            · simp [insertRBFix, e1, e2, e3, e4, e5, e6, r1]
            · rw [r4]; simp [RBPath.keys_plug]
            · refine r5.trans ?_
              simp only [RBPath.plug_cons, RBFrame.fill_L, RBFrame.fill_R]
              exact RBPath.plug_addrs_congr _ (by simp)
          | true =>
            -- Case B then C: black uncle, `z` is the inner grandchild
            have h1 := hp.leftRotate
            have f1 : (leftRotateRB s p).parent p = z := by simpa using h1.downL.parent_root
            have f2 : (leftRotateRB s p).parent z = g := by simpa using h1.parent_root
            have h2 := h1.setColor_root true
            have h3 := h2.up.setColor_root false
            simp only [RBFrame.fill_L, RBFrame.fill_R] at h3
            have h4 := h3.rightRotate
            have h5 := h4.downL
            obtain ⟨s', T, r1, r2, r3, r4, r5, r6, r7⟩ := ih (rest.length + 1) (by omega) _ _ p kp
              (u.size0 + l.size0 + 1) u l fuel (by simp) h5
              (by simpa [RBPath.keys_plug] using hS)
              (fun q => by
                have hSz := hSz q
                simp only [RBPath.plug_cons, RBFrame.fill_L, RBFrame.fill_R,
                  RBPath.sizeInv_plug, RBTree.sizeInv_node, RBTree.size0_node] at hSz ⊢
                repeat' apply And.intro
                all_goals first | omega | tauto)
              (by simp [RBTree.wf_node] at hWF ⊢; simp_all)
              (by
                simp only [RBPath.accepts_cons, RBFrame.color, RBFrame.sib, RBTree.wf_node,
                  RBTree.blackHeight_node]
                simp_all)
              (by simp only [List.length_cons]; omega)
            refine ⟨s', T, ?_, r2, r3, ?_, ?_, by simpa using r6, by simpa using r7⟩
            · simp [insertRBFix, e1, e2, e3, e4, e5, e6, e7, hunc, f1, f2, r1]
            · rw [r4]; simp [RBPath.keys_plug]
            · refine r5.trans ?_
              simp only [RBPath.plug_cons, RBFrame.fill_L, RBFrame.fill_R]
              exact RBPath.plug_addrs_congr _ (by simp)
      | R g cg kg sg un =>
        simp only [RBFrame.color] at hGc
        subst hGc
        simp only [RBFrame.sib] at hG2 hG3
        cases P with
        | R p cp kp sp u =>
          simp only [RBFrame.color] at hPc
          subst hPc
          simp only [RBFrame.sib] at hA2 hA3 hucol
          have hp := h.up
          have hg := hp.up
          simp only [RBFrame.fill_L, RBFrame.fill_R] at hp hg
          have hun := hg.downL
          have e1 : s.parent z = p := by simpa using h.parent_root
          have e2 : s.color p = false := hp.color_root
          have e3 : s.parent p = g := by simpa using hp.parent_root
          have e4 : s.right g = p := by simpa using hg.right_root
          have e5 : s.left g = un.addr := hg.left_root
          have e6 : s.color un.addr = un.color0 := hun.color_addr
          have hpun : p ≠ un.addr := by
            have hnd := hg.nodup
            simp only [RBTree.addrs_node, List.nodup_append, List.nodup_cons, List.mem_cons,
              List.mem_append, List.append_assoc, List.cons_append, List.disjoint_cons_right,
              List.disjoint_append_right, List.disjoint_cons_left, List.disjoint_append_left,
              not_or] at hnd
            exact (RBTree.addr_ne hp.root_ne_nil (by tauto)).symm
          have e7 : s.left p = u.addr := hp.left_root
          have hzu : z ≠ u.addr := by
            have hnd := hp.nodup
            simp only [RBTree.addrs_node, List.nodup_append, List.nodup_cons, List.mem_cons,
              List.mem_append, List.append_assoc, List.cons_append, List.disjoint_cons_right,
              List.disjoint_append_right, List.disjoint_cons_left, List.disjoint_append_left,
              not_or] at hnd
            exact (RBTree.addr_ne h.root_ne_nil (by tauto)).symm
          cases hunc : un.color0 with
          | false =>
            -- Case A: red uncle
            cases un with
            | nil => simp at hunc
            | node y cy ky sy yl yr =>
            simp only [RBTree.color0_node] at hunc
            subst hunc
            simp only [RBTree.addr_node, RBTree.color0_node] at e5 e6 hpun
            have h1 := hp.setColor_root true
            have h2 := (h1.up.downL).setColor_root true
            have h3 := h2.up.setColor_root false
            simp only [RBFrame.fill_L, RBFrame.fill_R] at h3
            obtain ⟨s', T, r1, r2, r3, r4, r5, r6, r7⟩ := ih rest.length (by omega) rest _ g kg sg
              (.node y true ky sy yl yr) (.node p true kp sp u (.node z false k sz l r)) fuel
              (le_refl _) h3
              (by simpa [RBPath.keys_plug] using hS)
              (fun q => by simpa [RBPath.sizeInv_plug, RBTree.sizeInv_node] using hSz q)
              (by simp [RBTree.wf_node] at hG2 hG3 ⊢; simp_all)
              (by simp at hG3 hA3 ⊢; simp_all)
              (by omega)
            refine ⟨s', T, ?_, r2, r3, ?_, ?_, by simpa using r6, by simpa using r7⟩
            · simp [insertRBFix, e1, e2, e3, e4, e5, e6, hpun, r1]
            · rw [r4]; simp [RBPath.keys_plug]
            · refine r5.trans ?_
              simp only [RBPath.plug_cons, RBFrame.fill_L, RBFrame.fill_R]
              exact RBPath.plug_addrs_congr _ (by simp)
          | true =>
            -- Case C: black uncle, `z` is the outer grandchild
            have h1 := hp.setColor_root true
            have h2 := h1.up.setColor_root false
            simp only [RBFrame.fill_L, RBFrame.fill_R] at h2
            have h3 := h2.leftRotate
            have h4 := h3.downR
            obtain ⟨s', T, r1, r2, r3, r4, r5, r6, r7⟩ := ih (rest.length + 1) (by omega) _ _ z k sz
              l r fuel (by simp) h4
              (by simpa [RBPath.keys_plug] using hS)
              (fun q => by
                have hSz := hSz q
                simp only [RBPath.plug_cons, RBFrame.fill_L, RBFrame.fill_R, RBPath.sizeInv_plug,
                  RBTree.sizeInv_node, RBTree.size0_node] at hSz ⊢
                repeat' apply And.intro
                all_goals first | omega | tauto)
              (by simpa [RBTree.wf_node] using hWF)
              (by
                simp only [RBPath.accepts_cons, RBFrame.color, RBFrame.sib, RBTree.wf_node,
                  RBTree.blackHeight_node]
                simp_all)
              (by simp only [List.length_cons]; omega)
            refine ⟨s', T, ?_, r2, r3, ?_, ?_, by simpa using r6, by simpa using r7⟩
            · simp [insertRBFix, e1, e2, e3, e4, e5, e6, hpun, e7, hzu, hunc, r1]
            · rw [r4]; simp [RBPath.keys_plug]
            · refine r5.trans ?_
              simp only [RBPath.plug_cons, RBFrame.fill_L, RBFrame.fill_R]
              exact RBPath.plug_addrs_congr _ (by simp)
        | L p cp kp sp u =>
          simp only [RBFrame.color] at hPc
          subst hPc
          simp only [RBFrame.sib] at hA2 hA3 hucol
          have hp := h.up
          have hg := hp.up
          simp only [RBFrame.fill_L, RBFrame.fill_R] at hp hg
          have hun := hg.downL
          have e1 : s.parent z = p := by simpa using h.parent_root
          have e2 : s.color p = false := hp.color_root
          have e3 : s.parent p = g := by simpa using hp.parent_root
          have e4 : s.right g = p := by simpa using hg.right_root
          have e5 : s.left g = un.addr := hg.left_root
          have e6 : s.color un.addr = un.color0 := hun.color_addr
          have hpun : p ≠ un.addr := by
            have hnd := hg.nodup
            simp only [RBTree.addrs_node, List.nodup_append, List.nodup_cons, List.mem_cons,
              List.mem_append, List.append_assoc, List.cons_append, List.disjoint_cons_right,
              List.disjoint_append_right, List.disjoint_cons_left, List.disjoint_append_left,
              not_or] at hnd
            exact (RBTree.addr_ne hp.root_ne_nil (by tauto)).symm
          have e7 : s.left p = z := by simpa using hp.left_root
          cases hunc : un.color0 with
          | false =>
            -- Case A: red uncle
            cases un with
            | nil => simp at hunc
            | node y cy ky sy yl yr =>
            simp only [RBTree.color0_node] at hunc
            subst hunc
            simp only [RBTree.addr_node, RBTree.color0_node] at e5 e6 hpun
            have h1 := hp.setColor_root true
            have h2 := (h1.up.downL).setColor_root true
            have h3 := h2.up.setColor_root false
            simp only [RBFrame.fill_L, RBFrame.fill_R] at h3
            obtain ⟨s', T, r1, r2, r3, r4, r5, r6, r7⟩ := ih rest.length (by omega) rest _ g kg sg
              (.node y true ky sy yl yr) (.node p true kp sp (.node z false k sz l r) u) fuel
              (le_refl _) h3
              (by simpa [RBPath.keys_plug] using hS)
              (fun q => by simpa [RBPath.sizeInv_plug, RBTree.sizeInv_node] using hSz q)
              (by simp [RBTree.wf_node] at hG2 hG3 ⊢; simp_all)
              (by simp at hG3 hA3 ⊢; simp_all)
              (by omega)
            refine ⟨s', T, ?_, r2, r3, ?_, ?_, by simpa using r6, by simpa using r7⟩
            · simp [insertRBFix, e1, e2, e3, e4, e5, e6, hpun, r1]
            · rw [r4]; simp [RBPath.keys_plug]
            · refine r5.trans ?_
              simp only [RBPath.plug_cons, RBFrame.fill_L, RBFrame.fill_R]
              exact RBPath.plug_addrs_congr _ (by simp)
          | true =>
            -- Case B then C: black uncle, `z` is the inner grandchild
            have h1 := hp.rightRotate
            have f1 : (rightRotateRB s p).parent p = z := by simpa using h1.downR.parent_root
            have f2 : (rightRotateRB s p).parent z = g := by simpa using h1.parent_root
            have h2 := h1.setColor_root true
            have h3 := h2.up.setColor_root false
            simp only [RBFrame.fill_L, RBFrame.fill_R] at h3
            have h4 := h3.leftRotate
            have h5 := h4.downR
            obtain ⟨s', T, r1, r2, r3, r4, r5, r6, r7⟩ := ih (rest.length + 1) (by omega) _ _ p kp
              (r.size0 + u.size0 + 1) r u fuel (by simp) h5
              (by simpa [RBPath.keys_plug] using hS)
              (fun q => by
                have hSz := hSz q
                simp only [RBPath.plug_cons, RBFrame.fill_L, RBFrame.fill_R,
                  RBPath.sizeInv_plug, RBTree.sizeInv_node, RBTree.size0_node] at hSz ⊢
                repeat' apply And.intro
                all_goals first | omega | tauto)
              (by simp [RBTree.wf_node] at hWF ⊢; simp_all)
              (by
                simp only [RBPath.accepts_cons, RBFrame.color, RBFrame.sib, RBTree.wf_node,
                  RBTree.blackHeight_node]
                simp_all)
              (by simp only [List.length_cons]; omega)
            refine ⟨s', T, ?_, r2, r3, ?_, ?_, by simpa using r6, by simpa using r7⟩
            · simp [insertRBFix, e1, e2, e3, e4, e5, e6, hpun, e7, hunc, f1, f2, r1]
            · rw [r4]; simp [RBPath.keys_plug]
            · refine r5.trans ?_
              simp only [RBPath.plug_cons, RBFrame.fill_L, RBFrame.fill_R]
              exact RBPath.plug_addrs_congr _ (by simp)

/-! ## Dynamic tree: `insertRB`, `buildTreeRB`, `selectRB` -/

namespace RBTree

theorem sizeInv_ins (key : Int) (z : RBTree) (hz : z.SizeInv) (hz1 : z.size0 = 1) :
    ∀ t : RBTree, t.SizeInv → (ins key z t).SizeInv ∧ (ins key z t).size0 = t.size0 + 1
  | nil, _ => by simp [ins, hz, hz1]
  | node a c k s l r, h => by
    obtain ⟨h1, h2, h3⟩ := h
    unfold ins
    split
    · obtain ⟨i1, i2⟩ := sizeInv_ins key z hz hz1 l h2
      refine ⟨⟨?_, i1, h3⟩, rfl⟩
      rw [i2]; omega
    · obtain ⟨i1, i2⟩ := sizeInv_ins key z hz hz1 r h3
      refine ⟨⟨?_, h2, i1⟩, rfl⟩
      rw [i2]; omega

theorem addrs_ins_perm (key : Int) (z : RBTree) : ∀ t : RBTree,
    (ins key z t).addrs.Perm (z.addrs ++ t.addrs)
  | nil => by simp [ins]
  | node a c k s l r => by
    unfold ins
    split
    · simp only [addrs_node]
      have := addrs_ins_perm key z l
      rw [← List.append_assoc]
      exact List.Perm.append_right _ this
    · simp only [addrs_node]
      have := addrs_ins_perm key z r
      have h1 : (l.addrs ++ a :: (ins key z r).addrs).Perm
          (l.addrs ++ a :: (z.addrs ++ r.addrs)) :=
        List.Perm.append_left _ (List.Perm.cons _ this)
      refine h1.trans ?_
      have e1 : l.addrs ++ a :: (z.addrs ++ r.addrs) = (l.addrs ++ [a]) ++ z.addrs ++ r.addrs := by
        simp
      have e2 : z.addrs ++ (l.addrs ++ a :: r.addrs) = z.addrs ++ (l.addrs ++ [a]) ++ r.addrs := by
        simp
      rw [e1, e2]
      exact List.Perm.append_right _ List.perm_append_comm

theorem height_le_length : ∀ t : RBTree, t.height ≤ t.keys.length
  | nil => by simp [height]
  | node a c k s l r => by
    have := height_le_length l
    have := height_le_length r
    simp only [height, keys_node, List.length_append, List.length_cons]
    omega

end RBTree

namespace RBPath

theorem length_ins (key : Int) : ∀ (t : RBTree) (cs : RBPath),
    (ins key t cs).length ≤ t.height + cs.length
  | RBTree.nil, cs => by simp [ins]
  | RBTree.node a c k s l r, cs => by
    unfold ins
    split
    · have := length_ins key l (RBFrame.L a c k (s + 1) r :: cs)
      simp only [List.length_cons, RBTree.height] at this ⊢
      omega
    · have := length_ins key r (RBFrame.R a c k (s + 1) l :: cs)
      simp only [List.length_cons, RBTree.height] at this ⊢
      omega

theorem accepts_ins (key : Int) : ∀ (t : RBTree) (cs : RBPath), t.WF →
    Accepts cs t.color0 t.blackHeight → Accepts (ins key t cs) true 0
  | RBTree.nil, cs, _, h => by simpa [ins] using h
  | RBTree.node a c k s l r, cs, hw, h => by
    rw [RBTree.wf_node] at hw
    obtain ⟨w1, w2, w3, w4⟩ := hw
    simp only [RBTree.color0_node, RBTree.blackHeight_node] at h
    unfold ins
    split
    · refine accepts_ins key l _ w3 ?_
      rw [accepts_cons]
      exact ⟨fun hc => w1 hc, w4, w2.symm, h⟩
    · refine accepts_ins key r _ w4 ?_
      rw [accepts_cons]
      refine ⟨fun hc => ⟨(w1 hc).2, (w1 hc).1⟩, w3, w2, ?_⟩
      rw [← w2]; exact h

end RBPath

theorem Shape.toZ {s : State} {t : RBTree} (h : Shape s t) : ShapeZ s t [] :=
  (shape_plug_iff s t []).mp h

/-- `insertRB` on a valid tree: it returns, and the new state holds a valid
tree with the key added. -/
theorem insertRB_spec {s : State} {T : RBTree} (key : Int) (fuel : Nat) (h : Shape s T)
    (hB : T.BST) (hR : T.RedBlack) (hf : T.height < fuel) :
    ∃ s' T', insertRB fuel s key = some s' ∧ Shape s' T' ∧ T'.BST ∧ T'.RedBlack ∧
      (T.SizeInv → T'.SizeInv) ∧
      T'.keys = (RBTree.ins key (.node s.next false key 1 .nil .nil) T).keys ∧
      T'.addrs.Perm (s.next :: T.addrs) ∧ s'.next = s.next + 1 ∧ s'.freed = s.freed := by
  obtain ⟨s1, d1, d2, d3, d4⟩ := insertRB_descend_spec key T [] s fuel h.toZ hf
  obtain ⟨s2, l1, l2, l3, l4⟩ := insertRB_link_spec key s1 _ d2 (RBPath.dir_ins key T [] trivial)
  have hplug := RBPath.plug_ins key (.node s1.next false key 1 .nil .nil) T []
  simp only [RBPath.plug_nil] at hplug
  have hlen := RBPath.length_ins key T []
  simp only [List.length_nil, Nat.add_zero] at hlen
  have hz : (RBTree.node s1.next false key 1 .nil .nil).SizeInv := by
    simp [RBTree.sizeInv_node]
  obtain ⟨s', T', r1, r2, r3, r4, r5, r6, r7⟩ := insertRBFix_spec T.SizeInv _ _ s2 s1.next key 1 .nil .nil
    fuel (le_refl _) l2
    (by
      rw [hplug, ← RBTree.bst_iff_sorted]
      exact RBTree.bst_ins key _ (by simp) (by simp [RBTree.bst_node]) T hB)
    (fun hS => by rw [hplug]; exact (RBTree.sizeInv_ins key _ hz (by simp) T hS).1)
    (by simp [RBTree.wf_node])
    (by
      simp only [RBTree.blackHeight_node, RBTree.blackHeight_nil, Bool.false_eq_true, if_false]
      exact RBPath.accepts_ins key T [] ⟨hR.2.1, hR.2.2⟩ (by simpa using hR.1))
    (by omega)
  rw [hplug] at r4 r5
  rw [d3] at r4 r5
  refine ⟨s', T', ?_, r2, r3.1, r3.2.2, r3.2.1, r4, ?_, by rw [r6, l3, d3], by rw [r7, l4, d4]⟩
  · unfold insertRB
    simp only [RBPath.addr_empty] at d1
    rw [← h.root] at d1
    rw [d1]
    simp only
    simp only [RBPath.addr_empty] at l1
    rw [l1]
    exact r1
  · simpa using r5.trans (RBTree.addrs_ins_perm key _ T)

/-- `insertRB` preserves the whole-tree invariant. -/
theorem insertRB_spec_good {s : State} {T : RBTree} (key : Int) (fuel : Nat) (h : Shape s T)
    (hG : T.Good) (hf : T.height < fuel) :
    ∃ s' T', insertRB fuel s key = some s' ∧ Shape s' T' ∧ T'.Good ∧
      T'.keys = (RBTree.ins key (.node s.next false key 1 .nil .nil) T).keys ∧
      T'.addrs.Perm (s.next :: T.addrs) ∧ s'.next = s.next + 1 ∧ s'.freed = s.freed := by
  obtain ⟨s', T', r1, r2, r3, r4, r5, r6, r7, r8, r9⟩ := insertRB_spec key fuel h hG.1 hG.2.2 hf
  exact ⟨s', T', r1, r2, ⟨r3, r5 hG.2.1, r4⟩, r6, r7, r8, r9⟩

/-! ## Dynamic tree: `selectRB` and `buildTreeRB` -/

theorem selectRB_nth : ∀ (t : RBTree) (par : Nat) (s : State) (fuel : Nat),
    RBTree.Rep s par t → (∀ a ∈ t.addrs, a ≠ NIL) → t.SizeInv → t.height < fuel →
    ∀ (k : Nat), k < t.keys.length → selectRB fuel s t.addr ((k : Int) + 1) = some (t.keys.getD k 0)
  | .nil, _, _, _, _, _, _, _, k, hk => by simp at hk
  | .node a c key sz l r, par, s, fuel, hrep, hN, hsz, hf, k, hk => by
    obtain ⟨fuel, rfl⟩ : ∃ m, fuel = m + 1 := ⟨fuel - 1, by omega⟩
    obtain ⟨⟨h1, h2, h3, h4, h5, h6⟩, hL, hR⟩ := hrep
    obtain ⟨_, hsl, hsr⟩ := hsz
    simp only [RBTree.height] at hf
    have haN : a ≠ NIL := hN a (by simp)
    have hNl : ∀ b ∈ l.addrs, b ≠ NIL := fun b hb => hN b (by simp [hb])
    have hNr : ∀ b ∈ r.addrs, b ≠ NIL := fun b hb => hN b (by simp [hb])
    have el := RBTree.size0_eq_length l hsl
    have hpos : (if l.addr ≠ NIL then 1 + s.size l.addr else 1) =
        (l.keys.length : Int) + 1 := by
      cases l with
      | nil => simp
      | node b cb kb sb bl br =>
        have hb : b ≠ NIL := hNl b (by simp)
        simp only [RBTree.addr_node, ne_eq, hb, not_false_eq_true, if_true, hL.1.2.1]
        simp only [RBTree.size0_node] at el
        omega
    simp only [selectRB, RBTree.addr_node, haN, if_false, h1, h4, h5, hpos]
    rcases Nat.lt_trichotomy k l.keys.length with hlt | heq | hgt
    · have c1 : ¬ ((k : Int) + 1 = (l.keys.length : Int) + 1) := by omega
      have c2 : (k : Int) + 1 < (l.keys.length : Int) + 1 := by omega
      rw [if_neg c1, if_pos c2, selectRB_nth l a s fuel hL hNl hsl (by omega) k hlt]
      simp only [RBTree.keys_node]
      rw [List.getD_append _ _ _ _ hlt]
    · subst heq
      simp only [if_true, RBTree.keys_node]
      rw [List.getD_append_right _ _ _ _ (le_refl _)]
      simp
    · have c1 : ¬ ((k : Int) + 1 = (l.keys.length : Int) + 1) := by omega
      have c2 : ¬ ((k : Int) + 1 < (l.keys.length : Int) + 1) := by omega
      rw [if_neg c1, if_neg c2]
      obtain ⟨m, hm⟩ : ∃ m, k = l.keys.length + 1 + m := ⟨k - l.keys.length - 1, by omega⟩
      subst hm
      have hm' : m < r.keys.length := by
        simp only [RBTree.keys_node, List.length_append, List.length_cons] at hk; omega
      have e : ((l.keys.length + 1 + m : Nat) : Int) + 1 - ((l.keys.length : Int) + 1) =
          (m : Int) + 1 := by push_cast; omega
      rw [e, selectRB_nth r a s fuel hR hNr hsr (by omega) m hm']
      simp only [RBTree.keys_node]
      rw [List.getD_append_right _ _ _ _ (by omega)]
      have : l.keys.length + 1 + m - l.keys.length = m + 1 := by omega
      rw [this]
      simp

theorem selectRB_out_of_range : ∀ (t : RBTree) (par : Nat) (s : State) (fuel : Nat),
    RBTree.Rep s par t → (∀ a ∈ t.addrs, a ≠ NIL) → t.SizeInv → t.height < fuel →
    ∀ (i : Int), (i < 1 ∨ t.size0 < i) → selectRB fuel s t.addr i = some (-1)
  | .nil, _, _, fuel, _, _, _, hf, _, _ => by
    obtain ⟨fuel, rfl⟩ : ∃ m, fuel = m + 1 := ⟨fuel - 1, by omega⟩
    simp [selectRB]
  | .node a c key sz l r, par, s, fuel, hrep, hN, hsz, hf, i, hi => by
    obtain ⟨fuel, rfl⟩ : ∃ m, fuel = m + 1 := ⟨fuel - 1, by omega⟩
    obtain ⟨⟨h1, h2, h3, h4, h5, h6⟩, hL, hR⟩ := hrep
    obtain ⟨hs, hsl, hsr⟩ := hsz
    simp only [RBTree.height] at hf
    have haN : a ≠ NIL := hN a (by simp)
    have hNl : ∀ b ∈ l.addrs, b ≠ NIL := fun b hb => hN b (by simp [hb])
    have hNr : ∀ b ∈ r.addrs, b ≠ NIL := fun b hb => hN b (by simp [hb])
    have el := RBTree.size0_eq_length l hsl
    have er := RBTree.size0_eq_length r hsr
    have hpos : (if l.addr ≠ NIL then 1 + s.size l.addr else 1) = l.size0 + 1 := by
      cases l with
      | nil => simp
      | node b cb kb sb bl br =>
        have hb : b ≠ NIL := hNl b (by simp)
        simp only [RBTree.addr_node, ne_eq, hb, not_false_eq_true, if_true, hL.1.2.1]
        simp only [RBTree.size0_node]
        omega
    simp only [selectRB, RBTree.addr_node, haN, if_false, h1, h4, h5, hpos]
    simp only [RBTree.size0_node] at hi
    rcases hi with hi | hi
    · rw [if_neg (by omega), if_pos (by omega)]
      exact selectRB_out_of_range l a s fuel hL hNl hsl (by omega) i (Or.inl hi)
    · rw [if_neg (by omega), if_neg (by omega)]
      exact selectRB_out_of_range r a s fuel hR hNr hsr (by omega) _ (Or.inr (by omega))

theorem buildTreeRB_init_shape : Shape buildTreeRB.init .nil :=
  ⟨trivial, rfl, List.nodup_nil, fun _ h => absurd h (List.not_mem_nil _),
    ⟨rfl, rfl, rfl, rfl, rfl⟩, Nat.lt_succ_self _⟩

theorem arrayGet_natCast (v : List Int) (i : Nat) (h : i < v.length) :
    arrayGet v (i : Int) = v[i] := by
  have hn : ¬ ((i : Int) < 0) := by omega
  simp [arrayGet, hn, List.getElem?_eq_getElem h]

theorem buildTreeRB_loop_spec (fuel : Nat) (v : List Int) (hf : v.length < fuel) :
    ∀ (cnt i : Nat) (s : State) (T : RBTree), Shape s T → T.Good → i + cnt = v.length →
      T.keys.length = i →
      ∃ s' T', buildTreeRB.loop fuel v v.length cnt i s = some s' ∧ Shape s' T' ∧ T'.Good ∧
        T'.keys.Perm (T.keys ++ v.drop i) ∧ s'.freed = s.freed
  | 0, i, s, T, h, hG, hi, _ => by
    refine ⟨s, T, rfl, h, hG, ?_, rfl⟩
    have : v.drop i = [] := List.drop_eq_nil_of_le (by omega)
    simp [this]
  | cnt + 1, i, s, T, h, hG, hi, hlen => by
    have hiv : i < v.length := by omega
    have hcond : (i : Int) < (v.length : Int) := by omega
    have hheight : T.height < fuel := by
      have := RBTree.height_le_length T
      omega
    obtain ⟨s1, T1, r1, r2, r3, r4, r5, r6, r7⟩ := insertRB_spec_good (arrayGet v i) fuel h hG hheight
    have hperm1 : T1.keys.Perm (v[i] :: T.keys) := by
      rw [r4]
      have := RBTree.keys_ins_perm (arrayGet v i) (.node s.next false (arrayGet v i) 1 .nil .nil) T
      simpa [arrayGet_natCast v i hiv] using this
    obtain ⟨s', T', q1, q2, q3, q4, q5⟩ := buildTreeRB_loop_spec fuel v hf cnt (i + 1) s1 T1 r2 r3
      (by omega) (by rw [hperm1.length_eq]; simp [hlen])
    refine ⟨s', T', ?_, q2, q3, ?_, by rw [q5, r7]⟩
    · simp only [buildTreeRB.loop, hcond, if_true, r1]
      exact_mod_cast q1
    · refine q4.trans ?_
      have e : v.drop i = v[i] :: v.drop (i + 1) := by
        rw [List.drop_eq_getElem_cons hiv]
      rw [e]
      refine (hperm1.append_right _).trans ?_
      simp only [List.cons_append]
      exact List.perm_middle.symm

/-- `buildTreeRB` returns a valid tree holding exactly the keys of the array. -/
theorem buildTreeRB_spec (fuel : Nat) (v : List Int) (hf : v.length < fuel) :
    ∃ s T, buildTreeRB fuel v v.length = some s ∧ Shape s T ∧ T.Good ∧ T.keys.Perm v ∧
      s.freed = [] := by
  obtain ⟨s, T, h1, h2, h3, h4, h5⟩ := buildTreeRB_loop_spec fuel v hf v.length 0
    buildTreeRB.init .nil buildTreeRB_init_shape
    ⟨trivial, trivial, rfl, trivial, trivial⟩ (by simp) rfl
  refine ⟨s, T, ?_, h2, h3, by simpa using h4, h5⟩
  unfold buildTreeRB
  simpa using h1

/-! ## Dynamic tree: the loops of `deleteRB` -/

namespace RBPath

theorem find_plug (key : Int) : ∀ (t : RBTree) (cs : RBPath) (t' : RBTree) (cs' : RBPath),
    find key t cs = some (t', cs') →
      plug t' cs' = plug t cs ∧ (∃ a c sz l r, t' = RBTree.node a c key sz l r) ∧
        cs'.length ≤ t.height + cs.length
  | RBTree.nil, _, _, _, h => by simp [find] at h
  | RBTree.node a c k s l r, cs, t', cs', h => by
    unfold find at h
    by_cases hk : k = key
    · subst hk
      simp only [ne_eq, not_true_eq_false, if_false, Option.some.injEq, Prod.mk.injEq] at h
      obtain ⟨rfl, rfl⟩ := h
      exact ⟨rfl, ⟨a, c, s, l, r, rfl⟩, by omega⟩
    · simp only [ne_eq, hk, not_false_eq_true, if_true] at h
      by_cases hlt : key < k
      · simp only [hlt, if_true] at h
        obtain ⟨h1, h2, h3⟩ := find_plug key l _ t' cs' h
        refine ⟨h1, h2, ?_⟩
        simp only [List.length_cons, RBTree.height] at h3 ⊢
        omega
      · simp only [hlt, if_false] at h
        obtain ⟨h1, h2, h3⟩ := find_plug key r _ t' cs' h
        refine ⟨h1, h2, ?_⟩
        simp only [List.length_cons, RBTree.height] at h3 ⊢
        omega

theorem find_isSome (key : Int) : ∀ (t : RBTree) (cs : RBPath), t.BST → key ∈ t.keys →
    ∃ p, find key t cs = some p
  | RBTree.nil, _, _, h => by simp at h
  | RBTree.node a c k s l r, cs, hb, h => by
    obtain ⟨h1, h2, h3, h4⟩ := hb
    unfold find
    by_cases hk : k = key
    · subst hk
      exact ⟨(RBTree.node a c k s l r, cs), by simp⟩
    · simp only [ne_eq, hk, not_false_eq_true, if_true]
      simp only [RBTree.keys_node, List.mem_append, List.mem_cons] at h
      by_cases hlt : key < k
      · simp only [hlt, if_true]
        refine find_isSome key l _ h3 ?_
        rcases h with h | h | h
        · exact h
        · exact absurd h.symm hk
        · exact absurd (h2 _ h) (not_le.mpr hlt)
      · simp only [hlt, if_false]
        refine find_isSome key r _ h4 ?_
        rcases h with h | h | h
        · have := h1 _ h
          exact absurd (lt_of_le_of_ne this (Ne.symm hk)) hlt
        · exact absurd h.symm hk
        · exact h

end RBPath

/-- The search loop of `deleteRB` stops at the node `find` describes. -/
theorem deleteRB_search_spec (key : Int) : ∀ (t : RBTree) (cs : RBPath) (s : State) (fuel : Nat)
    (t' : RBTree) (cs' : RBPath), ShapeZ s t cs → RBPath.find key t cs = some (t', cs') →
    t.height < fuel + 1 →
    deleteRB.search key fuel s t.addr = some t'.addr ∧ ShapeZ s t' cs'
  | .nil, _, _, _, _, _, _, hfind, _ => by simp [RBPath.find] at hfind
  | .node a c k sz l r, cs, s, fuel, t', cs', h, hfind, hf => by
    simp only [RBTree.height] at hf
    obtain ⟨fuel, rfl⟩ : ∃ n, fuel = n + 1 := ⟨fuel - 1, by omega⟩
    unfold RBPath.find at hfind
    simp only [deleteRB.search, RBTree.addr_node, h.key_root, h.left_root, h.right_root]
    by_cases hk : k = key
    · subst hk
      simp only [ne_eq, not_true_eq_false, if_false, Option.some.injEq,
        Prod.mk.injEq] at hfind ⊢
      obtain ⟨rfl, rfl⟩ := hfind
      exact ⟨rfl, h⟩
    · simp only [ne_eq, hk, not_false_eq_true, if_true] at hfind ⊢
      by_cases hlt : key < k
      · simp only [hlt, if_true] at hfind ⊢
        exact deleteRB_search_spec key l _ s fuel t' cs' h.downL hfind (by omega)
      · simp only [hlt, if_false] at hfind ⊢
        exact deleteRB_search_spec key r _ s fuel t' cs' h.downR hfind (by omega)

/-! ## Dynamic tree: `transplantRB` -/

theorem nodup_remove_mid (l1 l2 : List Nat) (a : Nat) (h : (l1 ++ a :: l2).Nodup) :
    (l1 ++ l2).Nodup :=
  h.sublist (List.Sublist.append_left (List.sublist_cons_self a l2) l1)

@[simp] theorem transplantRB_key (s : State) (u v : Nat) : (transplantRB s u v).key = s.key := by
  unfold transplantRB; split_ifs <;> rfl
@[simp] theorem transplantRB_size (s : State) (u v : Nat) :
    (transplantRB s u v).size = s.size := by
  unfold transplantRB; split_ifs <;> rfl
@[simp] theorem transplantRB_color (s : State) (u v : Nat) :
    (transplantRB s u v).color = s.color := by
  unfold transplantRB; split_ifs <;> rfl
@[simp] theorem transplantRB_next (s : State) (u v : Nat) :
    (transplantRB s u v).next = s.next := by
  unfold transplantRB; split_ifs <;> rfl
@[simp] theorem transplantRB_freed (s : State) (u v : Nat) :
    (transplantRB s u v).freed = s.freed := by
  unfold transplantRB; split_ifs <;> rfl

set_option maxHeartbeats 4000000 in
/-- `transplantRB(root, z, z->right)` when `z` has no left child. -/
theorem ShapeZ.transplant_right {s : State} {z : Nat} {c : Bool} {k sz : Int}
    {r : RBTree} {cs : RBPath} (h : ShapeZ s (.node z c k sz .nil r) cs) :
    ShapeZ (transplantRB s z r.addr) r cs ∧
      (transplantRB s z r.addr).parent r.addr = RBPath.addr cs NIL := by
  have hal := h.alloc
  have hnd2 : (r.addrs ++ RBPath.addrs cs).Nodup :=
    nodup_remove_mid [] (r.addrs ++ RBPath.addrs cs) z (by simpa using h.nodup)
  have hal2 : ∀ a ∈ r.addrs ++ RBPath.addrs cs, a ≠ NIL ∧ a < s.next := by
    intro a ha
    refine h.alloc a ?_
    simp only [RBTree.addrs_node, RBTree.addrs_nil, List.nil_append, List.append_nil,
      List.cons_append, List.append_assoc, List.mem_cons, List.mem_append] at ha ⊢
    tauto
  obtain ⟨hz, -, hr⟩ := h.rep
  have hpath := h.path
  obtain ⟨hs1, hs2, hs3, hs4, hs5⟩ := h.sentinel
  have hnd' := h.nodup
  simp only [RBTree.addrs_node, RBTree.addrs_nil, List.nil_append, List.append_nil,
    List.nodup_append, List.nodup_cons, List.mem_cons,
    List.mem_append, List.append_assoc, List.cons_append, List.disjoint_cons_right,
    List.disjoint_append_right, List.disjoint_cons_left, List.disjoint_append_left, not_or]
    at hnd'
  have hzN : z ≠ NIL := (hal z (by simp)).1
  have hNz := hzN.symm
  simp only [RBTree.addr_node, RBTree.addr_nil] at hz hpath
  obtain ⟨hz1, hz2, hz3, hz4, hz5, hz6⟩ := hz
  cases cs with
  | nil =>
    simp only [RBPath.addr_empty, RBPath.addrs_empty, List.append_nil] at hz3 hnd' hal ⊢
    cases r with
    | nil =>
      simp only [RBTree.addr_nil] at hz4 hz5 ⊢
      have e : (transplantRB s z NIL).key = s.key ∧
          (transplantRB s z NIL).size = s.size ∧
          (transplantRB s z NIL).parent = upd s.parent NIL NIL ∧
          (transplantRB s z NIL).left = s.left ∧
          (transplantRB s z NIL).right = s.right ∧
          (transplantRB s z NIL).color = s.color ∧
          (transplantRB s z NIL).next = s.next ∧
          (transplantRB s z NIL).root = NIL := by
        simp [transplantRB, upd_ne, *]
      generalize transplantRB s z NIL = s' at e ⊢
      obtain ⟨e1, e2, e3, e4, e5, e6, e7, e8⟩ := e
      have hframe : ∀ a, a ∉ [NIL] → State.SameAt s s' a := by
        intro a ha
        simp only [List.mem_cons, List.mem_singleton, not_or, List.not_mem_nil, or_false,
          not_false_eq_true] at ha
        simp [State.SameAt, upd_ne, ha, e1, e2, e3, e4, e5, e6]
      refine ⟨⟨?_, ?_, ?_, ?_, ?_, ?_, ?_⟩, ?_⟩
      · trivial
      · trivial
      · simpa [e8] using h.root
      · exact hnd2
      · intro a ha
        rw [e7]
        exact hal2 a ha
      · unfold Sentinel
        simp [e1, e2, e4, e5, e6, upd_ne, *]
      · rw [e7]; exact h.nilAlloc
      · simp [e3]
    | node rb crb krb srb rl rr =>
      obtain ⟨hb, hrl, hrr⟩ := hr
      obtain ⟨hb1, hb2, hb3, hb4, hb5, hb6⟩ := hb
      simp only [RBTree.addr_node, RBTree.addrs_node, List.mem_append,
        List.mem_cons, not_or, List.nodup_append, List.nodup_cons, List.disjoint_cons_right,
        List.disjoint_append_right, List.disjoint_cons_left, List.disjoint_append_left]
        at hz4 hz5 hnd' hal ⊢
      have hbN : rb ≠ NIL := (hal rb (by simp)).1
      have hNb := hbN.symm
      have hbz : rb ≠ z := by rintro rfl; simp_all
      have hzb := hbz.symm
      have e : (transplantRB s z rb).key = s.key ∧
          (transplantRB s z rb).size = s.size ∧
          (transplantRB s z rb).parent = upd s.parent rb NIL ∧
          (transplantRB s z rb).left = s.left ∧
          (transplantRB s z rb).right = s.right ∧
          (transplantRB s z rb).color = s.color ∧
          (transplantRB s z rb).next = s.next ∧
          (transplantRB s z rb).root = rb := by
        simp [transplantRB, upd_ne, *]
      generalize transplantRB s z rb = s' at e ⊢
      obtain ⟨e1, e2, e3, e4, e5, e6, e7, e8⟩ := e
      have hframe : ∀ a, a ∉ [rb] → State.SameAt s s' a := by
        intro a ha
        simp only [List.mem_cons, List.mem_singleton, not_or, List.not_mem_nil, or_false,
          not_false_eq_true] at ha
        simp [State.SameAt, upd_ne, ha, e1, e2, e3, e4, e5, e6]
      refine ⟨⟨?_, ?_, ?_, ?_, ?_, ?_, ?_⟩, ?_⟩
      · simp only [RBTree.rep_node, RBPath.addr_cons, RBPath.addr_empty, RBFrame.addr_L,
          RBFrame.addr_R]
        refine ⟨?_, hrl.frame hframe (by simp_all), hrr.frame hframe (by simp_all)⟩
        simp [upd_ne, *]
      · trivial
      · simpa [e8] using h.root
      · exact hnd2
      · intro a ha
        rw [e7]
        exact hal2 a ha
      · unfold Sentinel
        simp [e1, e2, e4, e5, e6, upd_ne, *]
      · rw [e7]; exact h.nilAlloc
      · simp [e3]
  | cons f rest =>
    cases f with
    | L p cp kp sp sib =>
      obtain ⟨hp, hsib, hrest⟩ := hpath
      obtain ⟨hp1, hp2, hp3, hp4, hp5, hp6⟩ := hp
      simp only [RBPath.addr_cons, RBFrame.addr_L, RBPath.addrs_cons, RBFrame.addrs_L,
        List.mem_append, List.mem_cons, not_or, List.nodup_append, List.nodup_cons,
        List.disjoint_cons_right, List.disjoint_append_right, List.disjoint_cons_left,
        List.disjoint_append_left, List.cons_append] at hz3 hnd' hal ⊢
      have hpN : p ≠ NIL := (hal p (by simp)).1
      have hNp := hpN.symm
      have hpz : p ≠ z := by rintro rfl; simp_all
      have hzp := hpz.symm
      have hNsib : NIL ∉ sib.addrs := fun hm => (hal NIL (by simp [hm])).1 rfl
      have hNrest : NIL ∉ RBPath.addrs rest := fun hm => (hal NIL (by simp [hm])).1 rfl
      cases r with
      | nil =>
        simp only [RBTree.addr_nil] at hz4 hz5 ⊢
        have e : (transplantRB s z NIL).key = s.key ∧
            (transplantRB s z NIL).size = s.size ∧
            (transplantRB s z NIL).parent = upd s.parent NIL p ∧
            (transplantRB s z NIL).left = upd s.left p NIL ∧
            (transplantRB s z NIL).right = s.right ∧
            (transplantRB s z NIL).color = s.color ∧
            (transplantRB s z NIL).next = s.next ∧
            (transplantRB s z NIL).root = s.root := by
          simp [transplantRB, upd_ne, *]
        generalize transplantRB s z NIL = s' at e ⊢
        obtain ⟨e1, e2, e3, e4, e5, e6, e7, e8⟩ := e
        have hframe : ∀ a, a ∉ [NIL, p] → State.SameAt s s' a := by
          intro a ha
          simp only [List.mem_cons, List.mem_singleton, not_or, List.not_mem_nil, or_false,
            not_false_eq_true] at ha
          simp [State.SameAt, upd_ne, ha, e1, e2, e3, e4, e5, e6]
        refine ⟨⟨?_, ?_, ?_, ?_, ?_, ?_, ?_⟩, ?_⟩
        · trivial
        · simp only [RBPath.rep_L, RBPath.rep_R, RBTree.addr_node, RBTree.addr_nil]
          refine ⟨?_, hsib.frame hframe (by simp_all), hrest.frame_path hframe (by simp_all)⟩
          simp [upd_ne, *]
        · simpa [e8] using h.root
        · exact hnd2
        · intro a ha
          rw [e7]
          exact hal2 a ha
        · unfold Sentinel
          simp [e1, e2, e4, e5, e6, upd_ne, *]
        · rw [e7]; exact h.nilAlloc
        · simp [e3]
      | node rb crb krb srb rl rr =>
        obtain ⟨hb, hrl, hrr⟩ := hr
        obtain ⟨hb1, hb2, hb3, hb4, hb5, hb6⟩ := hb
        simp only [RBTree.addr_node, RBTree.addrs_node, List.mem_append,
          List.mem_cons, not_or, List.nodup_append, List.nodup_cons, List.disjoint_cons_right,
          List.disjoint_append_right, List.disjoint_cons_left, List.disjoint_append_left]
          at hz4 hz5 hnd' hal ⊢
        have hbN : rb ≠ NIL := (hal rb (by simp)).1
        have hNb := hbN.symm
        have hbz : rb ≠ z := by rintro rfl; simp_all
        have hbp : rb ≠ p := by rintro rfl; simp_all
        have hzb := hbz.symm
        have hpb := hbp.symm
        have e : (transplantRB s z rb).key = s.key ∧
            (transplantRB s z rb).size = s.size ∧
            (transplantRB s z rb).parent = upd s.parent rb p ∧
            (transplantRB s z rb).left = upd s.left p rb ∧
            (transplantRB s z rb).right = s.right ∧
            (transplantRB s z rb).color = s.color ∧
            (transplantRB s z rb).next = s.next ∧
            (transplantRB s z rb).root = s.root := by
          simp [transplantRB, upd_ne, *]
        generalize transplantRB s z rb = s' at e ⊢
        obtain ⟨e1, e2, e3, e4, e5, e6, e7, e8⟩ := e
        have hframe : ∀ a, a ∉ [rb, p] → State.SameAt s s' a := by
          intro a ha
          simp only [List.mem_cons, List.mem_singleton, not_or, List.not_mem_nil, or_false,
            not_false_eq_true] at ha
          simp [State.SameAt, upd_ne, ha, e1, e2, e3, e4, e5, e6]
        refine ⟨⟨?_, ?_, ?_, ?_, ?_, ?_, ?_⟩, ?_⟩
        · simp only [RBTree.rep_node, RBPath.addr_cons, RBPath.addr_empty, RBFrame.addr_L,
            RBFrame.addr_R]
          refine ⟨?_, hrl.frame hframe (by simp_all), hrr.frame hframe (by simp_all)⟩
          simp [upd_ne, *]
        · simp only [RBPath.rep_L, RBPath.rep_R, RBTree.addr_node, RBTree.addr_nil]
          refine ⟨?_, hsib.frame hframe (by simp_all), hrest.frame_path hframe (by simp_all)⟩
          simp [upd_ne, *]
        · simpa [e8] using h.root
        · exact hnd2
        · intro a ha
          rw [e7]
          exact hal2 a ha
        · unfold Sentinel
          simp [e1, e2, e4, e5, e6, upd_ne, *]
        · rw [e7]; exact h.nilAlloc
        · simp [e3]
    | R p cp kp sp sib =>
      obtain ⟨hp, hsib, hrest⟩ := hpath
      obtain ⟨hp1, hp2, hp3, hp4, hp5, hp6⟩ := hp
      simp only [RBPath.addr_cons, RBFrame.addr_R, RBPath.addrs_cons, RBFrame.addrs_R,
        List.mem_append, List.mem_cons, not_or, List.nodup_append, List.nodup_cons,
        List.disjoint_cons_right, List.disjoint_append_right, List.disjoint_cons_left,
        List.disjoint_append_left, List.cons_append] at hz3 hnd' hal ⊢
      have hpN : p ≠ NIL := (hal p (by simp)).1
      have hNp := hpN.symm
      have hpz : p ≠ z := by rintro rfl; simp_all
      have hzp := hpz.symm
      have hsz : z ≠ sib.addr := (RBTree.addr_ne hzN (by simp_all)).symm
      have hNsib : NIL ∉ sib.addrs := fun hm => (hal NIL (by simp [hm])).1 rfl
      have hNrest : NIL ∉ RBPath.addrs rest := fun hm => (hal NIL (by simp [hm])).1 rfl
      cases r with
      | nil =>
        simp only [RBTree.addr_nil] at hz4 hz5 ⊢
        have e : (transplantRB s z NIL).key = s.key ∧
            (transplantRB s z NIL).size = s.size ∧
            (transplantRB s z NIL).parent = upd s.parent NIL p ∧
            (transplantRB s z NIL).left = s.left ∧
            (transplantRB s z NIL).right = upd s.right p NIL ∧
            (transplantRB s z NIL).color = s.color ∧
            (transplantRB s z NIL).next = s.next ∧
            (transplantRB s z NIL).root = s.root := by
          simp [transplantRB, upd_ne, *]
        generalize transplantRB s z NIL = s' at e ⊢
        obtain ⟨e1, e2, e3, e4, e5, e6, e7, e8⟩ := e
        have hframe : ∀ a, a ∉ [NIL, p] → State.SameAt s s' a := by
          intro a ha
          simp only [List.mem_cons, List.mem_singleton, not_or, List.not_mem_nil, or_false,
            not_false_eq_true] at ha
          simp [State.SameAt, upd_ne, ha, e1, e2, e3, e4, e5, e6]
        refine ⟨⟨?_, ?_, ?_, ?_, ?_, ?_, ?_⟩, ?_⟩
        · trivial
        · simp only [RBPath.rep_L, RBPath.rep_R, RBTree.addr_node, RBTree.addr_nil]
          refine ⟨?_, hsib.frame hframe (by simp_all), hrest.frame_path hframe (by simp_all)⟩
          simp [upd_ne, *]
        · simpa [e8] using h.root
        · exact hnd2
        · intro a ha
          rw [e7]
          exact hal2 a ha
        · unfold Sentinel
          simp [e1, e2, e4, e5, e6, upd_ne, *]
        · rw [e7]; exact h.nilAlloc
        · simp [e3]
      | node rb crb krb srb rl rr =>
        obtain ⟨hb, hrl, hrr⟩ := hr
        obtain ⟨hb1, hb2, hb3, hb4, hb5, hb6⟩ := hb
        simp only [RBTree.addr_node, RBTree.addrs_node, List.mem_append,
          List.mem_cons, not_or, List.nodup_append, List.nodup_cons, List.disjoint_cons_right,
          List.disjoint_append_right, List.disjoint_cons_left, List.disjoint_append_left]
          at hz4 hz5 hnd' hal ⊢
        have hbN : rb ≠ NIL := (hal rb (by simp)).1
        have hNb := hbN.symm
        have hbz : rb ≠ z := by rintro rfl; simp_all
        have hbp : rb ≠ p := by rintro rfl; simp_all
        have hzb := hbz.symm
        have hpb := hbp.symm
        have e : (transplantRB s z rb).key = s.key ∧
            (transplantRB s z rb).size = s.size ∧
            (transplantRB s z rb).parent = upd s.parent rb p ∧
            (transplantRB s z rb).left = s.left ∧
            (transplantRB s z rb).right = upd s.right p rb ∧
            (transplantRB s z rb).color = s.color ∧
            (transplantRB s z rb).next = s.next ∧
            (transplantRB s z rb).root = s.root := by
          simp [transplantRB, upd_ne, *]
        generalize transplantRB s z rb = s' at e ⊢
        obtain ⟨e1, e2, e3, e4, e5, e6, e7, e8⟩ := e
        have hframe : ∀ a, a ∉ [rb, p] → State.SameAt s s' a := by
          intro a ha
          simp only [List.mem_cons, List.mem_singleton, not_or, List.not_mem_nil, or_false,
            not_false_eq_true] at ha
          simp [State.SameAt, upd_ne, ha, e1, e2, e3, e4, e5, e6]
        refine ⟨⟨?_, ?_, ?_, ?_, ?_, ?_, ?_⟩, ?_⟩
        · simp only [RBTree.rep_node, RBPath.addr_cons, RBPath.addr_empty, RBFrame.addr_L,
            RBFrame.addr_R]
          refine ⟨?_, hrl.frame hframe (by simp_all), hrr.frame hframe (by simp_all)⟩
          simp [upd_ne, *]
        · simp only [RBPath.rep_L, RBPath.rep_R, RBTree.addr_node, RBTree.addr_nil]
          refine ⟨?_, hsib.frame hframe (by simp_all), hrest.frame_path hframe (by simp_all)⟩
          simp [upd_ne, *]
        · simpa [e8] using h.root
        · exact hnd2
        · intro a ha
          rw [e7]
          exact hal2 a ha
        · unfold Sentinel
          simp [e1, e2, e4, e5, e6, upd_ne, *]
        · rw [e7]; exact h.nilAlloc
        · simp [e3]

set_option maxHeartbeats 4000000 in
/-- `transplantRB(root, z, z->left)` when `z` has no right child. -/
theorem ShapeZ.transplant_left {s : State} {z : Nat} {c : Bool} {k sz : Int}
    {r : RBTree} {cs : RBPath} (h : ShapeZ s (.node z c k sz r .nil) cs) :
    ShapeZ (transplantRB s z r.addr) r cs ∧
      (transplantRB s z r.addr).parent r.addr = RBPath.addr cs NIL := by
  have hal := h.alloc
  have hnd2 : (r.addrs ++ RBPath.addrs cs).Nodup :=
    nodup_remove_mid r.addrs (RBPath.addrs cs) z (by simpa using h.nodup)
  have hal2 : ∀ a ∈ r.addrs ++ RBPath.addrs cs, a ≠ NIL ∧ a < s.next := by
    intro a ha
    refine h.alloc a ?_
    simp only [RBTree.addrs_node, RBTree.addrs_nil, List.nil_append, List.append_nil,
      List.cons_append, List.append_assoc, List.mem_cons, List.mem_append] at ha ⊢
    tauto
  obtain ⟨hz, hr, -⟩ := h.rep
  have hpath := h.path
  obtain ⟨hs1, hs2, hs3, hs4, hs5⟩ := h.sentinel
  have hnd' := h.nodup
  simp only [RBTree.addrs_node, RBTree.addrs_nil, List.nil_append, List.append_nil,
    List.nodup_append, List.nodup_cons, List.mem_cons,
    List.mem_append, List.append_assoc, List.cons_append, List.disjoint_cons_right,
    List.disjoint_append_right, List.disjoint_cons_left, List.disjoint_append_left, not_or]
    at hnd'
  have hzN : z ≠ NIL := (hal z (by simp)).1
  have hNz := hzN.symm
  simp only [RBTree.addr_node, RBTree.addr_nil] at hz hpath
  obtain ⟨hz1, hz2, hz3, hz4, hz5, hz6⟩ := hz
  cases cs with
  | nil =>
    simp only [RBPath.addr_empty, RBPath.addrs_empty, List.append_nil] at hz3 hnd' hal ⊢
    cases r with
    | nil =>
      simp only [RBTree.addr_nil] at hz4 hz5 ⊢
      have e : (transplantRB s z NIL).key = s.key ∧
          (transplantRB s z NIL).size = s.size ∧
          (transplantRB s z NIL).parent = upd s.parent NIL NIL ∧
          (transplantRB s z NIL).left = s.left ∧
          (transplantRB s z NIL).right = s.right ∧
          (transplantRB s z NIL).color = s.color ∧
          (transplantRB s z NIL).next = s.next ∧
          (transplantRB s z NIL).root = NIL := by
        simp [transplantRB, upd_ne, *]
      generalize transplantRB s z NIL = s' at e ⊢
      obtain ⟨e1, e2, e3, e4, e5, e6, e7, e8⟩ := e
      have hframe : ∀ a, a ∉ [NIL] → State.SameAt s s' a := by
        intro a ha
        simp only [List.mem_cons, List.mem_singleton, not_or, List.not_mem_nil, or_false,
          not_false_eq_true] at ha
        simp [State.SameAt, upd_ne, ha, e1, e2, e3, e4, e5, e6]
      refine ⟨⟨?_, ?_, ?_, ?_, ?_, ?_, ?_⟩, ?_⟩
      · trivial
      · trivial
      · simpa [e8] using h.root
      · exact hnd2
      · intro a ha
        rw [e7]
        exact hal2 a ha
      · unfold Sentinel
        simp [e1, e2, e4, e5, e6, upd_ne, *]
      · rw [e7]; exact h.nilAlloc
      · simp [e3]
    | node rb crb krb srb rl rr =>
      obtain ⟨hb, hrl, hrr⟩ := hr
      obtain ⟨hb1, hb2, hb3, hb4, hb5, hb6⟩ := hb
      simp only [RBTree.addr_node, RBTree.addrs_node, List.mem_append,
        List.mem_cons, not_or, List.nodup_append, List.nodup_cons, List.disjoint_cons_right,
        List.disjoint_append_right, List.disjoint_cons_left, List.disjoint_append_left]
        at hz4 hz5 hnd' hal ⊢
      have hbN : rb ≠ NIL := (hal rb (by simp)).1
      have hNb := hbN.symm
      have hbz : rb ≠ z := by rintro rfl; simp_all
      have hzb := hbz.symm
      have e : (transplantRB s z rb).key = s.key ∧
          (transplantRB s z rb).size = s.size ∧
          (transplantRB s z rb).parent = upd s.parent rb NIL ∧
          (transplantRB s z rb).left = s.left ∧
          (transplantRB s z rb).right = s.right ∧
          (transplantRB s z rb).color = s.color ∧
          (transplantRB s z rb).next = s.next ∧
          (transplantRB s z rb).root = rb := by
        simp [transplantRB, upd_ne, *]
      generalize transplantRB s z rb = s' at e ⊢
      obtain ⟨e1, e2, e3, e4, e5, e6, e7, e8⟩ := e
      have hframe : ∀ a, a ∉ [rb] → State.SameAt s s' a := by
        intro a ha
        simp only [List.mem_cons, List.mem_singleton, not_or, List.not_mem_nil, or_false,
          not_false_eq_true] at ha
        simp [State.SameAt, upd_ne, ha, e1, e2, e3, e4, e5, e6]
      refine ⟨⟨?_, ?_, ?_, ?_, ?_, ?_, ?_⟩, ?_⟩
      · simp only [RBTree.rep_node, RBPath.addr_cons, RBPath.addr_empty, RBFrame.addr_L,
          RBFrame.addr_R]
        refine ⟨?_, hrl.frame hframe (by simp_all), hrr.frame hframe (by simp_all)⟩
        simp [upd_ne, *]
      · trivial
      · simpa [e8] using h.root
      · exact hnd2
      · intro a ha
        rw [e7]
        exact hal2 a ha
      · unfold Sentinel
        simp [e1, e2, e4, e5, e6, upd_ne, *]
      · rw [e7]; exact h.nilAlloc
      · simp [e3]
  | cons f rest =>
    cases f with
    | L p cp kp sp sib =>
      obtain ⟨hp, hsib, hrest⟩ := hpath
      obtain ⟨hp1, hp2, hp3, hp4, hp5, hp6⟩ := hp
      simp only [RBPath.addr_cons, RBFrame.addr_L, RBPath.addrs_cons, RBFrame.addrs_L,
        List.mem_append, List.mem_cons, not_or, List.nodup_append, List.nodup_cons,
        List.disjoint_cons_right, List.disjoint_append_right, List.disjoint_cons_left,
        List.disjoint_append_left, List.cons_append] at hz3 hnd' hal ⊢
      have hpN : p ≠ NIL := (hal p (by simp)).1
      have hNp := hpN.symm
      have hpz : p ≠ z := by rintro rfl; simp_all
      have hzp := hpz.symm
      have hNsib : NIL ∉ sib.addrs := fun hm => (hal NIL (by simp [hm])).1 rfl
      have hNrest : NIL ∉ RBPath.addrs rest := fun hm => (hal NIL (by simp [hm])).1 rfl
      cases r with
      | nil =>
        simp only [RBTree.addr_nil] at hz4 hz5 ⊢
        have e : (transplantRB s z NIL).key = s.key ∧
            (transplantRB s z NIL).size = s.size ∧
            (transplantRB s z NIL).parent = upd s.parent NIL p ∧
            (transplantRB s z NIL).left = upd s.left p NIL ∧
            (transplantRB s z NIL).right = s.right ∧
            (transplantRB s z NIL).color = s.color ∧
            (transplantRB s z NIL).next = s.next ∧
            (transplantRB s z NIL).root = s.root := by
          simp [transplantRB, upd_ne, *]
        generalize transplantRB s z NIL = s' at e ⊢
        obtain ⟨e1, e2, e3, e4, e5, e6, e7, e8⟩ := e
        have hframe : ∀ a, a ∉ [NIL, p] → State.SameAt s s' a := by
          intro a ha
          simp only [List.mem_cons, List.mem_singleton, not_or, List.not_mem_nil, or_false,
            not_false_eq_true] at ha
          simp [State.SameAt, upd_ne, ha, e1, e2, e3, e4, e5, e6]
        refine ⟨⟨?_, ?_, ?_, ?_, ?_, ?_, ?_⟩, ?_⟩
        · trivial
        · simp only [RBPath.rep_L, RBPath.rep_R, RBTree.addr_node, RBTree.addr_nil]
          refine ⟨?_, hsib.frame hframe (by simp_all), hrest.frame_path hframe (by simp_all)⟩
          simp [upd_ne, *]
        · simpa [e8] using h.root
        · exact hnd2
        · intro a ha
          rw [e7]
          exact hal2 a ha
        · unfold Sentinel
          simp [e1, e2, e4, e5, e6, upd_ne, *]
        · rw [e7]; exact h.nilAlloc
        · simp [e3]
      | node rb crb krb srb rl rr =>
        obtain ⟨hb, hrl, hrr⟩ := hr
        obtain ⟨hb1, hb2, hb3, hb4, hb5, hb6⟩ := hb
        simp only [RBTree.addr_node, RBTree.addrs_node, List.mem_append,
          List.mem_cons, not_or, List.nodup_append, List.nodup_cons, List.disjoint_cons_right,
          List.disjoint_append_right, List.disjoint_cons_left, List.disjoint_append_left]
          at hz4 hz5 hnd' hal ⊢
        have hbN : rb ≠ NIL := (hal rb (by simp)).1
        have hNb := hbN.symm
        have hbz : rb ≠ z := by rintro rfl; simp_all
        have hbp : rb ≠ p := by rintro rfl; simp_all
        have hzb := hbz.symm
        have hpb := hbp.symm
        have e : (transplantRB s z rb).key = s.key ∧
            (transplantRB s z rb).size = s.size ∧
            (transplantRB s z rb).parent = upd s.parent rb p ∧
            (transplantRB s z rb).left = upd s.left p rb ∧
            (transplantRB s z rb).right = s.right ∧
            (transplantRB s z rb).color = s.color ∧
            (transplantRB s z rb).next = s.next ∧
            (transplantRB s z rb).root = s.root := by
          simp [transplantRB, upd_ne, *]
        generalize transplantRB s z rb = s' at e ⊢
        obtain ⟨e1, e2, e3, e4, e5, e6, e7, e8⟩ := e
        have hframe : ∀ a, a ∉ [rb, p] → State.SameAt s s' a := by
          intro a ha
          simp only [List.mem_cons, List.mem_singleton, not_or, List.not_mem_nil, or_false,
            not_false_eq_true] at ha
          simp [State.SameAt, upd_ne, ha, e1, e2, e3, e4, e5, e6]
        refine ⟨⟨?_, ?_, ?_, ?_, ?_, ?_, ?_⟩, ?_⟩
        · simp only [RBTree.rep_node, RBPath.addr_cons, RBPath.addr_empty, RBFrame.addr_L,
            RBFrame.addr_R]
          refine ⟨?_, hrl.frame hframe (by simp_all), hrr.frame hframe (by simp_all)⟩
          simp [upd_ne, *]
        · simp only [RBPath.rep_L, RBPath.rep_R, RBTree.addr_node, RBTree.addr_nil]
          refine ⟨?_, hsib.frame hframe (by simp_all), hrest.frame_path hframe (by simp_all)⟩
          simp [upd_ne, *]
        · simpa [e8] using h.root
        · exact hnd2
        · intro a ha
          rw [e7]
          exact hal2 a ha
        · unfold Sentinel
          simp [e1, e2, e4, e5, e6, upd_ne, *]
        · rw [e7]; exact h.nilAlloc
        · simp [e3]
    | R p cp kp sp sib =>
      obtain ⟨hp, hsib, hrest⟩ := hpath
      obtain ⟨hp1, hp2, hp3, hp4, hp5, hp6⟩ := hp
      simp only [RBPath.addr_cons, RBFrame.addr_R, RBPath.addrs_cons, RBFrame.addrs_R,
        List.mem_append, List.mem_cons, not_or, List.nodup_append, List.nodup_cons,
        List.disjoint_cons_right, List.disjoint_append_right, List.disjoint_cons_left,
        List.disjoint_append_left, List.cons_append] at hz3 hnd' hal ⊢
      have hpN : p ≠ NIL := (hal p (by simp)).1
      have hNp := hpN.symm
      have hpz : p ≠ z := by rintro rfl; simp_all
      have hzp := hpz.symm
      have hsz : z ≠ sib.addr := (RBTree.addr_ne hzN (by simp_all)).symm
      have hNsib : NIL ∉ sib.addrs := fun hm => (hal NIL (by simp [hm])).1 rfl
      have hNrest : NIL ∉ RBPath.addrs rest := fun hm => (hal NIL (by simp [hm])).1 rfl
      cases r with
      | nil =>
        simp only [RBTree.addr_nil] at hz4 hz5 ⊢
        have e : (transplantRB s z NIL).key = s.key ∧
            (transplantRB s z NIL).size = s.size ∧
            (transplantRB s z NIL).parent = upd s.parent NIL p ∧
            (transplantRB s z NIL).left = s.left ∧
            (transplantRB s z NIL).right = upd s.right p NIL ∧
            (transplantRB s z NIL).color = s.color ∧
            (transplantRB s z NIL).next = s.next ∧
            (transplantRB s z NIL).root = s.root := by
          simp [transplantRB, upd_ne, *]
        generalize transplantRB s z NIL = s' at e ⊢
        obtain ⟨e1, e2, e3, e4, e5, e6, e7, e8⟩ := e
        have hframe : ∀ a, a ∉ [NIL, p] → State.SameAt s s' a := by
          intro a ha
          simp only [List.mem_cons, List.mem_singleton, not_or, List.not_mem_nil, or_false,
            not_false_eq_true] at ha
          simp [State.SameAt, upd_ne, ha, e1, e2, e3, e4, e5, e6]
        refine ⟨⟨?_, ?_, ?_, ?_, ?_, ?_, ?_⟩, ?_⟩
        · trivial
        · simp only [RBPath.rep_L, RBPath.rep_R, RBTree.addr_node, RBTree.addr_nil]
          refine ⟨?_, hsib.frame hframe (by simp_all), hrest.frame_path hframe (by simp_all)⟩
          simp [upd_ne, *]
        · simpa [e8] using h.root
        · exact hnd2
        · intro a ha
          rw [e7]
          exact hal2 a ha
        · unfold Sentinel
          simp [e1, e2, e4, e5, e6, upd_ne, *]
        · rw [e7]; exact h.nilAlloc
        · simp [e3]
      | node rb crb krb srb rl rr =>
        obtain ⟨hb, hrl, hrr⟩ := hr
        obtain ⟨hb1, hb2, hb3, hb4, hb5, hb6⟩ := hb
        simp only [RBTree.addr_node, RBTree.addrs_node, List.mem_append,
          List.mem_cons, not_or, List.nodup_append, List.nodup_cons, List.disjoint_cons_right,
          List.disjoint_append_right, List.disjoint_cons_left, List.disjoint_append_left]
          at hz4 hz5 hnd' hal ⊢
        have hbN : rb ≠ NIL := (hal rb (by simp)).1
        have hNb := hbN.symm
        have hbz : rb ≠ z := by rintro rfl; simp_all
        have hbp : rb ≠ p := by rintro rfl; simp_all
        have hzb := hbz.symm
        have hpb := hbp.symm
        have e : (transplantRB s z rb).key = s.key ∧
            (transplantRB s z rb).size = s.size ∧
            (transplantRB s z rb).parent = upd s.parent rb p ∧
            (transplantRB s z rb).left = s.left ∧
            (transplantRB s z rb).right = upd s.right p rb ∧
            (transplantRB s z rb).color = s.color ∧
            (transplantRB s z rb).next = s.next ∧
            (transplantRB s z rb).root = s.root := by
          simp [transplantRB, upd_ne, *]
        generalize transplantRB s z rb = s' at e ⊢
        obtain ⟨e1, e2, e3, e4, e5, e6, e7, e8⟩ := e
        have hframe : ∀ a, a ∉ [rb, p] → State.SameAt s s' a := by
          intro a ha
          simp only [List.mem_cons, List.mem_singleton, not_or, List.not_mem_nil, or_false,
            not_false_eq_true] at ha
          simp [State.SameAt, upd_ne, ha, e1, e2, e3, e4, e5, e6]
        refine ⟨⟨?_, ?_, ?_, ?_, ?_, ?_, ?_⟩, ?_⟩
        · simp only [RBTree.rep_node, RBPath.addr_cons, RBPath.addr_empty, RBFrame.addr_L,
            RBFrame.addr_R]
          refine ⟨?_, hrl.frame hframe (by simp_all), hrr.frame hframe (by simp_all)⟩
          simp [upd_ne, *]
        · simp only [RBPath.rep_L, RBPath.rep_R, RBTree.addr_node, RBTree.addr_nil]
          refine ⟨?_, hsib.frame hframe (by simp_all), hrest.frame_path hframe (by simp_all)⟩
          simp [upd_ne, *]
        · simpa [e8] using h.root
        · exact hnd2
        · intro a ha
          rw [e7]
          exact hal2 a ha
        · unfold Sentinel
          simp [e1, e2, e4, e5, e6, upd_ne, *]
        · rw [e7]; exact h.nilAlloc
        · simp [e3]

/-! ## Dynamic tree: the splice of `deleteRB` with two children -/

theorem perm_swap3 (A B C : List Nat) (y : Nat) :
    (A ++ (y :: B ++ C)).Perm (B ++ (y :: A ++ C)) := by
  rw [List.perm_iff_count]
  intro a
  simp only [List.count_append, List.count_cons]
  omega

set_option maxHeartbeats 8000000 in
/-- The splice of `deleteRB` when the successor `y` is the right child of `z`:
`x->parent = y; transplantRB(root, z, y); y->left = z->left; ...`. -/
theorem ShapeZ.replace_child {s : State} {z y la : Nat} {c cy cl : Bool}
    {k sz ky sy kl sl : Int} {ll lr yr : RBTree} {cs : RBPath}
    (h : ShapeZ s (.node z c k sz (.node la cl kl sl ll lr) (.node y cy ky sy .nil yr)) cs) :
    ShapeZ (((((transplantRB (s.setParent (s.right y) y) z y).setLeft y
      ((transplantRB (s.setParent (s.right y) y) z y).left z)).setParent
      (((transplantRB (s.setParent (s.right y) y) z y).setLeft y
        ((transplantRB (s.setParent (s.right y) y) z y).left z)).left y) y).setColor y
      (s.color z)).setSize y (s.size z))
        yr (.R y c ky sz (.node la cl kl sl ll lr) :: cs) ∧
      (((((transplantRB (s.setParent (s.right y) y) z y).setLeft y
      ((transplantRB (s.setParent (s.right y) y) z y).left z)).setParent
      (((transplantRB (s.setParent (s.right y) y) z y).setLeft y
        ((transplantRB (s.setParent (s.right y) y) z y).left z)).left y) y).setColor y
      (s.color z)).setSize y (s.size z)).parent yr.addr = y := by
  have hal := h.alloc
  have hnd2 : (yr.addrs ++ RBPath.addrs (.R y c ky sz (.node la cl kl sl ll lr) :: cs)).Nodup := by
    have h1 := h.nodup
    simp only [RBTree.addrs_node, RBTree.addrs_nil, List.nil_append, List.append_assoc,
      List.cons_append] at h1
    have h2 := nodup_remove_mid (ll.addrs ++ la :: lr.addrs)
      (y :: (yr.addrs ++ RBPath.addrs cs)) z (by simpa using h1)
    have h3 : (((ll.addrs ++ la :: lr.addrs) ++ (y :: yr.addrs ++ RBPath.addrs cs))).Nodup := by
      simpa using h2
    have h4 := (perm_swap3 (ll.addrs ++ la :: lr.addrs) yr.addrs (RBPath.addrs cs) y).nodup_iff.mp h3
    simpa using h4
  have hal2 : ∀ a ∈ yr.addrs ++ RBPath.addrs (.R y c ky sz (.node la cl kl sl ll lr) :: cs),
      a ≠ NIL ∧ a < s.next := by
    intro a ha
    refine h.alloc a ?_
    simp only [RBTree.addrs_node, RBTree.addrs_nil, List.nil_append, List.append_nil,
      List.cons_append, List.append_assoc, List.mem_cons, List.mem_append,
      RBPath.addrs_cons, RBFrame.addrs_R] at ha ⊢
    tauto
  have hNll : NIL ∉ ll.addrs := fun hm => (hal NIL (by simp [hm])).1 rfl
  have hNlr : NIL ∉ lr.addrs := fun hm => (hal NIL (by simp [hm])).1 rfl
  obtain ⟨hz, ⟨hl, hll, hlr⟩, hy, -, hyrep⟩ := h.rep
  have hpath := h.path
  obtain ⟨hs1, hs2, hs3, hs4, hs5⟩ := h.sentinel
  have hnd' := h.nodup
  simp only [RBTree.addrs_node, RBTree.addrs_nil, List.nil_append, List.append_nil,
    List.nodup_append, List.nodup_cons, List.mem_cons,
    List.mem_append, List.append_assoc, List.cons_append, List.disjoint_cons_right,
    List.disjoint_append_right, List.disjoint_cons_left, List.disjoint_append_left, not_or]
    at hnd'
  have hzN : z ≠ NIL := (hal z (by simp)).1
  have hyN : y ≠ NIL := (hal y (by simp)).1
  have hlN : la ≠ NIL := (hal la (by simp)).1
  have hNz := hzN.symm
  have hNy := hyN.symm
  have hNl := hlN.symm
  have hzy : z ≠ y := by rintro rfl; simp at hnd'
  have hzl : z ≠ la := by rintro rfl; simp at hnd'
  have hyl' : y ≠ la := by rintro rfl; simp at hnd'
  have hyz := hzy.symm
  have hlz := hzl.symm
  have hly := hyl'.symm
  simp only [RBTree.addr_node, RBTree.addr_nil] at hz hl hy hpath
  obtain ⟨hz1, hz2, hz3, hz4, hz5, hz6⟩ := hz
  obtain ⟨hl1, hl2, hl3, hl4, hl5, hl6⟩ := hl
  obtain ⟨hy1, hy2, hy3, hy4, hy5, hy6⟩ := hy
  cases cs with
  | nil =>
    simp only [RBPath.addr_empty, RBPath.addrs_empty, List.append_nil] at hz3 hnd' hal
    cases yr with
    | nil =>
      simp only [RBTree.addr_nil] at hy5 ⊢
      generalize hs' : (((((transplantRB (s.setParent (s.right y) y) z y).setLeft y
            ((transplantRB (s.setParent (s.right y) y) z y).left z)).setParent
            (((transplantRB (s.setParent (s.right y) y) z y).setLeft y
              ((transplantRB (s.setParent (s.right y) y) z y).left z)).left y) y).setColor y
            (s.color z)).setSize y (s.size z)) = s'
      have e : s'.key = s.key ∧
          s'.size = upd s.size y sz ∧
          s'.parent = upd (upd (upd s.parent NIL y) y NIL) la y ∧
          s'.left = upd s.left y la ∧
          s'.right = s.right ∧
          s'.color = upd s.color y c ∧
          s'.next = s.next ∧
          s'.root = y := by
        rw [← hs']
        simp [transplantRB, upd_ne, *]
      clear hs'
      obtain ⟨e1, e2, e3, e4, e5, e6, e7, e8⟩ := e
      have hframe : ∀ a, a ∉ [y, la, NIL] → State.SameAt s s' a := by
        intro a ha
        simp only [List.mem_cons, List.mem_singleton, not_or, List.not_mem_nil, or_false,
          not_false_eq_true] at ha
        simp [State.SameAt, upd_ne, ha, e1, e2, e3, e4, e5, e6]
      refine ⟨⟨?_, ?_, ?_, hnd2, ?_, ?_, ?_⟩, ?_⟩
      · trivial
      · simp only [RBPath.rep_L, RBPath.rep_R, RBTree.addr_node, RBTree.addr_nil,
          RBTree.rep_node, RBPath.rep_empty, RBPath.addr_cons, RBPath.addr_empty, RBFrame.addr_L,
          RBFrame.addr_R]
        refine ⟨?_, ⟨?_, hll.frame hframe (by simp_all), hlr.frame hframe (by simp_all)⟩,
          trivial⟩
        all_goals simp [upd_ne, *]
      · simpa [e8] using h.root
      · intro a ha
        rw [e7]
        exact hal2 a ha
      · unfold Sentinel
        simp [e1, e2, e4, e5, e6, upd_ne, *]
      · rw [e7]; exact h.nilAlloc
      · simp [e3, upd_ne, *]
    | node yb cyb kyb syb yl yr =>
      obtain ⟨hb, hyl, hyr⟩ := hyrep
      obtain ⟨hb1, hb2, hb3, hb4, hb5, hb6⟩ := hb
      simp only [RBTree.addr_node, RBTree.addrs_node, List.mem_append,
        List.mem_cons, not_or, List.nodup_append, List.nodup_cons, List.disjoint_cons_right,
        List.disjoint_append_right, List.disjoint_cons_left, List.disjoint_append_left]
        at hy5 hnd' hal ⊢
      have hbN : yb ≠ NIL := (hal yb (by simp)).1
      have hNb := hbN.symm
      have hbz : yb ≠ z := by rintro rfl; simp at hnd'
      have hby : yb ≠ y := by rintro rfl; simp at hnd'
      have hbl : yb ≠ la := by rintro rfl; simp at hnd'
      have hzb := hbz.symm
      have hyb := hby.symm
      have hlb := hbl.symm
      generalize hs' : (((((transplantRB (s.setParent (s.right y) y) z y).setLeft y
            ((transplantRB (s.setParent (s.right y) y) z y).left z)).setParent
            (((transplantRB (s.setParent (s.right y) y) z y).setLeft y
              ((transplantRB (s.setParent (s.right y) y) z y).left z)).left y) y).setColor y
            (s.color z)).setSize y (s.size z)) = s'
      have e : s'.key = s.key ∧
          s'.size = upd s.size y sz ∧
          s'.parent = upd (upd (upd s.parent yb y) y NIL) la y ∧
          s'.left = upd s.left y la ∧
          s'.right = s.right ∧
          s'.color = upd s.color y c ∧
          s'.next = s.next ∧
          s'.root = y := by
        rw [← hs']
        simp [transplantRB, upd_ne, *]
      clear hs'
      obtain ⟨e1, e2, e3, e4, e5, e6, e7, e8⟩ := e
      have hframe : ∀ a, a ∉ [y, la, yb] → State.SameAt s s' a := by
        intro a ha
        simp only [List.mem_cons, List.mem_singleton, not_or, List.not_mem_nil, or_false,
          not_false_eq_true] at ha
        simp [State.SameAt, upd_ne, ha, e1, e2, e3, e4, e5, e6]
      refine ⟨⟨?_, ?_, ?_, hnd2, ?_, ?_, ?_⟩, ?_⟩
      · simp only [RBTree.rep_node, RBPath.addr_cons, RBPath.addr_empty, RBFrame.addr_L,
          RBFrame.addr_R]
        refine ⟨?_, hyl.frame hframe (by simp_all), hyr.frame hframe (by simp_all)⟩
        simp [upd_ne, *]
      · simp only [RBPath.rep_L, RBPath.rep_R, RBTree.addr_node, RBTree.addr_nil,
          RBTree.rep_node, RBPath.rep_empty, RBPath.addr_cons, RBPath.addr_empty, RBFrame.addr_L,
          RBFrame.addr_R]
        refine ⟨?_, ⟨?_, hll.frame hframe (by simp_all), hlr.frame hframe (by simp_all)⟩,
          trivial⟩
        all_goals simp [upd_ne, *]
      · simpa [e8] using h.root
      · intro a ha
        rw [e7]
        exact hal2 a ha
      · unfold Sentinel
        simp [e1, e2, e4, e5, e6, upd_ne, *]
      · rw [e7]; exact h.nilAlloc
      · simp [e3, upd_ne, *]
  | cons f rest =>
    cases f with
    | L p cp kp sp sib =>
      obtain ⟨hp, hsib, hrest⟩ := hpath
      obtain ⟨hp1, hp2, hp3, hp4, hp5, hp6⟩ := hp
      simp only [RBPath.addr_cons, RBFrame.addr_L, RBPath.addrs_cons, RBFrame.addrs_L,
        List.mem_append, List.mem_cons, not_or, List.nodup_append, List.nodup_cons,
        List.disjoint_cons_right, List.disjoint_append_right, List.disjoint_cons_left,
        List.disjoint_append_left, List.cons_append] at hz3 hnd' hal
      have hpN : p ≠ NIL := (hal p (by simp)).1
      have hNp := hpN.symm
      have hpz : p ≠ z := by rintro rfl; simp at hnd'
      have hpy : p ≠ y := by rintro rfl; simp at hnd'
      have hpl : p ≠ la := by rintro rfl; simp at hnd'
      have hzp := hpz.symm
      have hyp := hpy.symm
      have hlp := hpl.symm
      have hNsib : NIL ∉ sib.addrs := fun hm => (hal NIL (by simp [hm])).1 rfl
      have hNrest : NIL ∉ RBPath.addrs rest := fun hm => (hal NIL (by simp [hm])).1 rfl
      cases yr with
      | nil =>
        simp only [RBTree.addr_nil] at hy5 ⊢
        generalize hs' : (((((transplantRB (s.setParent (s.right y) y) z y).setLeft y
              ((transplantRB (s.setParent (s.right y) y) z y).left z)).setParent
              (((transplantRB (s.setParent (s.right y) y) z y).setLeft y
                ((transplantRB (s.setParent (s.right y) y) z y).left z)).left y) y).setColor y
              (s.color z)).setSize y (s.size z)) = s'
        have e : s'.key = s.key ∧
            s'.size = upd s.size y sz ∧
            s'.parent = upd (upd (upd s.parent NIL y) y p) la y ∧
            s'.left = upd (upd s.left p y) y la ∧
            s'.right = s.right ∧
            s'.color = upd s.color y c ∧
            s'.next = s.next ∧
            s'.root = s.root := by
          rw [← hs']
          simp [transplantRB, upd_ne, *]
        clear hs'
        obtain ⟨e1, e2, e3, e4, e5, e6, e7, e8⟩ := e
        have hframe : ∀ a, a ∉ [y, la, NIL, p] → State.SameAt s s' a := by
          intro a ha
          simp only [List.mem_cons, List.mem_singleton, not_or, List.not_mem_nil, or_false,
            not_false_eq_true] at ha
          simp [State.SameAt, upd_ne, ha, e1, e2, e3, e4, e5, e6]
        refine ⟨⟨?_, ?_, ?_, hnd2, ?_, ?_, ?_⟩, ?_⟩
        · trivial
        · simp only [RBPath.rep_L, RBPath.rep_R, RBTree.addr_node, RBTree.addr_nil,
            RBTree.rep_node, RBPath.rep_empty, RBPath.addr_cons, RBPath.addr_empty, RBFrame.addr_L,
            RBFrame.addr_R]
          refine ⟨?_, ⟨?_, hll.frame hframe (by simp_all), hlr.frame hframe (by simp_all)⟩,
            ?_, hsib.frame hframe (by simp_all), hrest.frame_path hframe (by simp_all)⟩
          all_goals simp [upd_ne, *]
        · simpa [e8] using h.root
        · intro a ha
          rw [e7]
          exact hal2 a ha
        · unfold Sentinel
          simp [e1, e2, e4, e5, e6, upd_ne, *]
        · rw [e7]; exact h.nilAlloc
        · simp [e3, upd_ne, *]
      | node yb cyb kyb syb yl yr =>
        obtain ⟨hb, hyl, hyr⟩ := hyrep
        obtain ⟨hb1, hb2, hb3, hb4, hb5, hb6⟩ := hb
        simp only [RBTree.addr_node, RBTree.addrs_node, List.mem_append,
          List.mem_cons, not_or, List.nodup_append, List.nodup_cons, List.disjoint_cons_right,
          List.disjoint_append_right, List.disjoint_cons_left, List.disjoint_append_left]
          at hy5 hnd' hal ⊢
        have hbN : yb ≠ NIL := (hal yb (by simp)).1
        have hNb := hbN.symm
        have hbz : yb ≠ z := by rintro rfl; simp at hnd'
        have hby : yb ≠ y := by rintro rfl; simp at hnd'
        have hbl : yb ≠ la := by rintro rfl; simp at hnd'
        have hbp : yb ≠ p := by rintro rfl; simp at hnd'
        have hzb := hbz.symm
        have hyb := hby.symm
        have hlb := hbl.symm
        have hpb := hbp.symm
        generalize hs' : (((((transplantRB (s.setParent (s.right y) y) z y).setLeft y
              ((transplantRB (s.setParent (s.right y) y) z y).left z)).setParent
              (((transplantRB (s.setParent (s.right y) y) z y).setLeft y
                ((transplantRB (s.setParent (s.right y) y) z y).left z)).left y) y).setColor y
              (s.color z)).setSize y (s.size z)) = s'
        have e : s'.key = s.key ∧
            s'.size = upd s.size y sz ∧
            s'.parent = upd (upd (upd s.parent yb y) y p) la y ∧
            s'.left = upd (upd s.left p y) y la ∧
            s'.right = s.right ∧
            s'.color = upd s.color y c ∧
            s'.next = s.next ∧
            s'.root = s.root := by
          rw [← hs']
          simp [transplantRB, upd_ne, *]
        clear hs'
        obtain ⟨e1, e2, e3, e4, e5, e6, e7, e8⟩ := e
        have hframe : ∀ a, a ∉ [y, la, yb, p] → State.SameAt s s' a := by
          intro a ha
          simp only [List.mem_cons, List.mem_singleton, not_or, List.not_mem_nil, or_false,
            not_false_eq_true] at ha
          simp [State.SameAt, upd_ne, ha, e1, e2, e3, e4, e5, e6]
        refine ⟨⟨?_, ?_, ?_, hnd2, ?_, ?_, ?_⟩, ?_⟩
        · simp only [RBTree.rep_node, RBPath.addr_cons, RBPath.addr_empty, RBFrame.addr_L,
            RBFrame.addr_R]
          refine ⟨?_, hyl.frame hframe (by simp_all), hyr.frame hframe (by simp_all)⟩
          simp [upd_ne, *]
        · simp only [RBPath.rep_L, RBPath.rep_R, RBTree.addr_node, RBTree.addr_nil,
            RBTree.rep_node, RBPath.rep_empty, RBPath.addr_cons, RBPath.addr_empty, RBFrame.addr_L,
            RBFrame.addr_R]
          refine ⟨?_, ⟨?_, hll.frame hframe (by simp_all), hlr.frame hframe (by simp_all)⟩,
            ?_, hsib.frame hframe (by simp_all), hrest.frame_path hframe (by simp_all)⟩
          all_goals simp [upd_ne, *]
        · simpa [e8] using h.root
        · intro a ha
          rw [e7]
          exact hal2 a ha
        · unfold Sentinel
          simp [e1, e2, e4, e5, e6, upd_ne, *]
        · rw [e7]; exact h.nilAlloc
        · simp [e3, upd_ne, *]
    | R p cp kp sp sib =>
      obtain ⟨hp, hsib, hrest⟩ := hpath
      obtain ⟨hp1, hp2, hp3, hp4, hp5, hp6⟩ := hp
      simp only [RBPath.addr_cons, RBFrame.addr_R, RBPath.addrs_cons, RBFrame.addrs_R,
        List.mem_append, List.mem_cons, not_or, List.nodup_append, List.nodup_cons,
        List.disjoint_cons_right, List.disjoint_append_right, List.disjoint_cons_left,
        List.disjoint_append_left, List.cons_append] at hz3 hnd' hal
      have hpN : p ≠ NIL := (hal p (by simp)).1
      have hNp := hpN.symm
      have hpz : p ≠ z := by rintro rfl; simp at hnd'
      have hpy : p ≠ y := by rintro rfl; simp at hnd'
      have hpl : p ≠ la := by rintro rfl; simp at hnd'
      have hzp := hpz.symm
      have hyp := hpy.symm
      have hlp := hpl.symm
      have hsz : z ≠ sib.addr := (RBTree.addr_ne hzN (by tauto)).symm
      have hNsib : NIL ∉ sib.addrs := fun hm => (hal NIL (by simp [hm])).1 rfl
      have hNrest : NIL ∉ RBPath.addrs rest := fun hm => (hal NIL (by simp [hm])).1 rfl
      cases yr with
      | nil =>
        simp only [RBTree.addr_nil] at hy5 ⊢
        generalize hs' : (((((transplantRB (s.setParent (s.right y) y) z y).setLeft y
              ((transplantRB (s.setParent (s.right y) y) z y).left z)).setParent
              (((transplantRB (s.setParent (s.right y) y) z y).setLeft y
                ((transplantRB (s.setParent (s.right y) y) z y).left z)).left y) y).setColor y
              (s.color z)).setSize y (s.size z)) = s'
        have e : s'.key = s.key ∧
            s'.size = upd s.size y sz ∧
            s'.parent = upd (upd (upd s.parent NIL y) y p) la y ∧
            s'.left = upd s.left y la ∧
            s'.right = upd s.right p y ∧
            s'.color = upd s.color y c ∧
            s'.next = s.next ∧
            s'.root = s.root := by
          rw [← hs']
          simp [transplantRB, upd_ne, *]
        clear hs'
        obtain ⟨e1, e2, e3, e4, e5, e6, e7, e8⟩ := e
        have hframe : ∀ a, a ∉ [y, la, NIL, p] → State.SameAt s s' a := by
          intro a ha
          simp only [List.mem_cons, List.mem_singleton, not_or, List.not_mem_nil, or_false,
            not_false_eq_true] at ha
          simp [State.SameAt, upd_ne, ha, e1, e2, e3, e4, e5, e6]
        refine ⟨⟨?_, ?_, ?_, hnd2, ?_, ?_, ?_⟩, ?_⟩
        · trivial
        · simp only [RBPath.rep_L, RBPath.rep_R, RBTree.addr_node, RBTree.addr_nil,
            RBTree.rep_node, RBPath.rep_empty, RBPath.addr_cons, RBPath.addr_empty, RBFrame.addr_L,
            RBFrame.addr_R]
          refine ⟨?_, ⟨?_, hll.frame hframe (by simp_all), hlr.frame hframe (by simp_all)⟩,
            ?_, hsib.frame hframe (by simp_all), hrest.frame_path hframe (by simp_all)⟩
          all_goals simp [upd_ne, *]
        · simpa [e8] using h.root
        · intro a ha
          rw [e7]
          exact hal2 a ha
        · unfold Sentinel
          simp [e1, e2, e4, e5, e6, upd_ne, *]
        · rw [e7]; exact h.nilAlloc
        · simp [e3, upd_ne, *]
      | node yb cyb kyb syb yl yr =>
        obtain ⟨hb, hyl, hyr⟩ := hyrep
        obtain ⟨hb1, hb2, hb3, hb4, hb5, hb6⟩ := hb
        simp only [RBTree.addr_node, RBTree.addrs_node, List.mem_append,
          List.mem_cons, not_or, List.nodup_append, List.nodup_cons, List.disjoint_cons_right,
          List.disjoint_append_right, List.disjoint_cons_left, List.disjoint_append_left]
          at hy5 hnd' hal ⊢
        have hbN : yb ≠ NIL := (hal yb (by simp)).1
        have hNb := hbN.symm
        have hbz : yb ≠ z := by rintro rfl; simp at hnd'
        have hby : yb ≠ y := by rintro rfl; simp at hnd'
        have hbl : yb ≠ la := by rintro rfl; simp at hnd'
        have hbp : yb ≠ p := by rintro rfl; simp at hnd'
        have hzb := hbz.symm
        have hyb := hby.symm
        have hlb := hbl.symm
        have hpb := hbp.symm
        generalize hs' : (((((transplantRB (s.setParent (s.right y) y) z y).setLeft y
              ((transplantRB (s.setParent (s.right y) y) z y).left z)).setParent
              (((transplantRB (s.setParent (s.right y) y) z y).setLeft y
                ((transplantRB (s.setParent (s.right y) y) z y).left z)).left y) y).setColor y
              (s.color z)).setSize y (s.size z)) = s'
        have e : s'.key = s.key ∧
            s'.size = upd s.size y sz ∧
            s'.parent = upd (upd (upd s.parent yb y) y p) la y ∧
            s'.left = upd s.left y la ∧
            s'.right = upd s.right p y ∧
            s'.color = upd s.color y c ∧
            s'.next = s.next ∧
            s'.root = s.root := by
          rw [← hs']
          simp [transplantRB, upd_ne, *]
        clear hs'
        obtain ⟨e1, e2, e3, e4, e5, e6, e7, e8⟩ := e
        have hframe : ∀ a, a ∉ [y, la, yb, p] → State.SameAt s s' a := by
          intro a ha
          simp only [List.mem_cons, List.mem_singleton, not_or, List.not_mem_nil, or_false,
            not_false_eq_true] at ha
          simp [State.SameAt, upd_ne, ha, e1, e2, e3, e4, e5, e6]
        refine ⟨⟨?_, ?_, ?_, hnd2, ?_, ?_, ?_⟩, ?_⟩
        · simp only [RBTree.rep_node, RBPath.addr_cons, RBPath.addr_empty, RBFrame.addr_L,
            RBFrame.addr_R]
          refine ⟨?_, hyl.frame hframe (by simp_all), hyr.frame hframe (by simp_all)⟩
          simp [upd_ne, *]
        · simp only [RBPath.rep_L, RBPath.rep_R, RBTree.addr_node, RBTree.addr_nil,
            RBTree.rep_node, RBPath.rep_empty, RBPath.addr_cons, RBPath.addr_empty, RBFrame.addr_L,
            RBFrame.addr_R]
          refine ⟨?_, ⟨?_, hll.frame hframe (by simp_all), hlr.frame hframe (by simp_all)⟩,
            ?_, hsib.frame hframe (by simp_all), hrest.frame_path hframe (by simp_all)⟩
          all_goals simp [upd_ne, *]
        · simpa [e8] using h.root
        · intro a ha
          rw [e7]
          exact hal2 a ha
        · unfold Sentinel
          simp [e1, e2, e4, e5, e6, upd_ne, *]
        · rw [e7]; exact h.nilAlloc
        · simp [e3, upd_ne, *]

set_option maxHeartbeats 8000000 in
/-- The splice of `deleteRB` when the successor `y` has already been cut out of
the right subtree: `y` takes the place of `z`. -/
theorem ShapeZ.replace {s : State} {z y la ra : Nat} {c cl cr : Bool}
    {k sz kl sl kr sr : Int} {ll lr rl rr : RBTree} {cs : RBPath}
    (h : ShapeZ s (.node z c k sz (.node la cl kl sl ll lr) (.node ra cr kr sr rl rr)) cs)
    (hy : y ∉ (RBTree.node z c k sz (.node la cl kl sl ll lr) (.node ra cr kr sr rl rr)).addrs ++
      RBPath.addrs cs) (hyN : y ≠ NIL) (hya : y < s.next) :
    ∃ s', (let s1 := s.setRight y (s.right z)
           let s2 := s1.setParent (s1.right y) y
           let s3 := transplantRB s2 z y
           let s4 := s3.setLeft y (s3.left z)
           let s5 := s4.setParent (s4.left y) y
           let s6 := s5.setColor y (s5.color z)
           s6.setSize y (s6.size z)) = s' ∧
      ShapeZ s' (.node y c (s.key y) sz (.node la cl kl sl ll lr) (.node ra cr kr sr rl rr)) cs ∧
      s'.parent NIL = s.parent NIL ∧ s'.next = s.next ∧ s'.freed = s.freed := by
  refine ⟨_, rfl, ?_⟩
  simp only []
  have hal := h.alloc
  have hnd2 : ((RBTree.node y c (s.key y) sz (.node la cl kl sl ll lr)
      (.node ra cr kr sr rl rr)).addrs ++ RBPath.addrs cs).Nodup := by
    have h1 := h.nodup
    simp only [RBTree.addrs_node, List.append_assoc, List.cons_append] at h1 hy ⊢
    have h2 := nodup_remove_mid (ll.addrs ++ la :: lr.addrs)
      (rl.addrs ++ ra :: (rr.addrs ++ RBPath.addrs cs)) z (by simpa using h1)
    have h3 : (y :: ((ll.addrs ++ la :: lr.addrs) ++
        (rl.addrs ++ ra :: (rr.addrs ++ RBPath.addrs cs)))).Nodup := by
      refine List.nodup_cons.mpr ⟨?_, h2⟩
      simp only [List.mem_append, List.mem_cons, not_or] at hy ⊢
      tauto
    have h4 := List.nodup_middle.mpr h3
    simpa using h4
  have hal2 : ∀ a ∈ (RBTree.node y c (s.key y) sz (.node la cl kl sl ll lr)
      (.node ra cr kr sr rl rr)).addrs ++ RBPath.addrs cs, a ≠ NIL ∧ a < s.next := by
    intro a ha
    simp only [RBTree.addrs_node, List.append_assoc, List.cons_append, List.mem_cons,
      List.mem_append] at ha
    by_cases hay : a = y
    · subst hay; exact ⟨hyN, hya⟩
    · refine h.alloc a ?_
      simp only [RBTree.addrs_node, List.append_assoc, List.cons_append, List.mem_cons,
        List.mem_append]
      tauto
  have hNll : NIL ∉ ll.addrs := fun hm => (hal NIL (by simp [hm])).1 rfl
  have hNlr : NIL ∉ lr.addrs := fun hm => (hal NIL (by simp [hm])).1 rfl
  have hNrl : NIL ∉ rl.addrs := fun hm => (hal NIL (by simp [hm])).1 rfl
  have hNrr : NIL ∉ rr.addrs := fun hm => (hal NIL (by simp [hm])).1 rfl
  obtain ⟨hz, ⟨hl, hll, hlr⟩, hr, hrl, hrr⟩ := h.rep
  have hpath := h.path
  obtain ⟨hs1, hs2, hs3, hs4, hs5⟩ := h.sentinel
  have hnd' := hnd2
  have hnd'' := h.nodup
  simp only [RBTree.addrs_node, RBTree.addrs_nil, List.nil_append, List.append_nil,
    List.nodup_append, List.nodup_cons, List.mem_cons,
    List.mem_append, List.append_assoc, List.cons_append, List.disjoint_cons_right,
    List.disjoint_append_right, List.disjoint_cons_left, List.disjoint_append_left, not_or]
    at hnd' hnd'' hy
  have hzN : z ≠ NIL := (hal z (by simp)).1
  have hlN : la ≠ NIL := (hal la (by simp)).1
  have hrN : ra ≠ NIL := (hal ra (by simp)).1
  have hNz := hzN.symm
  have hNy := hyN.symm
  have hNl := hlN.symm
  have hNr := hrN.symm
  have hzy : z ≠ y := by rintro rfl; simp at hy
  have hzl : z ≠ la := by rintro rfl; simp at hnd''
  have hzr : z ≠ ra := by rintro rfl; simp at hnd''
  have hyl' : y ≠ la := by rintro rfl; simp at hy
  have hyr' : y ≠ ra := by rintro rfl; simp at hy
  have hlr' : la ≠ ra := by rintro rfl; simp at hnd''
  have hyz := hzy.symm
  have hlz := hzl.symm
  have hrz := hzr.symm
  have hly := hyl'.symm
  have hry := hyr'.symm
  have hrl' := hlr'.symm
  simp only [RBTree.addr_node, RBTree.addr_nil] at hz hl hr hpath
  obtain ⟨hz1, hz2, hz3, hz4, hz5, hz6⟩ := hz
  obtain ⟨hl1, hl2, hl3, hl4, hl5, hl6⟩ := hl
  obtain ⟨hr1, hr2, hr3, hr4, hr5, hr6⟩ := hr
  cases cs with
  | nil =>
    simp only [RBPath.addr_empty, RBPath.addrs_empty, List.append_nil] at hz3 hnd' hal
    generalize hs' : State.setSize _ y _ = s'
    have e : s'.key = s.key ∧
        s'.size = upd s.size y sz ∧
        s'.parent = upd (upd (upd s.parent ra y) y NIL) la y ∧
        s'.left = upd s.left y la ∧
        s'.right = upd s.right y ra ∧
        s'.color = upd s.color y c ∧
        s'.next = s.next ∧
        s'.freed = s.freed ∧
        s'.root = y := by
      rw [← hs']
      simp [transplantRB, upd_ne, *]
    clear hs'
    obtain ⟨e1, e2, e3, e4, e5, e6, e7, e9, e8⟩ := e
    have hframe : ∀ a, a ∉ [y, la, ra] → State.SameAt s s' a := by
      intro a ha
      simp only [List.mem_cons, List.mem_singleton, not_or, List.not_mem_nil, or_false,
        not_false_eq_true] at ha
      simp [State.SameAt, upd_ne, ha, e1, e2, e3, e4, e5, e6]
    refine ⟨⟨?_, ?_, ?_, hnd2, ?_, ?_, ?_⟩, ?_, e7, e9⟩
    · simp only [RBTree.rep_node, RBPath.addr_cons, RBPath.addr_empty, RBFrame.addr_L,
        RBFrame.addr_R, RBTree.addr_node]
      refine ⟨?_, ⟨?_, hll.frame hframe (by simp_all), hlr.frame hframe (by simp_all)⟩,
        ?_, hrl.frame hframe (by simp_all), hrr.frame hframe (by simp_all)⟩
      all_goals simp [upd_ne, *]
    · trivial
    · simpa [e8] using h.root
    · intro a ha
      rw [e7]
      exact hal2 a ha
    · unfold Sentinel
      simp [e1, e2, e4, e5, e6, upd_ne, *]
    · rw [e7]; exact h.nilAlloc
    · simp [e3, upd_ne, *]
  | cons f rest =>
    cases f with
    | L p cp kp sp sib =>
      obtain ⟨hp, hsib, hrest⟩ := hpath
      obtain ⟨hp1, hp2, hp3, hp4, hp5, hp6⟩ := hp
      simp only [RBPath.addr_cons, RBFrame.addr_L, RBPath.addrs_cons, RBFrame.addrs_L,
        List.mem_append, List.mem_cons, not_or, List.nodup_append, List.nodup_cons,
        List.disjoint_cons_right, List.disjoint_append_right, List.disjoint_cons_left,
        List.disjoint_append_left, List.cons_append] at hz3 hnd' hnd'' hal hy
      have hpN : p ≠ NIL := (hal p (by simp)).1
      have hNp := hpN.symm
      have hpz : p ≠ z := by rintro rfl; simp at hnd''
      have hpy : p ≠ y := by rintro rfl; simp at hy
      have hpl : p ≠ la := by rintro rfl; simp at hnd''
      have hpr : p ≠ ra := by rintro rfl; simp at hnd''
      have hzp := hpz.symm
      have hyp := hpy.symm
      have hlp := hpl.symm
      have hrp := hpr.symm
      have hNsib : NIL ∉ sib.addrs := fun hm => (hal NIL (by simp [hm])).1 rfl
      have hNrest : NIL ∉ RBPath.addrs rest := fun hm => (hal NIL (by simp [hm])).1 rfl
      generalize hs' : State.setSize _ y _ = s'
      have e : s'.key = s.key ∧
          s'.size = upd s.size y sz ∧
          s'.parent = upd (upd (upd s.parent ra y) y p) la y ∧
          s'.left = upd (upd s.left p y) y la ∧
          s'.right = upd s.right y ra ∧
          s'.color = upd s.color y c ∧
          s'.next = s.next ∧
          s'.freed = s.freed ∧
          s'.root = s.root := by
        rw [← hs']
        simp [transplantRB, upd_ne, *]
      clear hs'
      obtain ⟨e1, e2, e3, e4, e5, e6, e7, e9, e8⟩ := e
      have hframe : ∀ a, a ∉ [y, la, ra, p] → State.SameAt s s' a := by
        intro a ha
        simp only [List.mem_cons, List.mem_singleton, not_or, List.not_mem_nil, or_false,
          not_false_eq_true] at ha
        simp [State.SameAt, upd_ne, ha, e1, e2, e3, e4, e5, e6]
      refine ⟨⟨?_, ?_, ?_, hnd2, ?_, ?_, ?_⟩, ?_, e7, e9⟩
      · simp only [RBTree.rep_node, RBPath.addr_cons, RBPath.addr_empty, RBFrame.addr_L,
          RBFrame.addr_R, RBTree.addr_node]
        refine ⟨?_, ⟨?_, hll.frame hframe (by simp_all), hlr.frame hframe (by simp_all)⟩,
          ?_, hrl.frame hframe (by simp_all), hrr.frame hframe (by simp_all)⟩
        all_goals simp [upd_ne, *]
      · simp only [RBPath.rep_L, RBPath.rep_R, RBTree.addr_node]
        refine ⟨?_, hsib.frame hframe (by simp_all), hrest.frame_path hframe (by simp_all)⟩
        simp [upd_ne, *]
      · simpa [e8] using h.root
      · intro a ha
        rw [e7]
        exact hal2 a ha
      · unfold Sentinel
        simp [e1, e2, e4, e5, e6, upd_ne, *]
      · rw [e7]; exact h.nilAlloc
      · simp [e3, upd_ne, *]
    | R p cp kp sp sib =>
      obtain ⟨hp, hsib, hrest⟩ := hpath
      obtain ⟨hp1, hp2, hp3, hp4, hp5, hp6⟩ := hp
      simp only [RBPath.addr_cons, RBFrame.addr_R, RBPath.addrs_cons, RBFrame.addrs_R,
        List.mem_append, List.mem_cons, not_or, List.nodup_append, List.nodup_cons,
        List.disjoint_cons_right, List.disjoint_append_right, List.disjoint_cons_left,
        List.disjoint_append_left, List.cons_append] at hz3 hnd' hnd'' hal hy
      have hpN : p ≠ NIL := (hal p (by simp)).1
      have hNp := hpN.symm
      have hpz : p ≠ z := by rintro rfl; simp at hnd''
      have hpy : p ≠ y := by rintro rfl; simp at hy
      have hpl : p ≠ la := by rintro rfl; simp at hnd''
      have hpr : p ≠ ra := by rintro rfl; simp at hnd''
      have hzp := hpz.symm
      have hyp := hpy.symm
      have hlp := hpl.symm
      have hrp := hpr.symm
      have hsz : z ≠ sib.addr := (RBTree.addr_ne hzN (by tauto)).symm
      have hNsib : NIL ∉ sib.addrs := fun hm => (hal NIL (by simp [hm])).1 rfl
      have hNrest : NIL ∉ RBPath.addrs rest := fun hm => (hal NIL (by simp [hm])).1 rfl
      generalize hs' : State.setSize _ y _ = s'
      have e : s'.key = s.key ∧
          s'.size = upd s.size y sz ∧
          s'.parent = upd (upd (upd s.parent ra y) y p) la y ∧
          s'.left = upd s.left y la ∧
          s'.right = upd (upd s.right y ra) p y ∧
          s'.color = upd s.color y c ∧
          s'.next = s.next ∧
          s'.freed = s.freed ∧
          s'.root = s.root := by
        rw [← hs']
        simp [transplantRB, upd_ne, *]
      clear hs'
      obtain ⟨e1, e2, e3, e4, e5, e6, e7, e9, e8⟩ := e
      have hframe : ∀ a, a ∉ [y, la, ra, p] → State.SameAt s s' a := by
        intro a ha
        simp only [List.mem_cons, List.mem_singleton, not_or, List.not_mem_nil, or_false,
          not_false_eq_true] at ha
        simp [State.SameAt, upd_ne, ha, e1, e2, e3, e4, e5, e6]
      refine ⟨⟨?_, ?_, ?_, hnd2, ?_, ?_, ?_⟩, ?_, e7, e9⟩
      · simp only [RBTree.rep_node, RBPath.addr_cons, RBPath.addr_empty, RBFrame.addr_L,
          RBFrame.addr_R, RBTree.addr_node]
        refine ⟨?_, ⟨?_, hll.frame hframe (by simp_all), hlr.frame hframe (by simp_all)⟩,
          ?_, hrl.frame hframe (by simp_all), hrr.frame hframe (by simp_all)⟩
        all_goals simp [upd_ne, *]
      · simp only [RBPath.rep_L, RBPath.rep_R, RBTree.addr_node]
        refine ⟨?_, hsib.frame hframe (by simp_all), hrest.frame_path hframe (by simp_all)⟩
        simp [upd_ne, *]
      · simpa [e8] using h.root
      · intro a ha
        rw [e7]
        exact hal2 a ha
      · unfold Sentinel
        simp [e1, e2, e4, e5, e6, upd_ne, *]
      · rw [e7]; exact h.nilAlloc
      · simp [e3, upd_ne, *]

/-! ## Dynamic tree: the pieces of `deleteRB` -/

namespace RBPath

theorem plug_append (t : RBTree) : ∀ (cs1 cs2 : RBPath),
    plug t (cs1 ++ cs2) = plug (plug t cs1) cs2
  | [], _ => rfl
  | f :: cs1, cs2 => by
    simp only [List.cons_append, plug_cons]
    exact plug_append (f.fill t) cs1 cs2

@[simp] theorem decSizes_nil : decSizes [] = [] := rfl
@[simp] theorem decSizes_cons (f : RBFrame) (cs : RBPath) :
    decSizes (f :: cs) = f.decSize :: decSizes cs := rfl
@[simp] theorem decSizes_append (cs1 cs2 : RBPath) :
    decSizes (cs1 ++ cs2) = decSizes cs1 ++ decSizes cs2 := by
  simp [decSizes]
@[simp] theorem decSizes_length (cs : RBPath) : (decSizes cs).length = cs.length := by
  simp [decSizes]

@[simp] theorem addr_decSizes (cs : RBPath) (top : Nat) : addr (decSizes cs) top = addr cs top := by
  cases cs with
  | nil => rfl
  | cons f cs => cases f <;> rfl

end RBPath

/-- Moving the focus along a segment of the path. -/
theorem ShapeZ.append_iff (s : State) (t : RBTree) (cs1 cs2 : RBPath) :
    ShapeZ s t (cs1 ++ cs2) ↔ ShapeZ s (RBPath.plug t cs1) cs2 := by
  rw [← shape_plug_iff, ← shape_plug_iff, RBPath.plug_append]

/-- The statement `delete z` leaves the stored tree alone. -/
theorem ShapeZ.free {s : State} {t : RBTree} {cs : RBPath} (h : ShapeZ s t cs) (z : Nat) :
    ShapeZ (s.free z) t cs :=
  ⟨@RBTree.Rep.congr_tree s (s.free z) _ _ (fun _ _ => ⟨rfl, rfl, rfl, rfl, rfl, rfl⟩) h.rep,
    @RBPath.Rep.congr_path s (s.free z) _ _ _ (fun _ _ => ⟨rfl, rfl, rfl, rfl, rfl, rfl⟩) h.path,
    h.root, h.nodup, h.alloc, h.sentinel, h.nilAlloc⟩

theorem leftRotateRB_parent_nil (s : State) (x : Nat) (hx : x ≠ NIL) (hy : s.right x ≠ NIL) :
    (leftRotateRB s x).parent NIL = s.parent NIL := by
  have hx' : NIL ≠ x := hx.symm
  have hy' : NIL ≠ s.right x := hy.symm
  by_cases h : s.left (s.right x) = NIL
  · simp [leftRotateRB, h, upd_ne, hx', hy']
    split_ifs <;> simp [upd_ne, hx', hy', h]
  · have h' : NIL ≠ s.left (s.right x) := fun e => h e.symm
    simp [leftRotateRB, h, upd_ne, hx', hy', h']
    split_ifs <;> simp [upd_ne, hx', hy', h, h']

theorem rightRotateRB_parent_nil (s : State) (x : Nat) (hx : x ≠ NIL) (hy : s.left x ≠ NIL) :
    (rightRotateRB s x).parent NIL = s.parent NIL := by
  have hx' : NIL ≠ x := hx.symm
  have hy' : NIL ≠ s.left x := hy.symm
  by_cases h : s.right (s.left x) = NIL
  · simp [rightRotateRB, h, upd_ne, hx', hy']
    split_ifs <;> simp [upd_ne, hx', hy', h]
  · have h' : NIL ≠ s.right (s.left x) := fun e => h e.symm
    simp [rightRotateRB, h, upd_ne, hx', hy', h']
    split_ifs <;> simp [upd_ne, hx', hy', h, h']

/-- `treeMinRB` returns the leftmost node of a non-empty subtree. -/
theorem treeMinRB_spec : ∀ (t : RBTree) (cs : RBPath) (s : State) (fuel : Nat), t ≠ .nil →
    ShapeZ s t cs → t.height ≤ fuel →
    ∃ y cy ky sy yr, RBTree.minNode t = .node y cy ky sy .nil yr ∧
      treeMinRB fuel s t.addr = some y ∧
      ShapeZ s (.node y cy ky sy .nil yr) (RBPath.minSpine t ++ cs) ∧
      RBPath.plug (.node y cy ky sy .nil yr) (RBPath.minSpine t) = t
  | .nil, _, _, _, h, _, _ => absurd rfl h
  | .node a c k sz .nil r, cs, s, fuel, _, h, hf => by
    simp only [RBTree.height] at hf
    obtain ⟨fuel, rfl⟩ : ∃ n, fuel = n + 1 := ⟨fuel - 1, by omega⟩
    refine ⟨a, c, k, sz, r, rfl, ?_, by simpa [RBPath.minSpine] using h, rfl⟩
    have e1 : s.left a = NIL := h.left_root
    simp [treeMinRB, e1]
  | .node a c k sz (.node la lc lk ls ll lr) r, cs, s, fuel, _, h, hf => by
    simp only [RBTree.height] at hf
    obtain ⟨fuel, rfl⟩ : ∃ n, fuel = n + 1 := ⟨fuel - 1, by omega⟩
    have e1 : s.left a = la := h.left_root
    have hl := h.downL
    have e2 : la ≠ NIL := hl.root_ne_nil
    obtain ⟨y, cy, ky, sy, yr, m1, m2, m3, m4⟩ :=
      treeMinRB_spec (.node la lc lk ls ll lr) (.L a c k sz r :: cs) s fuel (by simp) hl
        (by simp only [RBTree.height]; omega)
    refine ⟨y, cy, ky, sy, yr, by simpa [RBTree.minNode] using m1, ?_, ?_, ?_⟩
    · simpa [treeMinRB, e1, e2] using m2
    · simpa [RBPath.minSpine] using m3
    · simp only [RBPath.minSpine, RBPath.plug_append, m4, RBPath.plug_cons, RBFrame.fill_L,
        RBPath.plug_nil]

/-- The size-repair loop of `deleteRB` decrements the size of every node on the path. -/
theorem deleteRB_repair_spec : ∀ (cs : RBPath) (t : RBTree) (s : State) (fuel : Nat),
    ShapeZ s t cs → cs.length < fuel →
    ∃ s', deleteRB.repair fuel s (RBPath.addr cs NIL) = some s' ∧
      ShapeZ s' t (RBPath.decSizes cs) ∧ s'.parent = s.parent ∧ s'.next = s.next ∧
      s'.freed = s.freed
  | [], t, s, fuel, h, hf => by
    obtain ⟨fuel, rfl⟩ : ∃ n, fuel = n + 1 := ⟨fuel - 1, by omega⟩
    exact ⟨s, by simp [deleteRB.repair], h, rfl, rfl, rfl⟩
  | .L a c k sz r :: rest, t, s, fuel, h, hf => by
    simp only [List.length_cons] at hf
    obtain ⟨fuel, rfl⟩ : ∃ n, fuel = n + 1 := ⟨fuel - 1, by omega⟩
    have hu := h.up
    simp only [RBFrame.fill_L] at hu
    have e1 : a ≠ NIL := hu.root_ne_nil
    have e2 : s.size a = sz := hu.size_root
    have e3 : s.parent a = RBPath.addr rest NIL := hu.parent_root
    obtain ⟨s', r1, r2, r3, r4, r5⟩ := deleteRB_repair_spec rest _ _ fuel
      (hu.setSize_root (sz - 1)) (by omega)
    refine ⟨s', ?_, by simpa [RBFrame.decSize] using r2.downL, by simpa using r3,
      by simpa using r4, by simpa using r5⟩
    simpa [deleteRB.repair, e1, e2, e3] using r1
  | .R a c k sz r :: rest, t, s, fuel, h, hf => by
    simp only [List.length_cons] at hf
    obtain ⟨fuel, rfl⟩ : ∃ n, fuel = n + 1 := ⟨fuel - 1, by omega⟩
    have hu := h.up
    simp only [RBFrame.fill_R] at hu
    have e1 : a ≠ NIL := hu.root_ne_nil
    have e2 : s.size a = sz := hu.size_root
    have e3 : s.parent a = RBPath.addr rest NIL := hu.parent_root
    obtain ⟨s', r1, r2, r3, r4, r5⟩ := deleteRB_repair_spec rest _ _ fuel
      (hu.setSize_root (sz - 1)) (by omega)
    refine ⟨s', ?_, by simpa [RBFrame.decSize] using r2.downR, by simpa using r3,
      by simpa using r4, by simpa using r5⟩
    simpa [deleteRB.repair, e1, e2, e3] using r1

/-! ## Dynamic tree: `deleteRBFix` -/

namespace RBTree

@[simp] theorem setBlack_nil : setBlack nil = nil := rfl
@[simp] theorem setBlack_node (a : Nat) (c : Bool) (k s : Int) (l r : RBTree) :
    setBlack (node a c k s l r) = node a true k s l r := rfl
@[simp] theorem addr_setBlack (t : RBTree) : t.setBlack.addr = t.addr := by cases t <;> rfl
@[simp] theorem keys_setBlack (t : RBTree) : t.setBlack.keys = t.keys := by cases t <;> rfl
@[simp] theorem addrs_setBlack (t : RBTree) : t.setBlack.addrs = t.addrs := by cases t <;> rfl
@[simp] theorem size0_setBlack (t : RBTree) : t.setBlack.size0 = t.size0 := by cases t <;> rfl
@[simp] theorem color0_setBlack (t : RBTree) : t.setBlack.color0 = true := by cases t <;> rfl
theorem sizeInv_setBlack (t : RBTree) : t.setBlack.SizeInv ↔ t.SizeInv := by cases t <;> rfl

theorem setBlack_of_black {t : RBTree} (h : t.color0 = true) : t.setBlack = t := by
  cases t with
  | nil => rfl
  | node a c k s l r =>
    simp only [color0_node] at h
    subst h
    rfl

theorem WF.blacken {t : RBTree} (h : t.WF) : t.setBlack.WF := by
  cases t with
  | nil => exact h
  | node a c k s l r =>
    rw [wf_node] at h
    rw [setBlack_node, wf_node]
    exact ⟨by simp, h.2⟩

/-- A subtree of positive black height is not empty. -/
theorem exists_node_of_blackHeight {t : RBTree} {n : Nat} (h : t.blackHeight = n + 1) :
    ∃ a c k s l r, t = node a c k s l r := by
  cases t with
  | nil => simp at h
  | node a c k s l r => exact ⟨a, c, k, s, l, r, rfl⟩

theorem exists_node_of_red {t : RBTree} (h : t.color0 = false) :
    ∃ a k s l r, t = node a false k s l r := by
  cases t with
  | nil => simp at h
  | node a c k s l r =>
    simp only [color0_node] at h
    subst h
    exact ⟨a, k, s, l, r, rfl⟩

end RBTree

namespace RBPath

theorem rootAddr_mem : ∀ (cs : RBPath) (f : RBFrame) (d : Nat),
    rootAddr (f :: cs) d ∈ addrs (f :: cs)
  | [], f, d => by cases f <;> simp
  | g :: cs, f, d => by
    have := rootAddr_mem cs g f.addr
    rw [rootAddr_cons, addrs_cons]
    exact List.mem_append_right _ this

end RBPath

/-- Below a non-empty path the focused node is not the root. -/
theorem ShapeZ.addr_ne_root {s : State} {x : RBTree} {f : RBFrame} {cs : RBPath}
    (h : ShapeZ s x (f :: cs)) : x.addr ≠ s.root := by
  rw [h.root]
  have hm := RBPath.rootAddr_mem cs f x.addr
  have hN := (h.alloc _ (List.mem_append_right _ hm)).1
  have hd := (List.nodup_append.mp h.nodup).2.2
  refine RBTree.addr_ne hN ?_
  intro hx
  exact hd hx hm

/-- The pointer to the sibling differs from the pointer to the focused subtree. -/
theorem ShapeZ.addr_ne_sib {s : State} {x : RBTree} {f : RBFrame} {cs : RBPath}
    (h : ShapeZ s x (f :: cs)) (hs : f.sib ≠ .nil) : x.addr ≠ f.sib.addr := by
  have hm : f.sib.addr ∈ RBPath.addrs (f :: cs) := by
    have := RBTree.addr_mem hs
    cases f <;> simp_all [RBFrame.sib]
  have hN := (h.alloc _ (List.mem_append_right _ hm)).1
  have hd := (List.nodup_append.mp h.nodup).2.2
  refine RBTree.addr_ne hN ?_
  intro hx
  exact hd hx hm

theorem ShapeZ.blacken_focus {s : State} {x : RBTree} {cs : RBPath} (h : ShapeZ s x cs) :
    ShapeZ (s.setColor x.addr true) x.setBlack cs := by
  cases x with
  | nil =>
    have : s.color NIL = true := h.sentinel.2.2.2.2
    simp only [RBTree.addr_nil, RBTree.setBlack_nil]
    rw [← this, State.setColor_same]
    exact h
  | node a c k sz l r => exact h.setColor_root true

theorem FixPost.of_local (s : State) (t : RBTree) {s' : State} {t' : RBTree} {cs : RBPath}
    {res : Option State}
    (h : FixPost s' (RBPath.plug t' cs) res) (hk : t'.keys = t.keys)
    (ha : t'.addrs.Perm t.addrs) (hs0 : t.size0 = t'.size0) (hsz : t.SizeInv → t'.SizeInv)
    (hn : s'.next = s.next) (hf : s'.freed = s.freed) : FixPost s (RBPath.plug t cs) res := by
  obtain ⟨s1, T, r1, r2, r3, r4, r5, r6, r7, r8⟩ := h
  exact ⟨s1, T, r1, r2, r3, r4.trans (RBPath.plug_keys_congr cs hk),
    r5.trans (RBPath.plug_addrs_congr cs ha),
    fun hz => r6 (RBPath.plug_sizeInv_congr cs hs0 hsz hz), r7.trans hn, r8.trans hf⟩

/-- One iteration of the loop of `deleteRBFix`, with the second half of the body
as `deleteRBFix.tailL` and `deleteRBFix.tailR`. -/
theorem deleteRBFix_succ (fuel : Nat) (s : State) (x : Nat) :
    deleteRBFix (fuel + 1) s x =
      if x ≠ s.root ∧ s.color x = true then
        if x = s.left (s.parent x) then
          let sw : State × Nat :=
            if s.color (s.right (s.parent x)) = false then
              (leftRotateRB ((s.setColor (s.right (s.parent x)) true).setColor (s.parent x) false)
                  (s.parent x),
                (leftRotateRB ((s.setColor (s.right (s.parent x)) true).setColor (s.parent x)
                  false) (s.parent x)).right
                  ((leftRotateRB ((s.setColor (s.right (s.parent x)) true).setColor (s.parent x)
                    false) (s.parent x)).parent x))
            else (s, s.right (s.parent x))
          deleteRBFix.tailL (deleteRBFix fuel) sw.1 x sw.2
        else
          let sw : State × Nat :=
            if s.color (s.left (s.parent x)) = false then
              (rightRotateRB ((s.setColor (s.left (s.parent x)) true).setColor (s.parent x) false)
                  (s.parent x),
                (rightRotateRB ((s.setColor (s.left (s.parent x)) true).setColor (s.parent x)
                  false) (s.parent x)).left
                  ((rightRotateRB ((s.setColor (s.left (s.parent x)) true).setColor (s.parent x)
                    false) (s.parent x)).parent x))
            else (s, s.left (s.parent x))
          deleteRBFix.tailR (deleteRBFix fuel) sw.1 x sw.2
      else some (s.setColor x true) := rfl

/-- The loop of `deleteRBFix` stops at a red node and at the root; the final
`x->color = 1` completes the repair. -/
theorem deleteRBFix_exit {s : State} {x : RBTree} {cs : RBPath} (fuel : Nat)
    (h : ShapeZ s x cs) (hx : cs = [] ∨ x.color0 = false) (hW : x.setBlack.WF)
    (hA : RBPath.Accepts cs true (x.blackHeight + 1)) :
    FixPost s (RBPath.plug x cs) (deleteRBFix (fuel + 1) s x.addr) := by
  have hcond : ¬ (x.addr ≠ s.root ∧ s.color x.addr = true) := by
    rintro ⟨h1, h2⟩
    rcases hx with hx | hx
    · subst hx
      exact h1 h.root.symm
    · rw [h.color_addr, hx] at h2
      exact absurd h2 (by simp)
  refine ⟨s.setColor x.addr true, RBPath.plug x.setBlack cs, ?_, h.blacken_focus.toShape, ?_,
    RBPath.plug_keys_congr cs (by simp), RBPath.plug_addrs_congr cs (by simp),
    RBPath.plug_sizeInv_congr cs (by simp) (RBTree.sizeInv_setBlack x).mpr, rfl, rfl⟩
  · rw [deleteRBFix_succ, if_neg hcond]
  · rw [RBPath.redBlack_plug]
    refine ⟨hW, ?_⟩
    rcases hx with hx | hx
    · subst hx; simp
    · obtain ⟨a, k, sz, l, r, rfl⟩ := RBTree.exists_node_of_red hx
      simpa using hA

/-- At the root of a valid tree the loop of `deleteRBFix` changes nothing. -/
theorem deleteRBFix_root {s : State} {T : RBTree} (fuel : Nat) (h : Shape s T)
    (hT : T.RedBlack) : FixPost s T (deleteRBFix (fuel + 1) s s.root) := by
  have hz := h.toZ
  have := deleteRBFix_exit fuel hz (Or.inl rfl) (RBTree.WF.blacken hT.2) (by simp)
  rw [h.root]
  simpa using this

/-- The last case of the loop body (the far child of the black sibling `w` is
red), branch `L`: one rotation at the parent completes the repair. -/
theorem deleteRBFix_case4L {s : State} {x wn va vb : RBTree} {p w v : Nat} {cp : Bool}
    {kp sp kw sw kv sv : Int} {rest : RBPath} (fuel : Nat)
    (h : ShapeZ s x (.L p cp kp sp (.node w true kw sw wn (.node v false kv sv va vb)) :: rest))
    (hp : s.parent x.addr = p) (hxW : x.WF) (hnW : wn.WF) (haW : va.WF) (hbW : vb.WF)
    (hb1 : x.blackHeight = wn.blackHeight) (hb2 : wn.blackHeight = va.blackHeight)
    (hb3 : va.blackHeight = vb.blackHeight)
    (hA : RBPath.Accepts rest cp (x.blackHeight + 1 + (if cp then 1 else 0))) :
    FixPost s (RBPath.plug x (.L p cp kp sp (.node w true kw sw wn (.node v false kv sv va vb)) :: rest))
      (deleteRBFix.case4L (deleteRBFix (fuel + 1)) s x.addr w) := by
  have hu := h.up
  simp only [RBFrame.fill_L, RBFrame.fill_R] at hu
  have ecp : s.color p = cp := hu.color_root
  have hw := hu.downR
  have efar : s.right w = v := by simpa using hw.right_root
  have h1 := hw.setColor_root cp
  have h2 := h1.up.setColor_root true
  simp only [RBFrame.fill_L, RBFrame.fill_R] at h2
  have h3 := (h2.downR.downR.setColor_root true).up.up
  simp only [RBFrame.fill_L, RBFrame.fill_R] at h3
  have h4 := h3.leftRotate
  have hst : deleteRBFix.case4L (deleteRBFix (fuel + 1)) s x.addr w =
      deleteRBFix (fuel + 1)
        (leftRotateRB (((s.setColor w cp).setColor p true).setColor v true) p)
        (leftRotateRB (((s.setColor w cp).setColor p true).setColor v true) p).root := by
    simp [deleteRBFix.case4L, hp, ecp, efar]
  rw [hst]
  have hrb : (RBPath.plug (.node w cp kw sp (.node p true kp (x.size0 + wn.size0 + 1) x wn) (.node v true kv sv va vb))
      rest).RedBlack := by
    rw [RBPath.redBlack_plug]
    refine ⟨?_, ?_⟩
    · simp only [RBTree.wf_node, RBTree.color0_node, RBTree.blackHeight_node]
      refine ⟨by simp, ?_, ⟨by simp, ?_, ?_, ?_⟩, ⟨by simp, ?_, ?_, ?_⟩⟩
      all_goals first | assumption | (simp only [if_true]; omega) | omega
    · simp only [RBTree.color0_node, RBTree.blackHeight_node, if_true]
      have e : x.blackHeight + 1 + (if cp = true then 1 else 0) =
          x.blackHeight + 1 + (if cp = true then 1 else 0) := by omega
      rw [e]
      exact hA
  have := deleteRBFix_root fuel h4.toShape hrb
  simp only [RBPath.plug_cons, RBFrame.fill_L, RBFrame.fill_R]
  refine FixPost.of_local s _ this (by simp) (by simp) rfl ?_ (by simp) (by simp)
  simp only [RBTree.sizeInv_node, RBTree.size0_node]
  intro hz
  repeat' apply And.intro
  all_goals first | omega | tauto

/-- The loop body from the test on the children of the black sibling `w` on, branch `L`. -/
theorem deleteRBFix_tailL {s : State} {x wn wf : RBTree} {p w : Nat} {cp : Bool}
    {kp sp kw sw : Int} {rest : RBPath} (fuel : Nat)
    (h : ShapeZ s x (.L p cp kp sp (.node w true kw sw wn wf) :: rest))
    (hp : s.parent x.addr = p) (hxW : x.WF)
    (hA : RBPath.Accepts (.L p cp kp sp (.node w true kw sw wn wf) :: rest) true (x.blackHeight + 1))
    (ih : cp = true → ∀ (s1 : State) (X : RBTree), ShapeZ s1 X rest →
      s1.parent X.addr = RBPath.addr rest NIL → X.setBlack.WF →
      RBPath.Accepts rest true (X.blackHeight + 1) →
      FixPost s1 (RBPath.plug X rest) (deleteRBFix (fuel + 1) s1 X.addr)) :
    FixPost s (RBPath.plug x (.L p cp kp sp (.node w true kw sw wn wf) :: rest))
      (deleteRBFix.tailL (deleteRBFix (fuel + 1)) s x.addr w) := by
  rw [RBPath.accepts_cons] at hA
  simp only [RBFrame.color, RBFrame.sib, RBTree.wf_node, RBTree.blackHeight_node,
    RBTree.color0_node, if_true] at hA
  obtain ⟨hA1, ⟨-, hb, hnW, hfW⟩, hbh, hA4⟩ := hA
  have hu := h.up
  simp only [RBFrame.fill_L, RBFrame.fill_R] at hu
  have hw := hu.downR
  have hwn := hw.downL
  have hwf := hw.downR
  have ewN : w ≠ NIL := hw.root_ne_nil
  have en : s.left w = wn.addr := hw.left_root
  have ef : s.right w = wf.addr := hw.right_root
  have ecn : s.color wn.addr = wn.color0 := hwn.color_addr
  have ecf : s.color wf.addr = wf.color0 := hwf.color_addr
  cases hfc : wf.color0 with
  | false =>
    obtain ⟨v, kv, sv, va, vb, rfl⟩ := RBTree.exists_node_of_red hfc
    simp only [RBTree.addr_node, RBTree.color0_node] at ef ecf
    simp only [RBTree.wf_node, RBTree.blackHeight_node] at hfW hb hbh
    have hst : deleteRBFix.tailL (deleteRBFix (fuel + 1)) s x.addr w =
        deleteRBFix.case4L (deleteRBFix (fuel + 1)) s x.addr w := by
      simp [deleteRBFix.tailL, en, ef, ecn, ecf]
    rw [hst]
    refine deleteRBFix_case4L fuel h hp hxW hnW hfW.2.2.1 hfW.2.2.2 ?_ ?_ ?_ hA4
    all_goals first | omega | (simp only [Bool.false_eq_true, if_false] at hb hbh; omega)
  | true =>
    rw [hfc] at ecf
    cases hnc : wn.color0 with
    | true =>
      rw [hnc] at ecn
      have h2 := (hw.setColor_root false).up
      simp only [RBFrame.fill_L, RBFrame.fill_R] at h2
      have hst : deleteRBFix.tailL (deleteRBFix (fuel + 1)) s x.addr w =
          deleteRBFix (fuel + 1) (s.setColor w false) p := by
        simp [deleteRBFix.tailL, en, ef, ecn, ecf, hp]
      rw [hst]
      have hX : (RBTree.setBlack (.node p cp kp sp x (.node w false kw sw wn wf))).WF := by
        simp only [RBTree.setBlack_node, RBTree.wf_node, RBTree.color0_node,
          RBTree.blackHeight_node]
        refine ⟨by simp, ?_, ?_, ?_⟩
        · first | omega | (simp only [Bool.false_eq_true, if_false]; omega)
        all_goals first | exact hxW | exact ⟨fun _ => ⟨hnc, hfc⟩, hb, hnW, hfW⟩
      have hAX : RBPath.Accepts rest true
          ((RBTree.blackHeight (.node p cp kp sp x (.node w false kw sw wn wf))) + 1) := by
        simp only [RBTree.blackHeight_node]
        have e : x.blackHeight + (if cp = true then 1 else 0) + 1 =
            x.blackHeight + 1 + (if cp = true then 1 else 0) := by
          first | omega | (simp only [Bool.false_eq_true, if_false]; omega)
        rw [e]
        exact hA4.black
      have hpost : FixPost (s.setColor w false)
          (RBPath.plug (.node p cp kp sp x (.node w false kw sw wn wf)) rest)
          (deleteRBFix (fuel + 1) (s.setColor w false) p) := by
        cases cp with
        | false => exact deleteRBFix_exit fuel h2 (Or.inr rfl) hX hAX
        | true => exact ih rfl _ _ h2 h2.parent_root hX hAX
      simp only [RBPath.plug_cons, RBFrame.fill_L, RBFrame.fill_R]
      refine FixPost.of_local s _ hpost (by simp) (by simp) rfl ?_ (by simp) (by simp)
      simp only [RBTree.sizeInv_node, RBTree.size0_node]
      exact fun hz => hz
    | false =>
      obtain ⟨u, ku, su, ua, ub, rfl⟩ := RBTree.exists_node_of_red hnc
      simp only [RBTree.addr_node, RBTree.color0_node] at en ecn
      simp only [RBTree.wf_node, RBTree.blackHeight_node, RBTree.color0_node] at hnW hb hbh
      have euN : u ≠ NIL := hwn.root_ne_nil
      have h1 := (hwn.setColor_root true).up
      simp only [RBFrame.fill_L, RBFrame.fill_R] at h1
      have h2 := h1.setColor_root false
      have h3 := h2.rightRotate
      have h4 := h3.up.downL
      simp only [RBFrame.fill_L, RBFrame.fill_R] at h4
      have efar3 : (rightRotateRB ((s.setColor u true).setColor w false) w).right p = u := by
        simpa using h3.up.right_root
      have hp3 : (rightRotateRB ((s.setColor u true).setColor w false) w).parent x.addr = p := by
        cases x with
        | nil =>
          rw [RBTree.addr_nil, rightRotateRB_parent_nil _ _ ewN (by simpa [en] using euN)]
          simpa using hp
        | node a c k sz l r => simpa using h4.parent_root
      have hst : deleteRBFix.tailL (deleteRBFix (fuel + 1)) s x.addr w =
          deleteRBFix.case4L (deleteRBFix (fuel + 1))
            (rightRotateRB ((s.setColor u true).setColor w false) w) x.addr u := by
        simp [deleteRBFix.tailL, en, ef, ecn, ecf, hp3, efar3]
      rw [hst]
      have hpost := deleteRBFix_case4L fuel h4 hp3 hxW hnW.2.2.1 hnW.2.2.2 hfW
        (by first | omega | (simp only [Bool.false_eq_true, if_false] at hb hbh; omega))
        (by first | omega | (simp only [Bool.false_eq_true, if_false] at hb hbh; omega))
        (by first | omega | (simp only [Bool.false_eq_true, if_false] at hb hbh; omega)) hA4
      simp only [RBPath.plug_cons, RBFrame.fill_L, RBFrame.fill_R] at hpost ⊢
      refine FixPost.of_local s _ hpost (by simp) (by simp) rfl ?_ (by simp [rightRotateRB_next])
        (by simp [rightRotateRB_freed])
      simp only [RBTree.sizeInv_node, RBTree.size0_node]
      intro hz
      repeat' apply And.intro
      all_goals first | omega | tauto

/-- The last case of the loop body (the far child of the black sibling `w` is
red), branch `R`: one rotation at the parent completes the repair. -/
theorem deleteRBFix_case4R {s : State} {x wn va vb : RBTree} {p w v : Nat} {cp : Bool}
    {kp sp kw sw kv sv : Int} {rest : RBPath} (fuel : Nat)
    (h : ShapeZ s x (.R p cp kp sp (.node w true kw sw (.node v false kv sv vb va) wn) :: rest))
    (hp : s.parent x.addr = p) (hxW : x.WF) (hnW : wn.WF) (haW : va.WF) (hbW : vb.WF)
    (hb1 : x.blackHeight = wn.blackHeight) (hb2 : wn.blackHeight = va.blackHeight)
    (hb3 : va.blackHeight = vb.blackHeight)
    (hA : RBPath.Accepts rest cp (x.blackHeight + 1 + (if cp then 1 else 0))) :
    FixPost s (RBPath.plug x (.R p cp kp sp (.node w true kw sw (.node v false kv sv vb va) wn) :: rest))
      (deleteRBFix.case4R (deleteRBFix (fuel + 1)) s x.addr w) := by
  have hu := h.up
  simp only [RBFrame.fill_L, RBFrame.fill_R] at hu
  have ecp : s.color p = cp := hu.color_root
  have hw := hu.downL
  have efar : s.left w = v := by simpa using hw.left_root
  have h1 := hw.setColor_root cp
  have h2 := h1.up.setColor_root true
  simp only [RBFrame.fill_L, RBFrame.fill_R] at h2
  have h3 := (h2.downL.downL.setColor_root true).up.up
  simp only [RBFrame.fill_L, RBFrame.fill_R] at h3
  have h4 := h3.rightRotate
  have hst : deleteRBFix.case4R (deleteRBFix (fuel + 1)) s x.addr w =
      deleteRBFix (fuel + 1)
        (rightRotateRB (((s.setColor w cp).setColor p true).setColor v true) p)
        (rightRotateRB (((s.setColor w cp).setColor p true).setColor v true) p).root := by
    simp [deleteRBFix.case4R, hp, ecp, efar]
  rw [hst]
  have hrb : (RBPath.plug (.node w cp kw sp (.node v true kv sv vb va) (.node p true kp (wn.size0 + x.size0 + 1) wn x))
      rest).RedBlack := by
    rw [RBPath.redBlack_plug]
    refine ⟨?_, ?_⟩
    · simp only [RBTree.wf_node, RBTree.color0_node, RBTree.blackHeight_node]
      refine ⟨by simp, ?_, ⟨by simp, ?_, ?_, ?_⟩, ⟨by simp, ?_, ?_, ?_⟩⟩
      all_goals first | assumption | (simp only [if_true]; omega) | omega
    · simp only [RBTree.color0_node, RBTree.blackHeight_node, if_true]
      have e : vb.blackHeight + 1 + (if cp = true then 1 else 0) =
          x.blackHeight + 1 + (if cp = true then 1 else 0) := by omega
      rw [e]
      exact hA
  have := deleteRBFix_root fuel h4.toShape hrb
  simp only [RBPath.plug_cons, RBFrame.fill_L, RBFrame.fill_R]
  refine FixPost.of_local s _ this (by simp) (by simp) rfl ?_ (by simp) (by simp)
  simp only [RBTree.sizeInv_node, RBTree.size0_node]
  intro hz
  repeat' apply And.intro
  all_goals first | omega | tauto

/-- The loop body from the test on the children of the black sibling `w` on, branch `R`. -/
theorem deleteRBFix_tailR {s : State} {x wn wf : RBTree} {p w : Nat} {cp : Bool}
    {kp sp kw sw : Int} {rest : RBPath} (fuel : Nat)
    (h : ShapeZ s x (.R p cp kp sp (.node w true kw sw wf wn) :: rest))
    (hp : s.parent x.addr = p) (hxW : x.WF)
    (hA : RBPath.Accepts (.R p cp kp sp (.node w true kw sw wf wn) :: rest) true (x.blackHeight + 1))
    (ih : cp = true → ∀ (s1 : State) (X : RBTree), ShapeZ s1 X rest →
      s1.parent X.addr = RBPath.addr rest NIL → X.setBlack.WF →
      RBPath.Accepts rest true (X.blackHeight + 1) →
      FixPost s1 (RBPath.plug X rest) (deleteRBFix (fuel + 1) s1 X.addr)) :
    FixPost s (RBPath.plug x (.R p cp kp sp (.node w true kw sw wf wn) :: rest))
      (deleteRBFix.tailR (deleteRBFix (fuel + 1)) s x.addr w) := by
  rw [RBPath.accepts_cons] at hA
  simp only [RBFrame.color, RBFrame.sib, RBTree.wf_node, RBTree.blackHeight_node,
    RBTree.color0_node, if_true] at hA
  obtain ⟨hA1, ⟨-, hb, hfW, hnW⟩, hbh, hA4⟩ := hA
  have hu := h.up
  simp only [RBFrame.fill_L, RBFrame.fill_R] at hu
  have hw := hu.downL
  have hwn := hw.downR
  have hwf := hw.downL
  have ewN : w ≠ NIL := hw.root_ne_nil
  have en : s.right w = wn.addr := hw.right_root
  have ef : s.left w = wf.addr := hw.left_root
  have ecn : s.color wn.addr = wn.color0 := hwn.color_addr
  have ecf : s.color wf.addr = wf.color0 := hwf.color_addr
  cases hfc : wf.color0 with
  | false =>
    obtain ⟨v, kv, sv, vb, va, rfl⟩ := RBTree.exists_node_of_red hfc
    simp only [RBTree.addr_node, RBTree.color0_node] at ef ecf
    simp only [RBTree.wf_node, RBTree.blackHeight_node] at hfW hb hbh
    have hst : deleteRBFix.tailR (deleteRBFix (fuel + 1)) s x.addr w =
        deleteRBFix.case4R (deleteRBFix (fuel + 1)) s x.addr w := by
      simp [deleteRBFix.tailR, en, ef, ecn, ecf]
    rw [hst]
    refine deleteRBFix_case4R fuel h hp hxW hnW hfW.2.2.2 hfW.2.2.1 ?_ ?_ ?_ hA4
    all_goals first | omega | (simp only [Bool.false_eq_true, if_false] at hb hbh; omega)
  | true =>
    rw [hfc] at ecf
    cases hnc : wn.color0 with
    | true =>
      rw [hnc] at ecn
      have h2 := (hw.setColor_root false).up
      simp only [RBFrame.fill_L, RBFrame.fill_R] at h2
      have hst : deleteRBFix.tailR (deleteRBFix (fuel + 1)) s x.addr w =
          deleteRBFix (fuel + 1) (s.setColor w false) p := by
        simp [deleteRBFix.tailR, en, ef, ecn, ecf, hp]
      rw [hst]
      have hX : (RBTree.setBlack (.node p cp kp sp (.node w false kw sw wf wn) x)).WF := by
        simp only [RBTree.setBlack_node, RBTree.wf_node, RBTree.color0_node,
          RBTree.blackHeight_node]
        refine ⟨by simp, ?_, ?_, ?_⟩
        · first | omega | (simp only [Bool.false_eq_true, if_false]; omega)
        all_goals first | exact hxW | exact ⟨fun _ => ⟨hfc, hnc⟩, hb, hfW, hnW⟩
      have hAX : RBPath.Accepts rest true
          ((RBTree.blackHeight (.node p cp kp sp (.node w false kw sw wf wn) x)) + 1) := by
        simp only [RBTree.blackHeight_node]
        have e : wf.blackHeight + (if false = true then 1 else 0) + (if cp = true then 1 else 0) + 1 =
            x.blackHeight + 1 + (if cp = true then 1 else 0) := by
          first | omega | (simp only [Bool.false_eq_true, if_false]; omega)
        rw [e]
        exact hA4.black
      have hpost : FixPost (s.setColor w false)
          (RBPath.plug (.node p cp kp sp (.node w false kw sw wf wn) x) rest)
          (deleteRBFix (fuel + 1) (s.setColor w false) p) := by
        cases cp with
        | false => exact deleteRBFix_exit fuel h2 (Or.inr rfl) hX hAX
        | true => exact ih rfl _ _ h2 h2.parent_root hX hAX
      simp only [RBPath.plug_cons, RBFrame.fill_L, RBFrame.fill_R]
      refine FixPost.of_local s _ hpost (by simp) (by simp) rfl ?_ (by simp) (by simp)
      simp only [RBTree.sizeInv_node, RBTree.size0_node]
      exact fun hz => hz
    | false =>
      obtain ⟨u, ku, su, ub, ua, rfl⟩ := RBTree.exists_node_of_red hnc
      simp only [RBTree.addr_node, RBTree.color0_node] at en ecn
      simp only [RBTree.wf_node, RBTree.blackHeight_node, RBTree.color0_node] at hnW hb hbh
      have euN : u ≠ NIL := hwn.root_ne_nil
      have h1 := (hwn.setColor_root true).up
      simp only [RBFrame.fill_L, RBFrame.fill_R] at h1
      have h2 := h1.setColor_root false
      have h3 := h2.leftRotate
      have h4 := h3.up.downR
      simp only [RBFrame.fill_L, RBFrame.fill_R] at h4
      have efar3 : (leftRotateRB ((s.setColor u true).setColor w false) w).left p = u := by
        simpa using h3.up.left_root
      have hp3 : (leftRotateRB ((s.setColor u true).setColor w false) w).parent x.addr = p := by
        cases x with
        | nil =>
          rw [RBTree.addr_nil, leftRotateRB_parent_nil _ _ ewN (by simpa [en] using euN)]
          simpa using hp
        | node a c k sz l r => simpa using h4.parent_root
      have hst : deleteRBFix.tailR (deleteRBFix (fuel + 1)) s x.addr w =
          deleteRBFix.case4R (deleteRBFix (fuel + 1))
            (leftRotateRB ((s.setColor u true).setColor w false) w) x.addr u := by
        simp [deleteRBFix.tailR, en, ef, ecn, ecf, hp3, efar3]
      rw [hst]
      have hpost := deleteRBFix_case4R fuel h4 hp3 hxW hnW.2.2.2 hnW.2.2.1 hfW
        (by first | omega | (simp only [Bool.false_eq_true, if_false] at hb hbh; omega))
        (by first | omega | (simp only [Bool.false_eq_true, if_false] at hb hbh; omega))
        (by first | omega | (simp only [Bool.false_eq_true, if_false] at hb hbh; omega)) hA4
      simp only [RBPath.plug_cons, RBFrame.fill_L, RBFrame.fill_R] at hpost ⊢
      refine FixPost.of_local s _ hpost (by simp) (by simp) rfl ?_ (by simp [leftRotateRB_next])
        (by simp [leftRotateRB_freed])
      simp only [RBTree.sizeInv_node, RBTree.size0_node]
      intro hz
      repeat' apply And.intro
      all_goals first | omega | tauto

set_option maxHeartbeats 1000000 in
/-- `deleteRBFix` started at a node `x` that lacks one black on its paths: the
loop returns and the state holds a tree with the Red-Black properties. -/
theorem deleteRBFix_spec : ∀ (cs : RBPath) (s : State) (x : RBTree) (fuel : Nat),
    ShapeZ s x cs → s.parent x.addr = RBPath.addr cs NIL → x.setBlack.WF →
    RBPath.Accepts cs true (x.blackHeight + 1) → cs.length < fuel →
    FixPost s (RBPath.plug x cs) (deleteRBFix fuel s x.addr) := by
  intro cs
  induction cs with
  | nil =>
    intro s x fuel h _ hW hA hf
    obtain ⟨fuel, rfl⟩ : ∃ m, fuel = m + 1 := ⟨fuel - 1, by omega⟩
    exact deleteRBFix_exit fuel h (Or.inl rfl) hW hA
  | cons f rest ih =>
    intro s x fuel h hp hW hA hf
    simp only [List.length_cons] at hf
    obtain ⟨fuel, rfl⟩ : ∃ m, fuel = m + 1 := ⟨fuel - 1, by omega⟩
    cases hxc : x.color0 with
    | false => exact deleteRBFix_exit fuel h (Or.inr hxc) hW hA
    | true =>
      obtain ⟨fuel, rfl⟩ : ∃ m, fuel = m + 1 := ⟨fuel - 1, by omega⟩
      have hxW : x.WF := by
        rw [RBTree.setBlack_of_black hxc] at hW
        exact hW
      have hcol : s.color x.addr = true := by rw [h.color_addr, hxc]
      have hA0 := hA
      rw [RBPath.accepts_cons] at hA
      cases f with
      | L p cp kp sp W =>
        simp only [RBFrame.color, RBFrame.sib] at hA
        obtain ⟨hA1, hWW, hbh, hA4⟩ := hA
        obtain ⟨w, cw, kw, sw, wn, wf, rfl⟩ := RBTree.exists_node_of_blackHeight hbh
        simp only [RBPath.addr_cons, RBFrame.addr_L, RBFrame.addr_R] at hp
        have hu := h.up
        simp only [RBFrame.fill_L, RBFrame.fill_R] at hu
        have hw := hu.downR
        have epN : p ≠ NIL := hu.root_ne_nil
        have ewN : w ≠ NIL := hw.root_ne_nil
        have efar : s.right p = w := by simpa using hu.right_root
        have ecw : s.color w = cw := hw.color_root
        have hside : x.addr = s.left (s.parent x.addr) := by
          rw [hp, hu.left_root]
        rw [deleteRBFix_succ, if_pos ⟨h.addr_ne_root, hcol⟩, if_pos hside]
        cases cw with
        | true =>
          have hst : ∀ k : State → Nat → Option State,
              (let sw : State × Nat :=
                if s.color (s.right (s.parent x.addr)) = false then
                  (leftRotateRB ((s.setColor (s.right (s.parent x.addr)) true).setColor
                      (s.parent x.addr) false) (s.parent x.addr),
                    (leftRotateRB ((s.setColor (s.right (s.parent x.addr)) true).setColor
                      (s.parent x.addr) false) (s.parent x.addr)).right
                      ((leftRotateRB ((s.setColor (s.right (s.parent x.addr)) true).setColor
                        (s.parent x.addr) false) (s.parent x.addr)).parent x.addr))
                else (s, s.right (s.parent x.addr))
              deleteRBFix.tailL k sw.1 x.addr sw.2) = deleteRBFix.tailL k s x.addr w := by
            intro k
            simp [hp, efar, ecw]
          rw [hst]
          refine deleteRBFix_tailL fuel h hp hxW ?_
            (fun _ s1 X a b c d => ih s1 X (fuel + 1) a b c d (by omega))
          exact hA0
        | false =>
          have hcp : cp = true := by
            cases cp with
            | true => rfl
            | false => exact absurd (hA1 rfl).2 (by simp)
          subst hcp
          simp only [RBTree.wf_node, RBTree.blackHeight_node, if_true] at hWW hbh hA4
          obtain ⟨hWc, hWb, hnW, hfW⟩ := hWW
          have hnb : wn.blackHeight = x.blackHeight + 1 := by
            first | omega | (simp only [Bool.false_eq_true, if_false] at hbh hWb; omega)
          have hfb : wf.blackHeight = x.blackHeight + 1 := by
            first | omega | (simp only [Bool.false_eq_true, if_false] at hbh hWb; omega)
          obtain ⟨a, ca, ka, sa, al, ar, rfl⟩ := RBTree.exists_node_of_blackHeight hnb
          have hca : ca = true := by simpa using (hWc trivial).1
          subst hca
          have h1 := (hw.setColor_root true).up.setColor_root false
          simp only [RBFrame.fill_L, RBFrame.fill_R] at h1
          have h2 := h1.leftRotate
          have h3 := h2.downL.downL
          have efar3 : (leftRotateRB ((s.setColor w true).setColor p false) p).right p = a := by
            simpa using h2.downL.right_root
          have hp3 : (leftRotateRB ((s.setColor w true).setColor p false) p).parent x.addr = p := by
            cases x with
            | nil =>
              rw [RBTree.addr_nil, leftRotateRB_parent_nil _ _ epN (by simpa [efar] using ewN)]
              simpa using hp
            | node a c k sz l r => simpa using h3.parent_root
          have hst : ∀ k : State → Nat → Option State,
              (let sw : State × Nat :=
                if s.color (s.right (s.parent x.addr)) = false then
                  (leftRotateRB ((s.setColor (s.right (s.parent x.addr)) true).setColor
                      (s.parent x.addr) false) (s.parent x.addr),
                    (leftRotateRB ((s.setColor (s.right (s.parent x.addr)) true).setColor
                      (s.parent x.addr) false) (s.parent x.addr)).right
                      ((leftRotateRB ((s.setColor (s.right (s.parent x.addr)) true).setColor
                        (s.parent x.addr) false) (s.parent x.addr)).parent x.addr))
                else (s, s.right (s.parent x.addr))
              deleteRBFix.tailL k sw.1 x.addr sw.2) =
              deleteRBFix.tailL k (leftRotateRB ((s.setColor w true).setColor p false) p)
                x.addr a := by
            intro k
            simp [hp, efar, ecw, hp3, efar3]
          rw [hst]
          have hpost := deleteRBFix_tailL fuel h3 hp3 hxW
            (by
              simp only [RBPath.accepts_cons, RBFrame.color, RBFrame.sib, RBTree.wf_node,
                RBTree.blackHeight_node, RBTree.color0_node] at hnW hnb hfb ⊢
              refine ⟨by simp, ⟨by simp, hnW.2.1, hnW.2.2.1, hnW.2.2.2⟩, ?_, by simp, hfW, ?_, ?_⟩
              · first | omega | (simp only [if_true] at hnb ⊢; omega)
              · first | omega | (simp only [Bool.false_eq_true, if_false]; omega)
              · simp only [Bool.false_eq_true, if_false, if_true, Nat.add_zero]
                exact hA4)
            (fun hc => absurd hc (by simp))
          simp only [RBPath.plug_cons, RBFrame.fill_L, RBFrame.fill_R] at hpost ⊢
          refine FixPost.of_local s _ hpost (by simp) (by simp) rfl ?_ (by simp [leftRotateRB_next])
            (by simp [leftRotateRB_freed])
          simp only [RBTree.sizeInv_node, RBTree.size0_node]
          intro hz
          repeat' apply And.intro
          all_goals first | omega | tauto
      | R p cp kp sp W =>
        simp only [RBFrame.color, RBFrame.sib] at hA
        obtain ⟨hA1, hWW, hbh, hA4⟩ := hA
        obtain ⟨w, cw, kw, sw, wf, wn, rfl⟩ := RBTree.exists_node_of_blackHeight hbh
        simp only [RBPath.addr_cons, RBFrame.addr_L, RBFrame.addr_R] at hp
        have hu := h.up
        simp only [RBFrame.fill_L, RBFrame.fill_R] at hu
        have hw := hu.downL
        have epN : p ≠ NIL := hu.root_ne_nil
        have ewN : w ≠ NIL := hw.root_ne_nil
        have efar : s.left p = w := by simpa using hu.left_root
        have ecw : s.color w = cw := hw.color_root
        have hside : ¬ x.addr = s.left (s.parent x.addr) := by
          rw [hp, hu.left_root]
          simpa using h.addr_ne_sib (by simp [RBFrame.sib])
        rw [deleteRBFix_succ, if_pos ⟨h.addr_ne_root, hcol⟩, if_neg hside]
        cases cw with
        | true =>
          have hst : ∀ k : State → Nat → Option State,
              (let sw : State × Nat :=
                if s.color (s.left (s.parent x.addr)) = false then
                  (rightRotateRB ((s.setColor (s.left (s.parent x.addr)) true).setColor
                      (s.parent x.addr) false) (s.parent x.addr),
                    (rightRotateRB ((s.setColor (s.left (s.parent x.addr)) true).setColor
                      (s.parent x.addr) false) (s.parent x.addr)).left
                      ((rightRotateRB ((s.setColor (s.left (s.parent x.addr)) true).setColor
                        (s.parent x.addr) false) (s.parent x.addr)).parent x.addr))
                else (s, s.left (s.parent x.addr))
              deleteRBFix.tailR k sw.1 x.addr sw.2) = deleteRBFix.tailR k s x.addr w := by
            intro k
            simp [hp, efar, ecw]
          rw [hst]
          refine deleteRBFix_tailR fuel h hp hxW ?_
            (fun _ s1 X a b c d => ih s1 X (fuel + 1) a b c d (by omega))
          exact hA0
        | false =>
          have hcp : cp = true := by
            cases cp with
            | true => rfl
            | false => exact absurd (hA1 rfl).2 (by simp)
          subst hcp
          simp only [RBTree.wf_node, RBTree.blackHeight_node, if_true] at hWW hbh hA4
          obtain ⟨hWc, hWb, hfW, hnW⟩ := hWW
          have hnb : wn.blackHeight = x.blackHeight + 1 := by
            first | omega | (simp only [Bool.false_eq_true, if_false] at hbh hWb; omega)
          have hfb : wf.blackHeight = x.blackHeight + 1 := by
            first | omega | (simp only [Bool.false_eq_true, if_false] at hbh hWb; omega)
          obtain ⟨a, ca, ka, sa, ar, al, rfl⟩ := RBTree.exists_node_of_blackHeight hnb
          have hca : ca = true := by simpa using (hWc trivial).2
          subst hca
          have h1 := (hw.setColor_root true).up.setColor_root false
          simp only [RBFrame.fill_L, RBFrame.fill_R] at h1
          have h2 := h1.rightRotate
          have h3 := h2.downR.downR
          have efar3 : (rightRotateRB ((s.setColor w true).setColor p false) p).left p = a := by
            simpa using h2.downR.left_root
          have hp3 : (rightRotateRB ((s.setColor w true).setColor p false) p).parent x.addr = p := by
            cases x with
            | nil =>
              rw [RBTree.addr_nil, rightRotateRB_parent_nil _ _ epN (by simpa [efar] using ewN)]
              simpa using hp
            | node a c k sz l r => simpa using h3.parent_root
          have hst : ∀ k : State → Nat → Option State,
              (let sw : State × Nat :=
                if s.color (s.left (s.parent x.addr)) = false then
                  (rightRotateRB ((s.setColor (s.left (s.parent x.addr)) true).setColor
                      (s.parent x.addr) false) (s.parent x.addr),
                    (rightRotateRB ((s.setColor (s.left (s.parent x.addr)) true).setColor
                      (s.parent x.addr) false) (s.parent x.addr)).left
                      ((rightRotateRB ((s.setColor (s.left (s.parent x.addr)) true).setColor
                        (s.parent x.addr) false) (s.parent x.addr)).parent x.addr))
                else (s, s.left (s.parent x.addr))
              deleteRBFix.tailR k sw.1 x.addr sw.2) =
              deleteRBFix.tailR k (rightRotateRB ((s.setColor w true).setColor p false) p)
                x.addr a := by
            intro k
            simp [hp, efar, ecw, hp3, efar3]
          rw [hst]
          have hpost := deleteRBFix_tailR fuel h3 hp3 hxW
            (by
              simp only [RBPath.accepts_cons, RBFrame.color, RBFrame.sib, RBTree.wf_node,
                RBTree.blackHeight_node, RBTree.color0_node] at hnW hnb hfb ⊢
              refine ⟨by simp, ⟨by simp, hnW.2.1, hnW.2.2.1, hnW.2.2.2⟩, ?_, by simp, hfW, ?_, ?_⟩
              · first | omega | (simp only [if_true] at hnb ⊢; omega)
              · first | omega | (simp only [Bool.false_eq_true, if_false]; omega)
              · simp only [Bool.false_eq_true, if_false, if_true, Nat.add_zero]
                exact hA4)
            (fun hc => absurd hc (by simp))
          simp only [RBPath.plug_cons, RBFrame.fill_L, RBFrame.fill_R] at hpost ⊢
          refine FixPost.of_local s _ hpost (by simp) (by simp) rfl ?_ (by simp [rightRotateRB_next])
            (by simp [rightRotateRB_freed])
          simp only [RBTree.sizeInv_node, RBTree.size0_node]
          intro hz
          repeat' apply And.intro
          all_goals first | omega | tauto

/-! ## Dynamic tree: `deleteRB` on the tree -/

theorem List.append_cons_of_all_eq (a : Int) (l2 : List Int) : ∀ (l1 : List Int),
    (∀ b ∈ l1, b = a) → l1 ++ a :: l2 = a :: (l1 ++ l2)
  | [], _ => rfl
  | b :: l1, h => by
    have hb : b = a := h b (by simp)
    subst hb
    have := List.append_cons_of_all_eq b l2 l1 (fun c hc => h c (by simp [hc]))
    rw [List.cons_append, this, List.cons_append]

/-- In a sorted list, removing any occurrence of `k` is `erase k`. -/
theorem List.erase_mid_of_sorted (k : Int) : ∀ (l1 l2 : List Int),
    (l1 ++ k :: l2).Sorted (· ≤ ·) → (l1 ++ k :: l2).erase k = l1 ++ l2
  | [], l2, _ => by simp
  | a :: l1, l2, h => by
    have h' : (l1 ++ k :: l2).Sorted (· ≤ ·) := (List.sorted_cons.mp h).2
    by_cases hak : a = k
    · subst hak
      have hall : ∀ b ∈ l1, b = a := by
        intro b hb
        have h1 : a ≤ b := (List.sorted_cons.mp h).1 b (by simp [hb])
        have h2 : b ≤ a := by
          have := List.pairwise_append.mp h'
          exact this.2.2 b hb a (by simp)
        omega
      show (a :: (l1 ++ a :: l2)).erase a = a :: l1 ++ l2
      rw [List.erase_cons_head, List.append_cons_of_all_eq a l2 l1 hall]
      rfl
    · show (a :: (l1 ++ k :: l2)).erase k = a :: l1 ++ l2
      rw [List.erase_cons_tail (by simpa using hak), List.erase_mid_of_sorted k l1 l2 h']
      rfl

namespace RBTree

theorem height_plug_ge : ∀ (cs : RBPath) (t : RBTree),
    t.height + cs.length ≤ (RBPath.plug t cs).height
  | [], t => by simp
  | f :: cs, t => by
    have := height_plug_ge cs (f.fill t)
    have hf : t.height + 1 ≤ (f.fill t).height := by
      cases f <;> simp only [RBFrame.fill_L, RBFrame.fill_R, height] <;> omega
    simp only [RBPath.plug_cons, List.length_cons]
    omega

theorem plug_cons_eq_node (t : RBTree) : ∀ (cs : RBPath) (f : RBFrame),
    ∃ a c k s l r, RBPath.plug t (f :: cs) = node a c k s l r
  | [], f => by cases f <;> simp
  | g :: cs, f => by
    obtain ⟨a, c, k, s, l, r, h⟩ := plug_cons_eq_node (f.fill t) cs g
    exact ⟨a, c, k, s, l, r, by simpa using h⟩

end RBTree

namespace RBPath

theorem before_append : ∀ (cs1 cs2 : RBPath), before (cs1 ++ cs2) = before cs2 ++ before cs1
  | [], cs2 => by simp [before]
  | .L a c k s r :: cs1, cs2 => by simp [before, before_append cs1 cs2]
  | .R a c k s l :: cs1, cs2 => by simp [before, before_append cs1 cs2]

theorem after_append : ∀ (cs1 cs2 : RBPath), after (cs1 ++ cs2) = after cs1 ++ after cs2
  | [], cs2 => by simp [after]
  | .L a c k s r :: cs1, cs2 => by simp [after, after_append cs1 cs2]
  | .R a c k s l :: cs1, cs2 => by simp [after, after_append cs1 cs2]

@[simp] theorem before_decSizes : ∀ (cs : RBPath), before (decSizes cs) = before cs
  | [] => rfl
  | .L a c k s r :: cs => by
    show before (decSizes cs) = before cs
    exact before_decSizes cs
  | .R a c k s l :: cs => by
    show before (decSizes cs) ++ l.keys ++ [k] = before cs ++ l.keys ++ [k]
    rw [before_decSizes cs]

@[simp] theorem after_decSizes : ∀ (cs : RBPath), after (decSizes cs) = after cs
  | [] => rfl
  | .L a c k s r :: cs => by
    show k :: r.keys ++ after (decSizes cs) = k :: r.keys ++ after cs
    rw [after_decSizes cs]
  | .R a c k s l :: cs => by
    show after (decSizes cs) = after cs
    exact after_decSizes cs

theorem accepts_decSizes : ∀ (cs : RBPath) (c : Bool) (n : Nat),
    Accepts (decSizes cs) c n ↔ Accepts cs c n
  | [], _, _ => Iff.rfl
  | .L a c k s r :: cs, c0, n => by
    simp only [decSizes_cons, RBFrame.decSize, accepts_cons, RBFrame.color, RBFrame.sib,
      accepts_decSizes cs]
  | .R a c k s l :: cs, c0, n => by
    simp only [decSizes_cons, RBFrame.decSize, accepts_cons, RBFrame.color, RBFrame.sib,
      accepts_decSizes cs]

theorem sizeInv_decSizes : ∀ (cs : RBPath) (n : Int),
    SizeInv cs n → SizeInv (decSizes cs) (n - 1)
  | [], _, _ => trivial
  | .L a c k s r :: cs, n, h => by
    simp only [decSizes_cons, RBFrame.decSize, sizeInv_cons, RBFrame.size, RBFrame.sib] at h ⊢
    exact ⟨by omega, h.2.1, sizeInv_decSizes cs s h.2.2⟩
  | .R a c k s l :: cs, n, h => by
    simp only [decSizes_cons, RBFrame.decSize, sizeInv_cons, RBFrame.size, RBFrame.sib] at h ⊢
    exact ⟨by omega, h.2.1, sizeInv_decSizes cs s h.2.2⟩

theorem before_minSpine : ∀ (t : RBTree), before (minSpine t) = []
  | .nil => rfl
  | .node _ _ _ _ .nil _ => rfl
  | .node a c k s (.node la lc lk ls ll lr) r => by
    rw [minSpine, before_append, before_minSpine (.node la lc lk ls ll lr)]
    rfl

theorem length_minSpine : ∀ (t : RBTree), (minSpine t).length + 1 ≤ t.height + (if t = .nil then 1 else 0)
  | .nil => by simp [minSpine]
  | .node _ _ _ _ .nil _ => by simp [minSpine, RBTree.height]
  | .node a c k s (.node la lc lk ls ll lr) r => by
    have := length_minSpine (.node la lc lk ls ll lr)
    simp only [minSpine, List.length_append, List.length_singleton, RBTree.height] at this ⊢
    simp only [reduceCtorEq, if_false] at this ⊢
    omega

/-- The frame of the removed node can be replaced by the frame of its successor:
colours and siblings stay. -/
theorem accepts_append_R (a a' : Nat) (c : Bool) (k k' s : Int) (l : RBTree) (cs2 : RBPath) :
    ∀ (cs1 : RBPath) (c0 : Bool) (n : Nat),
      Accepts (cs1 ++ .R a c k s l :: cs2) c0 n ↔ Accepts (cs1 ++ .R a' c k' s l :: cs2) c0 n
  | [], _, _ => Iff.rfl
  | f :: cs1, c0, n => by
    simp only [List.cons_append, accepts_cons, accepts_append_R a a' c k k' s l cs2 cs1]

theorem sizeInv_append_R (a a' : Nat) (c : Bool) (k k' s : Int) (l : RBTree) (cs2 : RBPath) :
    ∀ (cs1 : RBPath) (n : Int),
      SizeInv (cs1 ++ .R a c k s l :: cs2) n ↔ SizeInv (cs1 ++ .R a' c k' s l :: cs2) n
  | [], _ => Iff.rfl
  | f :: cs1, n => by
    simp only [List.cons_append, sizeInv_cons, sizeInv_append_R a a' c k k' s l cs2 cs1]

theorem addr_append_cons (cs1 : RBPath) (f : RBFrame) (cs2 : RBPath) (top : Nat) :
    addr (cs1 ++ f :: cs2) top = addr cs1 f.addr := by
  cases cs1 <;> rfl

end RBPath

/-- The tail of `deleteRB` after the splice: the sizes on the path above `x` are
decremented and, when the removed colour `c` was black, `deleteRBFix` restores
the Red-Black properties. -/
theorem deleteRB_finish_spec {s : State} {x : RBTree} {cs : RBPath} (c : Bool) (fuel : Nat)
    (h : ShapeZ s x cs) (hp : s.parent x.addr = RBPath.addr cs NIL) (hxW : x.WF)
    (hxc : c = false → x.color0 = true)
    (hA : RBPath.Accepts cs c (x.blackHeight + (if c then 1 else 0)))
    (hf : cs.length < fuel) :
    FixPost s (RBPath.plug x (RBPath.decSizes cs)) (deleteRB.finish fuel s x.addr c) := by
  obtain ⟨s2, r1, r2, r3, r4, r5⟩ := deleteRB_repair_spec cs x s fuel h hf
  have hst : deleteRB.finish fuel s x.addr c =
      if c = true then deleteRBFix fuel s2 x.addr else some s2 := by
    simp only [deleteRB.finish, hp, r1]
  rw [hst]
  cases c with
  | false =>
    refine ⟨s2, _, by simp, r2.toShape, ?_, rfl, List.Perm.refl _, id, r4, r5⟩
    rw [RBPath.redBlack_plug, RBPath.accepts_decSizes, hxc rfl]
    exact ⟨hxW, by simpa using hA.black⟩
  | true =>
    have := deleteRBFix_spec (RBPath.decSizes cs) s2 x fuel r2
      (by rw [r3, hp, RBPath.addr_decSizes]) (RBTree.WF.blacken hxW)
      (by rw [RBPath.accepts_decSizes]; simpa using hA) (by simpa using hf)
    simpa using FixPost.of_local s x this rfl (List.Perm.refl _) rfl id r4 r5

/-- The result of `deleteRB` from the state reached by the splice. -/
theorem deleteRB_finish_post {s s1 : State} {x T : RBTree} {P : RBPath} {c0 : Bool}
    {key : Int} {z fuel : Nat} (h : ShapeZ s1 x P)
    (hp : s1.parent x.addr = RBPath.addr P NIL) (hxW : x.WF)
    (hxc : c0 = false → x.color0 = true)
    (hA : RBPath.Accepts P c0 (x.blackHeight + (if c0 then 1 else 0)))
    (hlen : P.length < fuel) (hk : (RBPath.plug x P).keys = T.keys.erase key)
    (hsz : T.SizeInv → x.SizeInv ∧ RBPath.SizeInv P (x.size0 + 1))
    (hn : s1.next = s.next) (hfr : s1.freed = s.freed ++ [z]) :
    ∃ s' T', deleteRB.finish fuel s1 x.addr c0 = some s' ∧ Shape s' T' ∧ T'.RedBlack ∧
      T'.keys = T.keys.erase key ∧ (T.SizeInv → T'.SizeInv) ∧ s'.next = s.next ∧
      s'.freed = s.freed ++ [z] := by
  obtain ⟨s', T', r1, r2, r3, r4, -, r6, r7, r8⟩ := deleteRB_finish_spec c0 fuel h hp hxW hxc hA hlen
  refine ⟨s', T', r1, r2, r3, ?_, ?_, r7.trans hn, r8.trans hfr⟩
  · rw [r4, ← hk, RBPath.keys_plug, RBPath.keys_plug]
    simp
  · intro hT
    obtain ⟨h1, h2⟩ := hsz hT
    refine r6 ?_
    rw [RBPath.sizeInv_plug]
    refine ⟨h1, ?_⟩
    have := RBPath.sizeInv_decSizes P _ h2
    simpa using this

/-- `deleteRB` of a node without left child. -/
theorem deleteRB_case_a {s : State} {z : Nat} {c : Bool} {key sz : Int} {r : RBTree}
    {cs : RBPath} (fuel : Nat) (h : ShapeZ s (.node z c key sz .nil r) cs)
    (hroot : s.root ≠ NIL) (hsearch : deleteRB.search key fuel s s.root = some z)
    (hW : (RBTree.node z c key sz .nil r).WF)
    (hA : RBPath.Accepts cs c (RBTree.node z c key sz .nil r).blackHeight)
    (hS : (RBPath.plug (.node z c key sz .nil r) cs).keys.Sorted (· ≤ ·))
    (hf : (RBPath.plug (.node z c key sz .nil r) cs).height ≤ fuel) :
    ∃ s' T', deleteRB fuel s key = some s' ∧ Shape s' T' ∧ T'.RedBlack ∧
      T'.keys = (RBPath.plug (.node z c key sz .nil r) cs).keys.erase key ∧
      ((RBPath.plug (.node z c key sz .nil r) cs).SizeInv → T'.SizeInv) ∧ s'.next = s.next ∧
      s'.freed = s.freed ++ [z] := by
  have el : s.left z = NIL := h.left_root
  have er : s.right z = r.addr := h.right_root
  have ec : s.color z = c := h.color_root
  obtain ⟨t1, t2⟩ := h.transplant_right
  have hst : deleteRB fuel s key =
      deleteRB.finish fuel ((transplantRB s z r.addr).free z) r.addr c := by
    simp only [deleteRB, if_neg hroot, hsearch, el, if_true, er, ec]
  rw [hst]
  have hh := RBTree.height_plug_ge cs (.node z c key sz .nil r)
  simp only [RBTree.height] at hh
  simp only [RBTree.wf_node, RBTree.blackHeight_node, RBTree.blackHeight_nil,
    RBTree.color0_nil] at hW hA
  refine deleteRB_finish_post (t1.free z) t2 hW.2.2.2 (fun hc => (hW.1 hc).2) ?_ (by omega) ?_ ?_
    (by simp) (by simp)
  · rw [← hW.2.1]; simpa using hA
  · rw [RBPath.keys_plug, RBPath.keys_plug]
    simp only [RBTree.keys_node, RBTree.keys_nil, List.nil_append, List.append_assoc,
      List.cons_append]
    rw [RBPath.keys_plug] at hS
    simp only [RBTree.keys_node, RBTree.keys_nil, List.nil_append, List.append_assoc,
      List.cons_append] at hS
    exact (List.erase_mid_of_sorted key _ _ hS).symm
  · rw [RBPath.sizeInv_plug]
    simp only [RBTree.sizeInv_node, RBTree.size0_node, RBTree.size0_nil]
    rintro ⟨⟨h1, -, h2⟩, h3⟩
    refine ⟨h2, ?_⟩
    have e : r.size0 + 1 = sz := by omega
    rw [e]
    exact h3

/-- `deleteRB` of a node with a left child and without right child. -/
theorem deleteRB_case_b {s : State} {z la : Nat} {c cl : Bool} {key sz kl sl : Int}
    {ll lr : RBTree} {cs : RBPath} (fuel : Nat)
    (h : ShapeZ s (.node z c key sz (.node la cl kl sl ll lr) .nil) cs)
    (hroot : s.root ≠ NIL) (hsearch : deleteRB.search key fuel s s.root = some z)
    (hW : (RBTree.node z c key sz (.node la cl kl sl ll lr) .nil).WF)
    (hA : RBPath.Accepts cs c (RBTree.node z c key sz (.node la cl kl sl ll lr) .nil).blackHeight)
    (hS : (RBPath.plug (.node z c key sz (.node la cl kl sl ll lr) .nil) cs).keys.Sorted (· ≤ ·))
    (hf : (RBPath.plug (.node z c key sz (.node la cl kl sl ll lr) .nil) cs).height ≤ fuel) :
    ∃ s' T', deleteRB fuel s key = some s' ∧ Shape s' T' ∧ T'.RedBlack ∧
      T'.keys = (RBPath.plug (.node z c key sz (.node la cl kl sl ll lr) .nil) cs).keys.erase key ∧
      ((RBPath.plug (.node z c key sz (.node la cl kl sl ll lr) .nil) cs).SizeInv → T'.SizeInv) ∧
      s'.next = s.next ∧ s'.freed = s.freed ++ [z] := by
  have el : s.left z = la := h.left_root
  have er : s.right z = NIL := h.right_root
  have ec : s.color z = c := h.color_root
  have elN : la ≠ NIL := h.downL.root_ne_nil
  obtain ⟨t1, t2⟩ := h.transplant_left
  simp only [RBTree.addr_node] at t1 t2
  have hst : deleteRB fuel s key =
      deleteRB.finish fuel ((transplantRB s z la).free z) la c := by
    simp only [deleteRB, if_neg hroot, hsearch, el, if_neg elN, if_true, er, ec]
  rw [hst]
  have hh := RBTree.height_plug_ge cs (.node z c key sz (.node la cl kl sl ll lr) .nil)
  simp only [RBTree.height] at hh
  rw [RBTree.wf_node] at hW
  simp only [RBTree.blackHeight_node, RBTree.blackHeight_nil, RBTree.color0_nil,
    RBTree.color0_node] at hW hA
  refine @deleteRB_finish_post _ _ (.node la cl kl sl ll lr) _ _ _ _ _ _ (t1.free z) t2 hW.2.2.1
    (fun hc => (hW.1 hc).1) ?_ (by omega) ?_ ?_ (by simp) (by simp)
  · simpa using hA
  · rw [RBPath.keys_plug, RBPath.keys_plug]
    rw [RBPath.keys_plug] at hS
    have e : RBPath.before cs ++ (RBTree.node z c key sz (.node la cl kl sl ll lr) .nil).keys ++
        RBPath.after cs = (RBPath.before cs ++ (RBTree.node la cl kl sl ll lr).keys) ++
          key :: RBPath.after cs := by simp
    rw [e] at hS ⊢
    rw [List.erase_mid_of_sorted key _ _ hS]
  · rw [RBPath.sizeInv_plug]
    simp only [RBTree.sizeInv_node, RBTree.size0_node, RBTree.size0_nil]
    rintro ⟨⟨h1, h2, -⟩, h3⟩
    refine ⟨h2, ?_⟩
    have e : sl + 1 = sz := by omega
    rw [e]
    exact h3

namespace RBPath

theorem addrs_append : ∀ (cs1 cs2 : RBPath), addrs (cs1 ++ cs2) = addrs cs1 ++ addrs cs2
  | [], _ => rfl
  | f :: cs1, cs2 => by simp [addrs_append cs1 cs2]

end RBPath

/-- The splice of `deleteRB` when the successor is the right child of `z`, on the
statements of the program. -/
theorem ShapeZ.replace_child_model {s : State} {z y la : Nat} {c cy cl : Bool}
    {k sz ky sy kl sl : Int} {ll lr yr : RBTree} {cs : RBPath}
    (h : ShapeZ s (.node z c k sz (.node la cl kl sl ll lr) (.node y cy ky sy .nil yr)) cs) :
    ∃ s', (let s1 := s.setParent (s.right y) y
           let s2 := transplantRB s1 z y
           let s3 := s2.setLeft y (s2.left z)
           let s4 := s3.setParent (s3.left y) y
           let s5 := s4.setColor y (s4.color z)
           s5.setSize y (s5.size z)) = s' ∧
      ShapeZ s' yr (.R y c ky sz (.node la cl kl sl ll lr) :: cs) ∧ s'.parent yr.addr = y ∧
      s'.next = s.next ∧ s'.freed = s.freed := by
  refine ⟨_, ?_, h.replace_child.1, h.replace_child.2, by simp, by simp⟩
  simp

/-- `deleteRB` of a node with two children whose successor is its right child. -/
theorem deleteRB_case_c1 {s : State} {z y la : Nat} {c cy cl : Bool}
    {key sz ky sy kl sl : Int} {ll lr yr : RBTree} {cs : RBPath} (fuel : Nat)
    (h : ShapeZ s (.node z c key sz (.node la cl kl sl ll lr) (.node y cy ky sy .nil yr)) cs)
    (hroot : s.root ≠ NIL) (hsearch : deleteRB.search key fuel s s.root = some z)
    (hW : (RBTree.node z c key sz (.node la cl kl sl ll lr) (.node y cy ky sy .nil yr)).WF)
    (hA : RBPath.Accepts cs c
      (RBTree.node z c key sz (.node la cl kl sl ll lr) (.node y cy ky sy .nil yr)).blackHeight)
    (hS : (RBPath.plug (.node z c key sz (.node la cl kl sl ll lr) (.node y cy ky sy .nil yr))
      cs).keys.Sorted (· ≤ ·))
    (hf : (RBPath.plug (.node z c key sz (.node la cl kl sl ll lr) (.node y cy ky sy .nil yr))
      cs).height ≤ fuel) :
    ∃ s' T', deleteRB fuel s key = some s' ∧ Shape s' T' ∧ T'.RedBlack ∧
      T'.keys = (RBPath.plug (.node z c key sz (.node la cl kl sl ll lr)
        (.node y cy ky sy .nil yr)) cs).keys.erase key ∧
      ((RBPath.plug (.node z c key sz (.node la cl kl sl ll lr)
        (.node y cy ky sy .nil yr)) cs).SizeInv → T'.SizeInv) ∧
      s'.next = s.next ∧ s'.freed = s.freed ++ [z] := by
  have hh := RBTree.height_plug_ge cs
    (.node z c key sz (.node la cl kl sl ll lr) (.node y cy ky sy .nil yr))
  simp only [RBTree.height] at hh
  obtain ⟨fuel, rfl⟩ : ∃ m, fuel = m + 1 := ⟨fuel - 1, by omega⟩
  have el : s.left z = la := h.left_root
  have er : s.right z = y := h.right_root
  have elN : la ≠ NIL := h.downL.root_ne_nil
  have eyN : y ≠ NIL := h.downR.root_ne_nil
  have ely : s.left y = NIL := h.downR.left_root
  have epy : s.parent y = z := by simpa using h.downR.parent_root
  have ecy : s.color y = cy := h.downR.color_root
  have ery : s.right y = yr.addr := h.downR.right_root
  have htm : treeMinRB (fuel + 1) s y = some y := by simp [treeMinRB, ely]
  obtain ⟨s', hs', t1, t2, t3, t4⟩ := h.replace_child_model
  have hst : deleteRB (fuel + 1) s key = deleteRB.finish (fuel + 1) (s'.free z) yr.addr cy := by
    rw [← hs']
    simp only [deleteRB, if_neg hroot, hsearch, el, if_neg elN, er, if_neg eyN, htm, epy,
      if_true, ecy, ery]
  rw [hst]
  simp only [RBTree.wf_node, RBTree.blackHeight_node, RBTree.blackHeight_nil,
    RBTree.color0_nil, RBTree.color0_node] at hW hA
  obtain ⟨hW1, hW2, hW3, hW4, hW5, -, hW7⟩ := hW
  refine deleteRB_finish_post (t1.free z) (by simpa using t2) hW7 (fun hc => (hW4 hc).2) ?_
    (by simp only [List.length_cons]; omega) ?_ ?_ (by simpa using t3) (by simp [t4])
  · rw [RBPath.accepts_cons]
    simp only [RBFrame.color, RBFrame.sib, RBTree.color0_node, RBTree.wf_node,
      RBTree.blackHeight_node]
    refine ⟨fun hc => ⟨?_, (hW1 hc).1⟩, hW3, by omega, ?_⟩
    · cases cy with
      | true => rfl
      | false => exact absurd (hW1 hc).2 (by simp)
    · have e : yr.blackHeight + (if cy = true then 1 else 0) + (if c = true then 1 else 0) =
          (RBTree.node la cl kl sl ll lr).blackHeight + (if c = true then 1 else 0) := by
        simp only [RBTree.blackHeight_node]; omega
      rw [e]
      simpa using hA
  · rw [RBPath.keys_plug, RBPath.keys_plug]
    rw [RBPath.keys_plug] at hS
    have e : RBPath.before cs ++ (RBTree.node z c key sz (.node la cl kl sl ll lr)
        (.node y cy ky sy .nil yr)).keys ++ RBPath.after cs =
        (RBPath.before cs ++ (RBTree.node la cl kl sl ll lr).keys) ++
          key :: (ky :: yr.keys ++ RBPath.after cs) := by simp
    rw [e] at hS ⊢
    rw [List.erase_mid_of_sorted key _ _ hS]
    simp [RBPath.before, RBPath.after]
  · rw [RBPath.sizeInv_plug]
    simp only [RBTree.sizeInv_node, RBTree.size0_node, RBTree.size0_nil, RBPath.sizeInv_cons,
      RBFrame.size, RBFrame.sib]
    rintro ⟨⟨h1, h2, h3, -, h4⟩, h5⟩
    exact ⟨h4, by omega, h2, h5⟩

set_option maxHeartbeats 1000000 in
/-- `deleteRB` of a node with two children whose successor `y` lies deeper in
the right subtree: `y` is cut out and takes the place of `z`. -/
theorem deleteRB_case_c2 {s : State} {z y la : Nat} {c cy cl : Bool}
    {key sz ky sy kl sl : Int} {ll lr yr : RBTree} {f : RBFrame} {sp cs : RBPath} (fuel : Nat)
    (m3 : ShapeZ s (.node y cy ky sy .nil yr)
      (f :: sp ++ .R z c key sz (.node la cl kl sl ll lr) :: cs))
    (hroot : s.root ≠ NIL) (hsearch : deleteRB.search key fuel s s.root = some z)
    (htm : treeMinRB fuel s (s.right z) = some y)
    (hbs : RBPath.before (f :: sp) = [])
    (hW : (RBTree.node y cy ky sy .nil yr).WF)
    (hA : RBPath.Accepts (f :: sp ++ .R z c key sz (.node la cl kl sl ll lr) :: cs) cy
      (RBTree.node y cy ky sy .nil yr).blackHeight)
    (hS : (RBPath.plug (.node y cy ky sy .nil yr)
      (f :: sp ++ .R z c key sz (.node la cl kl sl ll lr) :: cs)).keys.Sorted (· ≤ ·))
    (hf : (RBPath.plug (.node y cy ky sy .nil yr)
      (f :: sp ++ .R z c key sz (.node la cl kl sl ll lr) :: cs)).height ≤ fuel) :
    ∃ s' T', deleteRB fuel s key = some s' ∧ Shape s' T' ∧ T'.RedBlack ∧
      T'.keys = (RBPath.plug (.node y cy ky sy .nil yr)
        (f :: sp ++ .R z c key sz (.node la cl kl sl ll lr) :: cs)).keys.erase key ∧
      ((RBPath.plug (.node y cy ky sy .nil yr)
        (f :: sp ++ .R z c key sz (.node la cl kl sl ll lr) :: cs)).SizeInv → T'.SizeInv) ∧
      s'.next = s.next ∧ s'.freed = s.freed ++ [z] := by
  have hh := RBTree.height_plug_ge (f :: sp ++ .R z c key sz (.node la cl kl sl ll lr) :: cs)
    (.node y cy ky sy .nil yr)
  simp only [RBTree.height, List.length_cons, List.length_append] at hh
  -- reads in the initial state
  have hz0 := ((ShapeZ.append_iff s _ (f :: sp) _).mp m3).up
  simp only [RBFrame.fill_R] at hz0
  obtain ⟨ra0, cr0, kr0, sr0, rl0, rr0, hplug0⟩ :=
    RBTree.plug_cons_eq_node (.node y cy ky sy .nil yr) sp f
  rw [hplug0] at hz0
  have el : s.left z = la := hz0.left_root
  have er : s.right z = ra0 := hz0.right_root
  have elN : la ≠ NIL := hz0.downL.root_ne_nil
  have erN : ra0 ≠ NIL := hz0.downR.root_ne_nil
  have eyN : y ≠ NIL := m3.root_ne_nil
  have ecy : s.color y = cy := m3.color_root
  have ery : s.right y = yr.addr := m3.right_root
  have eky : s.key y = ky := m3.key_root
  have epy : s.parent y = f.addr := by simpa using m3.parent_root
  have hfz : f.addr ≠ z := by
    have hnd := m3.nodup
    simp only [List.cons_append, RBPath.addrs_cons, RBPath.addrs_append, RBFrame.addrs_R] at hnd
    have h1 : (f.addrs ++ (RBPath.addrs sp ++ (z :: (RBTree.node la cl kl sl ll lr).addrs ++
        RBPath.addrs cs))).Nodup := by
      have := (List.nodup_append.mp hnd).2.1
      simpa using this
    have h2 := (List.nodup_append.mp h1).2.2
    intro e
    refine @h2 z ?_ (by simp)
    rw [← e]
    cases f <;> simp
  rw [er] at htm
  -- the successor is cut out
  obtain ⟨t1, t2⟩ := m3.transplant_right
  have hz1 := ((ShapeZ.append_iff _ _ (f :: sp) _).mp t1).up
  simp only [RBFrame.fill_R] at hz1
  obtain ⟨ra, cr, kr, sr, rl, rr, hplug⟩ := RBTree.plug_cons_eq_node yr sp f
  rw [hplug] at hz1
  have hy : y ∉ (RBTree.node z c key sz (.node la cl kl sl ll lr)
      (.node ra cr kr sr rl rr)).addrs ++ RBPath.addrs cs := by
    intro hm
    have hp1 := RBPath.plug_addrs_perm cs (RBTree.node z c key sz (.node la cl kl sl ll lr)
      (.node ra cr kr sr rl rr))
    have hp2 := RBPath.plug_addrs_perm (f :: sp ++ .R z c key sz (.node la cl kl sl ll lr) :: cs) yr
    have e : RBPath.plug yr (f :: sp ++ .R z c key sz (.node la cl kl sl ll lr) :: cs) =
        RBPath.plug (RBTree.node z c key sz (.node la cl kl sl ll lr)
          (.node ra cr kr sr rl rr)) cs := by
      rw [RBPath.plug_append, hplug]
      rfl
    rw [e] at hp2
    have hm2 := (hp1.symm.trans hp2).subset hm
    have hnd := m3.nodup
    simp only [RBTree.addrs_node, RBTree.addrs_nil, List.nil_append, List.cons_append,
      List.nodup_cons] at hnd
    exact hnd.1 hm2
  have hya : y < (transplantRB s y yr.addr).next := by
    simpa using (m3.alloc y (by simp)).2
  obtain ⟨s', hs', t3, t4, t5, t6⟩ := hz1.replace hy eyN hya
  simp only [transplantRB_key, eky] at t3
  rw [← hplug] at t3
  have t7 := (ShapeZ.append_iff _ _ (f :: sp) _).mpr t3.downR
  have hp7 : s'.parent yr.addr =
      RBPath.addr (f :: sp ++ .R y c ky sz (.node la cl kl sl ll lr) :: cs) NIL := by
    cases yr with
    | nil =>
      rw [RBTree.addr_nil, t4]
      simpa using t2
    | node a c k sz l r => exact t7.parent_root
  have hst : deleteRB fuel s key = deleteRB.finish fuel (s'.free z) yr.addr cy := by
    rw [← hs']
    simp only [deleteRB, if_neg hroot, hsearch, el, if_neg elN, er, if_neg erN, htm, epy,
      if_neg hfz, ecy, ery]
  rw [hst]
  simp only [RBTree.wf_node, RBTree.blackHeight_node, RBTree.blackHeight_nil,
    RBTree.color0_nil] at hW hA
  refine deleteRB_finish_post (t7.free z) (by simpa using hp7) hW.2.2.2 (fun hc => (hW.1 hc).2) ?_
    (by simp only [List.length_cons, List.length_append] at hh ⊢; omega) ?_ ?_
    (by simpa using t5) (by simp [t6])
  · rw [← hW.2.1]
    exact (RBPath.accepts_append_R z y c key ky sz _ cs (f :: sp) _ _).mp (by simpa using hA)
  · rw [RBPath.keys_plug, RBPath.keys_plug]
    rw [RBPath.keys_plug] at hS
    have e : RBPath.before (f :: sp ++ .R z c key sz (.node la cl kl sl ll lr) :: cs) ++
        (RBTree.node y cy ky sy .nil yr).keys ++
        RBPath.after (f :: sp ++ .R z c key sz (.node la cl kl sl ll lr) :: cs) =
        (RBPath.before cs ++ (RBTree.node la cl kl sl ll lr).keys) ++
          key :: (ky :: yr.keys ++ (RBPath.after (f :: sp) ++ RBPath.after cs)) := by
      rw [RBPath.before_append, RBPath.after_append, hbs]
      simp [RBPath.before, RBPath.after]
    rw [e] at hS ⊢
    rw [List.erase_mid_of_sorted key _ _ hS, RBPath.before_append, RBPath.after_append, hbs]
    simp [RBPath.before, RBPath.after]
  · rw [RBPath.sizeInv_plug]
    simp only [RBTree.sizeInv_node, RBTree.size0_node, RBTree.size0_nil]
    rintro ⟨⟨h1, -, h2⟩, h3⟩
    refine ⟨h2, ?_⟩
    have e : yr.size0 + 1 = sy := by omega
    rw [e]
    exact (RBPath.sizeInv_append_R z y c key ky sz _ cs (f :: sp) sy).mp h3

/-- `deleteRB` of a stored key on a valid tree: the call returns and the new state
holds a valid tree with one occurrence of the key removed; the node is deleted. -/
theorem deleteRB_spec {s : State} {T : RBTree} (key : Int) (fuel : Nat) (h : Shape s T)
    (hB : T.BST) (hR : T.RedBlack) (hk : key ∈ T.keys) (hf : T.height ≤ fuel) :
    ∃ s' T', deleteRB fuel s key = some s' ∧ Shape s' T' ∧ T'.BST ∧ T'.RedBlack ∧
      T'.keys = T.keys.erase key ∧ (T.SizeInv → T'.SizeInv) ∧ s'.next = s.next ∧
      ∃ z, z ∈ T.addrs ∧ s'.freed = s.freed ++ [z] := by
  obtain ⟨⟨t', cs⟩, hfind⟩ := RBPath.find_isSome key T [] hB hk
  obtain ⟨hplug, ⟨z, c, sz, l, r, rfl⟩, -⟩ := RBPath.find_plug key T [] t' cs hfind
  simp only [RBPath.plug_nil] at hplug
  obtain ⟨hsearch, hz⟩ := deleteRB_search_spec key T [] s fuel _ cs h.toZ hfind (by omega)
  rw [← h.root] at hsearch
  simp only [RBTree.addr_node] at hsearch
  have hroot : s.root ≠ NIL := by
    rw [hz.root]
    cases cs with
    | nil => exact hz.root_ne_nil
    | cons f cs =>
      exact (hz.alloc _ (List.mem_append_right _ (RBPath.rootAddr_mem cs f _))).1
  have hS : T.keys.Sorted (· ≤ ·) := (RBTree.bst_iff_sorted T).mp hB
  have hzT : z ∈ T.addrs := by
    rw [← hplug]
    exact (RBPath.plug_addrs_perm cs _).symm.subset (by simp)
  suffices hmain : ∃ s' T', deleteRB fuel s key = some s' ∧ Shape s' T' ∧ T'.RedBlack ∧
      T'.keys = T.keys.erase key ∧ (T.SizeInv → T'.SizeInv) ∧ s'.next = s.next ∧
      s'.freed = s.freed ++ [z] by
    obtain ⟨s', T', r1, r2, r3, r4, r5, r6, r7⟩ := hmain
    refine ⟨s', T', r1, r2, ?_, r3, r4, r5, r6, z, hzT, r7⟩
    rw [RBTree.bst_iff_sorted, r4]
    exact hS.sublist (List.erase_sublist _ _)
  have hR' := hR
  rw [← hplug, RBPath.redBlack_plug] at hR'
  obtain ⟨hW, hA⟩ := hR'
  simp only [RBTree.color0_node] at hA
  have hh := RBTree.height_plug_ge cs (.node z c key sz l r)
  rw [hplug] at hh
  simp only [RBTree.height] at hh
  cases l with
  | nil =>
    have := deleteRB_case_a fuel hz hroot hsearch hW hA (by rw [hplug]; exact hS)
      (by rw [hplug]; exact hf)
    rw [hplug] at this
    exact this
  | node la cl kl sl ll lr =>
    cases r with
    | nil =>
      have := deleteRB_case_b fuel hz hroot hsearch hW hA (by rw [hplug]; exact hS)
        (by rw [hplug]; exact hf)
      rw [hplug] at this
      exact this
    | node ra cr kr sr rl rr =>
      obtain ⟨y, cy, ky, sy, yr, -, m2, m3, m4⟩ := treeMinRB_spec (.node ra cr kr sr rl rr)
        (.R z c key sz (.node la cl kl sl ll lr) :: cs) s fuel (by simp) hz.downR (by omega)
      cases hsp : RBPath.minSpine (.node ra cr kr sr rl rr) with
      | nil =>
        rw [hsp] at m4
        simp only [RBPath.plug_nil] at m4
        rw [← m4] at hz hW hA hplug
        have := deleteRB_case_c1 fuel hz hroot hsearch hW hA (by rw [hplug]; exact hS)
          (by rw [hplug]; exact hf)
        rw [hplug] at this
        exact this
      | cons f sp =>
        rw [hsp] at m3 m4
        have hbs := RBPath.before_minSpine (.node ra cr kr sr rl rr)
        rw [hsp] at hbs
        have hplug2 : RBPath.plug (.node y cy ky sy .nil yr)
            (f :: sp ++ .R z c key sz (.node la cl kl sl ll lr) :: cs) = T := by
          rw [RBPath.plug_append, m4]
          exact hplug
        have hR2 := hR
        rw [← hplug2, RBPath.redBlack_plug] at hR2
        have htm : treeMinRB fuel s (s.right z) = some y := by
          rw [hz.right_root]
          exact m2
        have := deleteRB_case_c2 fuel m3 hroot hsearch htm hbs hR2.1
          (by simpa using hR2.2) (by rw [hplug2]; exact hS) (by rw [hplug2]; exact hf)
        rw [hplug2] at this
        exact this

/-! ## Fuel: a call that returns with some fuel returns the same with more -/

theorem insertRB_descend_mono (key : Int) : ∀ (fuel : Nat) (s : State) (y x : Nat)
    (r : State × Nat), insertRB.descend key fuel s y x = some r →
    insertRB.descend key (fuel + 1) s y x = some r
  | 0, _, _, _, _, h => by simp [insertRB.descend] at h
  | fuel + 1, s, y, x, r, h => by
    unfold insertRB.descend at h ⊢
    simp only [] at h ⊢
    split_ifs at h ⊢
    all_goals first | exact h | exact insertRB_descend_mono key fuel _ _ _ _ h

theorem insertRBFix_mono : ∀ (fuel : Nat) (s : State) (z : Nat) (r : State),
    insertRBFix fuel s z = some r → insertRBFix (fuel + 1) s z = some r
  | 0, _, _, _, h => by simp [insertRBFix] at h
  | fuel + 1, s, z, r, h => by
    unfold insertRBFix at h ⊢
    simp only [] at h ⊢
    split_ifs at h ⊢
    all_goals first | exact h | exact insertRBFix_mono fuel _ _ _ h

theorem deleteRB_search_mono (key : Int) : ∀ (fuel : Nat) (s : State) (z r : Nat),
    deleteRB.search key fuel s z = some r → deleteRB.search key (fuel + 1) s z = some r
  | 0, _, _, _, h => by simp [deleteRB.search] at h
  | fuel + 1, s, z, r, h => by
    unfold deleteRB.search at h ⊢
    split_ifs at h ⊢
    all_goals first | exact h | exact deleteRB_search_mono key fuel _ _ _ h

theorem treeMinRB_mono : ∀ (fuel : Nat) (s : State) (z r : Nat),
    treeMinRB fuel s z = some r → treeMinRB (fuel + 1) s z = some r
  | 0, _, _, _, h => by simp [treeMinRB] at h
  | fuel + 1, s, z, r, h => by
    unfold treeMinRB at h ⊢
    split_ifs at h ⊢
    all_goals first | exact h | exact treeMinRB_mono fuel _ _ _ h

theorem deleteRB_repair_mono : ∀ (fuel : Nat) (s : State) (z : Nat) (r : State),
    deleteRB.repair fuel s z = some r → deleteRB.repair (fuel + 1) s z = some r
  | 0, _, _, _, h => by simp [deleteRB.repair] at h
  | fuel + 1, s, z, r, h => by
    unfold deleteRB.repair at h ⊢
    simp only [] at h ⊢
    split_ifs at h ⊢
    all_goals first | exact h | exact deleteRB_repair_mono fuel _ _ _ h

theorem deleteRBFix_mono : ∀ (fuel : Nat) (s : State) (x : Nat) (r : State),
    deleteRBFix fuel s x = some r → deleteRBFix (fuel + 1) s x = some r
  | 0, _, _, _, h => by simp [deleteRBFix] at h
  | fuel + 1, s, x, r, h => by
    unfold deleteRBFix at h ⊢
    simp only [] at h ⊢
    split_ifs at h ⊢
    all_goals first | exact h | exact deleteRBFix_mono fuel _ _ _ h

theorem fuel_mono_le {α : Type} (f : Nat → Option α)
    (h : ∀ n r, f n = some r → f (n + 1) = some r) {n m : Nat} (hnm : n ≤ m) (r : α)
    (hn : f n = some r) : f m = some r := by
  induction hnm with
  | refl => exact hn
  | step _ ih => exact h _ _ ih

theorem insertRB_mono (fuel : Nat) (s : State) (key : Int) (r : State)
    (h : insertRB fuel s key = some r) : insertRB (fuel + 1) s key = some r := by
  unfold insertRB at h ⊢
  cases hd : insertRB.descend key fuel s NIL s.root with
  | none => simp [hd] at h
  | some p =>
    rw [insertRB_descend_mono key fuel s NIL s.root p hd]
    rw [hd] at h
    exact insertRBFix_mono fuel _ _ _ h

theorem deleteRB_finish_mono (fuel : Nat) (s : State) (x : Nat) (c : Bool) (r : State)
    (h : deleteRB.finish fuel s x c = some r) : deleteRB.finish (fuel + 1) s x c = some r := by
  unfold deleteRB.finish at h ⊢
  cases hd : deleteRB.repair fuel s (s.parent x) with
  | none => simp [hd] at h
  | some p =>
    rw [deleteRB_repair_mono fuel s _ p hd]
    rw [hd] at h
    simp only [] at h ⊢
    split_ifs at h ⊢
    · exact deleteRBFix_mono fuel _ _ _ h
    · exact h

theorem deleteRB_mono (fuel : Nat) (s : State) (key : Int) (r : State)
    (h : deleteRB fuel s key = some r) : deleteRB (fuel + 1) s key = some r := by
  unfold deleteRB at h ⊢
  split_ifs at h ⊢ with h1
  · exact h
  · cases hd : deleteRB.search key fuel s s.root with
    | none => simp [hd] at h
    | some z =>
      rw [deleteRB_search_mono key fuel s _ z hd]
      rw [hd] at h
      simp only [] at h ⊢
      split_ifs at h ⊢ with h2 h3
      · exact deleteRB_finish_mono fuel _ _ _ _ h
      · exact deleteRB_finish_mono fuel _ _ _ _ h
      · cases hm : treeMinRB fuel s (s.right z) with
        | none => simp [hm] at h
        | some y =>
          rw [treeMinRB_mono fuel s _ y hm]
          rw [hm] at h
          exact deleteRB_finish_mono fuel _ _ _ _ h

theorem buildTreeRB_loop_mono (fuel : Nat) (v : List Int) (n : Int) :
    ∀ (cnt : Nat) (i : Int) (s r : State), buildTreeRB.loop fuel v n cnt i s = some r →
      buildTreeRB.loop (fuel + 1) v n cnt i s = some r
  | 0, _, _, _, h => h
  | cnt + 1, i, s, r, h => by
    unfold buildTreeRB.loop at h ⊢
    split_ifs at h ⊢ with h1
    · cases hd : insertRB fuel s (arrayGet v i) with
      | none => simp [hd] at h
      | some p =>
        rw [insertRB_mono fuel s _ p hd]
        rw [hd] at h
        exact buildTreeRB_loop_mono fuel v n cnt _ _ _ h
    · exact h

theorem buildTreeRB_mono (fuel : Nat) (v : List Int) (n : Int) (r : State)
    (h : buildTreeRB fuel v n = some r) : buildTreeRB (fuel + 1) v n = some r :=
  buildTreeRB_loop_mono fuel v n _ _ _ _ h

/-! ## The tree a state holds is unique -/

theorem RBTree.Rep.eq_of_addr_eq {s : State} : ∀ (t t' : RBTree) (par par' : Nat),
    RBTree.Rep s par t → RBTree.Rep s par' t' → t.addr = t'.addr →
    NIL ∉ t.addrs → NIL ∉ t'.addrs → t = t'
  | .nil, t', _, _, _, _, he, _, hN' => by
    simp only [RBTree.addr_nil] at he
    exact ((RBTree.addr_eq_nil_iff hN').mp he.symm).symm
  | .node a c k sz l r, .nil, _, _, _, _, he, hN, _ => by
    simp only [RBTree.addr_nil, RBTree.addr_node] at he
    subst he
    simp at hN
  | .node a c k sz l r, .node a' c' k' sz' l' r', _, _, h, h', he, hN, hN' => by
    simp only [RBTree.addr_node] at he
    subst he
    obtain ⟨⟨h1, h2, h3, h4, h5, h6⟩, hl, hr⟩ := h
    obtain ⟨⟨h1', h2', h3', h4', h5', h6'⟩, hl', hr'⟩ := h'
    simp only [RBTree.addrs_node, List.mem_append, List.mem_cons, not_or] at hN hN'
    have el := RBTree.Rep.eq_of_addr_eq l l' _ _ hl hl' (h4.symm.trans h4') hN.1 hN'.1
    have er := RBTree.Rep.eq_of_addr_eq r r' _ _ hr hr' (h5.symm.trans h5') hN.2.2 hN'.2.2
    rw [el, er, ← h1, ← h2, ← h6, h1', h2', h6']

theorem Shape.unique {s : State} {T T' : RBTree} (h : Shape s T) (h' : Shape s T') : T = T' :=
  RBTree.Rep.eq_of_addr_eq T T' _ _ h.rep h'.rep (h.root.symm.trans h'.root)
    (fun hm => (h.alloc NIL hm).1 rfl) (fun hm => (h'.alloc NIL hm).1 rfl)

/-! ## Reachable states hold valid trees -/

theorem RBReachable.inv {s : State} (h : RBReachable s) : ∃ T, Shape s T ∧ T.Good := by
  induction h with
  | build fuel v s h =>
    obtain ⟨s1, T, b1, b2, b3, -, -⟩ := buildTreeRB_spec (max fuel (v.length + 1)) v (by omega)
    have := fuel_mono_le (fun n => buildTreeRB n v (v.length : Int))
      (fun n r => buildTreeRB_mono n v _ r) (Nat.le_max_left fuel (v.length + 1)) s h
    simp only [] at this
    rw [b1] at this
    cases this
    exact ⟨T, b2, b3⟩
  | insert fuel s s' key _ h ih =>
    obtain ⟨T, hT, hG⟩ := ih
    obtain ⟨s1, T', b1, b2, b3, -⟩ := insertRB_spec_good key (max fuel (T.height + 1)) hT hG
      (by omega)
    have := fuel_mono_le (fun n => insertRB n s key) (fun n r => insertRB_mono n s key r)
      (Nat.le_max_left fuel (T.height + 1)) s' h
    simp only [] at this
    rw [b1] at this
    cases this
    exact ⟨T', b2, b3⟩
  | delete fuel s s' key T0 _ hT0 hk h ih =>
    obtain ⟨T, hT, hG⟩ := ih
    cases hT.unique hT0
    obtain ⟨s1, T', b1, b2, b3, b4, b5, b6, -⟩ := deleteRB_spec key (max fuel T0.height) hT
      hG.1 hG.2.2 hk (by omega)
    have := fuel_mono_le (fun n => deleteRB n s key) (fun n r => deleteRB_mono n s key r)
      (Nat.le_max_left fuel T0.height) s' h
    simp only [] at this
    rw [b1] at this
    cases this
    exact ⟨T', b2, b3, b6 hG.2.1, b4⟩

/-! ## Dynamic tree: reading the invariants off the heap -/

/-- `selectRB` over the ranks `1..n` lists the keys in order. -/
theorem selectAllRB_eq {s : State} {T : RBTree} (fuel : Nat) (h : Shape s T) (hS : T.SizeInv)
    (hf : T.height < fuel) : selectAllRB fuel s T.keys.length = T.keys.map some := by
  unfold selectAllRB
  apply List.ext_getElem
  · simp
  · intro n h1 h2
    simp only [List.length_map, List.length_range] at h1
    simp only [List.getElem_map, List.getElem_range]
    rw [h.root, selectRB_nth T NIL s fuel h.rep (fun a ha => (h.alloc a ha).1) hS hf n h1,
      List.getD_eq_getElem _ _ h1]

/-- The size invariant read on the fields of the heap. -/
theorem RBTree.heap_sizeInv {s : State} (hN : s.size NIL = 0) : ∀ (t : RBTree) (par : Nat),
    RBTree.Rep s par t → t.SizeInv →
    ∀ a ∈ t.addrs, s.size a = 1 + s.size (s.left a) + s.size (s.right a)
  | .nil, _, _, _, a, ha => by simp at ha
  | .node b c k sz l r, par, h, hS, a, ha => by
    obtain ⟨⟨h1, h2, h3, h4, h5, h6⟩, hl, hr⟩ := h
    obtain ⟨e, hSl, hSr⟩ := hS
    simp only [RBTree.addrs_node, List.mem_append, List.mem_cons] at ha
    rcases ha with ha | rfl | ha
    · exact RBTree.heap_sizeInv hN l _ hl hSl a ha
    · rw [h2, h4, h5, RBTree.size_read hl hN, RBTree.size_read hr hN, e]
    · exact RBTree.heap_sizeInv hN r _ hr hSr a ha

/-- Every node of a tree is the root of a focused subtree. -/
theorem RBTree.exists_focus : ∀ (T : RBTree) (cs0 : RBPath) (a : Nat), a ∈ T.addrs →
    ∃ c k sz l r cs, RBPath.plug T cs0 = RBPath.plug (.node a c k sz l r) cs
  | .nil, _, _, ha => by simp at ha
  | .node b c k sz l r, cs0, a, ha => by
    simp only [RBTree.addrs_node, List.mem_append, List.mem_cons] at ha
    rcases ha with ha | rfl | ha
    · obtain ⟨c', k', sz', l', r', cs, e⟩ := RBTree.exists_focus l (.L b c k sz r :: cs0) a ha
      exact ⟨c', k', sz', l', r', cs, by simpa using e⟩
    · exact ⟨c, k, sz, l, r, cs0, rfl⟩
    · obtain ⟨c', k', sz', l', r', cs, e⟩ := RBTree.exists_focus r (.R b c k sz l :: cs0) a ha
      exact ⟨c', k', sz', l', r', cs, by simpa using e⟩

/-- `leftRotateRB` at any node with a right child keeps the keys and the size invariant. -/
theorem Shape.leftRotate_sizeInv {s : State} {T : RBTree} (h : Shape s T) (hS : T.SizeInv)
    (x : Nat) (hx : x ∈ T.addrs) (hr : s.right x ≠ NIL) :
    ∃ T', Shape (leftRotateRB s x) T' ∧ T'.SizeInv ∧ T'.keys = T.keys := by
  obtain ⟨c, k, sz, l, r, cs, e⟩ := RBTree.exists_focus T [] x hx
  simp only [RBPath.plug_nil] at e
  subst e
  have hz := (shape_plug_iff s _ cs).mp h
  cases r with
  | nil => exact absurd hz.right_root hr
  | node y cy ky sy B C =>
    refine ⟨_, hz.leftRotate.toShape, ?_, ?_⟩
    · rw [RBPath.sizeInv_plug] at hS ⊢
      simp only [RBTree.sizeInv_node, RBTree.size0_node] at hS ⊢
      obtain ⟨⟨h1, h2, h3, h4, h5⟩, h6⟩ := hS
      exact ⟨⟨by omega, ⟨by omega, h2, h4⟩, h5⟩, h6⟩
    · simp [RBPath.keys_plug]

/-- `rightRotateRB` at any node with a left child keeps the keys and the size invariant. -/
theorem Shape.rightRotate_sizeInv {s : State} {T : RBTree} (h : Shape s T) (hS : T.SizeInv)
    (x : Nat) (hx : x ∈ T.addrs) (hl : s.left x ≠ NIL) :
    ∃ T', Shape (rightRotateRB s x) T' ∧ T'.SizeInv ∧ T'.keys = T.keys := by
  obtain ⟨c, k, sz, l, r, cs, e⟩ := RBTree.exists_focus T [] x hx
  simp only [RBPath.plug_nil] at e
  subst e
  have hz := (shape_plug_iff s _ cs).mp h
  cases l with
  | nil => exact absurd hz.left_root hl
  | node y cy ky sy C B =>
    refine ⟨_, hz.rightRotate.toShape, ?_, ?_⟩
    · rw [RBPath.sizeInv_plug] at hS ⊢
      simp only [RBTree.sizeInv_node, RBTree.size0_node] at hS ⊢
      obtain ⟨⟨h1, ⟨h2, h3, h4⟩, h5⟩, h6⟩ := hS
      exact ⟨⟨by omega, h3, ⟨by omega, h4, h5⟩⟩, h6⟩
    · simp [RBPath.keys_plug]

/-! ## `deleteRB` of a key that is not stored -/

theorem deleteRB_search_nil (key : Int) {s : State} (hs : Sentinel s) (hk : key ≠ INT32_MIN) :
    ∀ fuel : Nat, deleteRB.search key fuel s NIL = none
  | 0 => rfl
  | fuel + 1 => by
    have := deleteRB_search_nil key hs hk fuel
    obtain ⟨h1, -, h3, h4, -⟩ := hs
    unfold deleteRB.search
    rw [h1, if_pos (Ne.symm hk), h3, h4, this]
    simp

/-- The search loop of `deleteRB` never stops when the key is not in the tree. -/
theorem deleteRB_search_absent (key : Int) {s : State} (hs : Sentinel s)
    (hk : key ≠ INT32_MIN) : ∀ (t : RBTree) (par : Nat) (fuel : Nat), RBTree.Rep s par t →
    key ∉ t.keys → deleteRB.search key fuel s t.addr = none
  | .nil, _, fuel, _, _ => deleteRB_search_nil key hs hk fuel
  | .node a c k sz l r, _, 0, _, _ => rfl
  | .node a c k sz l r, _, fuel + 1, h, hm => by
    obtain ⟨⟨h1, h2, h3, h4, h5, h6⟩, hl, hr⟩ := h
    simp only [RBTree.keys_node, List.mem_append, List.mem_cons, not_or] at hm
    have e1 := deleteRB_search_absent key hs hk l a fuel hl hm.1
    have e2 := deleteRB_search_absent key hs hk r a fuel hr hm.2.2
    unfold deleteRB.search
    rw [RBTree.addr_node, h1, if_pos (Ne.symm hm.2.1), h4, h5, e1, e2]
    simp

/-! ## The state after `buildTreeRB` -/

theorem builtRB_eq (v : List Int) :
    buildTreeRB (v.length + 1) v (v.length : Int) = some (builtRB v) := by
  obtain ⟨s, T, h, -⟩ := buildTreeRB_spec (v.length + 1) v (by omega)
  unfold builtRB
  rw [h]
  rfl

theorem builtRB_reachable (v : List Int) : RBReachable (builtRB v) :=
  RBReachable.build (v.length + 1) v _ (builtRB_eq v)

/-! ## Dynamic tree: what a rotation changes -/

theorem leftRotateRB_color (s : State) (x : Nat) : (leftRotateRB s x).color = s.color := by
  unfold leftRotateRB
  simp only [State.setSize_color, State.setParent_color, State.setLeft_color]
  split_ifs <;> simp

theorem rightRotateRB_color (s : State) (x : Nat) : (rightRotateRB s x).color = s.color := by
  unfold rightRotateRB
  simp only [State.setSize_color, State.setParent_color, State.setRight_color]
  split_ifs <;> simp

theorem leftRotateRB_size_other (s : State) (x a : Nat) (h1 : a ≠ x) (h2 : a ≠ s.right x) :
    (leftRotateRB s x).size a = s.size a := by
  unfold leftRotateRB
  simp only [State.setSize_size, State.setParent_size, State.setLeft_size, upd_ne _ _ h1,
    upd_ne _ _ h2]
  split_ifs <;> simp

theorem rightRotateRB_size_other (s : State) (x a : Nat) (h1 : a ≠ x) (h2 : a ≠ s.left x) :
    (rightRotateRB s x).size a = s.size a := by
  unfold rightRotateRB
  simp only [State.setSize_size, State.setParent_size, State.setRight_size, upd_ne _ _ h1,
    upd_ne _ _ h2]
  split_ifs <;> simp

/-- Parent fields agree with child fields in a stored tree. -/
theorem RBTree.heap_links {s : State} : ∀ (t : RBTree) (par : Nat), RBTree.Rep s par t →
    ∀ a ∈ t.addrs, (s.left a ≠ NIL → s.parent (s.left a) = a) ∧
      (s.right a ≠ NIL → s.parent (s.right a) = a)
  | .nil, _, _, a, ha => by simp at ha
  | .node b c k sz l r, par, h, a, ha => by
    obtain ⟨⟨h1, h2, h3, h4, h5, h6⟩, hl, hr⟩ := h
    simp only [RBTree.addrs_node, List.mem_append, List.mem_cons] at ha
    rcases ha with ha | rfl | ha
    · exact RBTree.heap_links l _ hl a ha
    · constructor
      · intro hn
        rw [h4] at hn ⊢
        cases l with
        | nil => exact absurd rfl hn
        | node la lc lk ls ll lr => exact hl.1.2.2.1
      · intro hn
        rw [h5] at hn ⊢
        cases r with
        | nil => exact absurd rfl hn
        | node ra rc rk rs rl rr => exact hr.1.2.2.1
    · exact RBTree.heap_links r _ hr a ha

theorem RBPath.plug_addrs_eq_congr : ∀ (cs : RBPath) {t t' : RBTree}, t.addrs = t'.addrs →
    (RBPath.plug t cs).addrs = (RBPath.plug t' cs).addrs
  | [], _, _, h => h
  | .L a c k s r :: cs, t, t', h => by
    simp only [RBPath.plug_cons, RBFrame.fill_L]
    exact RBPath.plug_addrs_eq_congr cs (by simp [h])
  | .R a c k s l :: cs, t, t', h => by
    simp only [RBPath.plug_cons, RBFrame.fill_R]
    exact RBPath.plug_addrs_eq_congr cs (by simp [h])

/-- Everything `leftRotateRB` at a node `x` of a stored tree does. -/
theorem Shape.leftRotate_full {s : State} {T : RBTree} (h : Shape s T) (x : Nat)
    (hx : x ∈ T.addrs) (hr : s.right x ≠ NIL) :
    ∃ T', Shape (leftRotateRB s x) T' ∧ T'.keys = T.keys ∧ T'.addrs = T.addrs ∧
      (T.SizeInv → T'.SizeInv) ∧ s.right x ≠ x ∧
      (leftRotateRB s x).size (s.right x) = s.size x ∧
      (leftRotateRB s x).size x = (leftRotateRB s x).size ((leftRotateRB s x).left x) +
        (leftRotateRB s x).size ((leftRotateRB s x).right x) + 1 ∧
      (x = s.root → (leftRotateRB s x).root = s.right x) ∧
      (x ≠ s.root → (leftRotateRB s x).root = s.root) := by
  obtain ⟨c, k, sz, l, r, cs, e⟩ := RBTree.exists_focus T [] x hx
  simp only [RBPath.plug_nil] at e
  subst e
  have hz := (shape_plug_iff s _ cs).mp h
  cases r with
  | nil => exact absurd hz.right_root hr
  | node y cy ky sy B C =>
    have h' := hz.leftRotate
    have hx' := h'.downL
    have ery : s.right x = y := hz.right_root
    have hyx : y ≠ x := by
      have hnd := hz.nodup
      simp only [RBTree.addrs_node, List.append_assoc, List.cons_append, List.nodup_append,
        List.nodup_cons, List.mem_append, List.mem_cons, not_or] at hnd
      rintro rfl
      simp at hnd
    rw [ery]
    refine ⟨_, h'.toShape, by simp [RBPath.keys_plug], ?_, ?_, hyx, ?_, ?_, ?_, ?_⟩
    · exact RBPath.plug_addrs_eq_congr cs (by simp)
    · rw [RBPath.sizeInv_plug, RBPath.sizeInv_plug]
      simp only [RBTree.sizeInv_node, RBTree.size0_node]
      rintro ⟨⟨h1, h2, h3, h4, h5⟩, h6⟩
      exact ⟨⟨by omega, ⟨by omega, h2, h4⟩, h5⟩, h6⟩
    · rw [h'.size_root, hz.size_root]
    · rw [hx'.size_root, hx'.left_root, hx'.right_root, hx'.downL.size_addr,
        hx'.downR.size_addr]
    · intro _
      cases cs with
      | nil => simpa using h'.root
      | cons f rest => exact absurd (by assumption) hz.addr_ne_root
    · intro hne
      cases cs with
      | nil => exact absurd (by simpa using hz.root.symm) hne
      | cons f rest =>
        rw [h'.root, hz.root]
        rfl

/-- Everything `rightRotateRB` at a node `x` of a stored tree does. -/
theorem Shape.rightRotate_full {s : State} {T : RBTree} (h : Shape s T) (x : Nat)
    (hx : x ∈ T.addrs) (hr : s.left x ≠ NIL) :
    ∃ T', Shape (rightRotateRB s x) T' ∧ T'.keys = T.keys ∧ T'.addrs = T.addrs ∧
      (T.SizeInv → T'.SizeInv) ∧ s.left x ≠ x ∧
      (rightRotateRB s x).size (s.left x) = s.size x ∧
      (rightRotateRB s x).size x = (rightRotateRB s x).size ((rightRotateRB s x).left x) +
        (rightRotateRB s x).size ((rightRotateRB s x).right x) + 1 ∧
      (x = s.root → (rightRotateRB s x).root = s.left x) ∧
      (x ≠ s.root → (rightRotateRB s x).root = s.root) := by
  obtain ⟨c, k, sz, l, r, cs, e⟩ := RBTree.exists_focus T [] x hx
  simp only [RBPath.plug_nil] at e
  subst e
  have hz := (shape_plug_iff s _ cs).mp h
  cases l with
  | nil => exact absurd hz.left_root hr
  | node y cy ky sy C B =>
    have h' := hz.rightRotate
    have hx' := h'.downR
    have ery : s.left x = y := hz.left_root
    have hyx : y ≠ x := by
      have hnd := hz.nodup
      simp only [RBTree.addrs_node, List.append_assoc, List.cons_append, List.nodup_append,
        List.nodup_cons, List.mem_append, List.mem_cons, not_or] at hnd
      rintro rfl
      simp at hnd
    rw [ery]
    refine ⟨_, h'.toShape, by simp [RBPath.keys_plug], ?_, ?_, hyx, ?_, ?_, ?_, ?_⟩
    · exact RBPath.plug_addrs_eq_congr cs (by simp)
    · rw [RBPath.sizeInv_plug, RBPath.sizeInv_plug]
      simp only [RBTree.sizeInv_node, RBTree.size0_node]
      rintro ⟨⟨h1, ⟨h2, h3, h4⟩, h5⟩, h6⟩
      exact ⟨⟨by omega, h3, ⟨by omega, h4, h5⟩⟩, h6⟩
    · rw [h'.size_root, hz.size_root]
    · rw [hx'.size_root, hx'.left_root, hx'.right_root, hx'.downL.size_addr,
        hx'.downR.size_addr]
    · intro _
      cases cs with
      | nil => simpa using h'.root
      | cons f rest => exact absurd (by assumption) hz.addr_ne_root
    · intro hne
      cases cs with
      | nil => exact absurd (by simpa using hz.root.symm) hne
      | cons f rest =>
        rw [h'.root, hz.root]
        rfl

/-! ## Dynamic tree: where `insertRB` puts the key -/

namespace RBTree

theorem keys_eq_nil_iff : ∀ t : RBTree, t.keys = [] ↔ t = nil
  | nil => by simp
  | node a c k s l r => by simp

theorem eq_single_of_keys {t : RBTree} {key : Int} (h : t.keys = [key]) :
    ∃ a c sz, t = node a c key sz nil nil := by
  cases t with
  | nil => simp at h
  | node a c k sz l r =>
    have hlen := congrArg List.length h
    simp only [keys_node, List.length_append, List.length_cons, List.length_nil] at hlen
    have hl : l = nil := (keys_eq_nil_iff l).mp (List.length_eq_zero.mp (by omega))
    have hr : r = nil := (keys_eq_nil_iff r).mp (List.length_eq_zero.mp (by omega))
    subst hl hr
    simp only [keys_node, keys_nil, List.nil_append, List.cons.injEq, and_true] at h
    subst h
    exact ⟨a, c, sz, rfl⟩

/-- The descent of `insertRB` puts the key after the keys that are not greater
and before the greater ones. -/
theorem keys_ins_sorted (key : Int) (z : RBTree) (hz : z.keys = [key]) : ∀ t : RBTree, BST t →
    (ins key z t).keys = t.keys.filter (fun k => decide (k ≤ key)) ++
      key :: t.keys.filter (fun k => decide (key < k))
  | nil, _ => by simp [ins, hz]
  | node a c k s l r, hb => by
    obtain ⟨h1, h2, h3, h4⟩ := hb
    unfold ins
    by_cases hk : key < k
    · rw [if_pos hk, keys_node, keys_ins_sorted key z hz l h3]
      have e1 : (k :: r.keys).filter (fun x => decide (x ≤ key)) = [] := by
        rw [List.filter_eq_nil_iff]
        intro x hx
        simp only [List.mem_cons] at hx
        rcases hx with rfl | hx
        · simpa using hk
        · have := h2 x hx
          simp only [decide_eq_true_eq, not_le]
          omega
      have e2 : (k :: r.keys).filter (fun x => decide (key < x)) = k :: r.keys := by
        rw [List.filter_eq_self]
        intro x hx
        simp only [List.mem_cons] at hx
        rcases hx with rfl | hx
        · simpa using hk
        · have := h2 x hx
          simp only [decide_eq_true_eq]
          omega
      rw [keys_node, List.filter_append, List.filter_append, e1, e2]
      simp
    · rw [if_neg hk, keys_node, keys_ins_sorted key z hz r h4]
      have e1 : l.keys.filter (fun x => decide (x ≤ key)) = l.keys := by
        rw [List.filter_eq_self]
        intro x hx
        have := h1 x hx
        simp only [decide_eq_true_eq]
        omega
      have e2 : l.keys.filter (fun x => decide (key < x)) = [] := by
        rw [List.filter_eq_nil_iff]
        intro x hx
        have := h1 x hx
        simp only [decide_eq_true_eq, not_lt]
        omega
      have e3 : decide (k ≤ key) = true := by simpa using hk
      have e4 : decide (key < k) = false := by simpa using hk
      rw [keys_node, List.filter_append, List.filter_append, e1, e2, List.filter_cons,
        List.filter_cons, e3, e4]
      simp

/-! ## Dynamic tree: height of a Red-Black tree -/

/-- A subtree with the Red-Black properties 4 and 5 has at least `2 ^ bh - 1`
nodes and height at most `2 * bh` (`+ 1` below a red root). -/
theorem wf_height_bound : ∀ t : RBTree, t.WF →
    2 ^ t.blackHeight ≤ t.keys.length + 1 ∧
      t.height ≤ 2 * t.blackHeight + (if t.color0 = true then 0 else 1)
  | nil, _ => by simp [height]
  | node a c k s l r, h => by
    rw [wf_node] at h
    obtain ⟨hc, hb, hl, hr⟩ := h
    obtain ⟨l1, l2⟩ := wf_height_bound l hl
    obtain ⟨r1, r2⟩ := wf_height_bound r hr
    rw [← hb] at r1 r2
    simp only [blackHeight_node, keys_node, List.length_append, List.length_cons, height,
      color0_node]
    cases c with
    | true =>
      simp only [if_true]
      refine ⟨?_, ?_⟩
      · rw [pow_succ]; omega
      · have : (if l.color0 = true then 0 else 1) ≤ 1 := by split_ifs <;> omega
        have : (if r.color0 = true then 0 else 1) ≤ 1 := by split_ifs <;> omega
        omega
    | false =>
      obtain ⟨c1, c2⟩ := hc rfl
      rw [c1] at l2
      rw [c2] at r2
      simp only [if_true, Bool.false_eq_true, if_false, Nat.add_zero] at l2 r2 ⊢
      refine ⟨by omega, by omega⟩

/-- A Red-Black tree with `n` keys has height at most `2 * log2 (n + 1)`. -/
theorem redBlack_height_le {t : RBTree} (h : t.RedBlack) :
    t.height ≤ 2 * Nat.log 2 (t.keys.length + 1) := by
  obtain ⟨h1, h2⟩ := wf_height_bound t ⟨h.2.1, h.2.2⟩
  rw [h.1] at h2
  simp only [if_true, Nat.add_zero] at h2
  have := (Nat.pow_le_iff_le_log (by decide : 1 < 2) (by omega : t.keys.length + 1 ≠ 0)).mp h1
  omega

end RBTree

/-! ## Concrete states -/

/-- The tree in the state after `buildTreeRB` on `[5, 1, 4, 2, 8]`. -/
theorem shape_builtRB_demo : Shape (builtRB [5, 1, 4, 2, 8])
    (.node 4 true 4 5 (.node 3 true 1 2 .nil (.node 5 false 2 1 .nil .nil))
      (.node 2 true 5 2 .nil (.node 6 false 8 1 .nil .nil))) := by
  refine ⟨?_, by decide, by decide, by decide, by unfold Sentinel; decide, by decide⟩
  simp only [RBTree.Rep, RBTree.addr]
  decide

/-- The tree in `redRootState`. -/
theorem shape_redRootState : Shape redRootState (.node 2 false 5 1 .nil .nil) := by
  refine ⟨?_, by decide, by decide, by decide, by unfold Sentinel; decide, by decide⟩
  simp only [RBTree.Rep, RBTree.addr]
  decide

/-- Without a black root `insertRB` can lose the tree: on the single red node of
`redRootState` the fixup recolours and rotates the sentinel, and the call returns
with `*root == NIL`. -/
theorem insertRB_redRootState :
    (insertRB 5 redRootState 3).map (fun s => (s.root, s.size NIL)) = some (NIL, 1) := by
  decide

/-! ## Number of calls of `selectRB` for a rank in range -/

/-- For a rank in range `selectRB` needs no more calls than the height of the tree. -/
theorem selectRB_nth_tight : ∀ (t : RBTree) (par : Nat) (s : State) (fuel : Nat),
    RBTree.Rep s par t → (∀ a ∈ t.addrs, a ≠ NIL) → t.SizeInv → t.height ≤ fuel →
    ∀ (k : Nat), k < t.keys.length → selectRB fuel s t.addr ((k : Int) + 1) = some (t.keys.getD k 0)
  | .nil, _, _, _, _, _, _, _, k, hk => by simp at hk
  | .node a c key sz l r, par, s, fuel, hrep, hN, hsz, hf, k, hk => by
    simp only [RBTree.height] at hf
    obtain ⟨fuel, rfl⟩ : ∃ m, fuel = m + 1 := ⟨fuel - 1, by omega⟩
    obtain ⟨⟨h1, h2, h3, h4, h5, h6⟩, hL, hR⟩ := hrep
    obtain ⟨_, hsl, hsr⟩ := hsz
    have haN : a ≠ NIL := hN a (by simp)
    have hNl : ∀ b ∈ l.addrs, b ≠ NIL := fun b hb => hN b (by simp [hb])
    have hNr : ∀ b ∈ r.addrs, b ≠ NIL := fun b hb => hN b (by simp [hb])
    have el := RBTree.size0_eq_length l hsl
    have hpos : (if l.addr ≠ NIL then 1 + s.size l.addr else 1) =
        (l.keys.length : Int) + 1 := by
      cases l with
      | nil => simp
      | node b cb kb sb bl br =>
        have hb : b ≠ NIL := hNl b (by simp)
        simp only [RBTree.addr_node, ne_eq, hb, not_false_eq_true, if_true, hL.1.2.1]
        simp only [RBTree.size0_node] at el
        omega
    simp only [selectRB, RBTree.addr_node, haN, if_false, h1, h4, h5, hpos]
    rcases Nat.lt_trichotomy k l.keys.length with hlt | heq | hgt
    · have c1 : ¬ ((k : Int) + 1 = (l.keys.length : Int) + 1) := by omega
      have c2 : (k : Int) + 1 < (l.keys.length : Int) + 1 := by omega
      rw [if_neg c1, if_pos c2, selectRB_nth_tight l a s fuel hL hNl hsl (by omega) k hlt]
      simp only [RBTree.keys_node]
      rw [List.getD_append _ _ _ _ hlt]
    · subst heq
      simp only [if_true, RBTree.keys_node]
      rw [List.getD_append_right _ _ _ _ (le_refl _)]
      simp
    · have c1 : ¬ ((k : Int) + 1 = (l.keys.length : Int) + 1) := by omega
      have c2 : ¬ ((k : Int) + 1 < (l.keys.length : Int) + 1) := by omega
      rw [if_neg c1, if_neg c2]
      obtain ⟨m, hm⟩ : ∃ m, k = l.keys.length + 1 + m := ⟨k - l.keys.length - 1, by omega⟩
      subst hm
      have hm' : m < r.keys.length := by
        simp only [RBTree.keys_node, List.length_append, List.length_cons] at hk; omega
      have e : ((l.keys.length + 1 + m : Nat) : Int) + 1 - ((l.keys.length : Int) + 1) =
          (m : Int) + 1 := by push_cast; omega
      rw [e, selectRB_nth_tight r a s fuel hR hNr hsr (by omega) m hm']
      simp only [RBTree.keys_node]
      rw [List.getD_append_right _ _ _ _ (by omega)]
      have : l.keys.length + 1 + m - l.keys.length = m + 1 := by omega
      rw [this]
      simp

/-! ## Dynamic tree: the steps of `insertRBFix` -/

theorem FixEvent.before_some (evs : List FixEvent) (s : State) (log : List FixEvent) :
    FixEvent.before evs (some (s, log)) = some (s, evs ++ log) := rfl

theorem FixEvent.before_none (evs : List FixEvent) : FixEvent.before evs none = none := rfl

theorem FixEvent.before_fst (evs : List FixEvent) (r : Option (State × List FixEvent)) :
    (FixEvent.before evs r).map Prod.fst = r.map Prod.fst := by
  cases r <;> rfl

theorem InsertFixLog.empty : InsertFixLog [] :=
  ⟨[], [], rfl, by simp, Or.inl rfl⟩

theorem InsertFixLog.recolor_step {log : List FixEvent} (z : Nat) {g : Nat} (hg : g ≠ NIL)
    (h : InsertFixLog log) :
    InsertFixLog (FixEvent.grandparent z g :: FixEvent.recolor z :: log) := by
  obtain ⟨steps, last, e, h1, h2⟩ := h
  refine ⟨FixEvent.grandparent z g :: FixEvent.recolor z :: steps, last, by simp [e], ?_, h2⟩
  intro ev hev
  simp only [List.mem_cons] at hev
  rcases hev with rfl | rfl | hev
  · exact ⟨rfl, hg⟩
  · exact ⟨rfl, trivial⟩
  · exact h1 ev hev

theorem InsertFixLog.rotate_step (z : Nat) {g : Nat} (z1 : Nat) (hg : g ≠ NIL)
    (rots : List FixEvent) (h1 : 1 ≤ rots.length) (h2 : rots.length ≤ 2)
    (h3 : ∀ e ∈ rots, e.isRotate = true ∧ e.Real) :
    InsertFixLog (FixEvent.grandparent z g :: rots ++ [FixEvent.uncleBlackEnd z1 true]) :=
  ⟨[], _, rfl, by simp, Or.inr ⟨z, g, z1, rots, rfl, hg, h1, h2, h3⟩⟩

/-- The traced loop computes the state `insertRBFix` computes. -/
theorem insertRBFix_traced_fst : ∀ (fuel : Nat) (s : State) (z : Nat),
    (insertRBFix.traced fuel s z).map Prod.fst = insertRBFix fuel s z
  | 0, _, _ => rfl
  | fuel + 1, s, z => by
    have ih := insertRBFix_traced_fst fuel
    unfold insertRBFix.traced insertRBFix
    by_cases h1 : s.color (s.parent z) = false
    · by_cases h2 : s.parent z = s.left (s.parent (s.parent z))
      · by_cases h3 : s.color (s.right (s.parent (s.parent z))) = false
        · simp only [if_pos h1, if_pos h2, if_pos h3, FixEvent.before_fst, ih]
        · by_cases h4 : z = s.right (s.parent z)
          · simp only [if_pos h1, if_pos h2, if_neg h3, if_pos h4, FixEvent.before_fst, ih]
          · simp only [if_pos h1, if_pos h2, if_neg h3, if_neg h4, FixEvent.before_fst, ih]
      · by_cases h3 : s.color (s.left (s.parent (s.parent z))) = false
        · simp only [if_pos h1, if_neg h2, if_pos h3, FixEvent.before_fst, ih]
        · by_cases h4 : z = s.left (s.parent z)
          · simp only [if_pos h1, if_neg h2, if_neg h3, if_pos h4, FixEvent.before_fst, ih]
          · simp only [if_pos h1, if_neg h2, if_neg h3, if_neg h4, FixEvent.before_fst, ih]
    · simp only [if_neg h1, Option.map_some']

theorem insertRB_traced_fst (fuel : Nat) (s : State) (key : Int) :
    (insertRB.traced fuel s key).map Prod.fst = insertRB fuel s key := by
  unfold insertRB.traced insertRB
  cases insertRB.descend key fuel s NIL s.root with
  | none => rfl
  | some p => exact insertRBFix_traced_fst fuel _ _

/-! ## Dynamic tree: the record of `insertRBFix` -/

set_option maxHeartbeats 4000000 in
/-- The record of `insertRBFix` on a tree that is valid except for the red node `z`
below a possibly red parent: iterations that only recolour, then at most one
iteration with rotations, after which the loop ends. -/
theorem insertRBFix_traced_spec : ∀ (n : Nat) (cs : RBPath) (s : State) (z : Nat) (k sz : Int)
    (l r : RBTree) (fuel : Nat), cs.length ≤ n →
    ShapeZ s (.node z false k sz l r) cs →
    (RBTree.node z false k sz l r).WF →
    RBPath.Accepts cs true (RBTree.node z false k sz l r).blackHeight →
    cs.length < fuel →
    ∃ s' log, insertRBFix.traced fuel s z = some (s', log) ∧ InsertFixLog log ∧
      ((∀ P rest, cs = P :: rest → P.color = true) → log = []) := by
  intro n
  induction n using Nat.strong_induction_on with
  | _ n ih =>
  intro cs s z k sz l r fuel hlen h hWF hAcc hfuel
  obtain ⟨fuel, rfl⟩ : ∃ m, fuel = m + 1 := ⟨fuel - 1, by omega⟩
  have hNc : s.color NIL = true := h.sentinel.2.2.2.2
  cases cs with
  | nil =>
    have e1 : s.parent z = NIL := h.parent_root
    have e2 : s.root = z := h.root
    exact ⟨s.setColor s.root true, [], by simp [insertRBFix.traced, e1, hNc],
      InsertFixLog.empty, fun _ => rfl⟩
  | cons P rest =>
    cases hPc : P.color with
    | true =>
      -- black parent: the loop exits and the tree is already valid
      have hup := h.up
      have e1 : s.parent z = P.addr := by simpa using h.parent_root
      have e2 : s.color P.addr = true := by
        cases P <;> simp only [RBFrame.fill_L, RBFrame.fill_R] at hup <;>
          simpa [RBFrame.color] using hPc ▸ hup.color_root
      exact ⟨s.setColor s.root true, [], by simp [insertRBFix.traced, e1, e2],
        InsertFixLog.empty, fun _ => rfl⟩
    | false =>
      -- red parent: it is not the root, and the grandparent is black
      rw [RBPath.accepts_cons] at hAcc
      obtain ⟨hA1, hA2, hA3, hA4⟩ := hAcc
      have hucol := (hA1 hPc).2
      rw [hPc] at hA4
      simp only [RBTree.blackHeight_node, Bool.false_eq_true, if_false, Nat.add_zero] at hA3 hA4
      cases rest with
      | nil => simp at hA4
      | cons G rest =>
      rw [RBPath.accepts_cons] at hA4
      obtain ⟨hG1, hG2, hG3, hG4⟩ := hA4
      have hGc : G.color = true := by
        cases hG : G.color with
        | true => rfl
        | false => exact absurd (hG1 hG).1 (by simp)
      rw [hGc] at hG4
      simp only [if_true] at hG4
      simp only [RBTree.wf_node, Bool.false_eq_true, false_implies, true_and] at hWF
      simp only [List.length_cons] at hlen hfuel
      cases G with
      | L g cg kg sg un =>
        simp only [RBFrame.color] at hGc
        subst hGc
        simp only [RBFrame.sib] at hG2 hG3
        cases P with
        | L p cp kp sp u =>
          simp only [RBFrame.color] at hPc
          subst hPc
          simp only [RBFrame.sib] at hA2 hA3 hucol
          have hp := h.up
          have hg := hp.up
          simp only [RBFrame.fill_L, RBFrame.fill_R] at hp hg
          have hun := hg.downR
          have e1 : s.parent z = p := by simpa using h.parent_root
          have e2 : s.color p = false := hp.color_root
          have e3 : s.parent p = g := by simpa using hp.parent_root
          have e4 : s.left g = p := by simpa using hg.left_root
          have e5 : s.right g = un.addr := hg.right_root
          have e6 : s.color un.addr = un.color0 := hun.color_addr
          have e7 : s.right p = u.addr := hp.right_root
          have hzu : z ≠ u.addr := by
            have hnd := hp.nodup
            simp only [RBTree.addrs_node, List.nodup_append, List.nodup_cons, List.mem_cons,
              List.mem_append, List.append_assoc, List.cons_append, List.disjoint_cons_right,
              List.disjoint_append_right, List.disjoint_cons_left, List.disjoint_append_left,
              not_or] at hnd
            exact (RBTree.addr_ne h.root_ne_nil (by tauto)).symm
          cases hunc : un.color0 with
          | false =>
            -- Case A: red uncle
            cases un with
            | nil => simp at hunc
            | node y cy ky sy yl yr =>
            simp only [RBTree.color0_node] at hunc
            subst hunc
            simp only [RBTree.addr_node, RBTree.color0_node] at e5 e6
            have h1 := hp.setColor_root true
            have h2 := (h1.up.downR).setColor_root true
            have h3 := h2.up.setColor_root false
            simp only [RBFrame.fill_L, RBFrame.fill_R] at h3
            obtain ⟨s', log, r1, r2, r3⟩ := ih rest.length (by omega) rest _ g kg sg
              (.node p true kp sp (.node z false k sz l r) u) (.node y true ky sy yl yr) fuel
              (le_refl _) h3
              (by simp [RBTree.wf_node] at hG2 hG3 ⊢; simp_all)
              (by simp at hG3 hA3 ⊢; simp_all)
              (by omega)
            have hgN : g ≠ NIL := hg.root_ne_nil
            refine ⟨s', FixEvent.grandparent z g :: FixEvent.recolor z :: log, ?_,
              InsertFixLog.recolor_step z hgN r2,
              fun hc => absurd (hc _ _ rfl) (by simp [RBFrame.color])⟩
            simp [insertRBFix.traced, e1, e2, e3, e4, e5, e6, r1, FixEvent.before]
          | true =>
            -- Case C: black uncle, `z` is the outer grandchild
            have h1 := hp.setColor_root true
            have h2 := h1.up.setColor_root false
            simp only [RBFrame.fill_L, RBFrame.fill_R] at h2
            have h3 := h2.rightRotate
            have h4 := h3.downL
            obtain ⟨s', log, r1, r2, r3⟩ := ih (rest.length + 1) (by omega) _ _ z k sz
              l r fuel (by simp) h4
              (by simpa [RBTree.wf_node] using hWF)
              (by
                simp only [RBPath.accepts_cons, RBFrame.color, RBFrame.sib, RBTree.wf_node,
                  RBTree.blackHeight_node]
                simp_all)
              (by simp only [List.length_cons]; omega)
            have hgN : g ≠ NIL := hg.root_ne_nil
            have hpN : p ≠ NIL := hp.root_ne_nil
            have hl : log = [] := r3 (by intro P rest hc; cases hc; rfl)
            subst hl
            have f3 : (rightRotateRB ((s.setColor p true).setColor g false) g).parent z = p := by
              simpa using h4.parent_root
            have f4 : (rightRotateRB ((s.setColor p true).setColor g false) g).color p = true :=
              h3.color_root
            refine ⟨s', [FixEvent.grandparent z g, FixEvent.rotateRight g p,
                FixEvent.uncleBlackEnd z true], ?_,
              InsertFixLog.rotate_step z z hgN [FixEvent.rotateRight g p] (by simp) (by simp)
                (by simp [FixEvent.isRotate, FixEvent.Real, hgN, hpN]),
              fun hc => absurd (hc _ _ rfl) (by simp [RBFrame.color])⟩
            simp [insertRBFix.traced, e1, e2, e3, e4, e5, e6, e7, hzu, hunc, r1, FixEvent.before, f3, f4]
        | R p cp kp sp u =>
          simp only [RBFrame.color] at hPc
          subst hPc
          simp only [RBFrame.sib] at hA2 hA3 hucol
          have hp := h.up
          have hg := hp.up
          simp only [RBFrame.fill_L, RBFrame.fill_R] at hp hg
          have hun := hg.downR
          have e1 : s.parent z = p := by simpa using h.parent_root
          have e2 : s.color p = false := hp.color_root
          have e3 : s.parent p = g := by simpa using hp.parent_root
          have e4 : s.left g = p := by simpa using hg.left_root
          have e5 : s.right g = un.addr := hg.right_root
          have e6 : s.color un.addr = un.color0 := hun.color_addr
          have e7 : s.right p = z := by simpa using hp.right_root
          cases hunc : un.color0 with
          | false =>
            -- Case A: red uncle
            cases un with
            | nil => simp at hunc
            | node y cy ky sy yl yr =>
            simp only [RBTree.color0_node] at hunc
            subst hunc
            simp only [RBTree.addr_node, RBTree.color0_node] at e5 e6
            have h1 := hp.setColor_root true
            have h2 := (h1.up.downR).setColor_root true
            have h3 := h2.up.setColor_root false
            simp only [RBFrame.fill_L, RBFrame.fill_R] at h3
            obtain ⟨s', log, r1, r2, r3⟩ := ih rest.length (by omega) rest _ g kg sg
              (.node p true kp sp u (.node z false k sz l r)) (.node y true ky sy yl yr) fuel
              (le_refl _) h3
              (by simp [RBTree.wf_node] at hG2 hG3 ⊢; simp_all)
              (by simp at hG3 hA3 ⊢; simp_all)
              (by omega)
            have hgN : g ≠ NIL := hg.root_ne_nil
            refine ⟨s', FixEvent.grandparent z g :: FixEvent.recolor z :: log, ?_,
              InsertFixLog.recolor_step z hgN r2,
              fun hc => absurd (hc _ _ rfl) (by simp [RBFrame.color])⟩
            simp [insertRBFix.traced, e1, e2, e3, e4, e5, e6, r1, FixEvent.before]
          | true =>
            -- Case B then C: black uncle, `z` is the inner grandchild
            have h1 := hp.leftRotate
            have f1 : (leftRotateRB s p).parent p = z := by simpa using h1.downL.parent_root
            have f2 : (leftRotateRB s p).parent z = g := by simpa using h1.parent_root
            have h2 := h1.setColor_root true
            have h3 := h2.up.setColor_root false
            simp only [RBFrame.fill_L, RBFrame.fill_R] at h3
            have h4 := h3.rightRotate
            have h5 := h4.downL
            obtain ⟨s', log, r1, r2, r3⟩ := ih (rest.length + 1) (by omega) _ _ p kp
              (u.size0 + l.size0 + 1) u l fuel (by simp) h5
              (by simp [RBTree.wf_node] at hWF ⊢; simp_all)
              (by
                simp only [RBPath.accepts_cons, RBFrame.color, RBFrame.sib, RBTree.wf_node,
                  RBTree.blackHeight_node]
                simp_all)
              (by simp only [List.length_cons]; omega)
            have hgN : g ≠ NIL := hg.root_ne_nil
            have hpN : p ≠ NIL := hp.root_ne_nil
            have hzN : z ≠ NIL := h.root_ne_nil
            have hl : log = [] := r3 (by intro P rest hc; cases hc; rfl)
            subst hl
            have f5 : (leftRotateRB s p).left g = z := by simpa using h1.up.left_root
            have f3 : (rightRotateRB (((leftRotateRB s p).setColor z true).setColor g false) g).parent p = z := by
              simpa using h5.parent_root
            have f4 : (rightRotateRB (((leftRotateRB s p).setColor z true).setColor g false) g).color z = true :=
              h4.color_root
            refine ⟨s', [FixEvent.grandparent z g, FixEvent.rotateLeft p z, FixEvent.rotateRight g z,
                FixEvent.uncleBlackEnd p true], ?_,
              InsertFixLog.rotate_step z p hgN [FixEvent.rotateLeft p z, FixEvent.rotateRight g z]
                (by simp) (by simp)
                (by simp [FixEvent.isRotate, FixEvent.Real, hgN, hpN, hzN]),
              fun hc => absurd (hc _ _ rfl) (by simp [RBFrame.color])⟩
            simp [insertRBFix.traced, e1, e2, e3, e4, e5, e6, e7, hunc, f1, f2, r1, FixEvent.before, f3, f4, f5]
      | R g cg kg sg un =>
        simp only [RBFrame.color] at hGc
        subst hGc
        simp only [RBFrame.sib] at hG2 hG3
        cases P with
        | R p cp kp sp u =>
          simp only [RBFrame.color] at hPc
          subst hPc
          simp only [RBFrame.sib] at hA2 hA3 hucol
          have hp := h.up
          have hg := hp.up
          simp only [RBFrame.fill_L, RBFrame.fill_R] at hp hg
          have hun := hg.downL
          have e1 : s.parent z = p := by simpa using h.parent_root
          have e2 : s.color p = false := hp.color_root
          have e3 : s.parent p = g := by simpa using hp.parent_root
          have e4 : s.right g = p := by simpa using hg.right_root
          have e5 : s.left g = un.addr := hg.left_root
          have e6 : s.color un.addr = un.color0 := hun.color_addr
          have hpun : p ≠ un.addr := by
            have hnd := hg.nodup
            simp only [RBTree.addrs_node, List.nodup_append, List.nodup_cons, List.mem_cons,
              List.mem_append, List.append_assoc, List.cons_append, List.disjoint_cons_right,
              List.disjoint_append_right, List.disjoint_cons_left, List.disjoint_append_left,
              not_or] at hnd
            exact (RBTree.addr_ne hp.root_ne_nil (by tauto)).symm
          have e7 : s.left p = u.addr := hp.left_root
          have hzu : z ≠ u.addr := by
            have hnd := hp.nodup
            simp only [RBTree.addrs_node, List.nodup_append, List.nodup_cons, List.mem_cons,
              List.mem_append, List.append_assoc, List.cons_append, List.disjoint_cons_right,
              List.disjoint_append_right, List.disjoint_cons_left, List.disjoint_append_left,
              not_or] at hnd
            exact (RBTree.addr_ne h.root_ne_nil (by tauto)).symm
          cases hunc : un.color0 with
          | false =>
            -- Case A: red uncle
            cases un with
            | nil => simp at hunc
            | node y cy ky sy yl yr =>
            simp only [RBTree.color0_node] at hunc
            subst hunc
            simp only [RBTree.addr_node, RBTree.color0_node] at e5 e6 hpun
            have h1 := hp.setColor_root true
            have h2 := (h1.up.downL).setColor_root true
            have h3 := h2.up.setColor_root false
            simp only [RBFrame.fill_L, RBFrame.fill_R] at h3
            obtain ⟨s', log, r1, r2, r3⟩ := ih rest.length (by omega) rest _ g kg sg
              (.node y true ky sy yl yr) (.node p true kp sp u (.node z false k sz l r)) fuel
              (le_refl _) h3
              (by simp [RBTree.wf_node] at hG2 hG3 ⊢; simp_all)
              (by simp at hG3 hA3 ⊢; simp_all)
              (by omega)
            have hgN : g ≠ NIL := hg.root_ne_nil
            refine ⟨s', FixEvent.grandparent z g :: FixEvent.recolor z :: log, ?_,
              InsertFixLog.recolor_step z hgN r2,
              fun hc => absurd (hc _ _ rfl) (by simp [RBFrame.color])⟩
            simp [insertRBFix.traced, e1, e2, e3, e4, e5, e6, hpun, r1, FixEvent.before]
          | true =>
            -- Case C: black uncle, `z` is the outer grandchild
            have h1 := hp.setColor_root true
            have h2 := h1.up.setColor_root false
            simp only [RBFrame.fill_L, RBFrame.fill_R] at h2
            have h3 := h2.leftRotate
            have h4 := h3.downR
            obtain ⟨s', log, r1, r2, r3⟩ := ih (rest.length + 1) (by omega) _ _ z k sz
              l r fuel (by simp) h4
              (by simpa [RBTree.wf_node] using hWF)
              (by
                simp only [RBPath.accepts_cons, RBFrame.color, RBFrame.sib, RBTree.wf_node,
                  RBTree.blackHeight_node]
                simp_all)
              (by simp only [List.length_cons]; omega)
            have hgN : g ≠ NIL := hg.root_ne_nil
            have hpN : p ≠ NIL := hp.root_ne_nil
            have hl : log = [] := r3 (by intro P rest hc; cases hc; rfl)
            subst hl
            have f3 : (leftRotateRB ((s.setColor p true).setColor g false) g).parent z = p := by
              simpa using h4.parent_root
            have f4 : (leftRotateRB ((s.setColor p true).setColor g false) g).color p = true :=
              h3.color_root
            refine ⟨s', [FixEvent.grandparent z g, FixEvent.rotateLeft g p,
                FixEvent.uncleBlackEnd z true], ?_,
              InsertFixLog.rotate_step z z hgN [FixEvent.rotateLeft g p] (by simp) (by simp)
                (by simp [FixEvent.isRotate, FixEvent.Real, hgN, hpN]),
              fun hc => absurd (hc _ _ rfl) (by simp [RBFrame.color])⟩
            simp [insertRBFix.traced, e1, e2, e3, e4, e5, e6, hpun, e7, hzu, hunc, r1, FixEvent.before, f3, f4]
        | L p cp kp sp u =>
          simp only [RBFrame.color] at hPc
          subst hPc
          simp only [RBFrame.sib] at hA2 hA3 hucol
          have hp := h.up
          have hg := hp.up
          simp only [RBFrame.fill_L, RBFrame.fill_R] at hp hg
          have hun := hg.downL
          have e1 : s.parent z = p := by simpa using h.parent_root
          have e2 : s.color p = false := hp.color_root
          have e3 : s.parent p = g := by simpa using hp.parent_root
          have e4 : s.right g = p := by simpa using hg.right_root
          have e5 : s.left g = un.addr := hg.left_root
          have e6 : s.color un.addr = un.color0 := hun.color_addr
          have hpun : p ≠ un.addr := by
            have hnd := hg.nodup
            simp only [RBTree.addrs_node, List.nodup_append, List.nodup_cons, List.mem_cons,
              List.mem_append, List.append_assoc, List.cons_append, List.disjoint_cons_right,
              List.disjoint_append_right, List.disjoint_cons_left, List.disjoint_append_left,
              not_or] at hnd
            exact (RBTree.addr_ne hp.root_ne_nil (by tauto)).symm
          have e7 : s.left p = z := by simpa using hp.left_root
          cases hunc : un.color0 with
          | false =>
            -- Case A: red uncle
            cases un with
            | nil => simp at hunc
            | node y cy ky sy yl yr =>
            simp only [RBTree.color0_node] at hunc
            subst hunc
            simp only [RBTree.addr_node, RBTree.color0_node] at e5 e6 hpun
            have h1 := hp.setColor_root true
            have h2 := (h1.up.downL).setColor_root true
            have h3 := h2.up.setColor_root false
            simp only [RBFrame.fill_L, RBFrame.fill_R] at h3
            obtain ⟨s', log, r1, r2, r3⟩ := ih rest.length (by omega) rest _ g kg sg
              (.node y true ky sy yl yr) (.node p true kp sp (.node z false k sz l r) u) fuel
              (le_refl _) h3
              (by simp [RBTree.wf_node] at hG2 hG3 ⊢; simp_all)
              (by simp at hG3 hA3 ⊢; simp_all)
              (by omega)
            have hgN : g ≠ NIL := hg.root_ne_nil
            refine ⟨s', FixEvent.grandparent z g :: FixEvent.recolor z :: log, ?_,
              InsertFixLog.recolor_step z hgN r2,
              fun hc => absurd (hc _ _ rfl) (by simp [RBFrame.color])⟩
            simp [insertRBFix.traced, e1, e2, e3, e4, e5, e6, hpun, r1, FixEvent.before]
          | true =>
            -- Case B then C: black uncle, `z` is the inner grandchild
            have h1 := hp.rightRotate
            have f1 : (rightRotateRB s p).parent p = z := by simpa using h1.downR.parent_root
            have f2 : (rightRotateRB s p).parent z = g := by simpa using h1.parent_root
            have h2 := h1.setColor_root true
            have h3 := h2.up.setColor_root false
            simp only [RBFrame.fill_L, RBFrame.fill_R] at h3
            have h4 := h3.leftRotate
            have h5 := h4.downR
            obtain ⟨s', log, r1, r2, r3⟩ := ih (rest.length + 1) (by omega) _ _ p kp
              (r.size0 + u.size0 + 1) r u fuel (by simp) h5
              (by simp [RBTree.wf_node] at hWF ⊢; simp_all)
              (by
                simp only [RBPath.accepts_cons, RBFrame.color, RBFrame.sib, RBTree.wf_node,
                  RBTree.blackHeight_node]
                simp_all)
              (by simp only [List.length_cons]; omega)
            have hgN : g ≠ NIL := hg.root_ne_nil
            have hpN : p ≠ NIL := hp.root_ne_nil
            have hzN : z ≠ NIL := h.root_ne_nil
            have hl : log = [] := r3 (by intro P rest hc; cases hc; rfl)
            subst hl
            have f5 : (rightRotateRB s p).right g = z := by simpa using h1.up.right_root
            have f3 : (leftRotateRB (((rightRotateRB s p).setColor z true).setColor g false) g).parent p = z := by
              simpa using h5.parent_root
            have f4 : (leftRotateRB (((rightRotateRB s p).setColor z true).setColor g false) g).color z = true :=
              h4.color_root
            refine ⟨s', [FixEvent.grandparent z g, FixEvent.rotateRight p z, FixEvent.rotateLeft g z,
                FixEvent.uncleBlackEnd p true], ?_,
              InsertFixLog.rotate_step z p hgN [FixEvent.rotateRight p z, FixEvent.rotateLeft g z]
                (by simp) (by simp)
                (by simp [FixEvent.isRotate, FixEvent.Real, hgN, hpN, hzN]),
              fun hc => absurd (hc _ _ rfl) (by simp [RBFrame.color])⟩
            simp [insertRBFix.traced, e1, e2, e3, e4, e5, e6, hpun, e7, hunc, f1, f2, r1, FixEvent.before, f3, f4, f5]

/-! ## Dynamic tree: the record of `deleteRBFix` -/

theorem FixEvent.before_noEvents (r : Option (State × List FixEvent)) : FixEvent.before [] r = r := by
  cases r <;> rfl

theorem TracePost.before {evs : List FixEvent} {res : Option (State × List FixEvent)}
    (h : TracePost res) (he : ∀ e ∈ evs, e.Real) : TracePost (FixEvent.before evs res) := by
  obtain ⟨s', log, rfl, h2⟩ := h
  refine ⟨s', evs ++ log, rfl, ?_⟩
  intro e hm
  rcases List.mem_append.mp hm with hm | hm
  · exact he e hm
  · exact h2 e hm

/-- One iteration of the traced loop of `deleteRBFix`. -/
theorem deleteRBFix_traced_succ (fuel : Nat) (s : State) (x : Nat) :
    deleteRBFix.traced (fuel + 1) s x =
      if x ≠ s.root ∧ s.color x = true then
        if x = s.left (s.parent x) then
          let sw : State × Nat × List FixEvent :=
            if s.color (s.right (s.parent x)) = false then
              (leftRotateRB ((s.setColor (s.right (s.parent x)) true).setColor (s.parent x) false)
                  (s.parent x),
                (leftRotateRB ((s.setColor (s.right (s.parent x)) true).setColor (s.parent x)
                  false) (s.parent x)).right
                  ((leftRotateRB ((s.setColor (s.right (s.parent x)) true).setColor (s.parent x)
                    false) (s.parent x)).parent x),
                [FixEvent.sibling x (s.right (s.parent x)),
                  FixEvent.rotateLeft
                    (((s.setColor (s.right (s.parent x)) true).setColor (s.parent x) false).parent x)
                    (((s.setColor (s.right (s.parent x)) true).setColor (s.parent x) false).right
                      (((s.setColor (s.right (s.parent x)) true).setColor (s.parent x)
                        false).parent x)),
                  FixEvent.sibling x
                    ((leftRotateRB ((s.setColor (s.right (s.parent x)) true).setColor (s.parent x)
                      false) (s.parent x)).right
                      ((leftRotateRB ((s.setColor (s.right (s.parent x)) true).setColor
                        (s.parent x) false) (s.parent x)).parent x))])
            else (s, s.right (s.parent x), [FixEvent.sibling x (s.right (s.parent x))])
          FixEvent.before sw.2.2
            (deleteRBFix.tracedTailL (deleteRBFix.traced fuel) sw.1 x sw.2.1)
        else
          let sw : State × Nat × List FixEvent :=
            if s.color (s.left (s.parent x)) = false then
              (rightRotateRB ((s.setColor (s.left (s.parent x)) true).setColor (s.parent x) false)
                  (s.parent x),
                (rightRotateRB ((s.setColor (s.left (s.parent x)) true).setColor (s.parent x)
                  false) (s.parent x)).left
                  ((rightRotateRB ((s.setColor (s.left (s.parent x)) true).setColor (s.parent x)
                    false) (s.parent x)).parent x),
                [FixEvent.sibling x (s.left (s.parent x)),
                  FixEvent.rotateRight
                    (((s.setColor (s.left (s.parent x)) true).setColor (s.parent x) false).parent x)
                    (((s.setColor (s.left (s.parent x)) true).setColor (s.parent x) false).left
                      (((s.setColor (s.left (s.parent x)) true).setColor (s.parent x)
                        false).parent x)),
                  FixEvent.sibling x
                    ((rightRotateRB ((s.setColor (s.left (s.parent x)) true).setColor (s.parent x)
                      false) (s.parent x)).left
                      ((rightRotateRB ((s.setColor (s.left (s.parent x)) true).setColor
                        (s.parent x) false) (s.parent x)).parent x))])
            else (s, s.left (s.parent x), [FixEvent.sibling x (s.left (s.parent x))])
          FixEvent.before sw.2.2
            (deleteRBFix.tracedTailR (deleteRBFix.traced fuel) sw.1 x sw.2.1)
      else some (s.setColor x true, []) := rfl

/-- The traced loop stops at a red node and at the root. -/
theorem deleteRBFix_traced_exit {s : State} {x : RBTree} {cs : RBPath} (fuel : Nat)
    (h : ShapeZ s x cs) (hx : cs = [] ∨ x.color0 = false) :
    deleteRBFix.traced (fuel + 1) s x.addr = some (s.setColor x.addr true, []) := by
  have hcond : ¬ (x.addr ≠ s.root ∧ s.color x.addr = true) := by
    rintro ⟨h1, h2⟩
    rcases hx with hx | hx
    · subst hx
      exact h1 h.root.symm
    · rw [h.color_addr, hx] at h2
      exact absurd h2 (by simp)
  rw [deleteRBFix_traced_succ, if_neg hcond]

theorem deleteRBFix_traced_root {s : State} {T : RBTree} (fuel : Nat) (h : Shape s T) :
    TracePost (deleteRBFix.traced (fuel + 1) s s.root) := by
  have := deleteRBFix_traced_exit fuel h.toZ (Or.inl rfl)
  rw [h.root, this]
  exact ⟨_, [], rfl, by simp⟩

/-- The last case of the loop body, branch `L`: the rotation at the parent has a
real right child. -/
theorem deleteRBFix_traced_case4L {s : State} {x wn va vb : RBTree} {p w v : Nat} {cp : Bool}
    {kp sp kw sw kv sv : Int} {rest : RBPath} (fuel : Nat)
    (h : ShapeZ s x (.L p cp kp sp (.node w true kw sw wn (.node v false kv sv va vb)) :: rest))
    (hp : s.parent x.addr = p) :
    TracePost (deleteRBFix.tracedCase4L (deleteRBFix.traced (fuel + 1)) s x.addr w) := by
  have hu := h.up
  simp only [RBFrame.fill_L, RBFrame.fill_R] at hu
  have ecp : s.color p = cp := hu.color_root
  have hw := hu.downR
  have epN : p ≠ NIL := hu.root_ne_nil
  have ewN : w ≠ NIL := hw.root_ne_nil
  have erp : s.right p = w := by simpa using hu.right_root
  have efar : s.right w = v := by simpa using hw.right_root
  have h1 := hw.setColor_root cp
  have h2 := h1.up.setColor_root true
  simp only [RBFrame.fill_L, RBFrame.fill_R] at h2
  have h3 := (h2.downR.downR.setColor_root true).up.up
  simp only [RBFrame.fill_L, RBFrame.fill_R] at h3
  have h4 := h3.leftRotate
  have hst : deleteRBFix.tracedCase4L (deleteRBFix.traced (fuel + 1)) s x.addr w =
      FixEvent.before [FixEvent.rotateLeft p w]
        (deleteRBFix.traced (fuel + 1)
          (leftRotateRB (((s.setColor w cp).setColor p true).setColor v true) p)
          (leftRotateRB (((s.setColor w cp).setColor p true).setColor v true) p).root) := by
    simp [deleteRBFix.tracedCase4L, hp, ecp, efar, erp]
  rw [hst]
  exact (deleteRBFix_traced_root fuel h4.toShape).before (by simp [FixEvent.Real, epN, ewN])

/-- The traced loop body from the test on the children of the black sibling `w` on,
branch `L`. -/
theorem deleteRBFix_traced_tailL {s : State} {x wn wf : RBTree} {p w : Nat} {cp : Bool}
    {kp sp kw sw : Int} {rest : RBPath} (fuel : Nat)
    (h : ShapeZ s x (.L p cp kp sp (.node w true kw sw wn wf) :: rest))
    (hp : s.parent x.addr = p) (hxW : x.WF)
    (hA : RBPath.Accepts (.L p cp kp sp (.node w true kw sw wn wf) :: rest) true (x.blackHeight + 1))
    (ih : cp = true → ∀ (s1 : State) (X : RBTree), ShapeZ s1 X rest →
      s1.parent X.addr = RBPath.addr rest NIL → X.setBlack.WF →
      RBPath.Accepts rest true (X.blackHeight + 1) →
      TracePost (deleteRBFix.traced (fuel + 1) s1 X.addr)) :
    TracePost (deleteRBFix.tracedTailL (deleteRBFix.traced (fuel + 1)) s x.addr w) := by
  rw [RBPath.accepts_cons] at hA
  simp only [RBFrame.color, RBFrame.sib, RBTree.wf_node, RBTree.blackHeight_node,
    RBTree.color0_node, if_true] at hA
  obtain ⟨hA1, ⟨-, hb, hnW, hfW⟩, hbh, hA4⟩ := hA
  have hu := h.up
  simp only [RBFrame.fill_L, RBFrame.fill_R] at hu
  have hw := hu.downR
  have hwn := hw.downL
  have hwf := hw.downR
  have ewN : w ≠ NIL := hw.root_ne_nil
  have en : s.left w = wn.addr := hw.left_root
  have ef : s.right w = wf.addr := hw.right_root
  have ecn : s.color wn.addr = wn.color0 := hwn.color_addr
  have ecf : s.color wf.addr = wf.color0 := hwf.color_addr
  cases hfc : wf.color0 with
  | false =>
    obtain ⟨v, kv, sv, va, vb, rfl⟩ := RBTree.exists_node_of_red hfc
    simp only [RBTree.addr_node, RBTree.color0_node] at ef ecf
    have hst : deleteRBFix.tracedTailL (deleteRBFix.traced (fuel + 1)) s x.addr w =
        deleteRBFix.tracedCase4L (deleteRBFix.traced (fuel + 1)) s x.addr w := by
      simp [deleteRBFix.tracedTailL, en, ef, ecn, ecf, FixEvent.before_noEvents]
    rw [hst]
    exact deleteRBFix_traced_case4L fuel h hp
  | true =>
    rw [hfc] at ecf
    cases hnc : wn.color0 with
    | true =>
      rw [hnc] at ecn
      have h2 := (hw.setColor_root false).up
      simp only [RBFrame.fill_L, RBFrame.fill_R] at h2
      have hst : deleteRBFix.tracedTailL (deleteRBFix.traced (fuel + 1)) s x.addr w =
          deleteRBFix.traced (fuel + 1) (s.setColor w false) p := by
        simp [deleteRBFix.tracedTailL, en, ef, ecn, ecf, hp]
      rw [hst]
      have hX : (RBTree.setBlack (.node p cp kp sp x (.node w false kw sw wn wf))).WF := by
        simp only [RBTree.setBlack_node, RBTree.wf_node, RBTree.color0_node,
          RBTree.blackHeight_node]
        refine ⟨by simp, ?_, ?_, ?_⟩
        · first | omega | (simp only [Bool.false_eq_true, if_false]; omega)
        all_goals first | exact hxW | exact ⟨fun _ => ⟨hnc, hfc⟩, hb, hnW, hfW⟩
      have hAX : RBPath.Accepts rest true
          ((RBTree.blackHeight (.node p cp kp sp x (.node w false kw sw wn wf))) + 1) := by
        simp only [RBTree.blackHeight_node]
        have e : x.blackHeight + (if cp = true then 1 else 0) + 1 =
            x.blackHeight + 1 + (if cp = true then 1 else 0) := by
          first | omega | (simp only [Bool.false_eq_true, if_false]; omega)
        rw [e]
        exact hA4.black
      cases cp with
      | false =>
        have := deleteRBFix_traced_exit fuel h2 (Or.inr rfl)
        simp only [RBTree.addr_node] at this
        rw [this]
        exact ⟨_, [], rfl, by simp⟩
      | true => exact ih rfl _ _ h2 h2.parent_root hX hAX
    | false =>
      obtain ⟨u, ku, su, ua, ub, rfl⟩ := RBTree.exists_node_of_red hnc
      simp only [RBTree.addr_node, RBTree.color0_node] at en ecn
      have euN : u ≠ NIL := hwn.root_ne_nil
      have h1 := (hwn.setColor_root true).up
      simp only [RBFrame.fill_L, RBFrame.fill_R] at h1
      have h2 := h1.setColor_root false
      have h3 := h2.rightRotate
      have h4 := h3.up.downL
      simp only [RBFrame.fill_L, RBFrame.fill_R] at h4
      have efar3 : (rightRotateRB ((s.setColor u true).setColor w false) w).right p = u := by
        simpa using h3.up.right_root
      have hp3 : (rightRotateRB ((s.setColor u true).setColor w false) w).parent x.addr = p := by
        cases x with
        | nil =>
          rw [RBTree.addr_nil, rightRotateRB_parent_nil _ _ ewN (by simpa [en] using euN)]
          simpa using hp
        | node a c k sz l r => simpa using h4.parent_root
      have hst : deleteRBFix.tracedTailL (deleteRBFix.traced (fuel + 1)) s x.addr w =
          FixEvent.before [FixEvent.rotateRight w u, FixEvent.sibling x.addr u]
            (deleteRBFix.tracedCase4L (deleteRBFix.traced (fuel + 1))
              (rightRotateRB ((s.setColor u true).setColor w false) w) x.addr u) := by
        simp [deleteRBFix.tracedTailL, en, ef, ecn, ecf, hp3, efar3]
      rw [hst]
      exact (deleteRBFix_traced_case4L fuel h4 hp3).before
        (by simp [FixEvent.Real, ewN, euN])

/-- The last case of the loop body, branch `R`: the rotation at the parent has a
real left child. -/
theorem deleteRBFix_traced_case4R {s : State} {x wn va vb : RBTree} {p w v : Nat} {cp : Bool}
    {kp sp kw sw kv sv : Int} {rest : RBPath} (fuel : Nat)
    (h : ShapeZ s x (.R p cp kp sp (.node w true kw sw (.node v false kv sv vb va) wn) :: rest))
    (hp : s.parent x.addr = p) :
    TracePost (deleteRBFix.tracedCase4R (deleteRBFix.traced (fuel + 1)) s x.addr w) := by
  have hu := h.up
  simp only [RBFrame.fill_L, RBFrame.fill_R] at hu
  have ecp : s.color p = cp := hu.color_root
  have hw := hu.downL
  have epN : p ≠ NIL := hu.root_ne_nil
  have ewN : w ≠ NIL := hw.root_ne_nil
  have erp : s.left p = w := by simpa using hu.left_root
  have efar : s.left w = v := by simpa using hw.left_root
  have h1 := hw.setColor_root cp
  have h2 := h1.up.setColor_root true
  simp only [RBFrame.fill_L, RBFrame.fill_R] at h2
  have h3 := (h2.downL.downL.setColor_root true).up.up
  simp only [RBFrame.fill_L, RBFrame.fill_R] at h3
  have h4 := h3.rightRotate
  have hst : deleteRBFix.tracedCase4R (deleteRBFix.traced (fuel + 1)) s x.addr w =
      FixEvent.before [FixEvent.rotateRight p w]
        (deleteRBFix.traced (fuel + 1)
          (rightRotateRB (((s.setColor w cp).setColor p true).setColor v true) p)
          (rightRotateRB (((s.setColor w cp).setColor p true).setColor v true) p).root) := by
    simp [deleteRBFix.tracedCase4R, hp, ecp, efar, erp]
  rw [hst]
  exact (deleteRBFix_traced_root fuel h4.toShape).before (by simp [FixEvent.Real, epN, ewN])

/-- The traced loop body from the test on the children of the black sibling `w` on,
branch `R`. -/
theorem deleteRBFix_traced_tailR {s : State} {x wn wf : RBTree} {p w : Nat} {cp : Bool}
    {kp sp kw sw : Int} {rest : RBPath} (fuel : Nat)
    (h : ShapeZ s x (.R p cp kp sp (.node w true kw sw wf wn) :: rest))
    (hp : s.parent x.addr = p) (hxW : x.WF)
    (hA : RBPath.Accepts (.R p cp kp sp (.node w true kw sw wf wn) :: rest) true (x.blackHeight + 1))
    (ih : cp = true → ∀ (s1 : State) (X : RBTree), ShapeZ s1 X rest →
      s1.parent X.addr = RBPath.addr rest NIL → X.setBlack.WF →
      RBPath.Accepts rest true (X.blackHeight + 1) →
      TracePost (deleteRBFix.traced (fuel + 1) s1 X.addr)) :
    TracePost (deleteRBFix.tracedTailR (deleteRBFix.traced (fuel + 1)) s x.addr w) := by
  rw [RBPath.accepts_cons] at hA
  simp only [RBFrame.color, RBFrame.sib, RBTree.wf_node, RBTree.blackHeight_node,
    RBTree.color0_node, if_true] at hA
  obtain ⟨hA1, ⟨-, hb, hfW, hnW⟩, hbh, hA4⟩ := hA
  have hu := h.up
  simp only [RBFrame.fill_L, RBFrame.fill_R] at hu
  have hw := hu.downL
  have hwn := hw.downR
  have hwf := hw.downL
  have ewN : w ≠ NIL := hw.root_ne_nil
  have en : s.right w = wn.addr := hw.right_root
  have ef : s.left w = wf.addr := hw.left_root
  have ecn : s.color wn.addr = wn.color0 := hwn.color_addr
  have ecf : s.color wf.addr = wf.color0 := hwf.color_addr
  cases hfc : wf.color0 with
  | false =>
    obtain ⟨v, kv, sv, vb, va, rfl⟩ := RBTree.exists_node_of_red hfc
    simp only [RBTree.addr_node, RBTree.color0_node] at ef ecf
    have hst : deleteRBFix.tracedTailR (deleteRBFix.traced (fuel + 1)) s x.addr w =
        deleteRBFix.tracedCase4R (deleteRBFix.traced (fuel + 1)) s x.addr w := by
      simp [deleteRBFix.tracedTailR, en, ef, ecn, ecf, FixEvent.before_noEvents]
    rw [hst]
    exact deleteRBFix_traced_case4R fuel h hp
  | true =>
    rw [hfc] at ecf
    cases hnc : wn.color0 with
    | true =>
      rw [hnc] at ecn
      have h2 := (hw.setColor_root false).up
      simp only [RBFrame.fill_L, RBFrame.fill_R] at h2
      have hst : deleteRBFix.tracedTailR (deleteRBFix.traced (fuel + 1)) s x.addr w =
          deleteRBFix.traced (fuel + 1) (s.setColor w false) p := by
        simp [deleteRBFix.tracedTailR, en, ef, ecn, ecf, hp]
      rw [hst]
      have hX : (RBTree.setBlack (.node p cp kp sp (.node w false kw sw wf wn) x)).WF := by
        simp only [RBTree.setBlack_node, RBTree.wf_node, RBTree.color0_node,
          RBTree.blackHeight_node]
        refine ⟨by simp, ?_, ?_, ?_⟩
        · first | omega | (simp only [Bool.false_eq_true, if_false]; omega)
        all_goals first | exact hxW | exact ⟨fun _ => ⟨hfc, hnc⟩, hb, hfW, hnW⟩
      have hAX : RBPath.Accepts rest true
          ((RBTree.blackHeight (.node p cp kp sp (.node w false kw sw wf wn) x)) + 1) := by
        simp only [RBTree.blackHeight_node]
        have e : wf.blackHeight + (if false = true then 1 else 0) + (if cp = true then 1 else 0) + 1 =
            x.blackHeight + 1 + (if cp = true then 1 else 0) := by
          first | omega | (simp only [Bool.false_eq_true, if_false]; omega)
        rw [e]
        exact hA4.black
      cases cp with
      | false =>
        have := deleteRBFix_traced_exit fuel h2 (Or.inr rfl)
        simp only [RBTree.addr_node] at this
        rw [this]
        exact ⟨_, [], rfl, by simp⟩
      | true => exact ih rfl _ _ h2 h2.parent_root hX hAX
    | false =>
      obtain ⟨u, ku, su, ub, ua, rfl⟩ := RBTree.exists_node_of_red hnc
      simp only [RBTree.addr_node, RBTree.color0_node] at en ecn
      have euN : u ≠ NIL := hwn.root_ne_nil
      have h1 := (hwn.setColor_root true).up
      simp only [RBFrame.fill_L, RBFrame.fill_R] at h1
      have h2 := h1.setColor_root false
      have h3 := h2.leftRotate
      have h4 := h3.up.downR
      simp only [RBFrame.fill_L, RBFrame.fill_R] at h4
      have efar3 : (leftRotateRB ((s.setColor u true).setColor w false) w).left p = u := by
        simpa using h3.up.left_root
      have hp3 : (leftRotateRB ((s.setColor u true).setColor w false) w).parent x.addr = p := by
        cases x with
        | nil =>
          rw [RBTree.addr_nil, leftRotateRB_parent_nil _ _ ewN (by simpa [en] using euN)]
          simpa using hp
        | node a c k sz l r => simpa using h4.parent_root
      have hst : deleteRBFix.tracedTailR (deleteRBFix.traced (fuel + 1)) s x.addr w =
          FixEvent.before [FixEvent.rotateLeft w u, FixEvent.sibling x.addr u]
            (deleteRBFix.tracedCase4R (deleteRBFix.traced (fuel + 1))
              (leftRotateRB ((s.setColor u true).setColor w false) w) x.addr u) := by
        simp [deleteRBFix.tracedTailR, en, ef, ecn, ecf, hp3, efar3]
      rw [hst]
      exact (deleteRBFix_traced_case4R fuel h4 hp3).before
        (by simp [FixEvent.Real, ewN, euN])

set_option maxHeartbeats 1000000 in
/-- The traced `deleteRBFix` started at a node `x` that lacks one black on its
paths: it returns, and every sibling it reads and every node it rotates with is a
real node. -/
theorem deleteRBFix_traced_spec : ∀ (cs : RBPath) (s : State) (x : RBTree) (fuel : Nat),
    ShapeZ s x cs → s.parent x.addr = RBPath.addr cs NIL → x.setBlack.WF →
    RBPath.Accepts cs true (x.blackHeight + 1) → cs.length < fuel →
    TracePost (deleteRBFix.traced fuel s x.addr) := by
  intro cs
  induction cs with
  | nil =>
    intro s x fuel h _ hW hA hf
    obtain ⟨fuel, rfl⟩ : ∃ m, fuel = m + 1 := ⟨fuel - 1, by omega⟩
    rw [deleteRBFix_traced_exit fuel h (Or.inl rfl)]
    exact ⟨_, [], rfl, by simp⟩
  | cons f rest ih =>
    intro s x fuel h hp hW hA hf
    simp only [List.length_cons] at hf
    obtain ⟨fuel, rfl⟩ : ∃ m, fuel = m + 1 := ⟨fuel - 1, by omega⟩
    cases hxc : x.color0 with
    | false =>
      rw [deleteRBFix_traced_exit fuel h (Or.inr hxc)]
      exact ⟨_, [], rfl, by simp⟩
    | true =>
      obtain ⟨fuel, rfl⟩ : ∃ m, fuel = m + 1 := ⟨fuel - 1, by omega⟩
      have hxW : x.WF := by
        rw [RBTree.setBlack_of_black hxc] at hW
        exact hW
      have hcol : s.color x.addr = true := by rw [h.color_addr, hxc]
      have hA0 := hA
      rw [RBPath.accepts_cons] at hA
      cases f with
      | L p cp kp sp W =>
        simp only [RBFrame.color, RBFrame.sib] at hA
        obtain ⟨hA1, hWW, hbh, hA4⟩ := hA
        obtain ⟨w, cw, kw, sw, wn, wf, rfl⟩ := RBTree.exists_node_of_blackHeight hbh
        simp only [RBPath.addr_cons, RBFrame.addr_L, RBFrame.addr_R] at hp
        have hu := h.up
        simp only [RBFrame.fill_L, RBFrame.fill_R] at hu
        have hw := hu.downR
        have epN : p ≠ NIL := hu.root_ne_nil
        have ewN : w ≠ NIL := hw.root_ne_nil
        have efar : s.right p = w := by simpa using hu.right_root
        have ecw : s.color w = cw := hw.color_root
        have hside : x.addr = s.left (s.parent x.addr) := by
          rw [hp, hu.left_root]
        rw [deleteRBFix_traced_succ, if_pos ⟨h.addr_ne_root, hcol⟩, if_pos hside]
        cases cw with
        | true =>
          have hst : ∀ k : State → Nat → Option (State × List FixEvent),
              (let sw : State × Nat × List FixEvent :=
                if s.color (s.right (s.parent x.addr)) = false then
                  (leftRotateRB ((s.setColor (s.right (s.parent x.addr)) true).setColor
                      (s.parent x.addr) false) (s.parent x.addr),
                    (leftRotateRB ((s.setColor (s.right (s.parent x.addr)) true).setColor
                      (s.parent x.addr) false) (s.parent x.addr)).right
                      ((leftRotateRB ((s.setColor (s.right (s.parent x.addr)) true).setColor
                        (s.parent x.addr) false) (s.parent x.addr)).parent x.addr),
                    [FixEvent.sibling x.addr (s.right (s.parent x.addr)),
                      FixEvent.rotateLeft
                        (((s.setColor (s.right (s.parent x.addr)) true).setColor (s.parent x.addr)
                          false).parent x.addr)
                        (((s.setColor (s.right (s.parent x.addr)) true).setColor (s.parent x.addr)
                          false).right
                          (((s.setColor (s.right (s.parent x.addr)) true).setColor
                            (s.parent x.addr) false).parent x.addr)),
                      FixEvent.sibling x.addr
                        ((leftRotateRB ((s.setColor (s.right (s.parent x.addr)) true).setColor
                          (s.parent x.addr) false) (s.parent x.addr)).right
                          ((leftRotateRB ((s.setColor (s.right (s.parent x.addr)) true).setColor
                            (s.parent x.addr) false) (s.parent x.addr)).parent x.addr))])
                else (s, s.right (s.parent x.addr),
                  [FixEvent.sibling x.addr (s.right (s.parent x.addr))])
              FixEvent.before sw.2.2 (deleteRBFix.tracedTailL k sw.1 x.addr sw.2.1)) =
              FixEvent.before [FixEvent.sibling x.addr w] (deleteRBFix.tracedTailL k s x.addr w) := by
            intro k
            simp [hp, efar, ecw]
          rw [hst]
          exact (deleteRBFix_traced_tailL fuel h hp hxW hA0
            (fun _ s1 X a b c d => ih s1 X (fuel + 1) a b c d (by omega))).before
            (by simp [FixEvent.Real, ewN])
        | false =>
          have hcp : cp = true := by
            cases cp with
            | true => rfl
            | false => exact absurd (hA1 rfl).2 (by simp)
          subst hcp
          simp only [RBTree.wf_node, RBTree.blackHeight_node, if_true] at hWW hbh hA4
          obtain ⟨hWc, hWb, hnW, hfW⟩ := hWW
          have hnb : wn.blackHeight = x.blackHeight + 1 := by
            first | omega | (simp only [Bool.false_eq_true, if_false] at hbh hWb; omega)
          have hfb : wf.blackHeight = x.blackHeight + 1 := by
            first | omega | (simp only [Bool.false_eq_true, if_false] at hbh hWb; omega)
          obtain ⟨a, ca, ka, sa, al, ar, rfl⟩ := RBTree.exists_node_of_blackHeight hnb
          have hca : ca = true := by simpa using (hWc trivial).1
          subst hca
          have h1 := (hw.setColor_root true).up.setColor_root false
          simp only [RBFrame.fill_L, RBFrame.fill_R] at h1
          have h2 := h1.leftRotate
          have h3 := h2.downL.downL
          have efar3 : (leftRotateRB ((s.setColor w true).setColor p false) p).right p = a := by
            simpa using h2.downL.right_root
          have hp3 : (leftRotateRB ((s.setColor w true).setColor p false) p).parent x.addr = p := by
            cases x with
            | nil =>
              rw [RBTree.addr_nil, leftRotateRB_parent_nil _ _ epN (by simpa [efar] using ewN)]
              simpa using hp
            | node a c k sz l r => simpa using h3.parent_root
          have hst : ∀ k : State → Nat → Option (State × List FixEvent),
              (let sw : State × Nat × List FixEvent :=
                if s.color (s.right (s.parent x.addr)) = false then
                  (leftRotateRB ((s.setColor (s.right (s.parent x.addr)) true).setColor
                      (s.parent x.addr) false) (s.parent x.addr),
                    (leftRotateRB ((s.setColor (s.right (s.parent x.addr)) true).setColor
                      (s.parent x.addr) false) (s.parent x.addr)).right
                      ((leftRotateRB ((s.setColor (s.right (s.parent x.addr)) true).setColor
                        (s.parent x.addr) false) (s.parent x.addr)).parent x.addr),
                    [FixEvent.sibling x.addr (s.right (s.parent x.addr)),
                      FixEvent.rotateLeft
                        (((s.setColor (s.right (s.parent x.addr)) true).setColor (s.parent x.addr)
                          false).parent x.addr)
                        (((s.setColor (s.right (s.parent x.addr)) true).setColor (s.parent x.addr)
                          false).right
                          (((s.setColor (s.right (s.parent x.addr)) true).setColor
                            (s.parent x.addr) false).parent x.addr)),
                      FixEvent.sibling x.addr
                        ((leftRotateRB ((s.setColor (s.right (s.parent x.addr)) true).setColor
                          (s.parent x.addr) false) (s.parent x.addr)).right
                          ((leftRotateRB ((s.setColor (s.right (s.parent x.addr)) true).setColor
                            (s.parent x.addr) false) (s.parent x.addr)).parent x.addr))])
                else (s, s.right (s.parent x.addr),
                  [FixEvent.sibling x.addr (s.right (s.parent x.addr))])
              FixEvent.before sw.2.2 (deleteRBFix.tracedTailL k sw.1 x.addr sw.2.1)) =
              FixEvent.before [FixEvent.sibling x.addr w, FixEvent.rotateLeft p w,
                  FixEvent.sibling x.addr a]
                (deleteRBFix.tracedTailL k (leftRotateRB ((s.setColor w true).setColor p false) p)
                  x.addr a) := by
            intro k
            simp [hp, efar, ecw, hp3, efar3]
          rw [hst]
          have hpost := deleteRBFix_traced_tailL fuel h3 hp3 hxW
            (by
              simp only [RBPath.accepts_cons, RBFrame.color, RBFrame.sib, RBTree.wf_node,
                RBTree.blackHeight_node, RBTree.color0_node] at hnW hnb hfb ⊢
              refine ⟨by simp, ⟨by simp, hnW.2.1, hnW.2.2.1, hnW.2.2.2⟩, ?_, by simp, hfW, ?_, ?_⟩
              · first | omega | (simp only [if_true] at hnb ⊢; omega)
              · first | omega | (simp only [Bool.false_eq_true, if_false]; omega)
              · simp only [Bool.false_eq_true, if_false, if_true, Nat.add_zero]
                exact hA4)
            (fun hc => absurd hc (by simp))
          have haN : a ≠ NIL := h2.downL.downR.root_ne_nil
          exact hpost.before (by simp [FixEvent.Real, ewN, epN, haN])
      | R p cp kp sp W =>
        simp only [RBFrame.color, RBFrame.sib] at hA
        obtain ⟨hA1, hWW, hbh, hA4⟩ := hA
        obtain ⟨w, cw, kw, sw, wf, wn, rfl⟩ := RBTree.exists_node_of_blackHeight hbh
        simp only [RBPath.addr_cons, RBFrame.addr_L, RBFrame.addr_R] at hp
        have hu := h.up
        simp only [RBFrame.fill_L, RBFrame.fill_R] at hu
        have hw := hu.downL
        have epN : p ≠ NIL := hu.root_ne_nil
        have ewN : w ≠ NIL := hw.root_ne_nil
        have efar : s.left p = w := by simpa using hu.left_root
        have ecw : s.color w = cw := hw.color_root
        have hside : ¬ x.addr = s.left (s.parent x.addr) := by
          rw [hp, hu.left_root]
          simpa using h.addr_ne_sib (by simp [RBFrame.sib])
        rw [deleteRBFix_traced_succ, if_pos ⟨h.addr_ne_root, hcol⟩, if_neg hside]
        cases cw with
        | true =>
          have hst : ∀ k : State → Nat → Option (State × List FixEvent),
              (let sw : State × Nat × List FixEvent :=
                if s.color (s.left (s.parent x.addr)) = false then
                  (rightRotateRB ((s.setColor (s.left (s.parent x.addr)) true).setColor
                      (s.parent x.addr) false) (s.parent x.addr),
                    (rightRotateRB ((s.setColor (s.left (s.parent x.addr)) true).setColor
                      (s.parent x.addr) false) (s.parent x.addr)).left
                      ((rightRotateRB ((s.setColor (s.left (s.parent x.addr)) true).setColor
                        (s.parent x.addr) false) (s.parent x.addr)).parent x.addr),
                    [FixEvent.sibling x.addr (s.left (s.parent x.addr)),
                      FixEvent.rotateRight
                        (((s.setColor (s.left (s.parent x.addr)) true).setColor (s.parent x.addr)
                          false).parent x.addr)
                        (((s.setColor (s.left (s.parent x.addr)) true).setColor (s.parent x.addr)
                          false).left
                          (((s.setColor (s.left (s.parent x.addr)) true).setColor
                            (s.parent x.addr) false).parent x.addr)),
                      FixEvent.sibling x.addr
                        ((rightRotateRB ((s.setColor (s.left (s.parent x.addr)) true).setColor
                          (s.parent x.addr) false) (s.parent x.addr)).left
                          ((rightRotateRB ((s.setColor (s.left (s.parent x.addr)) true).setColor
                            (s.parent x.addr) false) (s.parent x.addr)).parent x.addr))])
                else (s, s.left (s.parent x.addr),
                  [FixEvent.sibling x.addr (s.left (s.parent x.addr))])
              FixEvent.before sw.2.2 (deleteRBFix.tracedTailR k sw.1 x.addr sw.2.1)) =
              FixEvent.before [FixEvent.sibling x.addr w] (deleteRBFix.tracedTailR k s x.addr w) := by
            intro k
            simp [hp, efar, ecw]
          rw [hst]
          exact (deleteRBFix_traced_tailR fuel h hp hxW hA0
            (fun _ s1 X a b c d => ih s1 X (fuel + 1) a b c d (by omega))).before
            (by simp [FixEvent.Real, ewN])
        | false =>
          have hcp : cp = true := by
            cases cp with
            | true => rfl
            | false => exact absurd (hA1 rfl).2 (by simp)
          subst hcp
          simp only [RBTree.wf_node, RBTree.blackHeight_node, if_true] at hWW hbh hA4
          obtain ⟨hWc, hWb, hfW, hnW⟩ := hWW
          have hnb : wn.blackHeight = x.blackHeight + 1 := by
            first | omega | (simp only [Bool.false_eq_true, if_false] at hbh hWb; omega)
          have hfb : wf.blackHeight = x.blackHeight + 1 := by
            first | omega | (simp only [Bool.false_eq_true, if_false] at hbh hWb; omega)
          obtain ⟨a, ca, ka, sa, ar, al, rfl⟩ := RBTree.exists_node_of_blackHeight hnb
          have hca : ca = true := by simpa using (hWc trivial).2
          subst hca
          have h1 := (hw.setColor_root true).up.setColor_root false
          simp only [RBFrame.fill_L, RBFrame.fill_R] at h1
          have h2 := h1.rightRotate
          have h3 := h2.downR.downR
          have efar3 : (rightRotateRB ((s.setColor w true).setColor p false) p).left p = a := by
            simpa using h2.downR.left_root
          have hp3 : (rightRotateRB ((s.setColor w true).setColor p false) p).parent x.addr = p := by
            cases x with
            | nil =>
              rw [RBTree.addr_nil, rightRotateRB_parent_nil _ _ epN (by simpa [efar] using ewN)]
              simpa using hp
            | node a c k sz l r => simpa using h3.parent_root
          have hst : ∀ k : State → Nat → Option (State × List FixEvent),
              (let sw : State × Nat × List FixEvent :=
                if s.color (s.left (s.parent x.addr)) = false then
                  (rightRotateRB ((s.setColor (s.left (s.parent x.addr)) true).setColor
                      (s.parent x.addr) false) (s.parent x.addr),
                    (rightRotateRB ((s.setColor (s.left (s.parent x.addr)) true).setColor
                      (s.parent x.addr) false) (s.parent x.addr)).left
                      ((rightRotateRB ((s.setColor (s.left (s.parent x.addr)) true).setColor
                        (s.parent x.addr) false) (s.parent x.addr)).parent x.addr),
                    [FixEvent.sibling x.addr (s.left (s.parent x.addr)),
                      FixEvent.rotateRight
                        (((s.setColor (s.left (s.parent x.addr)) true).setColor (s.parent x.addr)
                          false).parent x.addr)
                        (((s.setColor (s.left (s.parent x.addr)) true).setColor (s.parent x.addr)
                          false).left
                          (((s.setColor (s.left (s.parent x.addr)) true).setColor
                            (s.parent x.addr) false).parent x.addr)),
                      FixEvent.sibling x.addr
                        ((rightRotateRB ((s.setColor (s.left (s.parent x.addr)) true).setColor
                          (s.parent x.addr) false) (s.parent x.addr)).left
                          ((rightRotateRB ((s.setColor (s.left (s.parent x.addr)) true).setColor
                            (s.parent x.addr) false) (s.parent x.addr)).parent x.addr))])
                else (s, s.left (s.parent x.addr),
                  [FixEvent.sibling x.addr (s.left (s.parent x.addr))])
              FixEvent.before sw.2.2 (deleteRBFix.tracedTailR k sw.1 x.addr sw.2.1)) =
              FixEvent.before [FixEvent.sibling x.addr w, FixEvent.rotateRight p w,
                  FixEvent.sibling x.addr a]
                (deleteRBFix.tracedTailR k (rightRotateRB ((s.setColor w true).setColor p false) p)
                  x.addr a) := by
            intro k
            simp [hp, efar, ecw, hp3, efar3]
          rw [hst]
          have hpost := deleteRBFix_traced_tailR fuel h3 hp3 hxW
            (by
              simp only [RBPath.accepts_cons, RBFrame.color, RBFrame.sib, RBTree.wf_node,
                RBTree.blackHeight_node, RBTree.color0_node] at hnW hnb hfb ⊢
              refine ⟨by simp, ⟨by simp, hnW.2.1, hnW.2.2.1, hnW.2.2.2⟩, ?_, by simp, hfW, ?_, ?_⟩
              · first | omega | (simp only [if_true] at hnb ⊢; omega)
              · first | omega | (simp only [Bool.false_eq_true, if_false]; omega)
              · simp only [Bool.false_eq_true, if_false, if_true, Nat.add_zero]
                exact hA4)
            (fun hc => absurd hc (by simp))
          have haN : a ≠ NIL := h2.downR.downL.root_ne_nil
          exact hpost.before (by simp [FixEvent.Real, ewN, epN, haN])

/-! ## Dynamic tree: the record of `deleteRB` -/

/-- The traced tail of `deleteRB` after the splice returns, and every node the
fixup dereferences is real. -/
theorem deleteRB_tracedFinish_spec {s : State} {x : RBTree} {cs : RBPath} (c : Bool) (fuel : Nat)
    (h : ShapeZ s x cs) (hp : s.parent x.addr = RBPath.addr cs NIL) (hxW : x.WF)
    (hA : RBPath.Accepts cs c (x.blackHeight + (if c then 1 else 0)))
    (hf : cs.length < fuel) :
    TracePost (deleteRB.tracedFinish fuel s x.addr c) := by
  obtain ⟨s2, r1, r2, r3, r4, r5⟩ := deleteRB_repair_spec cs x s fuel h hf
  have hst : deleteRB.tracedFinish fuel s x.addr c =
      if c = true then deleteRBFix.traced fuel s2 x.addr else some (s2, []) := by
    simp only [deleteRB.tracedFinish, hp, r1]
  rw [hst]
  cases c with
  | false => exact ⟨s2, [], by simp, by simp⟩
  | true =>
    simpa using deleteRBFix_traced_spec (RBPath.decSizes cs) s2 x fuel r2
      (by rw [r3, hp, RBPath.addr_decSizes]) (RBTree.WF.blacken hxW)
      (by rw [RBPath.accepts_decSizes]; simpa using hA) (by simpa using hf)

/-- The traced tail computes the state `deleteRB.finish` computes. -/
theorem deleteRB_tracedFinish_fst (fuel : Nat) (s : State) (x : Nat) (c : Bool)
    (hfix : ∀ s1 x1, (deleteRBFix.traced fuel s1 x1).map Prod.fst = deleteRBFix fuel s1 x1) :
    (deleteRB.tracedFinish fuel s x c).map Prod.fst = deleteRB.finish fuel s x c := by
  unfold deleteRB.tracedFinish deleteRB.finish
  cases deleteRB.repair fuel s (s.parent x) with
  | none => rfl
  | some s1 =>
    cases c with
    | false => rfl
    | true => simpa using hfix s1 x

/-- Traced `deleteRB` of a node without left child. -/
theorem deleteRB_traced_case_a {s : State} {z : Nat} {c : Bool} {key sz : Int} {r : RBTree}
    {cs : RBPath} (fuel : Nat) (h : ShapeZ s (.node z c key sz .nil r) cs)
    (hroot : s.root ≠ NIL) (hsearch : deleteRB.search key fuel s s.root = some z)
    (hW : (RBTree.node z c key sz .nil r).WF)
    (hA : RBPath.Accepts cs c (RBTree.node z c key sz .nil r).blackHeight)
    (hf : (RBPath.plug (.node z c key sz .nil r) cs).height ≤ fuel) :
    TracePost (deleteRB.traced fuel s key) := by
  have el : s.left z = NIL := h.left_root
  have er : s.right z = r.addr := h.right_root
  have ec : s.color z = c := h.color_root
  obtain ⟨t1, t2⟩ := h.transplant_right
  have hst : deleteRB.traced fuel s key =
      deleteRB.tracedFinish fuel ((transplantRB s z r.addr).free z) r.addr c := by
    simp only [deleteRB.traced, if_neg hroot, hsearch, el, if_true, er, ec]
  rw [hst]
  have hh := RBTree.height_plug_ge cs (.node z c key sz .nil r)
  simp only [RBTree.height] at hh
  simp only [RBTree.wf_node, RBTree.blackHeight_node, RBTree.blackHeight_nil,
    RBTree.color0_nil] at hW hA
  refine deleteRB_tracedFinish_spec c fuel (t1.free z) t2 hW.2.2.2 ?_ (by omega)
  rw [← hW.2.1]; simpa using hA

/-- Traced `deleteRB` of a node with a left child and without right child. -/
theorem deleteRB_traced_case_b {s : State} {z la : Nat} {c cl : Bool} {key sz kl sl : Int}
    {ll lr : RBTree} {cs : RBPath} (fuel : Nat)
    (h : ShapeZ s (.node z c key sz (.node la cl kl sl ll lr) .nil) cs)
    (hroot : s.root ≠ NIL) (hsearch : deleteRB.search key fuel s s.root = some z)
    (hW : (RBTree.node z c key sz (.node la cl kl sl ll lr) .nil).WF)
    (hA : RBPath.Accepts cs c (RBTree.node z c key sz (.node la cl kl sl ll lr) .nil).blackHeight)
    (hf : (RBPath.plug (.node z c key sz (.node la cl kl sl ll lr) .nil) cs).height ≤ fuel) :
    TracePost (deleteRB.traced fuel s key) := by
  have el : s.left z = la := h.left_root
  have er : s.right z = NIL := h.right_root
  have ec : s.color z = c := h.color_root
  have elN : la ≠ NIL := h.downL.root_ne_nil
  obtain ⟨t1, t2⟩ := h.transplant_left
  simp only [RBTree.addr_node] at t1 t2
  have hst : deleteRB.traced fuel s key =
      deleteRB.tracedFinish fuel ((transplantRB s z la).free z) la c := by
    simp only [deleteRB.traced, if_neg hroot, hsearch, el, if_neg elN, if_true, er, ec]
  rw [hst]
  have hh := RBTree.height_plug_ge cs (.node z c key sz (.node la cl kl sl ll lr) .nil)
  simp only [RBTree.height] at hh
  rw [RBTree.wf_node] at hW
  simp only [RBTree.blackHeight_node, RBTree.blackHeight_nil, RBTree.color0_nil,
    RBTree.color0_node] at hW hA
  refine @deleteRB_tracedFinish_spec _ (.node la cl kl sl ll lr) _ c fuel (t1.free z) t2 hW.2.2.1
    ?_ (by omega)
  simpa using hA

/-- Traced `deleteRB` of a node with two children whose successor is its right child. -/
theorem deleteRB_traced_case_c1 {s : State} {z y la : Nat} {c cy cl : Bool}
    {key sz ky sy kl sl : Int} {ll lr yr : RBTree} {cs : RBPath} (fuel : Nat)
    (h : ShapeZ s (.node z c key sz (.node la cl kl sl ll lr) (.node y cy ky sy .nil yr)) cs)
    (hroot : s.root ≠ NIL) (hsearch : deleteRB.search key fuel s s.root = some z)
    (hW : (RBTree.node z c key sz (.node la cl kl sl ll lr) (.node y cy ky sy .nil yr)).WF)
    (hA : RBPath.Accepts cs c
      (RBTree.node z c key sz (.node la cl kl sl ll lr) (.node y cy ky sy .nil yr)).blackHeight)
    (hf : (RBPath.plug (.node z c key sz (.node la cl kl sl ll lr) (.node y cy ky sy .nil yr))
      cs).height ≤ fuel) :
    TracePost (deleteRB.traced fuel s key) := by
  have hh := RBTree.height_plug_ge cs
    (.node z c key sz (.node la cl kl sl ll lr) (.node y cy ky sy .nil yr))
  simp only [RBTree.height] at hh
  obtain ⟨fuel, rfl⟩ : ∃ m, fuel = m + 1 := ⟨fuel - 1, by omega⟩
  have el : s.left z = la := h.left_root
  have er : s.right z = y := h.right_root
  have elN : la ≠ NIL := h.downL.root_ne_nil
  have eyN : y ≠ NIL := h.downR.root_ne_nil
  have ely : s.left y = NIL := h.downR.left_root
  have epy : s.parent y = z := by simpa using h.downR.parent_root
  have ecy : s.color y = cy := h.downR.color_root
  have ery : s.right y = yr.addr := h.downR.right_root
  have htm : treeMinRB (fuel + 1) s y = some y := by simp [treeMinRB, ely]
  obtain ⟨s', hs', t1, t2, t3, t4⟩ := h.replace_child_model
  have hst : deleteRB.traced (fuel + 1) s key = deleteRB.tracedFinish (fuel + 1) (s'.free z) yr.addr cy := by
    rw [← hs']
    simp only [deleteRB.traced, if_neg hroot, hsearch, el, if_neg elN, er, if_neg eyN, htm, epy,
      if_true, ecy, ery]
  rw [hst]
  simp only [RBTree.wf_node, RBTree.blackHeight_node, RBTree.blackHeight_nil,
    RBTree.color0_nil, RBTree.color0_node] at hW hA
  obtain ⟨hW1, hW2, hW3, hW4, hW5, -, hW7⟩ := hW
  refine deleteRB_tracedFinish_spec cy (fuel + 1) (t1.free z) (by simpa using t2) hW7 ?_
    (by simp only [List.length_cons]; omega)
  · rw [RBPath.accepts_cons]
    simp only [RBFrame.color, RBFrame.sib, RBTree.color0_node, RBTree.wf_node,
      RBTree.blackHeight_node]
    refine ⟨fun hc => ⟨?_, (hW1 hc).1⟩, hW3, by omega, ?_⟩
    · cases cy with
      | true => rfl
      | false => exact absurd (hW1 hc).2 (by simp)
    · have e : yr.blackHeight + (if cy = true then 1 else 0) + (if c = true then 1 else 0) =
          (RBTree.node la cl kl sl ll lr).blackHeight + (if c = true then 1 else 0) := by
        simp only [RBTree.blackHeight_node]; omega
      rw [e]
      simpa using hA

set_option maxHeartbeats 1000000 in
/-- Traced `deleteRB` of a node with two children whose successor lies deeper in the
right subtree. -/
theorem deleteRB_traced_case_c2 {s : State} {z y la : Nat} {c cy cl : Bool}
    {key sz ky sy kl sl : Int} {ll lr yr : RBTree} {f : RBFrame} {sp cs : RBPath} (fuel : Nat)
    (m3 : ShapeZ s (.node y cy ky sy .nil yr)
      (f :: sp ++ .R z c key sz (.node la cl kl sl ll lr) :: cs))
    (hroot : s.root ≠ NIL) (hsearch : deleteRB.search key fuel s s.root = some z)
    (htm : treeMinRB fuel s (s.right z) = some y)
    (hW : (RBTree.node y cy ky sy .nil yr).WF)
    (hA : RBPath.Accepts (f :: sp ++ .R z c key sz (.node la cl kl sl ll lr) :: cs) cy
      (RBTree.node y cy ky sy .nil yr).blackHeight)
    (hf : (RBPath.plug (.node y cy ky sy .nil yr)
      (f :: sp ++ .R z c key sz (.node la cl kl sl ll lr) :: cs)).height ≤ fuel) :
    TracePost (deleteRB.traced fuel s key) := by
  have hh := RBTree.height_plug_ge (f :: sp ++ .R z c key sz (.node la cl kl sl ll lr) :: cs)
    (.node y cy ky sy .nil yr)
  simp only [RBTree.height, List.length_cons, List.length_append] at hh
  -- reads in the initial state
  have hz0 := ((ShapeZ.append_iff s _ (f :: sp) _).mp m3).up
  simp only [RBFrame.fill_R] at hz0
  obtain ⟨ra0, cr0, kr0, sr0, rl0, rr0, hplug0⟩ :=
    RBTree.plug_cons_eq_node (.node y cy ky sy .nil yr) sp f
  rw [hplug0] at hz0
  have el : s.left z = la := hz0.left_root
  have er : s.right z = ra0 := hz0.right_root
  have elN : la ≠ NIL := hz0.downL.root_ne_nil
  have erN : ra0 ≠ NIL := hz0.downR.root_ne_nil
  have eyN : y ≠ NIL := m3.root_ne_nil
  have ecy : s.color y = cy := m3.color_root
  have ery : s.right y = yr.addr := m3.right_root
  have eky : s.key y = ky := m3.key_root
  have epy : s.parent y = f.addr := by simpa using m3.parent_root
  have hfz : f.addr ≠ z := by
    have hnd := m3.nodup
    simp only [List.cons_append, RBPath.addrs_cons, RBPath.addrs_append, RBFrame.addrs_R] at hnd
    have h1 : (f.addrs ++ (RBPath.addrs sp ++ (z :: (RBTree.node la cl kl sl ll lr).addrs ++
        RBPath.addrs cs))).Nodup := by
      have := (List.nodup_append.mp hnd).2.1
      simpa using this
    have h2 := (List.nodup_append.mp h1).2.2
    intro e
    refine @h2 z ?_ (by simp)
    rw [← e]
    cases f <;> simp
  rw [er] at htm
  -- the successor is cut out
  obtain ⟨t1, t2⟩ := m3.transplant_right
  have hz1 := ((ShapeZ.append_iff _ _ (f :: sp) _).mp t1).up
  simp only [RBFrame.fill_R] at hz1
  obtain ⟨ra, cr, kr, sr, rl, rr, hplug⟩ := RBTree.plug_cons_eq_node yr sp f
  rw [hplug] at hz1
  have hy : y ∉ (RBTree.node z c key sz (.node la cl kl sl ll lr)
      (.node ra cr kr sr rl rr)).addrs ++ RBPath.addrs cs := by
    intro hm
    have hp1 := RBPath.plug_addrs_perm cs (RBTree.node z c key sz (.node la cl kl sl ll lr)
      (.node ra cr kr sr rl rr))
    have hp2 := RBPath.plug_addrs_perm (f :: sp ++ .R z c key sz (.node la cl kl sl ll lr) :: cs) yr
    have e : RBPath.plug yr (f :: sp ++ .R z c key sz (.node la cl kl sl ll lr) :: cs) =
        RBPath.plug (RBTree.node z c key sz (.node la cl kl sl ll lr)
          (.node ra cr kr sr rl rr)) cs := by
      rw [RBPath.plug_append, hplug]
      rfl
    rw [e] at hp2
    have hm2 := (hp1.symm.trans hp2).subset hm
    have hnd := m3.nodup
    simp only [RBTree.addrs_node, RBTree.addrs_nil, List.nil_append, List.cons_append,
      List.nodup_cons] at hnd
    exact hnd.1 hm2
  have hya : y < (transplantRB s y yr.addr).next := by
    simpa using (m3.alloc y (by simp)).2
  obtain ⟨s', hs', t3, t4, t5, t6⟩ := hz1.replace hy eyN hya
  simp only [transplantRB_key, eky] at t3
  rw [← hplug] at t3
  have t7 := (ShapeZ.append_iff _ _ (f :: sp) _).mpr t3.downR
  have hp7 : s'.parent yr.addr =
      RBPath.addr (f :: sp ++ .R y c ky sz (.node la cl kl sl ll lr) :: cs) NIL := by
    cases yr with
    | nil =>
      rw [RBTree.addr_nil, t4]
      simpa using t2
    | node a c k sz l r => exact t7.parent_root
  have hst : deleteRB.traced fuel s key = deleteRB.tracedFinish fuel (s'.free z) yr.addr cy := by
    rw [← hs']
    simp only [deleteRB.traced, if_neg hroot, hsearch, el, if_neg elN, er, if_neg erN, htm, epy,
      if_neg hfz, ecy, ery]
  rw [hst]
  simp only [RBTree.wf_node, RBTree.blackHeight_node, RBTree.blackHeight_nil,
    RBTree.color0_nil] at hW hA
  refine deleteRB_tracedFinish_spec cy fuel (t7.free z) (by simpa using hp7) hW.2.2.2 ?_
    (by simp only [List.length_cons, List.length_append] at hh ⊢; omega)
  · rw [← hW.2.1]
    exact (RBPath.accepts_append_R z y c key ky sz _ cs (f :: sp) _ _).mp (by simpa using hA)

/-- The traced `deleteRB` of a stored key on a valid tree returns, and every node
its fixup dereferences is real. -/
theorem deleteRB_traced_spec {s : State} {T : RBTree} (key : Int) (fuel : Nat) (h : Shape s T)
    (hB : T.BST) (hR : T.RedBlack) (hk : key ∈ T.keys) (hf : T.height ≤ fuel) :
    TracePost (deleteRB.traced fuel s key) := by
  obtain ⟨⟨t', cs⟩, hfind⟩ := RBPath.find_isSome key T [] hB hk
  obtain ⟨hplug, ⟨z, c, sz, l, r, rfl⟩, -⟩ := RBPath.find_plug key T [] t' cs hfind
  simp only [RBPath.plug_nil] at hplug
  obtain ⟨hsearch, hz⟩ := deleteRB_search_spec key T [] s fuel _ cs h.toZ hfind (by omega)
  rw [← h.root] at hsearch
  simp only [RBTree.addr_node] at hsearch
  have hroot : s.root ≠ NIL := by
    rw [hz.root]
    cases cs with
    | nil => exact hz.root_ne_nil
    | cons f cs =>
      exact (hz.alloc _ (List.mem_append_right _ (RBPath.rootAddr_mem cs f _))).1
  have hR' := hR
  rw [← hplug, RBPath.redBlack_plug] at hR'
  obtain ⟨hW, hA⟩ := hR'
  simp only [RBTree.color0_node] at hA
  have hh := RBTree.height_plug_ge cs (.node z c key sz l r)
  rw [hplug] at hh
  simp only [RBTree.height] at hh
  cases l with
  | nil => exact deleteRB_traced_case_a fuel hz hroot hsearch hW hA (by rw [hplug]; exact hf)
  | node la cl kl sl ll lr =>
    cases r with
    | nil => exact deleteRB_traced_case_b fuel hz hroot hsearch hW hA (by rw [hplug]; exact hf)
    | node ra cr kr sr rl rr =>
      obtain ⟨y, cy, ky, sy, yr, -, m2, m3, m4⟩ := treeMinRB_spec (.node ra cr kr sr rl rr)
        (.R z c key sz (.node la cl kl sl ll lr) :: cs) s fuel (by simp) hz.downR (by omega)
      cases hsp : RBPath.minSpine (.node ra cr kr sr rl rr) with
      | nil =>
        rw [hsp] at m4
        simp only [RBPath.plug_nil] at m4
        rw [← m4] at hz hW hA hplug
        exact deleteRB_traced_case_c1 fuel hz hroot hsearch hW hA (by rw [hplug]; exact hf)
      | cons f sp =>
        rw [hsp] at m3 m4
        have hplug2 : RBPath.plug (.node y cy ky sy .nil yr)
            (f :: sp ++ .R z c key sz (.node la cl kl sl ll lr) :: cs) = T := by
          rw [RBPath.plug_append, m4]
          exact hplug
        have hR2 := hR
        rw [← hplug2, RBPath.redBlack_plug] at hR2
        have htm : treeMinRB fuel s (s.right z) = some y := by
          rw [hz.right_root]
          exact m2
        exact deleteRB_traced_case_c2 fuel m3 hroot hsearch htm hR2.1
          (by simpa using hR2.2) (by rw [hplug2]; exact hf)

/-! ## The traced functions compute what the functions of `rb.cpp` compute -/

theorem deleteRBFix_tracedCase4L_fst (k : State → Nat → Option State)
    (k' : State → Nat → Option (State × List FixEvent))
    (hk : ∀ s x, (k' s x).map Prod.fst = k s x) (s : State) (x w : Nat) :
    (deleteRBFix.tracedCase4L k' s x w).map Prod.fst = deleteRBFix.case4L k s x w := by
  unfold deleteRBFix.tracedCase4L deleteRBFix.case4L
  simp only [FixEvent.before_fst, hk]

theorem deleteRBFix_tracedCase4R_fst (k : State → Nat → Option State)
    (k' : State → Nat → Option (State × List FixEvent))
    (hk : ∀ s x, (k' s x).map Prod.fst = k s x) (s : State) (x w : Nat) :
    (deleteRBFix.tracedCase4R k' s x w).map Prod.fst = deleteRBFix.case4R k s x w := by
  unfold deleteRBFix.tracedCase4R deleteRBFix.case4R
  simp only [FixEvent.before_fst, hk]

theorem deleteRBFix_tracedTailL_fst (k : State → Nat → Option State)
    (k' : State → Nat → Option (State × List FixEvent))
    (hk : ∀ s x, (k' s x).map Prod.fst = k s x) (s : State) (x w : Nat) :
    (deleteRBFix.tracedTailL k' s x w).map Prod.fst = deleteRBFix.tailL k s x w := by
  unfold deleteRBFix.tracedTailL deleteRBFix.tailL
  by_cases h1 : s.color (s.left w) = true ∧ s.color (s.right w) = true
  · simp only [if_pos h1, hk]
  · by_cases h2 : s.color (s.right w) = true
    · simp only [if_neg h1, if_pos h2, FixEvent.before_fst,
        deleteRBFix_tracedCase4L_fst k k' hk]
    · simp only [if_neg h1, if_neg h2, FixEvent.before_fst,
        deleteRBFix_tracedCase4L_fst k k' hk]

theorem deleteRBFix_tracedTailR_fst (k : State → Nat → Option State)
    (k' : State → Nat → Option (State × List FixEvent))
    (hk : ∀ s x, (k' s x).map Prod.fst = k s x) (s : State) (x w : Nat) :
    (deleteRBFix.tracedTailR k' s x w).map Prod.fst = deleteRBFix.tailR k s x w := by
  unfold deleteRBFix.tracedTailR deleteRBFix.tailR
  by_cases h1 : s.color (s.left w) = true ∧ s.color (s.right w) = true
  · simp only [if_pos h1, hk]
  · by_cases h2 : s.color (s.left w) = true
    · simp only [if_neg h1, if_pos h2, FixEvent.before_fst,
        deleteRBFix_tracedCase4R_fst k k' hk]
    · simp only [if_neg h1, if_neg h2, FixEvent.before_fst,
        deleteRBFix_tracedCase4R_fst k k' hk]

/-- The traced loop computes the state `deleteRBFix` computes. -/
theorem deleteRBFix_traced_fst : ∀ (fuel : Nat) (s : State) (x : Nat),
    (deleteRBFix.traced fuel s x).map Prod.fst = deleteRBFix fuel s x
  | 0, _, _ => rfl
  | fuel + 1, s, x => by
    have ih := deleteRBFix_traced_fst fuel
    rw [deleteRBFix_traced_succ, deleteRBFix_succ]
    by_cases h1 : x ≠ s.root ∧ s.color x = true
    · by_cases h2 : x = s.left (s.parent x)
      · by_cases h3 : s.color (s.right (s.parent x)) = false
        · simp only [if_pos h1, if_pos h2, if_pos h3, FixEvent.before_fst,
            deleteRBFix_tracedTailL_fst (deleteRBFix fuel) (deleteRBFix.traced fuel) ih]
        · simp only [if_pos h1, if_pos h2, if_neg h3, FixEvent.before_fst,
            deleteRBFix_tracedTailL_fst (deleteRBFix fuel) (deleteRBFix.traced fuel) ih]
      · by_cases h3 : s.color (s.left (s.parent x)) = false
        · simp only [if_pos h1, if_neg h2, if_pos h3, FixEvent.before_fst,
            deleteRBFix_tracedTailR_fst (deleteRBFix fuel) (deleteRBFix.traced fuel) ih]
        · simp only [if_pos h1, if_neg h2, if_neg h3, FixEvent.before_fst,
            deleteRBFix_tracedTailR_fst (deleteRBFix fuel) (deleteRBFix.traced fuel) ih]
    · simp only [if_neg h1, Option.map_some']

/-- The traced `deleteRB` computes the state `deleteRB` computes. -/
theorem deleteRB_traced_fst (fuel : Nat) (s : State) (key : Int) :
    (deleteRB.traced fuel s key).map Prod.fst = deleteRB fuel s key := by
  have hfin := fun s1 x c =>
    deleteRB_tracedFinish_fst fuel s1 x c (deleteRBFix_traced_fst fuel)
  unfold deleteRB.traced deleteRB
  by_cases h1 : s.root = NIL
  · simp only [if_pos h1, Option.map_some']
  · simp only [if_neg h1]
    cases deleteRB.search key fuel s s.root with
    | none => rfl
    | some z =>
      simp only
      by_cases h2 : s.left z = NIL
      · simp only [if_pos h2, hfin]
      · by_cases h3 : s.right z = NIL
        · simp only [if_neg h2, if_pos h3, hfin]
        · simp only [if_neg h2, if_neg h3]
          cases treeMinRB fuel s (s.right z) with
          | none => rfl
          | some y => simp only [hfin]

/-! ## Consequences of the shape of a record of `insertRBFix` -/

theorem InsertFixLog.real {log : List FixEvent} (h : InsertFixLog log) : ∀ e ∈ log, e.Real := by
  obtain ⟨steps, last, rfl, h1, h2⟩ := h
  intro e he
  rcases List.mem_append.mp he with he | he
  · exact (h1 e he).2
  · rcases h2 with rfl | ⟨z, g, z1, rots, rfl, hg, -, -, h3⟩
    · simp at he
    · simp only [List.cons_append, List.mem_cons, List.mem_append, List.mem_singleton,
        List.not_mem_nil, or_false] at he
      rcases he with rfl | he | rfl
      · exact hg
      · exact (h3 e he).2
      · trivial

theorem InsertFixLog.rotations_le {log : List FixEvent} (h : InsertFixLog log) :
    (log.filter FixEvent.isRotate).length ≤ 2 := by
  obtain ⟨steps, last, rfl, h1, h2⟩ := h
  have e1 : steps.filter FixEvent.isRotate = [] := by
    rw [List.filter_eq_nil_iff]
    intro e he
    have := (h1 e he).1
    cases e <;> simp_all [FixEvent.isRotate, FixEvent.isRecolorStep]
  rw [List.filter_append, e1, List.nil_append]
  rcases h2 with rfl | ⟨z, g, z1, rots, rfl, -, -, h4, h3⟩
  · simp
  · have e2 : rots.filter FixEvent.isRotate = rots := by
      rw [List.filter_eq_self]
      intro e he
      exact (h3 e he).1
    simp only [List.cons_append, List.filter_cons, FixEvent.isRotate, Bool.false_eq_true,
      if_false, List.filter_append, e2, List.filter_nil, List.append_nil]
    exact h4

/-- An iteration of the black-uncle branch ends the record, with the parent of the
tracked node black. -/
theorem InsertFixLog.uncleBlack_last {log : List FixEvent} (h : InsertFixLog log)
    (pre post : List FixEvent) (z : Nat) (c : Bool)
    (he : log = pre ++ FixEvent.uncleBlackEnd z c :: post) : c = true ∧ post = [] := by
  obtain ⟨steps, last, rfl, h1, h2⟩ := h
  rcases h2 with rfl | ⟨z0, g, z1, rots, rfl, -, -, -, h3⟩
  · have hm : FixEvent.uncleBlackEnd z c ∈ steps := by
      rw [List.append_nil] at he
      rw [he]
      simp
    have := (h1 _ hm).1
    simp [FixEvent.isRecolorStep] at this
  · have hno : ∀ e ∈ steps ++ FixEvent.grandparent z0 g :: rots,
        ∀ z2 c2, e ≠ FixEvent.uncleBlackEnd z2 c2 := by
      intro e hm z2 c2 heq
      subst heq
      simp only [List.mem_append, List.mem_cons] at hm
      rcases hm with hm | hm | hm
      · have := (h1 _ hm).1
        simp [FixEvent.isRecolorStep] at this
      · cases hm
      · have := (h3 _ hm).1
        simp [FixEvent.isRotate] at this
    have he' : (steps ++ FixEvent.grandparent z0 g :: rots) ++ [FixEvent.uncleBlackEnd z1 true] =
        pre ++ FixEvent.uncleBlackEnd z c :: post := by
      rw [← he]
      simp
    rcases List.append_eq_append_iff.mp he' with ⟨a', ha1, ha2⟩ | ⟨c', hc1, hc2⟩
    · -- pre = front ++ a', [last] = a' ++ e :: post
      cases a' with
      | nil =>
        simp only [List.nil_append, List.cons.injEq, FixEvent.uncleBlackEnd.injEq] at ha2
        exact ⟨ha2.1.2.symm, ha2.2.symm⟩
      | cons b bs =>
        have := congrArg List.length ha2
        simp at this
    · cases c' with
      | nil =>
        simp only [List.nil_append, List.cons.injEq, FixEvent.uncleBlackEnd.injEq] at hc2
        exact ⟨hc2.1.2, hc2.2⟩
      | cons b bs =>
        simp only [List.cons_append, List.cons.injEq] at hc2
        have hm : FixEvent.uncleBlackEnd z c ∈ steps ++ FixEvent.grandparent z0 g :: rots := by
          rw [hc1, ← hc2.1]
          simp
        exact absurd rfl (hno _ hm z c)

/-! ## The record of `insertRB` -/

/-- The traced `insertRB` on a tree with the Red-Black properties returns, and its
record has the shape `InsertFixLog`. -/
theorem insertRB_traced_spec {s : State} {T : RBTree} (key : Int) (fuel : Nat) (h : Shape s T)
    (hR : T.RedBlack) (hf : T.height < fuel) :
    ∃ s' log, insertRB.traced fuel s key = some (s', log) ∧ InsertFixLog log := by
  obtain ⟨s1, d1, d2, d3, d4⟩ := insertRB_descend_spec key T [] s fuel h.toZ hf
  obtain ⟨s2, l1, l2, l3, l4⟩ := insertRB_link_spec key s1 _ d2 (RBPath.dir_ins key T [] trivial)
  have hlen := RBPath.length_ins key T []
  simp only [List.length_nil, Nat.add_zero] at hlen
  obtain ⟨s', log, r1, r2, -⟩ := insertRBFix_traced_spec _ _ s2 s1.next key 1 .nil .nil
    fuel (le_refl _) l2
    (by simp [RBTree.wf_node])
    (by
      simp only [RBTree.blackHeight_node, RBTree.blackHeight_nil, Bool.false_eq_true, if_false]
      exact RBPath.accepts_ins key T [] ⟨hR.2.1, hR.2.2⟩ (by simpa using hR.1))
    (by omega)
  refine ⟨s', log, ?_, r2⟩
  unfold insertRB.traced
  simp only [RBPath.addr_empty] at d1
  rw [← h.root] at d1
  rw [d1]
  simp only
  simp only [RBPath.addr_empty] at l1
  rw [l1]
  exact r1

/-! ## The instrumented functions of `main.cpp` compute what `rb.cpp` computes -/

theorem mainCpp_leftRotateRB_fst {P : Type} (cnt : OpKind → Nat → P → P) (s : State) (p : P)
    (x : Nat) : (MainCpp.leftRotateRB cnt s p x).1 = leftRotateRB s x := by
  simp only [MainCpp.leftRotateRB, leftRotateRB, apply_ite Prod.fst]

theorem mainCpp_rightRotateRB_fst {P : Type} (cnt : OpKind → Nat → P → P) (s : State) (p : P)
    (x : Nat) : (MainCpp.rightRotateRB cnt s p x).1 = rightRotateRB s x := by
  simp only [MainCpp.rightRotateRB, rightRotateRB, apply_ite Prod.fst]

theorem mainCpp_transplantRB_fst {P : Type} (cnt : OpKind → Nat → P → P) (s : State) (p : P)
    (u v : Nat) : (MainCpp.transplantRB cnt s p u v).1 = transplantRB s u v := by
  simp only [MainCpp.transplantRB, transplantRB, apply_ite Prod.fst]

theorem mainCpp_insertRBFix_loop {P : Type} (cnt : OpKind → Nat → P → P) :
    ∀ (fuel : Nat) (s : State) (p : P) (z : Nat),
      (MainCpp.insertRBFix.loop cnt fuel s p z).map (fun r => r.1.setColor r.1.root true) =
        insertRBFix fuel s z
  | 0, _, _, _ => rfl
  | fuel + 1, s, p, z => by
    have ih := mainCpp_insertRBFix_loop cnt fuel
    unfold MainCpp.insertRBFix.loop insertRBFix
    by_cases h1 : s.color (s.parent z) = false
    · by_cases h2 : s.parent z = s.left (s.parent (s.parent z))
      · by_cases h3 : s.color (s.right (s.parent (s.parent z))) = false
        · simp only [if_pos h1, if_pos h2, if_pos h3, ih]
        · by_cases h4 : z = s.right (s.parent z)
          · simp only [if_pos h1, if_pos h2, if_neg h3, if_pos h4, ih,
              mainCpp_leftRotateRB_fst, mainCpp_rightRotateRB_fst]
          · simp only [if_pos h1, if_pos h2, if_neg h3, if_neg h4, ih,
              mainCpp_leftRotateRB_fst, mainCpp_rightRotateRB_fst]
      · by_cases h3 : s.color (s.left (s.parent (s.parent z))) = false
        · simp only [if_pos h1, if_neg h2, if_pos h3, ih]
        · by_cases h4 : z = s.left (s.parent z)
          · simp only [if_pos h1, if_neg h2, if_neg h3, if_pos h4, ih,
              mainCpp_leftRotateRB_fst, mainCpp_rightRotateRB_fst]
          · simp only [if_pos h1, if_neg h2, if_neg h3, if_neg h4, ih,
              mainCpp_leftRotateRB_fst, mainCpp_rightRotateRB_fst]
    · simp only [if_neg h1, Option.map_some']

theorem mainCpp_insertRBFix_fst {P : Type} (cnt : OpKind → Nat → P → P) (fuel : Nat) (s : State)
    (p : P) (z : Nat) :
    (MainCpp.insertRBFix cnt fuel s p z).map Prod.fst = insertRBFix fuel s z := by
  rw [← mainCpp_insertRBFix_loop cnt fuel s (cnt .comp 1 p) z]
  simp only [MainCpp.insertRBFix]
  cases MainCpp.insertRBFix.loop cnt fuel s (cnt .comp 1 p) z with
  | none => rfl
  | some r => rfl

theorem mainCpp_insertRB_descend {P : Type} (cnt : OpKind → Nat → P → P) (key : Int) :
    ∀ (fuel : Nat) (s : State) (p : P) (y x : Nat),
      (MainCpp.insertRB.descend cnt key fuel s p y x).map (fun r => (r.1, r.2.2)) =
        insertRB.descend key fuel s y x
  | 0, _, _, _, _ => rfl
  | fuel + 1, s, p, y, x => by
    have ih := mainCpp_insertRB_descend cnt key fuel
    unfold MainCpp.insertRB.descend insertRB.descend
    by_cases h1 : x ≠ NIL
    · by_cases h2 : key < (s.setSize x (s.size x + 1)).key x
      · simp only [if_pos h1, if_pos h2, ih]
      · simp only [if_pos h1, if_neg h2, ih]
    · simp only [if_neg h1, Option.map_some']

theorem mainCpp_insertRB_fst {P : Type} (cnt : OpKind → Nat → P → P) (fuel : Nat) (s : State)
    (p : P) (key : Int) :
    (MainCpp.insertRB cnt fuel s p key).map Prod.fst = insertRB fuel s key := by
  simp only [MainCpp.insertRB, insertRB]
  rw [← mainCpp_insertRB_descend cnt key fuel s (cnt .comp 1 p) NIL s.root]
  cases MainCpp.insertRB.descend cnt key fuel s (cnt .comp 1 p) NIL s.root with
  | none => rfl
  | some r =>
    simp only [Option.map_some', mainCpp_insertRBFix_fst, apply_ite Prod.fst]

theorem mainCpp_treeMinRB_fst {P : Type} (cnt : OpKind → Nat → P → P) :
    ∀ (fuel : Nat) (s : State) (p : P) (root : Nat),
      (MainCpp.treeMinRB cnt fuel s p root).map Prod.fst = treeMinRB fuel s root
  | 0, _, _, _ => rfl
  | fuel + 1, s, p, root => by
    have ih := mainCpp_treeMinRB_fst cnt fuel
    unfold MainCpp.treeMinRB treeMinRB
    by_cases h1 : s.left root ≠ NIL
    · simp only [if_pos h1, ih]
    · simp only [if_neg h1, Option.map_some']

theorem mainCpp_deleteRBFix_loop {P : Type} (cnt : OpKind → Nat → P → P) :
    ∀ (fuel : Nat) (s : State) (p : P) (x : Nat),
      (MainCpp.deleteRBFix.loop cnt fuel s p x).map (fun r => r.1.setColor r.2.2 true) =
        deleteRBFix fuel s x
  | 0, _, _, _ => rfl
  | fuel + 1, s, p, x => by
    have ih := mainCpp_deleteRBFix_loop cnt fuel
    simp only [MainCpp.deleteRBFix.loop, deleteRBFix, apply_ite Prod.fst, apply_ite Prod.snd,
      apply_ite (Option.map (fun r : State × P × Nat => r.1.setColor r.2.2 true)), ih,
      mainCpp_leftRotateRB_fst, mainCpp_rightRotateRB_fst, Option.map_some']

theorem mainCpp_deleteRBFix_fst {P : Type} (cnt : OpKind → Nat → P → P) (fuel : Nat) (s : State)
    (p : P) (x : Nat) :
    (MainCpp.deleteRBFix cnt fuel s p x).map Prod.fst = deleteRBFix fuel s x := by
  rw [← mainCpp_deleteRBFix_loop cnt fuel s (cnt .comp 2 p) x]
  simp only [MainCpp.deleteRBFix]
  cases MainCpp.deleteRBFix.loop cnt fuel s (cnt .comp 2 p) x with
  | none => rfl
  | some r => rfl

theorem mainCpp_deleteRB_search_fst {P : Type} (cnt : OpKind → Nat → P → P) (key : Int) :
    ∀ (fuel : Nat) (s : State) (p : P) (z : Nat),
      (MainCpp.deleteRB.search cnt key fuel s p z).map Prod.fst = deleteRB.search key fuel s z
  | 0, _, _, _ => rfl
  | fuel + 1, s, p, z => by
    have ih := mainCpp_deleteRB_search_fst cnt key fuel
    simp only [MainCpp.deleteRB.search, deleteRB.search,
      apply_ite (Option.map (Prod.fst : Nat × P → Nat)), ih, Option.map_some']

theorem mainCpp_deleteRB_repair_fst {P : Type} (cnt : OpKind → Nat → P → P) :
    ∀ (fuel : Nat) (s : State) (p : P) (aux : Nat),
      (MainCpp.deleteRB.repair cnt fuel s p aux).map Prod.fst = deleteRB.repair fuel s aux
  | 0, _, _, _ => rfl
  | fuel + 1, s, p, aux => by
    have ih := mainCpp_deleteRB_repair_fst cnt fuel
    simp only [MainCpp.deleteRB.repair, deleteRB.repair,
      apply_ite (Option.map (Prod.fst : State × P → State)), ih, Option.map_some']

theorem mainCpp_deleteRB_finish_fst {P : Type} (cnt : OpKind → Nat → P → P) (fuel : Nat)
    (s : State) (p : P) (x : Nat) (original : Bool) :
    (MainCpp.deleteRB.finish cnt fuel s p x original).map Prod.fst =
      deleteRB.finish fuel s x original := by
  simp only [MainCpp.deleteRB.finish, deleteRB.finish]
  rw [← mainCpp_deleteRB_repair_fst cnt fuel s (cnt .comp 1 p) (s.parent x)]
  cases MainCpp.deleteRB.repair cnt fuel s (cnt .comp 1 p) (s.parent x) with
  | none => rfl
  | some r =>
    cases original with
    | false => rfl
    | true => simp only [Option.map_some', if_true, mainCpp_deleteRBFix_fst]

theorem mainCpp_deleteRB_fst {P : Type} (cnt : OpKind → Nat → P → P) (fuel : Nat) (s : State)
    (p : P) (key : Int) :
    (MainCpp.deleteRB cnt fuel s p key).map Prod.fst = deleteRB fuel s key := by
  simp only [MainCpp.deleteRB, deleteRB]
  by_cases h1 : s.root = NIL
  · simp only [if_pos h1, Option.map_some']
  · simp only [if_neg h1]
    rw [← mainCpp_deleteRB_search_fst cnt key fuel s (cnt .comp 1 p) s.root]
    cases MainCpp.deleteRB.search cnt key fuel s (cnt .comp 1 p) s.root with
    | none => rfl
    | some r =>
      obtain ⟨z, p1⟩ := r
      simp only [Option.map_some']
      by_cases h2 : s.left z = NIL
      · simp only [if_pos h2, mainCpp_deleteRB_finish_fst, mainCpp_transplantRB_fst]
      · by_cases h3 : s.right z = NIL
        · simp only [if_neg h2, if_pos h3, mainCpp_deleteRB_finish_fst,
            mainCpp_transplantRB_fst]
        · simp only [if_neg h2, if_neg h3]
          rw [← mainCpp_treeMinRB_fst cnt fuel s _ (s.right z)]
          cases MainCpp.treeMinRB cnt fuel s
              (if s.left z ≠ NIL then cnt .comp 1 (cnt .comp 1 (cnt .assign 1 p1))
                else cnt .comp 1 (cnt .assign 1 p1)) (s.right z) with
          | none => rfl
          | some r2 =>
            obtain ⟨y, p2⟩ := r2
            simp only [Option.map_some', mainCpp_deleteRB_finish_fst, mainCpp_transplantRB_fst,
              apply_ite Prod.fst]

theorem mainCpp_buildTreeRB_loop_fst {P : Type} (cnt : OpKind → Nat → P → P) (fuel : Nat)
    (v : List Int) (n : Int) :
    ∀ (k : Nat) (i : Int) (s : State) (p : P),
      (MainCpp.buildTreeRB.loop cnt fuel v n k i s p).map Prod.fst =
        buildTreeRB.loop fuel v n k i s
  | 0, _, _, _ => rfl
  | k + 1, i, s, p => by
    have ih := mainCpp_buildTreeRB_loop_fst cnt fuel v n k
    simp only [MainCpp.buildTreeRB.loop, buildTreeRB.loop]
    by_cases h1 : i < n
    · simp only [if_pos h1]
      rw [← mainCpp_insertRB_fst cnt fuel s p (arrayGet v i)]
      cases MainCpp.insertRB cnt fuel s p (arrayGet v i) with
      | none => rfl
      | some r => simp only [Option.map_some', ih]
    · simp only [if_neg h1, Option.map_some']

theorem mainCpp_buildTreeRB_fst {P : Type} (cnt : OpKind → Nat → P → P) (fuel : Nat)
    (v : List Int) (n : Int) (p : P) :
    (MainCpp.buildTreeRB cnt fuel v n p).map Prod.fst = buildTreeRB fuel v n :=
  mainCpp_buildTreeRB_loop_fst cnt fuel v n n.toNat 0 buildTreeRB.init p

theorem mainCpp_selectRB_fst {P : Type} (cnt : OpKind → Nat → P → P) :
    ∀ (fuel : Nat) (s : State) (p : P) (root : Nat) (i : Int),
      (MainCpp.selectRB cnt fuel s p root i).map Prod.fst = selectRB fuel s root i
  | 0, _, _, _, _ => rfl
  | fuel + 1, s, p, root, i => by
    have ih := mainCpp_selectRB_fst cnt fuel
    simp only [MainCpp.selectRB, selectRB, apply_ite Prod.fst,
      apply_ite (Option.map (Prod.fst : Int × P → Int)), ih, Option.map_some']

/-! ## `selectRB` and `selectBT` -/

theorem RBTree.toBT_eq_nullptr_iff (t : RBTree) : t.toBT = BTNode.nullptr ↔ t = RBTree.nil := by
  cases t <;> simp [RBTree.toBT]

/-- On a stored tree `selectRB` computes what `selectBT` computes on the static
tree with the same keys and sizes, for every rank. -/
theorem selectRB_eq_selectBT : ∀ (t : RBTree) (par : Nat) (s : State) (fuel : Nat),
    RBTree.Rep s par t → (∀ a ∈ t.addrs, a ≠ NIL) → t.height < fuel →
    ∀ i : Int, selectRB fuel s t.addr i = some (selectBT t.toBT i)
  | .nil, _, _, fuel, _, _, hf, i => by
    obtain ⟨fuel, rfl⟩ : ∃ m, fuel = m + 1 := ⟨fuel - 1, by omega⟩
    simp [selectRB, selectBT, RBTree.toBT]
  | .node a c key sz l r, par, s, fuel, hrep, hN, hf, i => by
    obtain ⟨fuel, rfl⟩ : ∃ m, fuel = m + 1 := ⟨fuel - 1, by omega⟩
    obtain ⟨⟨h1, h2, h3, h4, h5, h6⟩, hL, hR⟩ := hrep
    simp only [RBTree.height] at hf
    have haN : a ≠ NIL := hN a (by simp)
    have hNl : ∀ b ∈ l.addrs, b ≠ NIL := fun b hb => hN b (by simp [hb])
    have hNr : ∀ b ∈ r.addrs, b ≠ NIL := fun b hb => hN b (by simp [hb])
    have hpos : (if l.addr ≠ NIL then 1 + s.size l.addr else 1) =
        (if l.toBT ≠ BTNode.nullptr then 1 + l.toBT.size0 else 1) := by
      cases l with
      | nil => simp [RBTree.toBT]
      | node b cb kb sb bl br =>
        have hb : b ≠ NIL := hNl b (by simp)
        simp [RBTree.toBT, hb, hL.1.2.1, BTNode.size0]
    simp only [selectRB, RBTree.addr_node, haN, if_false, h1, h4, h5, hpos, RBTree.toBT, selectBT]
    by_cases c1 : i = (if l.toBT ≠ BTNode.nullptr then 1 + l.toBT.size0 else 1)
    · simp only [if_pos c1]
    · by_cases c2 : i < (if l.toBT ≠ BTNode.nullptr then 1 + l.toBT.size0 else 1)
      · simp only [if_neg c1, if_pos c2]
        exact selectRB_eq_selectBT l a s fuel hL hNl (by omega) i
      · simp only [if_neg c1, if_neg c2]
        exact selectRB_eq_selectBT r a s fuel hR hNr (by omega) _

/-! ## `destroyRB` -/

namespace RBTree

theorem postorder_perm : ∀ t : RBTree, t.postorder.Perm t.addrs
  | nil => List.Perm.refl _
  | node a c k s l r => by
    have hl := postorder_perm l
    have hr := postorder_perm r
    simp only [postorder, addrs_node]
    have : (l.postorder ++ r.postorder ++ [a]).Perm (l.postorder ++ a :: r.postorder) := by
      rw [List.append_assoc]
      exact List.Perm.append_left _ (List.perm_append_comm.trans (by simp))
    exact this.trans (List.Perm.append hl (List.Perm.cons a hr))

theorem postorderNil_count : ∀ t : RBTree, (∀ a ∈ t.addrs, a ≠ NIL) →
    t.postorderNil.count NIL = t.addrs.length
  | nil, _ => rfl
  | node a c k s l r, h => by
    have hl := postorderNil_count l (fun b hb => h b (by simp [hb]))
    have hr := postorderNil_count r (fun b hb => h b (by simp [hb]))
    have ha : a ≠ NIL := h a (by simp)
    simp only [postorderNil, addrs_node, List.count_append, List.length_append,
      List.length_cons, hl, hr]
    simp [List.count_cons, ha]
    omega

theorem postorderNil_filter : ∀ t : RBTree, (∀ a ∈ t.addrs, a ≠ NIL) →
    t.postorderNil.filter (fun a => !decide (a = NIL)) = t.postorder
  | nil, _ => rfl
  | node a c k s l r, h => by
    have hl := postorderNil_filter l (fun b hb => h b (by simp [hb]))
    have hr := postorderNil_filter r (fun b hb => h b (by simp [hb]))
    have ha : a ≠ NIL := h a (by simp)
    simp [postorderNil, postorder, List.filter_append, hl, hr, ha]

end RBTree

/-- The state with another trace of `delete` statements. -/
theorem State.free_eq (s : State) (f : List Nat) (a : Nat) :
    ({ s with freed := f } : State).free a = { s with freed := f ++ [a] } := rfl

/-- `destroyRB` of `rb.cpp` on a stored tree: the trace grows by the nodes in
post-order, each followed by the sentinel. -/
theorem destroyRB_spec : ∀ (t : RBTree) (par : Nat) (s : State) (fuel : Nat),
    RBTree.Rep s par t → (∀ a ∈ t.addrs, a ≠ NIL ∧ a ≠ RBNode.nullptr) → t.height < fuel →
    ∀ f : List Nat, destroyRB fuel { s with freed := f } t.addr =
      some { s with freed := f ++ t.postorderNil }
  | .nil, _, s, fuel, _, _, hf, f => by
    obtain ⟨fuel, rfl⟩ : ∃ m, fuel = m + 1 := ⟨fuel - 1, by omega⟩
    simp [destroyRB, RBTree.postorderNil]
  | .node a c key sz l r, par, s, fuel, hrep, hN, hf, f => by
    obtain ⟨fuel, rfl⟩ : ∃ m, fuel = m + 1 := ⟨fuel - 1, by omega⟩
    obtain ⟨⟨h1, h2, h3, h4, h5, h6⟩, hL, hR⟩ := hrep
    simp only [RBTree.height] at hf
    have haN : a ≠ NIL := (hN a (by simp)).1
    have hNl : ∀ b ∈ l.addrs, b ≠ NIL ∧ b ≠ RBNode.nullptr := fun b hb => hN b (by simp [hb])
    have hNr : ∀ b ∈ r.addrs, b ≠ NIL ∧ b ≠ RBNode.nullptr := fun b hb => hN b (by simp [hb])
    have hl0 : l.addr ≠ RBNode.nullptr := by
      cases l with
      | nil => decide
      | node b cb kb sb bl br => exact (hNl b (by simp)).2
    have hr0 : r.addr ≠ RBNode.nullptr := by
      cases r with
      | nil => decide
      | node b cb kb sb bl br => exact (hNr b (by simp)).2
    have e1 := destroyRB_spec l a s fuel hL hNl (by omega) f
    have e2 := destroyRB_spec r a s fuel hR hNr (by omega) (f ++ l.postorderNil)
    simp only [destroyRB, RBTree.addr_node, if_neg haN]
    have hl1 : ({ s with freed := f } : State).left a = l.addr := h4
    rw [hl1, if_pos hl0, e1]
    simp only
    have hr1 : ({ s with freed := f ++ l.postorderNil } : State).right a = r.addr := h5
    rw [hr1, if_pos hr0, e2]
    simp only [State.free_eq, RBTree.postorderNil, List.append_assoc, List.cons_append,
      List.nil_append]

/-- `destroyRB` of `main.cpp` on a stored tree: the trace grows by the nodes in
post-order. -/
theorem mainCpp_destroyRB_spec : ∀ (t : RBTree) (par : Nat) (s : State) (fuel : Nat),
    RBTree.Rep s par t → (∀ a ∈ t.addrs, a ≠ NIL ∧ a ≠ RBNode.nullptr) → t.height < fuel →
    ∀ f : List Nat, MainCpp.destroyRB fuel { s with freed := f } t.addr =
      some { s with freed := f ++ t.postorder }
  | .nil, _, s, fuel, _, _, hf, f => by
    obtain ⟨fuel, rfl⟩ : ∃ m, fuel = m + 1 := ⟨fuel - 1, by omega⟩
    simp [MainCpp.destroyRB, RBTree.postorder]
  | .node a c key sz l r, par, s, fuel, hrep, hN, hf, f => by
    obtain ⟨fuel, rfl⟩ : ∃ m, fuel = m + 1 := ⟨fuel - 1, by omega⟩
    obtain ⟨⟨h1, h2, h3, h4, h5, h6⟩, hL, hR⟩ := hrep
    simp only [RBTree.height] at hf
    have haN : a ≠ NIL := (hN a (by simp)).1
    have hNl : ∀ b ∈ l.addrs, b ≠ NIL ∧ b ≠ RBNode.nullptr := fun b hb => hN b (by simp [hb])
    have hNr : ∀ b ∈ r.addrs, b ≠ NIL ∧ b ≠ RBNode.nullptr := fun b hb => hN b (by simp [hb])
    have hl0 : l.addr ≠ RBNode.nullptr := by
      cases l with
      | nil => decide
      | node b cb kb sb bl br => exact (hNl b (by simp)).2
    have hr0 : r.addr ≠ RBNode.nullptr := by
      cases r with
      | nil => decide
      | node b cb kb sb bl br => exact (hNr b (by simp)).2
    have e1 := mainCpp_destroyRB_spec l a s fuel hL hNl (by omega) f
    have e2 := mainCpp_destroyRB_spec r a s fuel hR hNr (by omega) (f ++ l.postorder)
    simp only [MainCpp.destroyRB, RBTree.addr_node, if_neg haN]
    have hl1 : ({ s with freed := f } : State).left a = l.addr := h4
    rw [hl1, if_pos hl0, e1]
    simp only
    have hr1 : ({ s with freed := f ++ l.postorder } : State).right a = r.addr := h5
    rw [hr1, if_pos hr0, e2]
    simp only [State.free_eq, RBTree.postorder, List.append_assoc]

/-! ## Termination of the loops of `deleteRB` from any node -/

/-- `treeMinRB` started at any node of a stored tree returns a real node without
left child. -/
theorem treeMinRB_terminates {s : State} {T : RBTree} (h : Shape s T) (a : Nat)
    (ha : a ∈ T.addrs) :
    ∃ y, treeMinRB T.height s a = some y ∧ y ≠ NIL ∧ s.left y = NIL := by
  obtain ⟨c, k, sz, l, r, cs, e⟩ := RBTree.exists_focus T [] a ha
  simp only [RBPath.plug_nil] at e
  have hz : ShapeZ s (.node a c k sz l r) cs := (shape_plug_iff s _ cs).mp (e ▸ h)
  have hh := RBTree.height_plug_ge cs (.node a c k sz l r)
  rw [← e] at hh
  obtain ⟨y, cy, ky, sy, yr, -, m2, m3, -⟩ :=
    treeMinRB_spec (.node a c k sz l r) cs s T.height (by simp) hz (by omega)
  exact ⟨y, m2, m3.root_ne_nil, m3.left_root⟩

/-- The size-repair walk of `deleteRB` started at any node of a stored tree reaches
the sentinel. -/
theorem deleteRB_repair_terminates {s : State} {T : RBTree} (h : Shape s T) (a : Nat)
    (ha : a ∈ T.addrs) : ∃ s', deleteRB.repair (T.height + 1) s a = some s' := by
  obtain ⟨c, k, sz, l, r, cs, e⟩ := RBTree.exists_focus T [] a ha
  simp only [RBPath.plug_nil] at e
  have hz : ShapeZ s (.node a c k sz l r) cs := (shape_plug_iff s _ cs).mp (e ▸ h)
  have hh := RBTree.height_plug_ge cs (.node a c k sz l r)
  rw [← e] at hh
  simp only [RBTree.height] at hh
  obtain ⟨s', r1, -⟩ := deleteRB_repair_spec (.L a c k sz r :: cs) l s (T.height + 1) hz.downL
    (by simp only [List.length_cons]; omega)
  exact ⟨s', by simpa using r1⟩

/-! ## Concrete states -/

/-- The tree in the state after `buildTreeRB` on `[1, 2]`. -/
theorem shape_builtRB_two : Shape (builtRB [1, 2])
    (.node 2 true 1 2 .nil (.node 3 false 2 1 .nil .nil)) := by
  refine ⟨?_, by decide, by decide, by decide, by unfold Sentinel; decide, by decide⟩
  simp only [RBTree.Rep, RBTree.addr]
  decide

/-- The tree in the state after `buildTreeRB` on `[1, 2, 3, 4]`. -/
theorem shape_builtRB_four : Shape (builtRB [1, 2, 3, 4])
    (.node 3 true 2 4 (.node 2 true 1 1 .nil .nil)
      (.node 4 true 3 2 .nil (.node 5 false 4 1 .nil .nil))) := by
  refine ⟨?_, by decide, by decide, by decide, by unfold Sentinel; decide, by decide⟩
  simp only [RBTree.Rep, RBTree.addr]
  decide

/-- The tree in the state after `buildTreeRB` on `[2, 1, 2]`. -/
theorem shape_builtRB_dup : Shape (builtRB [2, 1, 2])
    (.node 2 true 2 3 (.node 3 false 1 1 .nil .nil) (.node 4 false 2 1 .nil .nil)) := by
  refine ⟨?_, by decide, by decide, by decide, by unfold Sentinel; decide, by decide⟩
  simp only [RBTree.Rep, RBTree.addr]
  decide

/-! ## The nodes of a tree in order -/

namespace RBTree

@[simp] theorem entries_nil : entries nil = [] := rfl
@[simp] theorem entries_node (a : Nat) (c : Bool) (k s : Int) (l r : RBTree) :
    entries (node a c k s l r) = entries l ++ (a, k) :: entries r := rfl

theorem entries_keys : ∀ t : RBTree, t.entries.map Prod.snd = t.keys
  | nil => rfl
  | node a c k s l r => by simp [entries_keys l, entries_keys r]

theorem entries_addrs : ∀ t : RBTree, t.entries.map Prod.fst = t.addrs
  | nil => rfl
  | node a c k s l r => by simp [entries_addrs l, entries_addrs r]

/-- In a stored tree the key of an entry is the key field of its node. -/
theorem entries_eq_map_key {s : State} : ∀ (t : RBTree) (par : Nat), Rep s par t →
    t.entries = t.addrs.map (fun a => (a, s.key a))
  | nil, _, _ => rfl
  | node a c k sz l r, par, h => by
    obtain ⟨⟨h1, -⟩, hl, hr⟩ := h
    simp [entries_eq_map_key l a hl, entries_eq_map_key r a hr, h1]

/-- The descent of `insertRB` puts the new node behind all nodes whose key is at
most the new key. -/
theorem entries_ins (key : Int) (z : RBTree) : ∀ t : RBTree, BST t →
    (ins key z t).entries = t.entries.filter (fun e => decide (e.2 ≤ key)) ++
      z.entries ++ t.entries.filter (fun e => decide (key < e.2))
  | nil, _ => by simp [ins]
  | node a c k s l r, hb => by
    obtain ⟨h1, h2, h3, h4⟩ := hb
    have hl : ∀ e ∈ l.entries, e.2 ≤ k := by
      intro e he
      exact h1 e.2 (by rw [← entries_keys]; exact List.mem_map_of_mem _ he)
    have hr : ∀ e ∈ r.entries, k ≤ e.2 := by
      intro e he
      exact h2 e.2 (by rw [← entries_keys]; exact List.mem_map_of_mem _ he)
    unfold ins
    by_cases hk : key < k
    · rw [if_pos hk, entries_node, entries_ins key z l h3]
      have e1 : ((a, k) :: r.entries).filter (fun e => decide (e.2 ≤ key)) = [] := by
        rw [List.filter_eq_nil_iff]
        intro x hx
        simp only [List.mem_cons] at hx
        rcases hx with rfl | hx
        · simp only [decide_eq_true_eq]; omega
        · have := hr x hx
          simp only [decide_eq_true_eq]; omega
      have e2 : ((a, k) :: r.entries).filter (fun e => decide (key < e.2)) =
          (a, k) :: r.entries := by
        rw [List.filter_eq_self]
        intro x hx
        simp only [List.mem_cons] at hx
        rcases hx with rfl | hx
        · simp only [decide_eq_true_eq]; omega
        · have := hr x hx
          simp only [decide_eq_true_eq]; omega
      rw [entries_node, List.filter_append, List.filter_append, e1, e2]
      simp
    · rw [if_neg hk, entries_node, entries_ins key z r h4]
      have e1 : l.entries.filter (fun e => decide (e.2 ≤ key)) = l.entries := by
        rw [List.filter_eq_self]
        intro x hx
        have := hl x hx
        simp only [decide_eq_true_eq]; omega
      have e2 : l.entries.filter (fun e => decide (key < e.2)) = [] := by
        rw [List.filter_eq_nil_iff]
        intro x hx
        have := hl x hx
        simp only [decide_eq_true_eq]; omega
      have e3 : ([(a, k)] : List (Nat × Int)).filter (fun e => decide (e.2 ≤ key)) = [(a, k)] := by
        simp only [List.filter_cons, List.filter_nil, decide_eq_true_eq]
        rw [if_pos (by omega)]
      have e4 : ([(a, k)] : List (Nat × Int)).filter (fun e => decide (key < e.2)) = [] := by
        simp only [List.filter_cons, List.filter_nil, decide_eq_true_eq]
        rw [if_neg hk]
      have hsplit : l.entries ++ (a, k) :: r.entries = l.entries ++ ([(a, k)] ++ r.entries) := by
        simp
      rw [entries_node, hsplit, List.filter_append, List.filter_append, List.filter_append,
        List.filter_append, e1, e2, e3, e4]
      simp

end RBTree

namespace RBPath

@[simp] theorem beforeE_nil : beforeE [] = [] := rfl
@[simp] theorem beforeE_L (a : Nat) (c : Bool) (k s : Int) (r : RBTree) (cs : RBPath) :
    beforeE (RBFrame.L a c k s r :: cs) = beforeE cs := rfl
@[simp] theorem beforeE_R (a : Nat) (c : Bool) (k s : Int) (l : RBTree) (cs : RBPath) :
    beforeE (RBFrame.R a c k s l :: cs) = beforeE cs ++ l.entries ++ [(a, k)] := rfl
@[simp] theorem afterE_nil : afterE [] = [] := rfl
@[simp] theorem afterE_L (a : Nat) (c : Bool) (k s : Int) (r : RBTree) (cs : RBPath) :
    afterE (RBFrame.L a c k s r :: cs) = (a, k) :: r.entries ++ afterE cs := rfl
@[simp] theorem afterE_R (a : Nat) (c : Bool) (k s : Int) (l : RBTree) (cs : RBPath) :
    afterE (RBFrame.R a c k s l :: cs) = afterE cs := rfl

theorem entries_plug : ∀ (cs : RBPath) (t : RBTree),
    (plug t cs).entries = beforeE cs ++ t.entries ++ afterE cs
  | [], t => by simp
  | RBFrame.L a c k s r :: cs, t => by
    rw [plug_cons, entries_plug cs]; simp
  | RBFrame.R a c k s l :: cs, t => by
    rw [plug_cons, entries_plug cs]; simp

@[simp] theorem rootBlack_nil : RootBlack [] = True := rfl
@[simp] theorem rootBlack_single (f : RBFrame) : RootBlack [f] = (f.color = true) := rfl
@[simp] theorem rootBlack_cons_cons (f g : RBFrame) (cs : RBPath) :
    RootBlack (f :: g :: cs) = RootBlack (g :: cs) := rfl

/-- The root of `plug t cs` is black when the path says so, or when the path is empty
and `t` has a black root. -/
theorem RootBlack.color0_plug : ∀ (cs : RBPath) (t : RBTree), RootBlack cs →
    (cs = [] → t.color0 = true) → (plug t cs).color0 = true
  | [], t, _, h => h rfl
  | [f], t, h, _ => by
    cases f <;> simpa [RBFrame.color] using h
  | f :: g :: cs, t, h, _ => by
    rw [plug_cons]
    exact RootBlack.color0_plug (g :: cs) (f.fill t) h (fun hc => by cases hc)

/-- A path below a black root. -/
theorem rootBlack_of_color0 : ∀ (cs : RBPath) (t : RBTree), cs ≠ [] →
    (plug t cs).color0 = true → RootBlack cs
  | [], _, h, _ => absurd rfl h
  | [f], t, _, h => by
    cases f <;> simpa [RBFrame.color] using h
  | f :: g :: cs, t, _, h => by
    rw [plug_cons] at h
    exact rootBlack_of_color0 (g :: cs) (f.fill t) (by simp) h

/-- The path that the descent of `insertRB` builds keeps the root. -/
theorem rootBlack_ins (key : Int) : ∀ (t : RBTree) (cs : RBPath),
    (cs = [] → t.color0 = true) → RootBlack cs → RootBlack (ins key t cs)
  | RBTree.nil, cs, _, h => h
  | RBTree.node a c k s l r, cs, hc, h => by
    unfold ins
    have hL : ∀ f : RBFrame, f.color = c → RootBlack (f :: cs) := by
      intro f hf
      cases cs with
      | nil => simpa [hf] using hc rfl
      | cons g cs => exact h
    split
    · exact rootBlack_ins key l _ (fun hn => by cases hn) (hL _ rfl)
    · exact rootBlack_ins key r _ (fun hn => by cases hn) (hL _ rfl)

end RBPath

/-! ## The recorded functions compute what the functions of `rb.cpp` compute -/

namespace HeapStep

theorem before_map_fst (evs : List HeapStep) (r : Option (State × List HeapStep)) :
    (before evs r).map Prod.fst = r.map Prod.fst := by
  cases r <;> rfl

theorem before_noSteps (r : Option (State × List HeapStep)) : before [] r = r := by
  cases r <;> rfl

end HeapStep

theorem StepsPost.prepend {P R : State → Prop} {evs : List HeapStep}
    {res : Option (State × List HeapStep)} (h : StepsPost P R res)
    (he : ∀ e ∈ evs, e.Ok P) : StepsPost P R (HeapStep.before evs res) := by
  obtain ⟨s', log, rfl, hR, h2⟩ := h
  refine ⟨s', evs ++ log, rfl, hR, ?_⟩
  intro e hm
  rcases List.mem_append.mp hm with hm | hm
  · exact he e hm
  · exact h2 e hm

/-- The recorded loop computes the state `insertRBFix` computes. -/
theorem insertRBFix_steps_fst : ∀ (fuel : Nat) (s : State) (z : Nat),
    (insertRBFix.steps fuel s z).map Prod.fst = insertRBFix fuel s z
  | 0, _, _ => rfl
  | fuel + 1, s, z => by
    have ih := insertRBFix_steps_fst fuel
    unfold insertRBFix.steps insertRBFix
    by_cases h1 : s.color (s.parent z) = false
    · by_cases h2 : s.parent z = s.left (s.parent (s.parent z))
      · by_cases h3 : s.color (s.right (s.parent (s.parent z))) = false
        · simp only [if_pos h1, if_pos h2, if_pos h3, HeapStep.before_map_fst, ih]
        · by_cases h4 : z = s.right (s.parent z)
          · simp only [if_pos h1, if_pos h2, if_neg h3, if_pos h4, HeapStep.before_map_fst, ih]
          · simp only [if_pos h1, if_pos h2, if_neg h3, if_neg h4, HeapStep.before_map_fst, ih]
      · by_cases h3 : s.color (s.left (s.parent (s.parent z))) = false
        · simp only [if_pos h1, if_neg h2, if_pos h3, HeapStep.before_map_fst, ih]
        · by_cases h4 : z = s.left (s.parent z)
          · simp only [if_pos h1, if_neg h2, if_neg h3, if_pos h4, HeapStep.before_map_fst, ih]
          · simp only [if_pos h1, if_neg h2, if_neg h3, if_neg h4, HeapStep.before_map_fst, ih]
    · simp only [if_neg h1, Option.map_some']

/-- The recorded descent computes what the descent of `insertRB` computes. -/
theorem insertRB_descendSteps_fst (key : Int) : ∀ (fuel : Nat) (s : State) (y x : Nat),
    (insertRB.descendSteps key fuel s y x).map (fun r => (r.1, r.2.1)) =
      insertRB.descend key fuel s y x
  | 0, _, _, _ => rfl
  | fuel + 1, s, y, x => by
    have ih := insertRB_descendSteps_fst key fuel
    unfold insertRB.descendSteps insertRB.descend
    by_cases h1 : x ≠ NIL
    · simp only [if_pos h1]
      by_cases h2 : key < (s.setSize x (s.size x + 1)).key x
      · simp only [if_pos h2]
        rw [← ih]
        cases insertRB.descendSteps key fuel (s.setSize x (s.size x + 1)) x
          ((s.setSize x (s.size x + 1)).left x) <;> rfl
      · simp only [if_neg h2]
        rw [← ih]
        cases insertRB.descendSteps key fuel (s.setSize x (s.size x + 1)) x
          ((s.setSize x (s.size x + 1)).right x) <;> rfl
    · simp only [if_neg h1, Option.map_some']

/-- The recorded `insertRB` computes the state `insertRB` computes. -/
theorem insertRB_steps_fst (fuel : Nat) (s : State) (key : Int) :
    (insertRB.steps fuel s key).map Prod.fst = insertRB fuel s key := by
  unfold insertRB.steps insertRB
  rw [← insertRB_descendSteps_fst key fuel s NIL s.root]
  cases insertRB.descendSteps key fuel s NIL s.root with
  | none => rfl
  | some p =>
    simp only [Option.map_some', HeapStep.before_map_fst]
    exact insertRBFix_steps_fst fuel _ _

theorem deleteRBFix_stepsCase4L_fst (k : State → Nat → Option State)
    (k' : State → Nat → Option (State × List HeapStep))
    (hk : ∀ s x, (k' s x).map Prod.fst = k s x) (s : State) (x w : Nat) :
    (deleteRBFix.stepsCase4L k' s x w).map Prod.fst = deleteRBFix.case4L k s x w := by
  unfold deleteRBFix.stepsCase4L deleteRBFix.case4L
  simp only [HeapStep.before_map_fst, hk]

theorem deleteRBFix_stepsCase4R_fst (k : State → Nat → Option State)
    (k' : State → Nat → Option (State × List HeapStep))
    (hk : ∀ s x, (k' s x).map Prod.fst = k s x) (s : State) (x w : Nat) :
    (deleteRBFix.stepsCase4R k' s x w).map Prod.fst = deleteRBFix.case4R k s x w := by
  unfold deleteRBFix.stepsCase4R deleteRBFix.case4R
  simp only [HeapStep.before_map_fst, hk]

theorem deleteRBFix_stepsTailL_fst (k : State → Nat → Option State)
    (k' : State → Nat → Option (State × List HeapStep))
    (hk : ∀ s x, (k' s x).map Prod.fst = k s x) (s : State) (x w : Nat) :
    (deleteRBFix.stepsTailL k' s x w).map Prod.fst = deleteRBFix.tailL k s x w := by
  unfold deleteRBFix.stepsTailL deleteRBFix.tailL
  by_cases h1 : s.color (s.left w) = true ∧ s.color (s.right w) = true
  · simp only [if_pos h1, HeapStep.before_map_fst, hk]
  · by_cases h2 : s.color (s.right w) = true
    · simp only [if_neg h1, if_pos h2, HeapStep.before_map_fst,
        deleteRBFix_stepsCase4L_fst k k' hk]
    · simp only [if_neg h1, if_neg h2, HeapStep.before_map_fst,
        deleteRBFix_stepsCase4L_fst k k' hk]

theorem deleteRBFix_stepsTailR_fst (k : State → Nat → Option State)
    (k' : State → Nat → Option (State × List HeapStep))
    (hk : ∀ s x, (k' s x).map Prod.fst = k s x) (s : State) (x w : Nat) :
    (deleteRBFix.stepsTailR k' s x w).map Prod.fst = deleteRBFix.tailR k s x w := by
  unfold deleteRBFix.stepsTailR deleteRBFix.tailR
  by_cases h1 : s.color (s.left w) = true ∧ s.color (s.right w) = true
  · simp only [if_pos h1, HeapStep.before_map_fst, hk]
  · by_cases h2 : s.color (s.left w) = true
    · simp only [if_neg h1, if_pos h2, HeapStep.before_map_fst,
        deleteRBFix_stepsCase4R_fst k k' hk]
    · simp only [if_neg h1, if_neg h2, HeapStep.before_map_fst,
        deleteRBFix_stepsCase4R_fst k k' hk]

/-- The recorded loop computes the state `deleteRBFix` computes. -/
theorem deleteRBFix_steps_fst : ∀ (fuel : Nat) (s : State) (x : Nat),
    (deleteRBFix.steps fuel s x).map Prod.fst = deleteRBFix fuel s x
  | 0, _, _ => rfl
  | fuel + 1, s, x => by
    have ih := deleteRBFix_steps_fst fuel
    rw [deleteRBFix_succ]
    unfold deleteRBFix.steps
    by_cases h1 : x ≠ s.root ∧ s.color x = true
    · by_cases h2 : x = s.left (s.parent x)
      · by_cases h3 : s.color (s.right (s.parent x)) = false
        · simp only [if_pos h1, if_pos h2, if_pos h3, HeapStep.before_map_fst,
            deleteRBFix_stepsTailL_fst (deleteRBFix fuel) (deleteRBFix.steps fuel) ih]
          rfl
        · simp only [if_pos h1, if_pos h2, if_neg h3, HeapStep.before_map_fst,
            deleteRBFix_stepsTailL_fst (deleteRBFix fuel) (deleteRBFix.steps fuel) ih]
      · by_cases h3 : s.color (s.left (s.parent x)) = false
        · simp only [if_pos h1, if_neg h2, if_pos h3, HeapStep.before_map_fst,
            deleteRBFix_stepsTailR_fst (deleteRBFix fuel) (deleteRBFix.steps fuel) ih]
          rfl
        · simp only [if_pos h1, if_neg h2, if_neg h3, HeapStep.before_map_fst,
            deleteRBFix_stepsTailR_fst (deleteRBFix fuel) (deleteRBFix.steps fuel) ih]
    · simp only [if_neg h1, Option.map_some']

/-- The recorded size-repair loop computes the state `deleteRB.repair` computes. -/
theorem deleteRB_repairSteps_fst : ∀ (fuel : Nat) (s : State) (aux : Nat),
    (deleteRB.repairSteps fuel s aux).map Prod.fst = deleteRB.repair fuel s aux
  | 0, _, _ => rfl
  | fuel + 1, s, aux => by
    have ih := deleteRB_repairSteps_fst fuel
    unfold deleteRB.repairSteps deleteRB.repair
    by_cases h1 : aux ≠ NIL
    · simp only [if_pos h1, HeapStep.before_map_fst, ih]
    · simp only [if_neg h1, Option.map_some']

/-- The recorded tail computes the state `deleteRB.finish` computes. -/
theorem deleteRB_stepsFinish_fst (fuel : Nat) (s : State) (x : Nat) (c : Bool) :
    (deleteRB.stepsFinish fuel s x c).map Prod.fst = deleteRB.finish fuel s x c := by
  unfold deleteRB.stepsFinish deleteRB.finish
  rw [← deleteRB_repairSteps_fst fuel s (s.parent x)]
  cases deleteRB.repairSteps fuel s (s.parent x) with
  | none => rfl
  | some p =>
    cases c with
    | false => rfl
    | true => simpa [HeapStep.before_map_fst] using deleteRBFix_steps_fst fuel p.1 x

/-- The recorded `deleteRB` computes the state `deleteRB` computes. -/
theorem deleteRB_steps_fst (fuel : Nat) (s : State) (key : Int) :
    (deleteRB.steps fuel s key).map Prod.fst = deleteRB fuel s key := by
  have hfin := fun s1 x c => deleteRB_stepsFinish_fst fuel s1 x c
  unfold deleteRB.steps deleteRB
  by_cases h1 : s.root = NIL
  · simp only [if_pos h1, Option.map_some']
  · simp only [if_neg h1]
    cases deleteRB.search key fuel s s.root with
    | none => rfl
    | some z =>
      simp only
      by_cases h2 : s.left z = NIL
      · simp only [if_pos h2, hfin]
      · by_cases h3 : s.right z = NIL
        · simp only [if_neg h2, if_pos h3, hfin]
        · simp only [if_neg h2, if_neg h3]
          cases treeMinRB fuel s (s.right z) with
          | none => rfl
          | some y => simp only [HeapStep.before_map_fst, hfin]

/-! ## Dynamic tree: `insertRBFix` on a tree with a black root -/

namespace RBPath

theorem RootBlack.tail {f : RBFrame} {cs : RBPath} (h : RootBlack (f :: cs)) : RootBlack cs := by
  cases cs with
  | nil => trivial
  | cons g cs => exact h

theorem RootBlack.black_cons {f g : RBFrame} {cs : RBPath} (hf : f.color = true)
    (h : RootBlack (g :: cs)) : RootBlack (f :: cs) := by
  cases cs with
  | nil => exact hf
  | cons g' cs => exact h

end RBPath

theorem leftRotateRB_steps_ok {P : State → Prop} {s : State} {x : Nat} (hx : x ≠ NIL)
    (hy : s.right x ≠ NIL) (hP : P (leftRotateRB s x)) :
    ∀ e ∈ leftRotateRB.steps s x, e.Ok P := by
  intro e he
  simp only [leftRotateRB.steps, List.mem_cons, List.mem_singleton, List.not_mem_nil,
    or_false] at he
  rcases he with rfl | rfl | rfl
  · exact hy
  · exact hx
  · exact hP

theorem rightRotateRB_steps_ok {P : State → Prop} {s : State} {x : Nat} (hx : x ≠ NIL)
    (hy : s.left x ≠ NIL) (hP : P (rightRotateRB s x)) :
    ∀ e ∈ rightRotateRB.steps s x, e.Ok P := by
  intro e he
  simp only [rightRotateRB.steps, List.mem_cons, List.mem_singleton, List.not_mem_nil,
    or_false] at he
  rcases he with rfl | rfl | rfl
  · exact hy
  · exact hx
  · exact hP

theorem HeapSizedIf.of_shapeZ {c : Prop} {K : List Int} {s : State} {t : RBTree}
    {cs : RBPath} (h : ShapeZ s t cs) (hS : c → (RBPath.plug t cs).SizeInv)
    (hK : (RBPath.plug t cs).keys = K) : HeapSizedIf c K s :=
  ⟨_, h.toShape, hS, hK⟩

set_option maxHeartbeats 4000000 in
/-- The loop of `insertRBFix` on a tree with exact sizes whose root is black (any
other colours), started on the red node `z`: it returns a tree with the same nodes
in the same order, a black root and exact sizes; every colour it writes on the
sentinel is black, its rotations write sizes on real nodes only, and after each
rotation the heap holds a tree with exact sizes on the same keys. -/
theorem insertRBFix_steps_spec (c : Prop) (K : List Int) : ∀ (n : Nat) (cs : RBPath) (s : State) (z : Nat)
    (k sz : Int) (l r : RBTree) (fuel : Nat), cs.length ≤ n →
    ShapeZ s (.node z false k sz l r) cs →
    RBPath.RootBlack cs →
    (c → (RBPath.plug (.node z false k sz l r) cs).SizeInv) →
    (RBPath.plug (.node z false k sz l r) cs).keys = K →
    cs.length < fuel →
    ∃ s' T log, insertRBFix.steps fuel s z = some (s', log) ∧ Shape s' T ∧ T.color0 = true ∧
      (c → T.SizeInv) ∧ T.entries = (RBPath.plug (.node z false k sz l r) cs).entries ∧
      s'.next = s.next ∧ s'.freed = s.freed ∧ ∀ e ∈ log, e.Ok (HeapSizedIf c K) := by
  intro n
  induction n using Nat.strong_induction_on with
  | _ n ih =>
  intro cs s z k sz l r fuel hlen h hRB hSz hK hfuel
  obtain ⟨fuel, rfl⟩ : ∃ m, fuel = m + 1 := ⟨fuel - 1, by omega⟩
  have hNc : s.color NIL = true := h.sentinel.2.2.2.2
  cases cs with
  | nil =>
    have e1 : s.parent z = NIL := h.parent_root
    have e2 : s.root = z := h.root
    have hzN : z ≠ NIL := h.root_ne_nil
    refine ⟨s.setColor z true, .node z true k sz l r, [HeapStep.colorWrite z true], ?_,
      (h.setColor_root true).toShape, rfl, ?_, ?_, rfl, rfl, ?_⟩
    · simp [insertRBFix.steps, e1, hNc, e2]
    · intro hc
      simpa [RBTree.sizeInv_node] using hSz hc
    · simp
    · intro e he
      simp only [List.mem_singleton] at he
      subst he
      exact fun _ => rfl
  | cons P rest =>
    cases hPc : P.color with
    | true =>
      -- black parent: the loop exits and the tree is already valid
      have hup := h.up
      have e1 : s.parent z = P.addr := by simpa using h.parent_root
      have e2 : s.color P.addr = true := by
        cases P <;> simp only [RBFrame.fill_L, RBFrame.fill_R] at hup <;>
          simpa [RBFrame.color] using hPc ▸ hup.color_root
      have hc0 : (RBPath.plug (.node z false k sz l r) (P :: rest)).color0 = true :=
        RBPath.RootBlack.color0_plug _ _ hRB (fun hc => by cases hc)
      have hsh := h.toShape
      have hno := hsh.setColor_root_noop hc0
      refine ⟨s.setColor s.root true, _, [HeapStep.colorWrite s.root true], ?_,
        by rw [hno]; exact hsh, hc0, hSz, rfl, rfl, rfl, ?_⟩
      · simp [insertRBFix.steps, e1, e2]
      · intro e he
        simp only [List.mem_singleton] at he
        subst he
        exact fun _ => rfl
    | false =>
      -- red parent: it is not the root, and the grandparent is black
      cases rest with
      | nil => exact absurd hRB (by simp [hPc])
      | cons G rest =>
      have hRG : RBPath.RootBlack (G :: rest) := hRB
      simp only [List.length_cons] at hlen hfuel
      cases G with
      | L g cg kg sg un =>
        cases P with
        | L p cp kp sp u =>
          simp only [RBFrame.color] at hPc
          subst hPc
          have hp := h.up
          have hg := hp.up
          simp only [RBFrame.fill_L, RBFrame.fill_R] at hp hg
          have hun := hg.downR
          have e1 : s.parent z = p := by simpa using h.parent_root
          have e2 : s.color p = false := hp.color_root
          have e3 : s.parent p = g := by simpa using hp.parent_root
          have e4 : s.left g = p := by simpa using hg.left_root
          have e5 : s.right g = un.addr := hg.right_root
          have e6 : s.color un.addr = un.color0 := hun.color_addr
          have e7 : s.right p = u.addr := hp.right_root
          have hzu : z ≠ u.addr := by
            have hnd := hp.nodup
            simp only [RBTree.addrs_node, List.nodup_append, List.nodup_cons, List.mem_cons,
              List.mem_append, List.append_assoc, List.cons_append, List.disjoint_cons_right,
              List.disjoint_append_right, List.disjoint_cons_left, List.disjoint_append_left,
              not_or] at hnd
            exact (RBTree.addr_ne h.root_ne_nil (by tauto)).symm
          cases hunc : un.color0 with
          | false =>
            -- Case A: red uncle
            cases un with
            | nil => simp at hunc
            | node y cy ky sy yl yr =>
            simp only [RBTree.color0_node] at hunc
            subst hunc
            simp only [RBTree.addr_node, RBTree.color0_node] at e5 e6
            have h1 := hp.setColor_root true
            have h2 := (h1.up.downR).setColor_root true
            have h3 := h2.up.setColor_root false
            simp only [RBFrame.fill_L, RBFrame.fill_R] at h3
            have hgN : g ≠ NIL := hg.root_ne_nil
            obtain ⟨s', T, log, r1, r2, r3, r4, r5, r6, r7, r8⟩ := ih rest.length (by omega) rest _ g kg sg
              (.node p true kp sp (.node z false k sz l r) u) (.node y true ky sy yl yr) fuel
              (le_refl _) h3 hRG.tail
              (fun hc => by simpa [RBPath.sizeInv_plug, RBTree.sizeInv_node] using hSz hc)
              (by simpa [RBPath.keys_plug] using hK)
              (by omega)
            refine ⟨s', T, HeapStep.colorWrite p true :: HeapStep.colorWrite y true ::
                HeapStep.colorWrite g false :: log, ?_, r2, r3, r4, ?_, by simpa using r6,
              by simpa using r7, ?_⟩
            · simp [insertRBFix.steps, e1, e2, e3, e4, e5, e6, r1, HeapStep.before]
            · rw [r5]; simp [RBPath.entries_plug]
            · exact List.forall_mem_cons.mpr ⟨fun _ => rfl, List.forall_mem_cons.mpr
                ⟨fun _ => rfl, List.forall_mem_cons.mpr ⟨fun hc => absurd hc hgN, r8⟩⟩⟩
          | true =>
            -- Case C: black uncle, `z` is the outer grandchild
            have h1 := hp.setColor_root true
            have h2 := h1.up.setColor_root false
            simp only [RBFrame.fill_L, RBFrame.fill_R] at h2
            have h3 := h2.rightRotate
            have h4 := h3.downL
            have hgN : g ≠ NIL := hg.root_ne_nil
            have hpN : p ≠ NIL := hp.root_ne_nil
            have hH4 : HeapSizedIf c K _ := HeapSizedIf.of_shapeZ h4
              (by
                intro hc
                have hSz := hSz hc
                simp only [RBPath.plug_cons, RBFrame.fill_L, RBFrame.fill_R, RBPath.sizeInv_plug,
                  RBTree.sizeInv_node, RBTree.size0_node] at hSz ⊢
                repeat' apply And.intro
                all_goals first | omega | tauto)
              (by simpa [RBPath.keys_plug] using hK)
            obtain ⟨s', T, log, r1, r2, r3, r4, r5, r6, r7, r8⟩ := ih (rest.length + 1) (by omega) _ _ z k sz
              l r fuel (by simp) h4
              (RBPath.RootBlack.black_cons rfl hRG)
              (by
                intro hc
                have hSz := hSz hc
                simp only [RBPath.plug_cons, RBFrame.fill_L, RBFrame.fill_R, RBPath.sizeInv_plug,
                  RBTree.sizeInv_node, RBTree.size0_node] at hSz ⊢
                repeat' apply And.intro
                all_goals first | omega | tauto)
              (by simpa [RBPath.keys_plug] using hK)
              (by simp only [List.length_cons]; omega)
            refine ⟨s', T, (HeapStep.colorWrite p true :: HeapStep.colorWrite g false ::
                rightRotateRB.steps ((s.setColor p true).setColor g false) g) ++ log, ?_, r2, r3, r4,
              ?_, by simpa using r6, by simpa using r7, ?_⟩
            · simp [insertRBFix.steps, e1, e2, e3, e4, e5, e6, e7, hzu, hunc, r1, HeapStep.before]
            · rw [r5]; simp [RBPath.entries_plug]
            · exact List.forall_mem_append.mpr ⟨List.forall_mem_cons.mpr ⟨fun _ => rfl,
                List.forall_mem_cons.mpr ⟨fun hc => absurd hc hgN,
                  rightRotateRB_steps_ok hgN (by rw [h2.left_root]; exact hpN) hH4⟩⟩, r8⟩
        | R p cp kp sp u =>
          simp only [RBFrame.color] at hPc
          subst hPc
          have hp := h.up
          have hg := hp.up
          simp only [RBFrame.fill_L, RBFrame.fill_R] at hp hg
          have hun := hg.downR
          have e1 : s.parent z = p := by simpa using h.parent_root
          have e2 : s.color p = false := hp.color_root
          have e3 : s.parent p = g := by simpa using hp.parent_root
          have e4 : s.left g = p := by simpa using hg.left_root
          have e5 : s.right g = un.addr := hg.right_root
          have e6 : s.color un.addr = un.color0 := hun.color_addr
          have e7 : s.right p = z := by simpa using hp.right_root
          cases hunc : un.color0 with
          | false =>
            -- Case A: red uncle
            cases un with
            | nil => simp at hunc
            | node y cy ky sy yl yr =>
            simp only [RBTree.color0_node] at hunc
            subst hunc
            simp only [RBTree.addr_node, RBTree.color0_node] at e5 e6
            have h1 := hp.setColor_root true
            have h2 := (h1.up.downR).setColor_root true
            have h3 := h2.up.setColor_root false
            simp only [RBFrame.fill_L, RBFrame.fill_R] at h3
            have hgN : g ≠ NIL := hg.root_ne_nil
            obtain ⟨s', T, log, r1, r2, r3, r4, r5, r6, r7, r8⟩ := ih rest.length (by omega) rest _ g kg sg
              (.node p true kp sp u (.node z false k sz l r)) (.node y true ky sy yl yr) fuel
              (le_refl _) h3 hRG.tail
              (fun hc => by simpa [RBPath.sizeInv_plug, RBTree.sizeInv_node] using hSz hc)
              (by simpa [RBPath.keys_plug] using hK)
              (by omega)
            refine ⟨s', T, HeapStep.colorWrite p true :: HeapStep.colorWrite y true ::
                HeapStep.colorWrite g false :: log, ?_, r2, r3, r4, ?_, by simpa using r6,
              by simpa using r7, ?_⟩
            · simp [insertRBFix.steps, e1, e2, e3, e4, e5, e6, r1, HeapStep.before]
            · rw [r5]; simp [RBPath.entries_plug]
            · exact List.forall_mem_cons.mpr ⟨fun _ => rfl, List.forall_mem_cons.mpr
                ⟨fun _ => rfl, List.forall_mem_cons.mpr ⟨fun hc => absurd hc hgN, r8⟩⟩⟩
          | true =>
            -- Case B then C: black uncle, `z` is the inner grandchild
            have h1 := hp.leftRotate
            have f1 : (leftRotateRB s p).parent p = z := by simpa using h1.downL.parent_root
            have f2 : (leftRotateRB s p).parent z = g := by simpa using h1.parent_root
            have h2 := h1.setColor_root true
            have h3 := h2.up.setColor_root false
            simp only [RBFrame.fill_L, RBFrame.fill_R] at h3
            have h4 := h3.rightRotate
            have h5 := h4.downL
            have hgN : g ≠ NIL := hg.root_ne_nil
            have hpN : p ≠ NIL := hp.root_ne_nil
            have hzN : z ≠ NIL := h.root_ne_nil
            have hH1 : HeapSizedIf c K _ := HeapSizedIf.of_shapeZ h1
              (by
                intro hc
                have hSz := hSz hc
                simp only [RBPath.plug_cons, RBFrame.fill_L, RBFrame.fill_R, RBPath.sizeInv_plug,
                  RBTree.sizeInv_node, RBTree.size0_node] at hSz ⊢
                repeat' apply And.intro
                all_goals first | omega | tauto)
              (by simpa [RBPath.keys_plug] using hK)
            have hH5 : HeapSizedIf c K _ := HeapSizedIf.of_shapeZ h5
              (by
                intro hc
                have hSz := hSz hc
                simp only [RBPath.plug_cons, RBFrame.fill_L, RBFrame.fill_R, RBPath.sizeInv_plug,
                  RBTree.sizeInv_node, RBTree.size0_node] at hSz ⊢
                repeat' apply And.intro
                all_goals first | omega | tauto)
              (by simpa [RBPath.keys_plug] using hK)
            obtain ⟨s', T, log, r1, r2, r3, r4, r5, r6, r7, r8⟩ := ih (rest.length + 1) (by omega) _ _ p kp
              (u.size0 + l.size0 + 1) u l fuel (by simp) h5
              (RBPath.RootBlack.black_cons rfl hRG)
              (by
                intro hc
                have hSz := hSz hc
                simp only [RBPath.plug_cons, RBFrame.fill_L, RBFrame.fill_R, RBPath.sizeInv_plug,
                  RBTree.sizeInv_node, RBTree.size0_node] at hSz ⊢
                repeat' apply And.intro
                all_goals first | omega | tauto)
              (by simpa [RBPath.keys_plug] using hK)
              (by simp only [List.length_cons]; omega)
            refine ⟨s', T, (leftRotateRB.steps s p ++ HeapStep.colorWrite z true ::
                HeapStep.colorWrite g false ::
                rightRotateRB.steps (((leftRotateRB s p).setColor z true).setColor g false) g) ++ log, ?_,
              r2, r3, r4, ?_, by simpa using r6, by simpa using r7, ?_⟩
            · simp [insertRBFix.steps, e1, e2, e3, e4, e5, e6, e7, hunc, f1, f2, r1, HeapStep.before]
            · rw [r5]; simp [RBPath.entries_plug]
            · exact List.forall_mem_append.mpr ⟨List.forall_mem_append.mpr
                ⟨leftRotateRB_steps_ok hpN (by rw [e7]; exact hzN) hH1,
                  List.forall_mem_cons.mpr ⟨fun _ => rfl,
                    List.forall_mem_cons.mpr ⟨fun hc => absurd hc hgN,
                      rightRotateRB_steps_ok hgN (by rw [h3.left_root]; exact hzN) hH5⟩⟩⟩, r8⟩
      | R g cg kg sg un =>
        cases P with
        | R p cp kp sp u =>
          simp only [RBFrame.color] at hPc
          subst hPc
          have hp := h.up
          have hg := hp.up
          simp only [RBFrame.fill_L, RBFrame.fill_R] at hp hg
          have hun := hg.downL
          have e1 : s.parent z = p := by simpa using h.parent_root
          have e2 : s.color p = false := hp.color_root
          have e3 : s.parent p = g := by simpa using hp.parent_root
          have e4 : s.right g = p := by simpa using hg.right_root
          have e5 : s.left g = un.addr := hg.left_root
          have e6 : s.color un.addr = un.color0 := hun.color_addr
          have hpun : p ≠ un.addr := by
            have hnd := hg.nodup
            simp only [RBTree.addrs_node, List.nodup_append, List.nodup_cons, List.mem_cons,
              List.mem_append, List.append_assoc, List.cons_append, List.disjoint_cons_right,
              List.disjoint_append_right, List.disjoint_cons_left, List.disjoint_append_left,
              not_or] at hnd
            exact (RBTree.addr_ne hp.root_ne_nil (by tauto)).symm
          have e7 : s.left p = u.addr := hp.left_root
          have hzu : z ≠ u.addr := by
            have hnd := hp.nodup
            simp only [RBTree.addrs_node, List.nodup_append, List.nodup_cons, List.mem_cons,
              List.mem_append, List.append_assoc, List.cons_append, List.disjoint_cons_right,
              List.disjoint_append_right, List.disjoint_cons_left, List.disjoint_append_left,
              not_or] at hnd
            exact (RBTree.addr_ne h.root_ne_nil (by tauto)).symm
          cases hunc : un.color0 with
          | false =>
            -- Case A: red uncle
            cases un with
            | nil => simp at hunc
            | node y cy ky sy yl yr =>
            simp only [RBTree.color0_node] at hunc
            subst hunc
            simp only [RBTree.addr_node, RBTree.color0_node] at e5 e6 hpun
            have h1 := hp.setColor_root true
            have h2 := (h1.up.downL).setColor_root true
            have h3 := h2.up.setColor_root false
            simp only [RBFrame.fill_L, RBFrame.fill_R] at h3
            have hgN : g ≠ NIL := hg.root_ne_nil
            obtain ⟨s', T, log, r1, r2, r3, r4, r5, r6, r7, r8⟩ := ih rest.length (by omega) rest _ g kg sg
              (.node y true ky sy yl yr) (.node p true kp sp u (.node z false k sz l r)) fuel
              (le_refl _) h3 hRG.tail
              (fun hc => by simpa [RBPath.sizeInv_plug, RBTree.sizeInv_node] using hSz hc)
              (by simpa [RBPath.keys_plug] using hK)
              (by omega)
            refine ⟨s', T, HeapStep.colorWrite p true :: HeapStep.colorWrite y true ::
                HeapStep.colorWrite g false :: log, ?_, r2, r3, r4, ?_, by simpa using r6,
              by simpa using r7, ?_⟩
            · simp [insertRBFix.steps, e1, e2, e3, e4, e5, e6, hpun, r1, HeapStep.before]
            · rw [r5]; simp [RBPath.entries_plug]
            · exact List.forall_mem_cons.mpr ⟨fun _ => rfl, List.forall_mem_cons.mpr
                ⟨fun _ => rfl, List.forall_mem_cons.mpr ⟨fun hc => absurd hc hgN, r8⟩⟩⟩
          | true =>
            -- Case C: black uncle, `z` is the outer grandchild
            have h1 := hp.setColor_root true
            have h2 := h1.up.setColor_root false
            simp only [RBFrame.fill_L, RBFrame.fill_R] at h2
            have h3 := h2.leftRotate
            have h4 := h3.downR
            have hgN : g ≠ NIL := hg.root_ne_nil
            have hpN : p ≠ NIL := hp.root_ne_nil
            have hH4 : HeapSizedIf c K _ := HeapSizedIf.of_shapeZ h4
              (by
                intro hc
                have hSz := hSz hc
                simp only [RBPath.plug_cons, RBFrame.fill_L, RBFrame.fill_R, RBPath.sizeInv_plug,
                  RBTree.sizeInv_node, RBTree.size0_node] at hSz ⊢
                repeat' apply And.intro
                all_goals first | omega | tauto)
              (by simpa [RBPath.keys_plug] using hK)
            obtain ⟨s', T, log, r1, r2, r3, r4, r5, r6, r7, r8⟩ := ih (rest.length + 1) (by omega) _ _ z k sz
              l r fuel (by simp) h4
              (RBPath.RootBlack.black_cons rfl hRG)
              (by
                intro hc
                have hSz := hSz hc
                simp only [RBPath.plug_cons, RBFrame.fill_L, RBFrame.fill_R, RBPath.sizeInv_plug,
                  RBTree.sizeInv_node, RBTree.size0_node] at hSz ⊢
                repeat' apply And.intro
                all_goals first | omega | tauto)
              (by simpa [RBPath.keys_plug] using hK)
              (by simp only [List.length_cons]; omega)
            refine ⟨s', T, (HeapStep.colorWrite p true :: HeapStep.colorWrite g false ::
                leftRotateRB.steps ((s.setColor p true).setColor g false) g) ++ log, ?_, r2, r3, r4,
              ?_, by simpa using r6, by simpa using r7, ?_⟩
            · simp [insertRBFix.steps, e1, e2, e3, e4, e5, e6, hpun, e7, hzu, hunc, r1, HeapStep.before]
            · rw [r5]; simp [RBPath.entries_plug]
            · exact List.forall_mem_append.mpr ⟨List.forall_mem_cons.mpr ⟨fun _ => rfl,
                List.forall_mem_cons.mpr ⟨fun hc => absurd hc hgN,
                  leftRotateRB_steps_ok hgN (by rw [h2.right_root]; exact hpN) hH4⟩⟩, r8⟩
        | L p cp kp sp u =>
          simp only [RBFrame.color] at hPc
          subst hPc
          have hp := h.up
          have hg := hp.up
          simp only [RBFrame.fill_L, RBFrame.fill_R] at hp hg
          have hun := hg.downL
          have e1 : s.parent z = p := by simpa using h.parent_root
          have e2 : s.color p = false := hp.color_root
          have e3 : s.parent p = g := by simpa using hp.parent_root
          have e4 : s.right g = p := by simpa using hg.right_root
          have e5 : s.left g = un.addr := hg.left_root
          have e6 : s.color un.addr = un.color0 := hun.color_addr
          have hpun : p ≠ un.addr := by
            have hnd := hg.nodup
            simp only [RBTree.addrs_node, List.nodup_append, List.nodup_cons, List.mem_cons,
              List.mem_append, List.append_assoc, List.cons_append, List.disjoint_cons_right,
              List.disjoint_append_right, List.disjoint_cons_left, List.disjoint_append_left,
              not_or] at hnd
            exact (RBTree.addr_ne hp.root_ne_nil (by tauto)).symm
          have e7 : s.left p = z := by simpa using hp.left_root
          cases hunc : un.color0 with
          | false =>
            -- Case A: red uncle
            cases un with
            | nil => simp at hunc
            | node y cy ky sy yl yr =>
            simp only [RBTree.color0_node] at hunc
            subst hunc
            simp only [RBTree.addr_node, RBTree.color0_node] at e5 e6 hpun
            have h1 := hp.setColor_root true
            have h2 := (h1.up.downL).setColor_root true
            have h3 := h2.up.setColor_root false
            simp only [RBFrame.fill_L, RBFrame.fill_R] at h3
            have hgN : g ≠ NIL := hg.root_ne_nil
            obtain ⟨s', T, log, r1, r2, r3, r4, r5, r6, r7, r8⟩ := ih rest.length (by omega) rest _ g kg sg
              (.node y true ky sy yl yr) (.node p true kp sp (.node z false k sz l r) u) fuel
              (le_refl _) h3 hRG.tail
              (fun hc => by simpa [RBPath.sizeInv_plug, RBTree.sizeInv_node] using hSz hc)
              (by simpa [RBPath.keys_plug] using hK)
              (by omega)
            refine ⟨s', T, HeapStep.colorWrite p true :: HeapStep.colorWrite y true ::
                HeapStep.colorWrite g false :: log, ?_, r2, r3, r4, ?_, by simpa using r6,
              by simpa using r7, ?_⟩
            · simp [insertRBFix.steps, e1, e2, e3, e4, e5, e6, hpun, r1, HeapStep.before]
            · rw [r5]; simp [RBPath.entries_plug]
            · exact List.forall_mem_cons.mpr ⟨fun _ => rfl, List.forall_mem_cons.mpr
                ⟨fun _ => rfl, List.forall_mem_cons.mpr ⟨fun hc => absurd hc hgN, r8⟩⟩⟩
          | true =>
            -- Case B then C: black uncle, `z` is the inner grandchild
            have h1 := hp.rightRotate
            have f1 : (rightRotateRB s p).parent p = z := by simpa using h1.downR.parent_root
            have f2 : (rightRotateRB s p).parent z = g := by simpa using h1.parent_root
            have h2 := h1.setColor_root true
            have h3 := h2.up.setColor_root false
            simp only [RBFrame.fill_L, RBFrame.fill_R] at h3
            have h4 := h3.leftRotate
            have h5 := h4.downR
            have hgN : g ≠ NIL := hg.root_ne_nil
            have hpN : p ≠ NIL := hp.root_ne_nil
            have hzN : z ≠ NIL := h.root_ne_nil
            have hH1 : HeapSizedIf c K _ := HeapSizedIf.of_shapeZ h1
              (by
                intro hc
                have hSz := hSz hc
                simp only [RBPath.plug_cons, RBFrame.fill_L, RBFrame.fill_R, RBPath.sizeInv_plug,
                  RBTree.sizeInv_node, RBTree.size0_node] at hSz ⊢
                repeat' apply And.intro
                all_goals first | omega | tauto)
              (by simpa [RBPath.keys_plug] using hK)
            have hH5 : HeapSizedIf c K _ := HeapSizedIf.of_shapeZ h5
              (by
                intro hc
                have hSz := hSz hc
                simp only [RBPath.plug_cons, RBFrame.fill_L, RBFrame.fill_R, RBPath.sizeInv_plug,
                  RBTree.sizeInv_node, RBTree.size0_node] at hSz ⊢
                repeat' apply And.intro
                all_goals first | omega | tauto)
              (by simpa [RBPath.keys_plug] using hK)
            obtain ⟨s', T, log, r1, r2, r3, r4, r5, r6, r7, r8⟩ := ih (rest.length + 1) (by omega) _ _ p kp
              (r.size0 + u.size0 + 1) r u fuel (by simp) h5
              (RBPath.RootBlack.black_cons rfl hRG)
              (by
                intro hc
                have hSz := hSz hc
                simp only [RBPath.plug_cons, RBFrame.fill_L, RBFrame.fill_R, RBPath.sizeInv_plug,
                  RBTree.sizeInv_node, RBTree.size0_node] at hSz ⊢
                repeat' apply And.intro
                all_goals first | omega | tauto)
              (by simpa [RBPath.keys_plug] using hK)
              (by simp only [List.length_cons]; omega)
            refine ⟨s', T, (rightRotateRB.steps s p ++ HeapStep.colorWrite z true ::
                HeapStep.colorWrite g false ::
                leftRotateRB.steps (((rightRotateRB s p).setColor z true).setColor g false) g) ++ log, ?_,
              r2, r3, r4, ?_, by simpa using r6, by simpa using r7, ?_⟩
            · simp [insertRBFix.steps, e1, e2, e3, e4, e5, e6, hpun, e7, hunc, f1, f2, r1, HeapStep.before]
            · rw [r5]; simp [RBPath.entries_plug]
            · exact List.forall_mem_append.mpr ⟨List.forall_mem_append.mpr
                ⟨rightRotateRB_steps_ok hpN (by rw [e7]; exact hzN) hH1,
                  List.forall_mem_cons.mpr ⟨fun _ => rfl,
                    List.forall_mem_cons.mpr ⟨fun hc => absurd hc hgN,
                      leftRotateRB_steps_ok hgN (by rw [h3.right_root]; exact hzN) hH5⟩⟩⟩, r8⟩

/-! ## Dynamic tree: the steps of `insertRB` -/

/-- The recorded descent of `insertRB` reaches the leaf below the path `ins key t cs`;
every size it writes is written on a real node. -/
theorem insertRB_descendSteps_spec (P : State → Prop) (key : Int) :
    ∀ (t : RBTree) (cs : RBPath) (s : State) (fuel : Nat),
    ShapeZ s t cs → t.height < fuel →
    ∃ s' log, insertRB.descendSteps key fuel s (RBPath.addr cs NIL) t.addr =
        some (s', RBPath.addr (RBPath.ins key t cs) NIL, log) ∧
      ShapeZ s' .nil (RBPath.ins key t cs) ∧ s'.next = s.next ∧ s'.freed = s.freed ∧
      ∀ e ∈ log, e.Ok P
  | .nil, cs, s, fuel, h, hf => by
    obtain ⟨fuel, rfl⟩ : ∃ n, fuel = n + 1 := ⟨fuel - 1, by omega⟩
    exact ⟨s, [], by simp [insertRB.descendSteps, RBPath.ins], h, rfl, rfl, by simp⟩
  | .node a c k sz l r, cs, s, fuel, h, hf => by
    obtain ⟨fuel, rfl⟩ : ∃ n, fuel = n + 1 := ⟨fuel - 1, by omega⟩
    simp only [RBTree.height] at hf
    have haN := h.root_ne_nil
    have h1 := h.setSize_root (sz + 1)
    simp only [insertRB.descendSteps, RBTree.addr_node, ne_eq, haN, not_false_eq_true, if_true,
      h.size_root, State.setSize_key, h.key_root, State.setSize_left, State.setSize_right,
      h.left_root, h.right_root]
    unfold RBPath.ins
    by_cases hlt : key < k
    · simp only [hlt, if_true]
      obtain ⟨s', log, e1, e2, e3, e4, e5⟩ :=
        insertRB_descendSteps_spec P key l (.L a c k (sz + 1) r :: cs) _ fuel h1.downL (by omega)
      simp only [RBPath.addr_cons, RBFrame.addr_L] at e1
      rw [e1]
      exact ⟨s', _, rfl, e2, e3, e4,
        List.forall_mem_cons.mpr ⟨haN, e5⟩⟩
    · simp only [hlt, if_false]
      obtain ⟨s', log, e1, e2, e3, e4, e5⟩ :=
        insertRB_descendSteps_spec P key r (.R a c k (sz + 1) l :: cs) _ fuel h1.downR (by omega)
      simp only [RBPath.addr_cons, RBFrame.addr_R] at e1
      rw [e1]
      exact ⟨s', _, rfl, e2, e3, e4,
        List.forall_mem_cons.mpr ⟨haN, e5⟩⟩

/-- `insertRB` on a search tree with exact sizes and a black root (any other
colours): it returns a search tree with exact sizes and a black root, in which the
new node stands behind all nodes whose key is at most the new key; every step of
the run respects the sentinel, and after each rotation the heap holds a tree with
exact sizes on the new keys. -/
theorem insertRB_steps_spec {s : State} {T : RBTree} (c : Prop) (key : Int) (fuel : Nat)
    (h : Shape s T) (hB : T.BST) (hS : c → T.SizeInv) (hc : T.color0 = true)
    (hf : T.height < fuel) :
    ∃ s' T' log, insertRB.steps fuel s key = some (s', log) ∧ insertRB fuel s key = some s' ∧
      Shape s' T' ∧ T'.color0 = true ∧ (c → T'.SizeInv) ∧ T'.BST ∧
      T'.entries = T.entries.filter (fun e => decide (e.2 ≤ key)) ++
        (s.next, key) :: T.entries.filter (fun e => decide (key < e.2)) ∧
      T'.keys = (RBTree.ins key (.node s.next false key 1 .nil .nil) T).keys ∧
      s'.next = s.next + 1 ∧ s'.freed = s.freed ∧ ∀ e ∈ log, e.Ok (HeapSizedIf c T'.keys) := by
  obtain ⟨s1, dlog, d1, d2, d3, d4, d5⟩ :=
    insertRB_descendSteps_spec (HeapSizedIf c (RBTree.ins key (.node s.next false key 1 .nil .nil) T).keys)
      key T [] s fuel h.toZ hf
  obtain ⟨s2, l1, l2, l3, l4⟩ := insertRB_link_spec key s1 _ d2 (RBPath.dir_ins key T [] trivial)
  have hplug := RBPath.plug_ins key (.node s1.next false key 1 .nil .nil) T []
  simp only [RBPath.plug_nil] at hplug
  have hlen := RBPath.length_ins key T []
  simp only [List.length_nil, Nat.add_zero] at hlen
  have hz : (RBTree.node s1.next false key 1 .nil .nil).SizeInv := by
    simp [RBTree.sizeInv_node]
  have hzN : s1.next ≠ NIL := Nat.ne_of_gt d2.nilAlloc
  obtain ⟨s', T', log, r1, r2, r3, r4, r5, r6, r7, r8⟩ :=
    insertRBFix_steps_spec c (RBTree.ins key (.node s.next false key 1 .nil .nil) T).keys _ _ s2
      s1.next key 1 .nil .nil fuel (le_refl _) l2
      (RBPath.rootBlack_ins key T [] (fun _ => hc) trivial)
      (fun hc' => by rw [hplug]; exact (RBTree.sizeInv_ins key _ hz (by simp) T (hS hc')).1)
      (by rw [hplug, d3])
      (by omega)
  rw [hplug, d3] at r5
  have hent : T'.entries = T.entries.filter (fun e => decide (e.2 ≤ key)) ++
      (s.next, key) :: T.entries.filter (fun e => decide (key < e.2)) := by
    rw [r5, RBTree.entries_ins key _ T hB]
    simp
  have hkeys : T'.keys = (RBTree.ins key (.node s.next false key 1 .nil .nil) T).keys := by
    rw [← RBTree.entries_keys, r5, RBTree.entries_keys]
  have hbst : T'.BST := by
    rw [RBTree.bst_iff_sorted, hkeys, ← RBTree.bst_iff_sorted]
    exact RBTree.bst_ins key _ (by simp) (by simp [RBTree.bst_node]) T hB
  have hsteps : insertRB.steps fuel s key =
      some (s', (dlog ++ [HeapStep.colorWrite s1.next false, HeapStep.sizeWrite s1.next 1]) ++
        log) := by
    unfold insertRB.steps
    simp only [RBPath.addr_empty] at d1
    rw [← h.root] at d1
    rw [d1]
    simp only
    simp only [RBPath.addr_empty] at l1
    rw [l1]
    show HeapStep.before _ (insertRBFix.steps fuel s2 s1.next) = _
    rw [r1]
    simp [HeapStep.before]
  refine ⟨s', T', _, hsteps, ?_, r2, r3, r4, hbst, hent, hkeys, by rw [r6, l3, d3], by rw [r7, l4, d4],
    ?_⟩
  · have := insertRB_steps_fst fuel s key
    rw [hsteps] at this
    exact this.symm
  · rw [hkeys]
    refine List.forall_mem_append.mpr ⟨List.forall_mem_append.mpr ⟨d5, ?_⟩, r8⟩
    exact List.forall_mem_cons.mpr ⟨fun hn => absurd hn hzN,
      List.forall_mem_cons.mpr ⟨hzN, by simp⟩⟩

/-! ## Dynamic tree: the steps of `deleteRBFix` -/

theorem StepsPost.colorBlack {P : State → Prop} (st : State) (a : Nat) :
    StepsPost P (fun _ => True) (some (st, [HeapStep.colorWrite a true])) := by
  refine ⟨st, _, rfl, trivial, ?_⟩
  intro e he
  simp only [List.mem_singleton] at he
  subst he
  exact fun _ => rfl

/-- One iteration of the recorded loop of `deleteRBFix`. -/
theorem deleteRBFix_steps_succ (fuel : Nat) (s : State) (x : Nat) :
    deleteRBFix.steps (fuel + 1) s x =
      if x ≠ s.root ∧ s.color x = true then
        if x = s.left (s.parent x) then
          let w := s.right (s.parent x)
          let sw : State × Nat × List HeapStep :=
            if s.color w = false then
              let e1 := HeapStep.colorWrite w true
              let s := s.setColor w true
              let e2 := HeapStep.colorWrite (s.parent x) false
              let s := s.setColor (s.parent x) false
              let e3 := leftRotateRB.steps s (s.parent x)
              let s := leftRotateRB s (s.parent x)
              (s, s.right (s.parent x), e1 :: e2 :: e3)
            else (s, w, [])
          HeapStep.before sw.2.2
            (deleteRBFix.stepsTailL (deleteRBFix.steps fuel) sw.1 x sw.2.1)
        else
          let w := s.left (s.parent x)
          let sw : State × Nat × List HeapStep :=
            if s.color w = false then
              let e1 := HeapStep.colorWrite w true
              let s := s.setColor w true
              let e2 := HeapStep.colorWrite (s.parent x) false
              let s := s.setColor (s.parent x) false
              let e3 := rightRotateRB.steps s (s.parent x)
              let s := rightRotateRB s (s.parent x)
              (s, s.left (s.parent x), e1 :: e2 :: e3)
            else (s, w, [])
          HeapStep.before sw.2.2
            (deleteRBFix.stepsTailR (deleteRBFix.steps fuel) sw.1 x sw.2.1)
      else some (s.setColor x true, [HeapStep.colorWrite x true]) := rfl

/-- The recorded loop stops at a red node and at the root. -/
theorem deleteRBFix_steps_exit {s : State} {x : RBTree} {cs : RBPath} (fuel : Nat)
    (h : ShapeZ s x cs) (hx : cs = [] ∨ x.color0 = false) :
    deleteRBFix.steps (fuel + 1) s x.addr = some (s.setColor x.addr true, [HeapStep.colorWrite x.addr true]) := by
  have hcond : ¬ (x.addr ≠ s.root ∧ s.color x.addr = true) := by
    rintro ⟨h1, h2⟩
    rcases hx with hx | hx
    · subst hx
      exact h1 h.root.symm
    · rw [h.color_addr, hx] at h2
      exact absurd h2 (by simp)
  rw [deleteRBFix_steps_succ, if_neg hcond]

theorem deleteRBFix_steps_root {c : Prop} {K : List Int} {s : State} {T : RBTree} (fuel : Nat)
    (h : Shape s T) :
    StepsPost (HeapSizedIf c K) (fun _ => True) (deleteRBFix.steps (fuel + 1) s s.root) := by
  have := deleteRBFix_steps_exit fuel h.toZ (Or.inl rfl)
  rw [h.root, this]
  exact StepsPost.colorBlack _ _

/-- The last case of the loop body, branch `L`: the rotation at the parent has a
real right child. -/
theorem deleteRBFix_steps_case4L {s : State} {x wn va vb : RBTree} {p w v : Nat} {cp : Bool}
    {kp sp kw sw kv sv : Int} {rest : RBPath} {c : Prop} {K : List Int} (fuel : Nat)
    (h : ShapeZ s x (.L p cp kp sp (.node w true kw sw wn (.node v false kv sv va vb)) :: rest))
    (hp : s.parent x.addr = p)
    (hSz : c → (RBPath.plug x (.L p cp kp sp (.node w true kw sw wn (.node v false kv sv va vb)) :: rest)).SizeInv)
    (hK : (RBPath.plug x (.L p cp kp sp (.node w true kw sw wn (.node v false kv sv va vb)) :: rest)).keys = K) :
    StepsPost (HeapSizedIf c K) (fun _ => True) (deleteRBFix.stepsCase4L (deleteRBFix.steps (fuel + 1)) s x.addr w) := by
  have hu := h.up
  simp only [RBFrame.fill_L, RBFrame.fill_R] at hu
  have ecp : s.color p = cp := hu.color_root
  have hw := hu.downR
  have epN : p ≠ NIL := hu.root_ne_nil
  have ewN : w ≠ NIL := hw.root_ne_nil
  have erp : s.right p = w := by simpa using hu.right_root
  have efar : s.right w = v := by simpa using hw.right_root
  have h1 := hw.setColor_root cp
  have h2 := h1.up.setColor_root true
  simp only [RBFrame.fill_L, RBFrame.fill_R] at h2
  have h3 := (h2.downR.downR.setColor_root true).up.up
  simp only [RBFrame.fill_L, RBFrame.fill_R] at h3
  have h4 := h3.leftRotate
  have hst : deleteRBFix.stepsCase4L (deleteRBFix.steps (fuel + 1)) s x.addr w =
      HeapStep.before (HeapStep.colorWrite w cp :: HeapStep.colorWrite p true ::
          HeapStep.colorWrite v true ::
          leftRotateRB.steps (((s.setColor w cp).setColor p true).setColor v true) p)
        (deleteRBFix.steps (fuel + 1)
          (leftRotateRB (((s.setColor w cp).setColor p true).setColor v true) p)
          (leftRotateRB (((s.setColor w cp).setColor p true).setColor v true) p).root) := by
    simp [deleteRBFix.stepsCase4L, hp, ecp, efar, erp]
  rw [hst]
  have hH : HeapSizedIf c K _ := HeapSizedIf.of_shapeZ h4
    (by
      intro hc
      have hSz := hSz hc
      simp only [RBPath.plug_cons, RBFrame.fill_L, RBFrame.fill_R, RBPath.sizeInv_plug,
        RBTree.sizeInv_node, RBTree.size0_node] at hSz ⊢
      repeat' apply And.intro
      all_goals first | omega | tauto)
    (by simpa [RBPath.keys_plug] using hK)
  exact (deleteRBFix_steps_root fuel h4.toShape).prepend
    (List.forall_mem_cons.mpr ⟨fun hc => absurd hc ewN, List.forall_mem_cons.mpr ⟨fun _ => rfl,
      List.forall_mem_cons.mpr ⟨fun _ => rfl,
        leftRotateRB_steps_ok epN (by rw [h3.right_root]; exact ewN) hH⟩⟩⟩)

/-- The recorded loop body from the test on the children of the black sibling `w` on,
branch `L`. -/
theorem deleteRBFix_steps_tailL {s : State} {x wn wf : RBTree} {p w : Nat} {cp : Bool}
    {kp sp kw sw : Int} {rest : RBPath} {c : Prop} {K : List Int} (fuel : Nat)
    (h : ShapeZ s x (.L p cp kp sp (.node w true kw sw wn wf) :: rest))
    (hp : s.parent x.addr = p) (hxW : x.WF)
    (hSz : c → (RBPath.plug x (.L p cp kp sp (.node w true kw sw wn wf) :: rest)).SizeInv)
    (hK : (RBPath.plug x (.L p cp kp sp (.node w true kw sw wn wf) :: rest)).keys = K)
    (hA : RBPath.Accepts (.L p cp kp sp (.node w true kw sw wn wf) :: rest) true (x.blackHeight + 1))
    (ih : cp = true → ∀ (s1 : State) (X : RBTree), ShapeZ s1 X rest →
      s1.parent X.addr = RBPath.addr rest NIL → X.setBlack.WF →
      RBPath.Accepts rest true (X.blackHeight + 1) →
      (c → (RBPath.plug X rest).SizeInv) → (RBPath.plug X rest).keys = K →
      StepsPost (HeapSizedIf c K) (fun _ => True) (deleteRBFix.steps (fuel + 1) s1 X.addr)) :
    StepsPost (HeapSizedIf c K) (fun _ => True) (deleteRBFix.stepsTailL (deleteRBFix.steps (fuel + 1)) s x.addr w) := by
  rw [RBPath.accepts_cons] at hA
  simp only [RBFrame.color, RBFrame.sib, RBTree.wf_node, RBTree.blackHeight_node,
    RBTree.color0_node, if_true] at hA
  obtain ⟨hA1, ⟨-, hb, hnW, hfW⟩, hbh, hA4⟩ := hA
  have hu := h.up
  simp only [RBFrame.fill_L, RBFrame.fill_R] at hu
  have hw := hu.downR
  have hwn := hw.downL
  have hwf := hw.downR
  have ewN : w ≠ NIL := hw.root_ne_nil
  have en : s.left w = wn.addr := hw.left_root
  have ef : s.right w = wf.addr := hw.right_root
  have ecn : s.color wn.addr = wn.color0 := hwn.color_addr
  have ecf : s.color wf.addr = wf.color0 := hwf.color_addr
  cases hfc : wf.color0 with
  | false =>
    obtain ⟨v, kv, sv, va, vb, rfl⟩ := RBTree.exists_node_of_red hfc
    simp only [RBTree.addr_node, RBTree.color0_node] at ef ecf
    have hst : deleteRBFix.stepsTailL (deleteRBFix.steps (fuel + 1)) s x.addr w =
        deleteRBFix.stepsCase4L (deleteRBFix.steps (fuel + 1)) s x.addr w := by
      simp [deleteRBFix.stepsTailL, en, ef, ecn, ecf, HeapStep.before_noSteps]
    rw [hst]
    exact deleteRBFix_steps_case4L fuel h hp hSz hK
  | true =>
    rw [hfc] at ecf
    cases hnc : wn.color0 with
    | true =>
      rw [hnc] at ecn
      have h2 := (hw.setColor_root false).up
      simp only [RBFrame.fill_L, RBFrame.fill_R] at h2
      have hst : deleteRBFix.stepsTailL (deleteRBFix.steps (fuel + 1)) s x.addr w =
          HeapStep.before [HeapStep.colorWrite w false]
            (deleteRBFix.steps (fuel + 1) (s.setColor w false) p) := by
        simp [deleteRBFix.stepsTailL, en, ef, ecn, ecf, hp]
      rw [hst]
      refine StepsPost.prepend ?_
        (List.forall_mem_cons.mpr ⟨fun hc => absurd hc ewN, by simp⟩)
      have hX : (RBTree.setBlack (.node p cp kp sp x (.node w false kw sw wn wf))).WF := by
        simp only [RBTree.setBlack_node, RBTree.wf_node, RBTree.color0_node,
          RBTree.blackHeight_node]
        refine ⟨by simp, ?_, ?_, ?_⟩
        · first | omega | (simp only [Bool.false_eq_true, if_false]; omega)
        all_goals first | exact hxW | exact ⟨fun _ => ⟨hnc, hfc⟩, hb, hnW, hfW⟩
      have hAX : RBPath.Accepts rest true
          ((RBTree.blackHeight (.node p cp kp sp x (.node w false kw sw wn wf))) + 1) := by
        simp only [RBTree.blackHeight_node]
        have e : x.blackHeight + (if cp = true then 1 else 0) + 1 =
            x.blackHeight + 1 + (if cp = true then 1 else 0) := by
          first | omega | (simp only [Bool.false_eq_true, if_false]; omega)
        rw [e]
        exact hA4.black
      cases cp with
      | false =>
        have := deleteRBFix_steps_exit fuel h2 (Or.inr rfl)
        simp only [RBTree.addr_node] at this
        rw [this]
        exact StepsPost.colorBlack _ _
      | true =>
        exact ih rfl _ _ h2 h2.parent_root hX hAX
          (by
      intro hc
      have hSz := hSz hc
      simp only [RBPath.plug_cons, RBFrame.fill_L, RBFrame.fill_R, RBPath.sizeInv_plug,
        RBTree.sizeInv_node, RBTree.size0_node] at hSz ⊢
      repeat' apply And.intro
      all_goals first | omega | tauto)
          (by simpa [RBPath.keys_plug] using hK)
    | false =>
      obtain ⟨u, ku, su, ua, ub, rfl⟩ := RBTree.exists_node_of_red hnc
      simp only [RBTree.addr_node, RBTree.color0_node] at en ecn
      have euN : u ≠ NIL := hwn.root_ne_nil
      have h1 := (hwn.setColor_root true).up
      simp only [RBFrame.fill_L, RBFrame.fill_R] at h1
      have h2 := h1.setColor_root false
      have h3 := h2.rightRotate
      have h4 := h3.up.downL
      simp only [RBFrame.fill_L, RBFrame.fill_R] at h4
      have efar3 : (rightRotateRB ((s.setColor u true).setColor w false) w).right p = u := by
        simpa using h3.up.right_root
      have hp3 : (rightRotateRB ((s.setColor u true).setColor w false) w).parent x.addr = p := by
        cases x with
        | nil =>
          rw [RBTree.addr_nil, rightRotateRB_parent_nil _ _ ewN (by simpa [en] using euN)]
          simpa using hp
        | node a c k sz l r => simpa using h4.parent_root
      have hst : deleteRBFix.stepsTailL (deleteRBFix.steps (fuel + 1)) s x.addr w =
          HeapStep.before (HeapStep.colorWrite u true :: HeapStep.colorWrite w false ::
              rightRotateRB.steps ((s.setColor u true).setColor w false) w)
            (deleteRBFix.stepsCase4L (deleteRBFix.steps (fuel + 1))
              (rightRotateRB ((s.setColor u true).setColor w false) w) x.addr u) := by
        simp [deleteRBFix.stepsTailL, en, ef, ecn, ecf, hp3, efar3]
      rw [hst]
      have hH : HeapSizedIf c K _ := HeapSizedIf.of_shapeZ h4
        (by
      intro hc
      have hSz := hSz hc
      simp only [RBPath.plug_cons, RBFrame.fill_L, RBFrame.fill_R, RBPath.sizeInv_plug,
        RBTree.sizeInv_node, RBTree.size0_node] at hSz ⊢
      repeat' apply And.intro
      all_goals first | omega | tauto)
        (by simpa [RBPath.keys_plug] using hK)
      exact (deleteRBFix_steps_case4L fuel h4 hp3
        (by
      intro hc
      have hSz := hSz hc
      simp only [RBPath.plug_cons, RBFrame.fill_L, RBFrame.fill_R, RBPath.sizeInv_plug,
        RBTree.sizeInv_node, RBTree.size0_node] at hSz ⊢
      repeat' apply And.intro
      all_goals first | omega | tauto)
        (by simpa [RBPath.keys_plug] using hK)).prepend
        (List.forall_mem_cons.mpr ⟨fun _ => rfl, List.forall_mem_cons.mpr
          ⟨fun hc => absurd hc ewN,
            rightRotateRB_steps_ok ewN (by rw [h2.left_root]; exact euN) hH⟩⟩)

/-- The last case of the loop body, branch `R`: the rotation at the parent has a
real left child. -/
theorem deleteRBFix_steps_case4R {s : State} {x wn va vb : RBTree} {p w v : Nat} {cp : Bool}
    {kp sp kw sw kv sv : Int} {rest : RBPath} {c : Prop} {K : List Int} (fuel : Nat)
    (h : ShapeZ s x (.R p cp kp sp (.node w true kw sw (.node v false kv sv vb va) wn) :: rest))
    (hp : s.parent x.addr = p)
    (hSz : c → (RBPath.plug x (.R p cp kp sp (.node w true kw sw (.node v false kv sv vb va) wn) :: rest)).SizeInv)
    (hK : (RBPath.plug x (.R p cp kp sp (.node w true kw sw (.node v false kv sv vb va) wn) :: rest)).keys = K) :
    StepsPost (HeapSizedIf c K) (fun _ => True) (deleteRBFix.stepsCase4R (deleteRBFix.steps (fuel + 1)) s x.addr w) := by
  have hu := h.up
  simp only [RBFrame.fill_L, RBFrame.fill_R] at hu
  have ecp : s.color p = cp := hu.color_root
  have hw := hu.downL
  have epN : p ≠ NIL := hu.root_ne_nil
  have ewN : w ≠ NIL := hw.root_ne_nil
  have erp : s.left p = w := by simpa using hu.left_root
  have efar : s.left w = v := by simpa using hw.left_root
  have h1 := hw.setColor_root cp
  have h2 := h1.up.setColor_root true
  simp only [RBFrame.fill_L, RBFrame.fill_R] at h2
  have h3 := (h2.downL.downL.setColor_root true).up.up
  simp only [RBFrame.fill_L, RBFrame.fill_R] at h3
  have h4 := h3.rightRotate
  have hst : deleteRBFix.stepsCase4R (deleteRBFix.steps (fuel + 1)) s x.addr w =
      HeapStep.before (HeapStep.colorWrite w cp :: HeapStep.colorWrite p true ::
          HeapStep.colorWrite v true ::
          rightRotateRB.steps (((s.setColor w cp).setColor p true).setColor v true) p)
        (deleteRBFix.steps (fuel + 1)
          (rightRotateRB (((s.setColor w cp).setColor p true).setColor v true) p)
          (rightRotateRB (((s.setColor w cp).setColor p true).setColor v true) p).root) := by
    simp [deleteRBFix.stepsCase4R, hp, ecp, efar, erp]
  rw [hst]
  have hH : HeapSizedIf c K _ := HeapSizedIf.of_shapeZ h4
    (by
      intro hc
      have hSz := hSz hc
      simp only [RBPath.plug_cons, RBFrame.fill_L, RBFrame.fill_R, RBPath.sizeInv_plug,
        RBTree.sizeInv_node, RBTree.size0_node] at hSz ⊢
      repeat' apply And.intro
      all_goals first | omega | tauto)
    (by simpa [RBPath.keys_plug] using hK)
  exact (deleteRBFix_steps_root fuel h4.toShape).prepend
    (List.forall_mem_cons.mpr ⟨fun hc => absurd hc ewN, List.forall_mem_cons.mpr ⟨fun _ => rfl,
      List.forall_mem_cons.mpr ⟨fun _ => rfl,
        rightRotateRB_steps_ok epN (by rw [h3.left_root]; exact ewN) hH⟩⟩⟩)

/-- The recorded loop body from the test on the children of the black sibling `w` on,
branch `R`. -/
theorem deleteRBFix_steps_tailR {s : State} {x wn wf : RBTree} {p w : Nat} {cp : Bool}
    {kp sp kw sw : Int} {rest : RBPath} {c : Prop} {K : List Int} (fuel : Nat)
    (h : ShapeZ s x (.R p cp kp sp (.node w true kw sw wf wn) :: rest))
    (hp : s.parent x.addr = p) (hxW : x.WF)
    (hSz : c → (RBPath.plug x (.R p cp kp sp (.node w true kw sw wf wn) :: rest)).SizeInv)
    (hK : (RBPath.plug x (.R p cp kp sp (.node w true kw sw wf wn) :: rest)).keys = K)
    (hA : RBPath.Accepts (.R p cp kp sp (.node w true kw sw wf wn) :: rest) true (x.blackHeight + 1))
    (ih : cp = true → ∀ (s1 : State) (X : RBTree), ShapeZ s1 X rest →
      s1.parent X.addr = RBPath.addr rest NIL → X.setBlack.WF →
      RBPath.Accepts rest true (X.blackHeight + 1) →
      (c → (RBPath.plug X rest).SizeInv) → (RBPath.plug X rest).keys = K →
      StepsPost (HeapSizedIf c K) (fun _ => True) (deleteRBFix.steps (fuel + 1) s1 X.addr)) :
    StepsPost (HeapSizedIf c K) (fun _ => True) (deleteRBFix.stepsTailR (deleteRBFix.steps (fuel + 1)) s x.addr w) := by
  rw [RBPath.accepts_cons] at hA
  simp only [RBFrame.color, RBFrame.sib, RBTree.wf_node, RBTree.blackHeight_node,
    RBTree.color0_node, if_true] at hA
  obtain ⟨hA1, ⟨-, hb, hfW, hnW⟩, hbh, hA4⟩ := hA
  have hu := h.up
  simp only [RBFrame.fill_L, RBFrame.fill_R] at hu
  have hw := hu.downL
  have hwn := hw.downR
  have hwf := hw.downL
  have ewN : w ≠ NIL := hw.root_ne_nil
  have en : s.right w = wn.addr := hw.right_root
  have ef : s.left w = wf.addr := hw.left_root
  have ecn : s.color wn.addr = wn.color0 := hwn.color_addr
  have ecf : s.color wf.addr = wf.color0 := hwf.color_addr
  cases hfc : wf.color0 with
  | false =>
    obtain ⟨v, kv, sv, vb, va, rfl⟩ := RBTree.exists_node_of_red hfc
    simp only [RBTree.addr_node, RBTree.color0_node] at ef ecf
    have hst : deleteRBFix.stepsTailR (deleteRBFix.steps (fuel + 1)) s x.addr w =
        deleteRBFix.stepsCase4R (deleteRBFix.steps (fuel + 1)) s x.addr w := by
      simp [deleteRBFix.stepsTailR, en, ef, ecn, ecf, HeapStep.before_noSteps]
    rw [hst]
    exact deleteRBFix_steps_case4R fuel h hp hSz hK
  | true =>
    rw [hfc] at ecf
    cases hnc : wn.color0 with
    | true =>
      rw [hnc] at ecn
      have h2 := (hw.setColor_root false).up
      simp only [RBFrame.fill_L, RBFrame.fill_R] at h2
      have hst : deleteRBFix.stepsTailR (deleteRBFix.steps (fuel + 1)) s x.addr w =
          HeapStep.before [HeapStep.colorWrite w false]
            (deleteRBFix.steps (fuel + 1) (s.setColor w false) p) := by
        simp [deleteRBFix.stepsTailR, en, ef, ecn, ecf, hp]
      rw [hst]
      refine StepsPost.prepend ?_
        (List.forall_mem_cons.mpr ⟨fun hc => absurd hc ewN, by simp⟩)
      have hX : (RBTree.setBlack (.node p cp kp sp (.node w false kw sw wf wn) x)).WF := by
        simp only [RBTree.setBlack_node, RBTree.wf_node, RBTree.color0_node,
          RBTree.blackHeight_node]
        refine ⟨by simp, ?_, ?_, ?_⟩
        · first | omega | (simp only [Bool.false_eq_true, if_false]; omega)
        all_goals first | exact hxW | exact ⟨fun _ => ⟨hfc, hnc⟩, hb, hfW, hnW⟩
      have hAX : RBPath.Accepts rest true
          ((RBTree.blackHeight (.node p cp kp sp (.node w false kw sw wf wn) x)) + 1) := by
        simp only [RBTree.blackHeight_node]
        have e : wf.blackHeight + (if false = true then 1 else 0) + (if cp = true then 1 else 0) + 1 =
            x.blackHeight + 1 + (if cp = true then 1 else 0) := by
          first | omega | (simp only [Bool.false_eq_true, if_false]; omega)
        rw [e]
        exact hA4.black
      cases cp with
      | false =>
        have := deleteRBFix_steps_exit fuel h2 (Or.inr rfl)
        simp only [RBTree.addr_node] at this
        rw [this]
        exact StepsPost.colorBlack _ _
      | true =>
        exact ih rfl _ _ h2 h2.parent_root hX hAX
          (by
      intro hc
      have hSz := hSz hc
      simp only [RBPath.plug_cons, RBFrame.fill_L, RBFrame.fill_R, RBPath.sizeInv_plug,
        RBTree.sizeInv_node, RBTree.size0_node] at hSz ⊢
      repeat' apply And.intro
      all_goals first | omega | tauto)
          (by simpa [RBPath.keys_plug] using hK)
    | false =>
      obtain ⟨u, ku, su, ub, ua, rfl⟩ := RBTree.exists_node_of_red hnc
      simp only [RBTree.addr_node, RBTree.color0_node] at en ecn
      have euN : u ≠ NIL := hwn.root_ne_nil
      have h1 := (hwn.setColor_root true).up
      simp only [RBFrame.fill_L, RBFrame.fill_R] at h1
      have h2 := h1.setColor_root false
      have h3 := h2.leftRotate
      have h4 := h3.up.downR
      simp only [RBFrame.fill_L, RBFrame.fill_R] at h4
      have efar3 : (leftRotateRB ((s.setColor u true).setColor w false) w).left p = u := by
        simpa using h3.up.left_root
      have hp3 : (leftRotateRB ((s.setColor u true).setColor w false) w).parent x.addr = p := by
        cases x with
        | nil =>
          rw [RBTree.addr_nil, leftRotateRB_parent_nil _ _ ewN (by simpa [en] using euN)]
          simpa using hp
        | node a c k sz l r => simpa using h4.parent_root
      have hst : deleteRBFix.stepsTailR (deleteRBFix.steps (fuel + 1)) s x.addr w =
          HeapStep.before (HeapStep.colorWrite u true :: HeapStep.colorWrite w false ::
              leftRotateRB.steps ((s.setColor u true).setColor w false) w)
            (deleteRBFix.stepsCase4R (deleteRBFix.steps (fuel + 1))
              (leftRotateRB ((s.setColor u true).setColor w false) w) x.addr u) := by
        simp [deleteRBFix.stepsTailR, en, ef, ecn, ecf, hp3, efar3]
      rw [hst]
      have hH : HeapSizedIf c K _ := HeapSizedIf.of_shapeZ h4
        (by
      intro hc
      have hSz := hSz hc
      simp only [RBPath.plug_cons, RBFrame.fill_L, RBFrame.fill_R, RBPath.sizeInv_plug,
        RBTree.sizeInv_node, RBTree.size0_node] at hSz ⊢
      repeat' apply And.intro
      all_goals first | omega | tauto)
        (by simpa [RBPath.keys_plug] using hK)
      exact (deleteRBFix_steps_case4R fuel h4 hp3
        (by
      intro hc
      have hSz := hSz hc
      simp only [RBPath.plug_cons, RBFrame.fill_L, RBFrame.fill_R, RBPath.sizeInv_plug,
        RBTree.sizeInv_node, RBTree.size0_node] at hSz ⊢
      repeat' apply And.intro
      all_goals first | omega | tauto)
        (by simpa [RBPath.keys_plug] using hK)).prepend
        (List.forall_mem_cons.mpr ⟨fun _ => rfl, List.forall_mem_cons.mpr
          ⟨fun hc => absurd hc ewN,
            leftRotateRB_steps_ok ewN (by rw [h2.right_root]; exact euN) hH⟩⟩)

set_option maxHeartbeats 1000000 in
/-- The recorded `deleteRBFix` started at a node `x` that lacks one black on its
paths, in a tree with exact sizes: it returns; every colour it writes on the
sentinel is black, its rotations write sizes on real nodes only, and after each
rotation the heap holds a tree with exact sizes on the same keys. -/
theorem deleteRBFix_steps_spec (c : Prop) (K : List Int) :
    ∀ (cs : RBPath) (s : State) (x : RBTree) (fuel : Nat),
    ShapeZ s x cs → s.parent x.addr = RBPath.addr cs NIL → x.setBlack.WF →
    RBPath.Accepts cs true (x.blackHeight + 1) →
    (c → (RBPath.plug x cs).SizeInv) → (RBPath.plug x cs).keys = K → cs.length < fuel →
    StepsPost (HeapSizedIf c K) (fun _ => True) (deleteRBFix.steps fuel s x.addr) := by
  intro cs
  induction cs with
  | nil =>
    intro s x fuel h _ hW hA hSz hK hf
    obtain ⟨fuel, rfl⟩ : ∃ m, fuel = m + 1 := ⟨fuel - 1, by omega⟩
    rw [deleteRBFix_steps_exit fuel h (Or.inl rfl)]
    exact StepsPost.colorBlack _ _
  | cons f rest ih =>
    intro s x fuel h hp hW hA hSz hK hf
    simp only [List.length_cons] at hf
    obtain ⟨fuel, rfl⟩ : ∃ m, fuel = m + 1 := ⟨fuel - 1, by omega⟩
    cases hxc : x.color0 with
    | false =>
      rw [deleteRBFix_steps_exit fuel h (Or.inr hxc)]
      exact StepsPost.colorBlack _ _
    | true =>
      obtain ⟨fuel, rfl⟩ : ∃ m, fuel = m + 1 := ⟨fuel - 1, by omega⟩
      have hxW : x.WF := by
        rw [RBTree.setBlack_of_black hxc] at hW
        exact hW
      have hcol : s.color x.addr = true := by rw [h.color_addr, hxc]
      have hA0 := hA
      rw [RBPath.accepts_cons] at hA
      cases f with
      | L p cp kp sp W =>
        simp only [RBFrame.color, RBFrame.sib] at hA
        obtain ⟨hA1, hWW, hbh, hA4⟩ := hA
        obtain ⟨w, cw, kw, sw, wn, wf, rfl⟩ := RBTree.exists_node_of_blackHeight hbh
        simp only [RBPath.addr_cons, RBFrame.addr_L, RBFrame.addr_R] at hp
        have hu := h.up
        simp only [RBFrame.fill_L, RBFrame.fill_R] at hu
        have hw := hu.downR
        have epN : p ≠ NIL := hu.root_ne_nil
        have ewN : w ≠ NIL := hw.root_ne_nil
        have efar : s.right p = w := by simpa using hu.right_root
        have ecw : s.color w = cw := hw.color_root
        have hside : x.addr = s.left (s.parent x.addr) := by
          rw [hp, hu.left_root]
        cases cw with
        | true =>
          have hst : deleteRBFix.steps (fuel + 1 + 1) s x.addr =
              deleteRBFix.stepsTailL (deleteRBFix.steps (fuel + 1)) s x.addr w := by
            rw [deleteRBFix_steps_succ, if_pos ⟨h.addr_ne_root, hcol⟩, if_pos hside]
            simp [hp, efar, ecw, HeapStep.before_noSteps]
          rw [hst]
          exact deleteRBFix_steps_tailL fuel h hp hxW hSz hK hA0
            (fun _ s1 X a b c d e f => ih s1 X (fuel + 1) a b c d e f (by omega))
        | false =>
          have hcp : cp = true := by
            cases cp with
            | true => rfl
            | false => exact absurd (hA1 rfl).2 (by simp)
          subst hcp
          simp only [RBTree.wf_node, RBTree.blackHeight_node, if_true] at hWW hbh hA4
          obtain ⟨hWc, hWb, hnW, hfW⟩ := hWW
          have hnb : wn.blackHeight = x.blackHeight + 1 := by
            first | omega | (simp only [Bool.false_eq_true, if_false] at hbh hWb; omega)
          have hfb : wf.blackHeight = x.blackHeight + 1 := by
            first | omega | (simp only [Bool.false_eq_true, if_false] at hbh hWb; omega)
          obtain ⟨a, ca, ka, sa, al, ar, rfl⟩ := RBTree.exists_node_of_blackHeight hnb
          have hca : ca = true := by simpa using (hWc trivial).1
          subst hca
          have h1 := (hw.setColor_root true).up.setColor_root false
          simp only [RBFrame.fill_L, RBFrame.fill_R] at h1
          have h2 := h1.leftRotate
          have h3 := h2.downL.downL
          have efar3 : (leftRotateRB ((s.setColor w true).setColor p false) p).right p = a := by
            simpa using h2.downL.right_root
          have hp3 : (leftRotateRB ((s.setColor w true).setColor p false) p).parent x.addr = p := by
            cases x with
            | nil =>
              rw [RBTree.addr_nil, leftRotateRB_parent_nil _ _ epN (by simpa [efar] using ewN)]
              simpa using hp
            | node a c k sz l r => simpa using h3.parent_root
          have hst : deleteRBFix.steps (fuel + 1 + 1) s x.addr =
              HeapStep.before (HeapStep.colorWrite w true :: HeapStep.colorWrite p false ::
                  leftRotateRB.steps ((s.setColor w true).setColor p false) p)
                (deleteRBFix.stepsTailL (deleteRBFix.steps (fuel + 1))
                  (leftRotateRB ((s.setColor w true).setColor p false) p) x.addr a) := by
            rw [deleteRBFix_steps_succ, if_pos ⟨h.addr_ne_root, hcol⟩, if_pos hside]
            simp [hp, efar, ecw, hp3, efar3, HeapStep.before_noSteps]
          rw [hst]
          have hH : HeapSizedIf c K _ := HeapSizedIf.of_shapeZ h2
            (by
              intro hc
              have hSz := hSz hc
              simp only [RBPath.plug_cons, RBFrame.fill_L, RBFrame.fill_R, RBPath.sizeInv_plug,
                RBTree.sizeInv_node, RBTree.size0_node] at hSz ⊢
              repeat' apply And.intro
              all_goals first | omega | tauto)
            (by simpa [RBPath.keys_plug] using hK)
          have hpost := deleteRBFix_steps_tailL fuel h3 hp3 hxW
            (by
              intro hc
              have hSz := hSz hc
              simp only [RBPath.plug_cons, RBFrame.fill_L, RBFrame.fill_R, RBPath.sizeInv_plug,
                RBTree.sizeInv_node, RBTree.size0_node] at hSz ⊢
              repeat' apply And.intro
              all_goals first | omega | tauto)
            (by simpa [RBPath.keys_plug] using hK)
            (by
              simp only [RBPath.accepts_cons, RBFrame.color, RBFrame.sib, RBTree.wf_node,
                RBTree.blackHeight_node, RBTree.color0_node] at hnW hnb hfb ⊢
              refine ⟨by simp, ⟨by simp, hnW.2.1, hnW.2.2.1, hnW.2.2.2⟩, ?_, by simp, hfW, ?_, ?_⟩
              · first | omega | (simp only [if_true] at hnb ⊢; omega)
              · first | omega | (simp only [Bool.false_eq_true, if_false]; omega)
              · simp only [Bool.false_eq_true, if_false, if_true, Nat.add_zero]
                exact hA4)
            (fun hc => absurd hc (by simp))
          exact hpost.prepend
            (List.forall_mem_cons.mpr ⟨fun _ => rfl, List.forall_mem_cons.mpr
              ⟨fun hc => absurd hc epN,
                leftRotateRB_steps_ok epN (by rw [h1.right_root]; exact ewN) hH⟩⟩)
      | R p cp kp sp W =>
        simp only [RBFrame.color, RBFrame.sib] at hA
        obtain ⟨hA1, hWW, hbh, hA4⟩ := hA
        obtain ⟨w, cw, kw, sw, wf, wn, rfl⟩ := RBTree.exists_node_of_blackHeight hbh
        simp only [RBPath.addr_cons, RBFrame.addr_L, RBFrame.addr_R] at hp
        have hu := h.up
        simp only [RBFrame.fill_L, RBFrame.fill_R] at hu
        have hw := hu.downL
        have epN : p ≠ NIL := hu.root_ne_nil
        have ewN : w ≠ NIL := hw.root_ne_nil
        have efar : s.left p = w := by simpa using hu.left_root
        have ecw : s.color w = cw := hw.color_root
        have hside : ¬ x.addr = s.left (s.parent x.addr) := by
          rw [hp, hu.left_root]
          simpa using h.addr_ne_sib (by simp [RBFrame.sib])
        cases cw with
        | true =>
          have hst : deleteRBFix.steps (fuel + 1 + 1) s x.addr =
              deleteRBFix.stepsTailR (deleteRBFix.steps (fuel + 1)) s x.addr w := by
            rw [deleteRBFix_steps_succ, if_pos ⟨h.addr_ne_root, hcol⟩, if_neg hside]
            simp [hp, efar, ecw, HeapStep.before_noSteps]
          rw [hst]
          exact deleteRBFix_steps_tailR fuel h hp hxW hSz hK hA0
            (fun _ s1 X a b c d e f => ih s1 X (fuel + 1) a b c d e f (by omega))
        | false =>
          have hcp : cp = true := by
            cases cp with
            | true => rfl
            | false => exact absurd (hA1 rfl).2 (by simp)
          subst hcp
          simp only [RBTree.wf_node, RBTree.blackHeight_node, if_true] at hWW hbh hA4
          obtain ⟨hWc, hWb, hfW, hnW⟩ := hWW
          have hnb : wn.blackHeight = x.blackHeight + 1 := by
            first | omega | (simp only [Bool.false_eq_true, if_false] at hbh hWb; omega)
          have hfb : wf.blackHeight = x.blackHeight + 1 := by
            first | omega | (simp only [Bool.false_eq_true, if_false] at hbh hWb; omega)
          obtain ⟨a, ca, ka, sa, ar, al, rfl⟩ := RBTree.exists_node_of_blackHeight hnb
          have hca : ca = true := by simpa using (hWc trivial).2
          subst hca
          have h1 := (hw.setColor_root true).up.setColor_root false
          simp only [RBFrame.fill_L, RBFrame.fill_R] at h1
          have h2 := h1.rightRotate
          have h3 := h2.downR.downR
          have efar3 : (rightRotateRB ((s.setColor w true).setColor p false) p).left p = a := by
            simpa using h2.downR.left_root
          have hp3 : (rightRotateRB ((s.setColor w true).setColor p false) p).parent x.addr = p := by
            cases x with
            | nil =>
              rw [RBTree.addr_nil, rightRotateRB_parent_nil _ _ epN (by simpa [efar] using ewN)]
              simpa using hp
            | node a c k sz l r => simpa using h3.parent_root
          have hst : deleteRBFix.steps (fuel + 1 + 1) s x.addr =
              HeapStep.before (HeapStep.colorWrite w true :: HeapStep.colorWrite p false ::
                  rightRotateRB.steps ((s.setColor w true).setColor p false) p)
                (deleteRBFix.stepsTailR (deleteRBFix.steps (fuel + 1))
                  (rightRotateRB ((s.setColor w true).setColor p false) p) x.addr a) := by
            rw [deleteRBFix_steps_succ, if_pos ⟨h.addr_ne_root, hcol⟩, if_neg hside]
            simp [hp, efar, ecw, hp3, efar3, HeapStep.before_noSteps]
          rw [hst]
          have hH : HeapSizedIf c K _ := HeapSizedIf.of_shapeZ h2
            (by
              intro hc
              have hSz := hSz hc
              simp only [RBPath.plug_cons, RBFrame.fill_L, RBFrame.fill_R, RBPath.sizeInv_plug,
                RBTree.sizeInv_node, RBTree.size0_node] at hSz ⊢
              repeat' apply And.intro
              all_goals first | omega | tauto)
            (by simpa [RBPath.keys_plug] using hK)
          have hpost := deleteRBFix_steps_tailR fuel h3 hp3 hxW
            (by
              intro hc
              have hSz := hSz hc
              simp only [RBPath.plug_cons, RBFrame.fill_L, RBFrame.fill_R, RBPath.sizeInv_plug,
                RBTree.sizeInv_node, RBTree.size0_node] at hSz ⊢
              repeat' apply And.intro
              all_goals first | omega | tauto)
            (by simpa [RBPath.keys_plug] using hK)
            (by
              simp only [RBPath.accepts_cons, RBFrame.color, RBFrame.sib, RBTree.wf_node,
                RBTree.blackHeight_node, RBTree.color0_node] at hnW hnb hfb ⊢
              refine ⟨by simp, ⟨by simp, hnW.2.1, hnW.2.2.1, hnW.2.2.2⟩, ?_, by simp, hfW, ?_, ?_⟩
              · first | omega | (simp only [if_true] at hnb ⊢; omega)
              · first | omega | (simp only [Bool.false_eq_true, if_false]; omega)
              · simp only [Bool.false_eq_true, if_false, if_true, Nat.add_zero]
                exact hA4)
            (fun hc => absurd hc (by simp))
          exact hpost.prepend
            (List.forall_mem_cons.mpr ⟨fun _ => rfl, List.forall_mem_cons.mpr
              ⟨fun hc => absurd hc epN,
                rightRotateRB_steps_ok epN (by rw [h1.left_root]; exact ewN) hH⟩⟩)

/-! ## Dynamic tree: the steps of `deleteRB` -/

/-- The recorded size-repair loop of `deleteRB` decrements the size of every node on
the path; every size it writes is written on a real node. -/
theorem deleteRB_repairSteps_spec (P : State → Prop) :
    ∀ (cs : RBPath) (t : RBTree) (s : State) (fuel : Nat),
    ShapeZ s t cs → cs.length < fuel →
    ∃ s' log, deleteRB.repairSteps fuel s (RBPath.addr cs NIL) = some (s', log) ∧
      ShapeZ s' t (RBPath.decSizes cs) ∧ s'.parent = s.parent ∧ ∀ e ∈ log, e.Ok P
  | [], t, s, fuel, h, hf => by
    obtain ⟨fuel, rfl⟩ : ∃ n, fuel = n + 1 := ⟨fuel - 1, by omega⟩
    exact ⟨s, [], by simp [deleteRB.repairSteps], h, rfl, by simp⟩
  | .L a c k sz r :: rest, t, s, fuel, h, hf => by
    simp only [List.length_cons] at hf
    obtain ⟨fuel, rfl⟩ : ∃ n, fuel = n + 1 := ⟨fuel - 1, by omega⟩
    have hu := h.up
    simp only [RBFrame.fill_L] at hu
    have e1 : a ≠ NIL := hu.root_ne_nil
    have e2 : s.size a = sz := hu.size_root
    have e3 : s.parent a = RBPath.addr rest NIL := hu.parent_root
    obtain ⟨s', log, r1, r2, r3, r6⟩ := deleteRB_repairSteps_spec P rest _ _ fuel
      (hu.setSize_root (sz - 1)) (by omega)
    refine ⟨s', HeapStep.sizeWrite a (sz - 1) :: log, ?_,
      by simpa [RBFrame.decSize] using r2.downL, by simpa using r3,
      List.forall_mem_cons.mpr ⟨e1, r6⟩⟩
    simp [deleteRB.repairSteps, e1, e2, e3, r1, HeapStep.before]
  | .R a c k sz r :: rest, t, s, fuel, h, hf => by
    simp only [List.length_cons] at hf
    obtain ⟨fuel, rfl⟩ : ∃ n, fuel = n + 1 := ⟨fuel - 1, by omega⟩
    have hu := h.up
    simp only [RBFrame.fill_R] at hu
    have e1 : a ≠ NIL := hu.root_ne_nil
    have e2 : s.size a = sz := hu.size_root
    have e3 : s.parent a = RBPath.addr rest NIL := hu.parent_root
    obtain ⟨s', log, r1, r2, r3, r6⟩ := deleteRB_repairSteps_spec P rest _ _ fuel
      (hu.setSize_root (sz - 1)) (by omega)
    refine ⟨s', HeapStep.sizeWrite a (sz - 1) :: log, ?_,
      by simpa [RBFrame.decSize] using r2.downR, by simpa using r3,
      List.forall_mem_cons.mpr ⟨e1, r6⟩⟩
    simp [deleteRB.repairSteps, e1, e2, e3, r1, HeapStep.before]

/-- The recorded tail of `deleteRB` after the splice, on a tree whose sizes are
exact once the path above `x` is decremented. -/
theorem deleteRB_stepsFinish_spec {c0 : Prop} {K : List Int} {s : State} {x : RBTree} {cs : RBPath}
    (c : Bool) (fuel : Nat)
    (h : ShapeZ s x cs) (hp : s.parent x.addr = RBPath.addr cs NIL) (hxW : x.WF)
    (hA : RBPath.Accepts cs c (x.blackHeight + (if c then 1 else 0)))
    (hf : cs.length < fuel)
    (hSz : c0 → (RBPath.plug x (RBPath.decSizes cs)).SizeInv)
    (hK : (RBPath.plug x (RBPath.decSizes cs)).keys = K) :
    StepsPost (HeapSizedIf c0 K) (fun _ => True) (deleteRB.stepsFinish fuel s x.addr c) := by
  obtain ⟨s2, log, r1, r2, r3, r6⟩ := deleteRB_repairSteps_spec (HeapSizedIf c0 K) cs x s fuel h hf
  have hst : deleteRB.stepsFinish fuel s x.addr c =
      if c = true then HeapStep.before log (deleteRBFix.steps fuel s2 x.addr)
      else some (s2, log) := by
    simp only [deleteRB.stepsFinish, hp, r1]
  rw [hst]
  cases c with
  | false => exact ⟨s2, log, by simp, trivial, r6⟩
  | true =>
    have := deleteRBFix_steps_spec c0 K (RBPath.decSizes cs) s2 x fuel r2
      (by rw [r3, hp, RBPath.addr_decSizes]) (RBTree.WF.blacken hxW)
      (by rw [RBPath.accepts_decSizes]; simpa using hA) hSz hK (by simpa using hf)
    simpa using this.prepend r6

/-- The recorded tail of `deleteRB` from the state reached by the splice. -/
theorem deleteRB_stepsFinish_post {q : Prop} {s1 : State} {x T : RBTree} {P : RBPath}
    {c0 : Bool} {key : Int} {fuel : Nat} (h : ShapeZ s1 x P)
    (hp : s1.parent x.addr = RBPath.addr P NIL) (hxW : x.WF)
    (hA : RBPath.Accepts P c0 (x.blackHeight + (if c0 then 1 else 0)))
    (hlen : P.length < fuel) (hk : (RBPath.plug x P).keys = T.keys.erase key)
    (hsz : q → x.SizeInv ∧ RBPath.SizeInv P (x.size0 + 1)) :
    StepsPost (HeapSizedIf q (T.keys.erase key)) (fun _ => True)
      (deleteRB.stepsFinish fuel s1 x.addr c0) := by
  refine deleteRB_stepsFinish_spec c0 fuel h hp hxW hA hlen ?_ ?_
  · intro hq
    rw [RBPath.sizeInv_plug]
    exact ⟨(hsz hq).1, by simpa using RBPath.sizeInv_decSizes P _ (hsz hq).2⟩
  · rw [← hk, RBPath.keys_plug, RBPath.keys_plug]
    simp

/-- The recorded `deleteRB` of a node without left child. -/
theorem deleteRB_steps_case_a {q : Prop} {s : State} {z : Nat} {c : Bool} {key sz : Int} {r : RBTree}
    {cs : RBPath} (fuel : Nat) (h : ShapeZ s (.node z c key sz .nil r) cs)
    (hroot : s.root ≠ NIL) (hsearch : deleteRB.search key fuel s s.root = some z)
    (hW : (RBTree.node z c key sz .nil r).WF)
    (hA : RBPath.Accepts cs c (RBTree.node z c key sz .nil r).blackHeight)
    (hS : (RBPath.plug (.node z c key sz .nil r) cs).keys.Sorted (· ≤ ·))
    (hSI : q → (RBPath.plug (.node z c key sz .nil r) cs).SizeInv)
    (hf : (RBPath.plug (.node z c key sz .nil r) cs).height ≤ fuel) :
    StepsPost (HeapSizedIf q ((RBPath.plug (.node z c key sz .nil r) cs).keys.erase key)) (fun _ => True)
      (deleteRB.steps fuel s key) := by
  have el : s.left z = NIL := h.left_root
  have er : s.right z = r.addr := h.right_root
  have ec : s.color z = c := h.color_root
  obtain ⟨t1, t2⟩ := h.transplant_right
  have hst : deleteRB.steps fuel s key =
      deleteRB.stepsFinish fuel ((transplantRB s z r.addr).free z) r.addr c := by
    simp only [deleteRB.steps, if_neg hroot, hsearch, el, if_true, er, ec]
  rw [hst]
  have hh := RBTree.height_plug_ge cs (.node z c key sz .nil r)
  simp only [RBTree.height] at hh
  simp only [RBTree.wf_node, RBTree.blackHeight_node, RBTree.blackHeight_nil,
    RBTree.color0_nil] at hW hA
  refine deleteRB_stepsFinish_post (t1.free z) t2 hW.2.2.2 ?_ (by omega) ?_ ?_
  · rw [← hW.2.1]; simpa using hA
  · rw [RBPath.keys_plug, RBPath.keys_plug]
    simp only [RBTree.keys_node, RBTree.keys_nil, List.nil_append, List.append_assoc,
      List.cons_append]
    rw [RBPath.keys_plug] at hS
    simp only [RBTree.keys_node, RBTree.keys_nil, List.nil_append, List.append_assoc,
      List.cons_append] at hS
    exact (List.erase_mid_of_sorted key _ _ hS).symm
  · intro hq
    have hSI := hSI hq
    revert hSI
    rw [RBPath.sizeInv_plug]
    simp only [RBTree.sizeInv_node, RBTree.size0_node, RBTree.size0_nil]
    rintro ⟨⟨h1, -, h2⟩, h3⟩
    refine ⟨h2, ?_⟩
    have e : r.size0 + 1 = sz := by omega
    rw [e]
    exact h3


/-- The recorded `deleteRB` of a node with a left child and without right child. -/
theorem deleteRB_steps_case_b {q : Prop} {s : State} {z la : Nat} {c cl : Bool} {key sz kl sl : Int}
    {ll lr : RBTree} {cs : RBPath} (fuel : Nat)
    (h : ShapeZ s (.node z c key sz (.node la cl kl sl ll lr) .nil) cs)
    (hroot : s.root ≠ NIL) (hsearch : deleteRB.search key fuel s s.root = some z)
    (hW : (RBTree.node z c key sz (.node la cl kl sl ll lr) .nil).WF)
    (hA : RBPath.Accepts cs c (RBTree.node z c key sz (.node la cl kl sl ll lr) .nil).blackHeight)
    (hS : (RBPath.plug (.node z c key sz (.node la cl kl sl ll lr) .nil) cs).keys.Sorted (· ≤ ·))
    (hSI : q → (RBPath.plug (.node z c key sz (.node la cl kl sl ll lr) .nil) cs).SizeInv)
    (hf : (RBPath.plug (.node z c key sz (.node la cl kl sl ll lr) .nil) cs).height ≤ fuel) :
    StepsPost (HeapSizedIf q ((RBPath.plug (.node z c key sz (.node la cl kl sl ll lr) .nil) cs).keys.erase key)) (fun _ => True)
      (deleteRB.steps fuel s key) := by
  have el : s.left z = la := h.left_root
  have er : s.right z = NIL := h.right_root
  have ec : s.color z = c := h.color_root
  have elN : la ≠ NIL := h.downL.root_ne_nil
  obtain ⟨t1, t2⟩ := h.transplant_left
  simp only [RBTree.addr_node] at t1 t2
  have hst : deleteRB.steps fuel s key =
      deleteRB.stepsFinish fuel ((transplantRB s z la).free z) la c := by
    simp only [deleteRB.steps, if_neg hroot, hsearch, el, if_neg elN, if_true, er, ec]
  rw [hst]
  have hh := RBTree.height_plug_ge cs (.node z c key sz (.node la cl kl sl ll lr) .nil)
  simp only [RBTree.height] at hh
  rw [RBTree.wf_node] at hW
  simp only [RBTree.blackHeight_node, RBTree.blackHeight_nil, RBTree.color0_nil,
    RBTree.color0_node] at hW hA
  refine @deleteRB_stepsFinish_post _ _ (.node la cl kl sl ll lr) _ _ _ _ _ (t1.free z) t2 hW.2.2.1
    ?_ (by omega) ?_ ?_
  · simpa using hA
  · rw [RBPath.keys_plug, RBPath.keys_plug]
    rw [RBPath.keys_plug] at hS
    have e : RBPath.before cs ++ (RBTree.node z c key sz (.node la cl kl sl ll lr) .nil).keys ++
        RBPath.after cs = (RBPath.before cs ++ (RBTree.node la cl kl sl ll lr).keys) ++
          key :: RBPath.after cs := by simp
    rw [e] at hS ⊢
    rw [List.erase_mid_of_sorted key _ _ hS]
  · intro hq
    have hSI := hSI hq
    revert hSI
    rw [RBPath.sizeInv_plug]
    simp only [RBTree.sizeInv_node, RBTree.size0_node, RBTree.size0_nil]
    rintro ⟨⟨h1, h2, -⟩, h3⟩
    refine ⟨h2, ?_⟩
    have e : sl + 1 = sz := by omega
    rw [e]
    exact h3

/-- The recorded `deleteRB` of a node with two children whose successor is its right child. -/
theorem deleteRB_steps_case_c1 {q : Prop} {s : State} {z y la : Nat} {c cy cl : Bool}
    {key sz ky sy kl sl : Int} {ll lr yr : RBTree} {cs : RBPath} (fuel : Nat)
    (h : ShapeZ s (.node z c key sz (.node la cl kl sl ll lr) (.node y cy ky sy .nil yr)) cs)
    (hroot : s.root ≠ NIL) (hsearch : deleteRB.search key fuel s s.root = some z)
    (hW : (RBTree.node z c key sz (.node la cl kl sl ll lr) (.node y cy ky sy .nil yr)).WF)
    (hA : RBPath.Accepts cs c
      (RBTree.node z c key sz (.node la cl kl sl ll lr) (.node y cy ky sy .nil yr)).blackHeight)
    (hS : (RBPath.plug (.node z c key sz (.node la cl kl sl ll lr) (.node y cy ky sy .nil yr))
      cs).keys.Sorted (· ≤ ·))
    (hSI : q → (RBPath.plug (.node z c key sz (.node la cl kl sl ll lr) (.node y cy ky sy .nil yr))
      cs).SizeInv)
    (hf : (RBPath.plug (.node z c key sz (.node la cl kl sl ll lr) (.node y cy ky sy .nil yr))
      cs).height ≤ fuel) :
    StepsPost (HeapSizedIf q ((RBPath.plug (.node z c key sz (.node la cl kl sl ll lr) (.node y cy ky sy .nil yr))
      cs).keys.erase key)) (fun _ => True)
      (deleteRB.steps fuel s key) := by
  have hh := RBTree.height_plug_ge cs
    (.node z c key sz (.node la cl kl sl ll lr) (.node y cy ky sy .nil yr))
  simp only [RBTree.height] at hh
  obtain ⟨fuel, rfl⟩ : ∃ m, fuel = m + 1 := ⟨fuel - 1, by omega⟩
  have el : s.left z = la := h.left_root
  have er : s.right z = y := h.right_root
  have elN : la ≠ NIL := h.downL.root_ne_nil
  have eyN : y ≠ NIL := h.downR.root_ne_nil
  have ely : s.left y = NIL := h.downR.left_root
  have epy : s.parent y = z := by simpa using h.downR.parent_root
  have ecy : s.color y = cy := h.downR.color_root
  have ery : s.right y = yr.addr := h.downR.right_root
  have htm : treeMinRB (fuel + 1) s y = some y := by simp [treeMinRB, ely]
  obtain ⟨s', hs', t1, t2, t3, t4⟩ := h.replace_child_model
  have hst : ∃ c' sz', deleteRB.steps (fuel + 1) s key =
      HeapStep.before [HeapStep.colorWrite y c', HeapStep.sizeWrite y sz']
        (deleteRB.stepsFinish (fuel + 1) (s'.free z) yr.addr cy) := by
    rw [← hs']
    exact ⟨_, _, by
      simp only [deleteRB.steps, if_neg hroot, hsearch, el, if_neg elN, er, if_neg eyN, htm, epy,
        if_true, ecy, ery]
      rfl⟩
  obtain ⟨c', sz', hst⟩ := hst
  rw [hst]
  refine StepsPost.prepend ?_ (List.forall_mem_cons.mpr ⟨fun hc => absurd hc eyN,
    List.forall_mem_cons.mpr ⟨eyN, by simp⟩⟩)
  simp only [RBTree.wf_node, RBTree.blackHeight_node, RBTree.blackHeight_nil,
    RBTree.color0_nil, RBTree.color0_node] at hW hA
  obtain ⟨hW1, hW2, hW3, hW4, hW5, -, hW7⟩ := hW
  refine deleteRB_stepsFinish_post (t1.free z) (by simpa using t2) hW7 ?_
    (by simp only [List.length_cons]; omega) ?_ ?_
  · rw [RBPath.accepts_cons]
    simp only [RBFrame.color, RBFrame.sib, RBTree.color0_node, RBTree.wf_node,
      RBTree.blackHeight_node]
    refine ⟨fun hc => ⟨?_, (hW1 hc).1⟩, hW3, by omega, ?_⟩
    · cases cy with
      | true => rfl
      | false => exact absurd (hW1 hc).2 (by simp)
    · have e : yr.blackHeight + (if cy = true then 1 else 0) + (if c = true then 1 else 0) =
          (RBTree.node la cl kl sl ll lr).blackHeight + (if c = true then 1 else 0) := by
        simp only [RBTree.blackHeight_node]; omega
      rw [e]
      simpa using hA
  · rw [RBPath.keys_plug, RBPath.keys_plug]
    rw [RBPath.keys_plug] at hS
    have e : RBPath.before cs ++ (RBTree.node z c key sz (.node la cl kl sl ll lr)
        (.node y cy ky sy .nil yr)).keys ++ RBPath.after cs =
        (RBPath.before cs ++ (RBTree.node la cl kl sl ll lr).keys) ++
          key :: (ky :: yr.keys ++ RBPath.after cs) := by simp
    rw [e] at hS ⊢
    rw [List.erase_mid_of_sorted key _ _ hS]
    simp [RBPath.before, RBPath.after]
  · intro hq
    have hSI := hSI hq
    revert hSI
    rw [RBPath.sizeInv_plug]
    simp only [RBTree.sizeInv_node, RBTree.size0_node, RBTree.size0_nil, RBPath.sizeInv_cons,
      RBFrame.size, RBFrame.sib]
    rintro ⟨⟨h1, h2, h3, -, h4⟩, h5⟩
    exact ⟨h4, by omega, h2, h5⟩

set_option maxHeartbeats 1000000 in
/-- The recorded `deleteRB` of a node with two children whose successor `y` lies deeper in
the right subtree: `y` is cut out and takes the place of `z`. -/
theorem deleteRB_steps_case_c2 {q : Prop} {s : State} {z y la : Nat} {c cy cl : Bool}
    {key sz ky sy kl sl : Int} {ll lr yr : RBTree} {f : RBFrame} {sp cs : RBPath} (fuel : Nat)
    (m3 : ShapeZ s (.node y cy ky sy .nil yr)
      (f :: sp ++ .R z c key sz (.node la cl kl sl ll lr) :: cs))
    (hroot : s.root ≠ NIL) (hsearch : deleteRB.search key fuel s s.root = some z)
    (htm : treeMinRB fuel s (s.right z) = some y)
    (hbs : RBPath.before (f :: sp) = [])
    (hW : (RBTree.node y cy ky sy .nil yr).WF)
    (hA : RBPath.Accepts (f :: sp ++ .R z c key sz (.node la cl kl sl ll lr) :: cs) cy
      (RBTree.node y cy ky sy .nil yr).blackHeight)
    (hS : (RBPath.plug (.node y cy ky sy .nil yr)
      (f :: sp ++ .R z c key sz (.node la cl kl sl ll lr) :: cs)).keys.Sorted (· ≤ ·))
    (hSI : q → (RBPath.plug (.node y cy ky sy .nil yr)
      (f :: sp ++ .R z c key sz (.node la cl kl sl ll lr) :: cs)).SizeInv)
    (hf : (RBPath.plug (.node y cy ky sy .nil yr)
      (f :: sp ++ .R z c key sz (.node la cl kl sl ll lr) :: cs)).height ≤ fuel) :
    StepsPost (HeapSizedIf q ((RBPath.plug (.node y cy ky sy .nil yr)
      (f :: sp ++ .R z c key sz (.node la cl kl sl ll lr) :: cs)).keys.erase key)) (fun _ => True)
      (deleteRB.steps fuel s key) := by
  have hh := RBTree.height_plug_ge (f :: sp ++ .R z c key sz (.node la cl kl sl ll lr) :: cs)
    (.node y cy ky sy .nil yr)
  simp only [RBTree.height, List.length_cons, List.length_append] at hh
  -- reads in the initial state
  have hz0 := ((ShapeZ.append_iff s _ (f :: sp) _).mp m3).up
  simp only [RBFrame.fill_R] at hz0
  obtain ⟨ra0, cr0, kr0, sr0, rl0, rr0, hplug0⟩ :=
    RBTree.plug_cons_eq_node (.node y cy ky sy .nil yr) sp f
  rw [hplug0] at hz0
  have el : s.left z = la := hz0.left_root
  have er : s.right z = ra0 := hz0.right_root
  have elN : la ≠ NIL := hz0.downL.root_ne_nil
  have erN : ra0 ≠ NIL := hz0.downR.root_ne_nil
  have eyN : y ≠ NIL := m3.root_ne_nil
  have ecy : s.color y = cy := m3.color_root
  have ery : s.right y = yr.addr := m3.right_root
  have eky : s.key y = ky := m3.key_root
  have epy : s.parent y = f.addr := by simpa using m3.parent_root
  have hfz : f.addr ≠ z := by
    have hnd := m3.nodup
    simp only [List.cons_append, RBPath.addrs_cons, RBPath.addrs_append, RBFrame.addrs_R] at hnd
    have h1 : (f.addrs ++ (RBPath.addrs sp ++ (z :: (RBTree.node la cl kl sl ll lr).addrs ++
        RBPath.addrs cs))).Nodup := by
      have := (List.nodup_append.mp hnd).2.1
      simpa using this
    have h2 := (List.nodup_append.mp h1).2.2
    intro e
    refine @h2 z ?_ (by simp)
    rw [← e]
    cases f <;> simp
  rw [er] at htm
  -- the successor is cut out
  obtain ⟨t1, t2⟩ := m3.transplant_right
  have hz1 := ((ShapeZ.append_iff _ _ (f :: sp) _).mp t1).up
  simp only [RBFrame.fill_R] at hz1
  obtain ⟨ra, cr, kr, sr, rl, rr, hplug⟩ := RBTree.plug_cons_eq_node yr sp f
  rw [hplug] at hz1
  have hy : y ∉ (RBTree.node z c key sz (.node la cl kl sl ll lr)
      (.node ra cr kr sr rl rr)).addrs ++ RBPath.addrs cs := by
    intro hm
    have hp1 := RBPath.plug_addrs_perm cs (RBTree.node z c key sz (.node la cl kl sl ll lr)
      (.node ra cr kr sr rl rr))
    have hp2 := RBPath.plug_addrs_perm (f :: sp ++ .R z c key sz (.node la cl kl sl ll lr) :: cs) yr
    have e : RBPath.plug yr (f :: sp ++ .R z c key sz (.node la cl kl sl ll lr) :: cs) =
        RBPath.plug (RBTree.node z c key sz (.node la cl kl sl ll lr)
          (.node ra cr kr sr rl rr)) cs := by
      rw [RBPath.plug_append, hplug]
      rfl
    rw [e] at hp2
    have hm2 := (hp1.symm.trans hp2).subset hm
    have hnd := m3.nodup
    simp only [RBTree.addrs_node, RBTree.addrs_nil, List.nil_append, List.cons_append,
      List.nodup_cons] at hnd
    exact hnd.1 hm2
  have hya : y < (transplantRB s y yr.addr).next := by
    simpa using (m3.alloc y (by simp)).2
  obtain ⟨s', hs', t3, t4, t5, t6⟩ := hz1.replace hy eyN hya
  simp only [transplantRB_key, eky] at t3
  rw [← hplug] at t3
  have t7 := (ShapeZ.append_iff _ _ (f :: sp) _).mpr t3.downR
  have hp7 : s'.parent yr.addr =
      RBPath.addr (f :: sp ++ .R y c ky sz (.node la cl kl sl ll lr) :: cs) NIL := by
    cases yr with
    | nil =>
      rw [RBTree.addr_nil, t4]
      simpa using t2
    | node a c k sz l r => exact t7.parent_root
  have hst : ∃ c' sz', deleteRB.steps fuel s key =
      HeapStep.before [HeapStep.colorWrite y c', HeapStep.sizeWrite y sz']
        (deleteRB.stepsFinish fuel (s'.free z) yr.addr cy) := by
    rw [← hs']
    exact ⟨_, _, by
      simp only [deleteRB.steps, if_neg hroot, hsearch, el, if_neg elN, er, if_neg erN, htm, epy,
        if_neg hfz, ecy, ery]
      rfl⟩
  obtain ⟨c', sz', hst⟩ := hst
  rw [hst]
  refine StepsPost.prepend ?_ (List.forall_mem_cons.mpr ⟨fun hc => absurd hc eyN,
    List.forall_mem_cons.mpr ⟨eyN, by simp⟩⟩)
  simp only [RBTree.wf_node, RBTree.blackHeight_node, RBTree.blackHeight_nil,
    RBTree.color0_nil] at hW hA
  refine deleteRB_stepsFinish_post (t7.free z) (by simpa using hp7) hW.2.2.2 ?_
    (by simp only [List.length_cons, List.length_append] at hh ⊢; omega) ?_ ?_
  · rw [← hW.2.1]
    exact (RBPath.accepts_append_R z y c key ky sz _ cs (f :: sp) _ _).mp (by simpa using hA)
  · rw [RBPath.keys_plug, RBPath.keys_plug]
    rw [RBPath.keys_plug] at hS
    have e : RBPath.before (f :: sp ++ .R z c key sz (.node la cl kl sl ll lr) :: cs) ++
        (RBTree.node y cy ky sy .nil yr).keys ++
        RBPath.after (f :: sp ++ .R z c key sz (.node la cl kl sl ll lr) :: cs) =
        (RBPath.before cs ++ (RBTree.node la cl kl sl ll lr).keys) ++
          key :: (ky :: yr.keys ++ (RBPath.after (f :: sp) ++ RBPath.after cs)) := by
      rw [RBPath.before_append, RBPath.after_append, hbs]
      simp [RBPath.before, RBPath.after]
    rw [e] at hS ⊢
    rw [List.erase_mid_of_sorted key _ _ hS, RBPath.before_append, RBPath.after_append, hbs]
    simp [RBPath.before, RBPath.after]
  · intro hq
    have hSI := hSI hq
    revert hSI
    rw [RBPath.sizeInv_plug]
    simp only [RBTree.sizeInv_node, RBTree.size0_node, RBTree.size0_nil]
    rintro ⟨⟨h1, -, h2⟩, h3⟩
    refine ⟨h2, ?_⟩
    have e : yr.size0 + 1 = sy := by omega
    rw [e]
    exact (RBPath.sizeInv_append_R z y c key ky sz _ cs (f :: sp) sy).mp h3

/-- The recorded `deleteRB` of a stored key on a valid tree with exact sizes: the
call returns; every colour it writes on the sentinel is black, it writes sizes on
real nodes only, and after each rotation of the fixup the heap holds a tree with
exact sizes on the remaining keys. -/
theorem deleteRB_steps_spec {s : State} {T : RBTree} (q : Prop) (key : Int) (fuel : Nat)
    (h : Shape s T) (hB : T.BST) (hR : T.RedBlack) (hSI : q → T.SizeInv) (hk : key ∈ T.keys)
    (hf : T.height ≤ fuel) :
    StepsPost (HeapSizedIf q (T.keys.erase key)) (fun _ => True) (deleteRB.steps fuel s key) := by
  obtain ⟨⟨t', cs⟩, hfind⟩ := RBPath.find_isSome key T [] hB hk
  obtain ⟨hplug, ⟨z, c, sz, l, r, rfl⟩, -⟩ := RBPath.find_plug key T [] t' cs hfind
  simp only [RBPath.plug_nil] at hplug
  obtain ⟨hsearch, hz⟩ := deleteRB_search_spec key T [] s fuel _ cs h.toZ hfind (by omega)
  rw [← h.root] at hsearch
  simp only [RBTree.addr_node] at hsearch
  have hroot : s.root ≠ NIL := by
    rw [hz.root]
    cases cs with
    | nil => exact hz.root_ne_nil
    | cons f cs =>
      exact (hz.alloc _ (List.mem_append_right _ (RBPath.rootAddr_mem cs f _))).1
  have hS : T.keys.Sorted (· ≤ ·) := (RBTree.bst_iff_sorted T).mp hB
  have hR' := hR
  rw [← hplug, RBPath.redBlack_plug] at hR'
  obtain ⟨hW, hA⟩ := hR'
  simp only [RBTree.color0_node] at hA
  have hh := RBTree.height_plug_ge cs (.node z c key sz l r)
  rw [hplug] at hh
  simp only [RBTree.height] at hh
  cases l with
  | nil =>
    have := deleteRB_steps_case_a fuel hz hroot hsearch hW hA (by rw [hplug]; exact hS)
          (by rw [hplug]; exact hSI)
      (by rw [hplug]; exact hf)
    rw [hplug] at this
    exact this
  | node la cl kl sl ll lr =>
    cases r with
    | nil =>
      have := deleteRB_steps_case_b fuel hz hroot hsearch hW hA (by rw [hplug]; exact hS)
          (by rw [hplug]; exact hSI)
        (by rw [hplug]; exact hf)
      rw [hplug] at this
      exact this
    | node ra cr kr sr rl rr =>
      obtain ⟨y, cy, ky, sy, yr, -, m2, m3, m4⟩ := treeMinRB_spec (.node ra cr kr sr rl rr)
        (.R z c key sz (.node la cl kl sl ll lr) :: cs) s fuel (by simp) hz.downR (by omega)
      cases hsp : RBPath.minSpine (.node ra cr kr sr rl rr) with
      | nil =>
        rw [hsp] at m4
        simp only [RBPath.plug_nil] at m4
        rw [← m4] at hz hW hA hplug
        have := deleteRB_steps_case_c1 fuel hz hroot hsearch hW hA (by rw [hplug]; exact hS)
          (by rw [hplug]; exact hSI)
          (by rw [hplug]; exact hf)
        rw [hplug] at this
        exact this
      | cons f sp =>
        rw [hsp] at m3 m4
        have hbs := RBPath.before_minSpine (.node ra cr kr sr rl rr)
        rw [hsp] at hbs
        have hplug2 : RBPath.plug (.node y cy ky sy .nil yr)
            (f :: sp ++ .R z c key sz (.node la cl kl sl ll lr) :: cs) = T := by
          rw [RBPath.plug_append, m4]
          exact hplug
        have hR2 := hR
        rw [← hplug2, RBPath.redBlack_plug] at hR2
        have htm : treeMinRB fuel s (s.right z) = some y := by
          rw [hz.right_root]
          exact m2
        have := deleteRB_steps_case_c2 fuel m3 hroot hsearch htm hbs hR2.1
          (by simpa using hR2.2) (by rw [hplug2]; exact hS) (by rw [hplug2]; exact hSI)
          (by rw [hplug2]; exact hf)
        rw [hplug2] at this
        exact this

/-! ## Reading the record of a run -/

namespace HeapStep

/-- In a record whose steps are all `Ok`, a colour written on the sentinel is black. -/
theorem colorWrite_nil_black {P : State → Prop} {log : List HeapStep}
    (h : ∀ e ∈ log, e.Ok P) (c : Bool) (hm : HeapStep.colorWrite NIL c ∈ log) : c = true :=
  h _ hm rfl

/-- In a record whose steps are all `Ok`, no size is written on the sentinel. -/
theorem no_sizeWrite_nil {P : State → Prop} {log : List HeapStep}
    (h : ∀ e ∈ log, e.Ok P) (v : Int) : HeapStep.sizeWrite NIL v ∉ log :=
  fun hm => h _ hm rfl

/-- In a record whose steps are all `Ok`, the heap after each rotation satisfies `P`. -/
theorem rotated_ok {P : State → Prop} {log : List HeapStep}
    (h : ∀ e ∈ log, e.Ok P) (st : State) (hm : HeapStep.rotated st ∈ log) : P st :=
  h _ hm

/-- A step without target is the return of a rotation. -/
theorem exists_rotated {log : List HeapStep} (h : none ∈ log.map HeapStep.target) :
    ∃ st, HeapStep.rotated st ∈ log := by
  obtain ⟨e, he, ht⟩ := List.mem_map.mp h
  cases e with
  | colorWrite a c => simp [target] at ht
  | sizeWrite a v => simp [target] at ht
  | rotated st => exact ⟨st, he⟩

end HeapStep

/-- With exact sizes before the call, the tree in the heap after a rotation has exact
sizes, read on the heap. -/
theorem HeapSizedIf.exact {K : List Int} {st : State} (h : HeapSizedIf True K st) :
    HeapExact K st := by
  obtain ⟨T, hT, hS, hK⟩ := h
  have hN : st.size NIL = 0 := hT.sentinel.2.1
  refine ⟨T, hT, hS trivial, hK, RBTree.heap_sizeInv hN T NIL hT.rep (hS trivial), hN, ?_⟩
  rw [hT.root, RBTree.size_read hT.rep hN, RBTree.size0_eq_length T (hS trivial), hK]

/-- The sentinel of a heap that holds a tree is black with size `0`. -/
theorem HeapSizedIf.sentinel {c : Prop} {K : List Int} {st : State} (h : HeapSizedIf c K st) :
    st.color NIL = true ∧ st.size NIL = 0 := by
  obtain ⟨T, hT, -, -⟩ := h
  exact ⟨hT.sentinel.2.2.2.2, hT.sentinel.2.1⟩

/-! ## The claims of the specification -/

/-- C1: for an array `v` of `n` pairwise-distinct keys, `buildTreeRB(v, n)` returns,
and on its result `selectRB` with rank `k + 1` (for `k < n`) returns entry `k` of
the sorted array, that is the `(k+1)`-th smallest key; so the ranks `1..n` in
increasing order list the keys of `v` in strictly ascending order. -/
theorem C1_selectRB_buildTreeRB (v : List Int) (fuel : Nat) (hv : v.Nodup)
    (hf : v.length < fuel) :
    ∃ s, buildTreeRB fuel v (v.length : Int) = some s ∧
      (∀ k : Nat, k < v.length →
        selectRB fuel s s.root ((k : Int) + 1) = some ((v.insertionSort (· ≤ ·)).getD k 0)) ∧
      selectAllRB fuel s v.length = (v.insertionSort (· ≤ ·)).map some ∧
      (v.insertionSort (· ≤ ·)).Sorted (· < ·) := by
  obtain ⟨s, T, h1, h2, h3, h4, -⟩ := buildTreeRB_spec fuel v hf
  have hk : T.keys = v.insertionSort (· ≤ ·) :=
    List.eq_of_perm_of_sorted (h4.trans (List.perm_insertionSort _ v).symm)
      ((RBTree.bst_iff_sorted T).mp h3.1) (List.sorted_insertionSort _ v)
  have hlen : T.keys.length = v.length := h4.length_eq
  have hh : T.height < fuel := lt_of_le_of_lt (RBTree.height_le_length T) (by omega)
  refine ⟨s, h1, ?_, ?_, ?_⟩
  · intro k hk'
    rw [h2.root, selectRB_nth T NIL s fuel h2.rep (fun a ha => (h2.alloc a ha).1) h3.2.1 hh k
      (by omega), hk]
  · rw [← hlen, selectAllRB_eq fuel h2 h3.2.1 hh, hk]
  · exact (List.sorted_insertionSort _ v).lt_of_le
      ((List.perm_insertionSort _ v).nodup_iff.mpr hv)

/-- C1 on the array `[5, 1, 4, 2, 8]`: rank `1` gives `1` and rank `5` gives `8`. -/
theorem C1_witness :
    ∃ s, buildTreeRB 6 [5, 1, 4, 2, 8] 5 = some s ∧ selectRB 6 s s.root 1 = some 1 ∧
      selectRB 6 s s.root 5 = some 8 ∧
      selectAllRB 6 s 5 = [some 1, some 2, some 4, some 5, some 8] := by
  obtain ⟨s, h1, h2, h3, -⟩ := C1_selectRB_buildTreeRB [5, 1, 4, 2, 8] 6 (by decide) (by decide)
  exact ⟨s, h1, h2 0 (by decide), h2 4 (by decide), h3⟩

/-- C2 (for the arrays on which the code returns): for an array `v` of `n ≤ 2^30`
keys `buildTreeBT(v, 0, n-1)` returns a tree on which `selectBT` with rank `k + 1`
(for `k < n`) returns `v[k]`, and the ranks `1..n` list `v`; for a strictly ascending
`v` this list is strictly ascending and is the sorted array. -/
theorem C2_selectBT_buildTreeBT (v : List Int) (k : Nat) (hn : v.length ≤ 1073741824)
    (hk : k < v.length) :
    ∃ t, buildTreeBT v 0 ((v.length : Int) - 1) = some t ∧
      selectBT t ((k : Int) + 1) = v.getD k 0 ∧ selectAllBT t v.length = v ∧
      (v.Sorted (· < ·) →
        (selectAllBT t v.length).Sorted (· < ·) ∧
        selectAllBT t v.length = v.insertionSort (· ≤ ·)) := by
  refine ⟨_, BTNode.buildTreeBT_eq v _ _ (BTNode.safe_of_length v hn), ?_⟩
  have hS := (BTNode.balancedBT_sizeInv v 0 ((v.length : Int) - 1)).1
  have hK := BTNode.balancedBT_keys_full v
  have hall : selectAllBT (balancedBT v 0 ((v.length : Int) - 1)) v.length = v := by
    have := BTNode.selectAllBT_eq _ hS
    rw [hK] at this
    exact this
  refine ⟨?_, hall, fun hv => ⟨by rw [hall]; exact hv, ?_⟩⟩
  · have := BTNode.selectBT_nth _ hS k (by rw [hK]; exact hk)
    rw [hK] at this
    exact this
  · rw [hall, List.Sorted.insertionSort_eq hv.le_of_lt]

/-- C2 on the array `[1, 2, 4, 5, 8]`, rank `3`. -/
theorem C2_witness :
    ∃ t, buildTreeBT [1, 2, 4, 5, 8] 0 4 = some t ∧ selectBT t 3 = 4 ∧
      selectAllBT t 5 = [1, 2, 4, 5, 8] := by
  obtain ⟨t, h1, h2, h3, -⟩ := C2_selectBT_buildTreeBT [1, 2, 4, 5, 8] 2 (by decide) (by decide)
  exact ⟨t, h1, h2, h3⟩

/-- C2 does not hold for every array: on an array of `2^30 + 1` keys the recursion
reaches the range `2^30..2^30`, whose midpoint `(i + j) / 2` overflows the `int`, and
`buildTreeBT` returns no tree to select from. -/
theorem C2_counterexample :
    (List.replicate 1073741825 (0 : Int)).length = 1073741825 ∧
      buildTreeBT (List.replicate 1073741825 0)
        0 (((List.replicate 1073741825 (0 : Int)).length : Int) - 1) = none :=
  ⟨List.length_replicate _ _,
    BTNode.buildTreeBT_overflow _ _ _ (BTNode.not_safe_of_replicate _ _ (by decide))⟩

/-- C3: in a reachable state holding the tree `T` with `n` pairwise-distinct keys,
`deleteRB` of a stored key `K` returns; afterwards the size read at the root is
`n - 1` and `selectRB` over the ranks `1..n-1` lists the remaining keys, which are
strictly ascending and do not contain `K`. -/
theorem C3_deleteRB_then_selectRB (s : State) (T : RBTree) (K : Int) (fuel : Nat)
    (hr : RBReachable s) (hT : Shape s T) (hd : T.keys.Nodup) (hK : K ∈ T.keys)
    (hf : T.keys.length ≤ fuel) :
    ∃ s', deleteRB fuel s K = some s' ∧ s'.size s'.root = (T.keys.length : Int) - 1 ∧
      selectAllRB fuel s' (T.keys.length - 1) = (T.keys.erase K).map some ∧
      (T.keys.erase K).Sorted (· < ·) ∧ K ∉ T.keys.erase K := by
  obtain ⟨T0, hT0, hG⟩ := hr.inv
  have hTT : T0 = T := hT0.unique hT
  rw [hTT] at hG
  obtain ⟨s', T', r1, r2, r3, r4, r5, r6, -⟩ := deleteRB_spec K fuel hT hG.1 hG.2.2 hK
    (le_trans (RBTree.height_le_length _) hf)
  have hS' := r6 hG.2.1
  have hlen : T'.keys.length = T.keys.length - 1 := by
    rw [r5, List.length_erase_of_mem hK]
  have hpos : 0 < T.keys.length := List.length_pos_of_mem hK
  have hh : T'.height < fuel :=
    lt_of_le_of_lt (RBTree.height_le_length T') (by omega)
  refine ⟨s', r1, ?_, ?_, ?_, hd.not_mem_erase⟩
  · rw [r2.root, RBTree.size_read r2.rep r2.sentinel.2.1, RBTree.size0_eq_length T' hS', hlen]
    omega
  · rw [← hlen, selectAllRB_eq fuel r2 hS' hh, r5]
  · have hs : T.keys.Sorted (· < ·) := ((RBTree.bst_iff_sorted T).mp hG.1).lt_of_le hd
    exact hs.sublist (List.erase_sublist _ _)

/-- C3 on the tree built from `[5, 1, 4, 2, 8]`: after deleting `4` the ranks `1..4`
give `[1, 2, 5, 8]`. -/
theorem C3_witness :
    ∃ s', deleteRB 5 (builtRB [5, 1, 4, 2, 8]) 4 = some s' ∧ s'.size s'.root = 4 ∧
      selectAllRB 5 s' 4 = [some 1, some 2, some 5, some 8] := by
  have hT : Shape (builtRB [5, 1, 4, 2, 8])
      (.node 4 true 4 5 (.node 3 true 1 2 .nil (.node 5 false 2 1 .nil .nil))
        (.node 2 true 5 2 .nil (.node 6 false 8 1 .nil .nil))) := by
    refine ⟨?_, by decide, by decide, by decide, by unfold Sentinel; decide, by decide⟩
    simp only [RBTree.Rep, RBTree.addr]
    decide
  obtain ⟨s', h1, h2, h3, -⟩ := C3_deleteRB_then_selectRB _ _ 4 5 (builtRB_reachable _) hT
    (by decide) (by decide) (by decide)
  exact ⟨s', h1, h2, h3⟩

/-- C4: for a static tree `t` obtained from `buildTreeBT` on a strictly ascending
array by deletions of present keys, and a key `K` stored in it (`m` keys):
`deleteBT(t, K)` has root size `m - 1` (it is the absent tree when `m = 1`), and
`selectBT` over the ranks `1..m-1` lists the remaining keys, which are strictly
ascending and do not contain `K`. -/
theorem C4_deleteBT_then_selectBT (t : BTNode) (K : Int) (ht : BTReachable t)
    (hK : K ∈ t.keys) :
    (deleteBT t K).size0 = (t.keys.length : Int) - 1 ∧
      (t.keys.length = 1 → deleteBT t K = BTNode.nullptr) ∧
      selectAllBT (deleteBT t K) (t.keys.length - 1) = t.keys.erase K ∧
      (t.keys.erase K).Sorted (· < ·) ∧ K ∉ t.keys.erase K := by
  obtain ⟨hB, hS⟩ := BTNode.reachable_inv ht
  obtain ⟨e1, e2, e3⟩ := BTNode.deleteBT_spec t K hB hS hK
  have hs : t.keys.Sorted (· < ·) := (BTNode.bst_iff_sorted_lt t).mp hB
  have hlen : (deleteBT t K).keys.length = t.keys.length - 1 := by
    rw [e1, List.length_erase_of_mem hK]
  refine ⟨?_, ?_, ?_, BTNode.sorted_erase hs K, BTNode.not_mem_erase_of_sorted hs K⟩
  · rw [e3, BTNode.size0_eq_keys_length t hS]
  · intro h1
    rw [← BTNode.keys_eq_nil, ← List.length_eq_zero, hlen, h1]
  · rw [← hlen, BTNode.selectAllBT_eq _ e2, e1]

/-- C4 on the tree built from `[1, 2, 4, 5, 8]`, deleting `4`. -/
theorem C4_witness :
    ∃ t, buildTreeBT [1, 2, 4, 5, 8] 0 4 = some t ∧ (deleteBT t 4).size0 = 4 ∧
      selectAllBT (deleteBT t 4) 4 = [1, 2, 5, 8] := by
  have h := C4_deleteBT_then_selectBT (balancedBT [1, 2, 4, 5, 8] 0 4) 4
    (BTReachable.build [1, 2, 4, 5, 8] (by decide) _ (by decide)) (by decide)
  exact ⟨_, by decide, h.1, h.2.2.1⟩

/-- C5: `insertRB` preserves the Red-Black properties. In a state holding a tree `T`
that is a search tree with black root, no red node with a red child and equal
black counts on all paths to leaves (the empty tree included), `insertRB` of any
key returns, and the new state holds a tree with the same properties whose keys
are those of `T` and the new key. -/
theorem C5_insertRB_preserves_redBlack (s : State) (T : RBTree) (key : Int) (fuel : Nat)
    (h : Shape s T) (hB : T.BST) (hR : T.RedBlack) (hf : T.height < fuel) :
    ∃ s' T', insertRB fuel s key = some s' ∧ Shape s' T' ∧ T'.BST ∧
      (T'.color0 = true ∧ T'.NoRedRed ∧ T'.BlackBalanced) ∧ T'.keys.Perm (key :: T.keys) := by
  obtain ⟨s', T', r1, r2, r3, r4, -, r6, -⟩ := insertRB_spec key fuel h hB hR hf
  refine ⟨s', T', r1, r2, r3, r4, ?_⟩
  rw [r6]
  simpa using RBTree.keys_ins_perm key (.node s.next false key 1 .nil .nil) T

/-- C5 on the tree built from `[2, 1, 3]` (black root, two red children), key `4`. -/
theorem C5_witness :
    ∃ s' T', insertRB 3 (builtRB [2, 1, 3]) 4 = some s' ∧ Shape s' T' ∧ T'.BST ∧
      (T'.color0 = true ∧ T'.NoRedRed ∧ T'.BlackBalanced) ∧ T'.keys.Perm [4, 1, 2, 3] := by
  have hT : Shape (builtRB [2, 1, 3])
      (.node 2 true 2 3 (.node 3 false 1 1 .nil .nil) (.node 4 false 3 1 .nil .nil)) := by
    refine ⟨?_, by decide, by decide, by decide, by unfold Sentinel; decide, by decide⟩
    simp only [RBTree.Rep, RBTree.addr]
    decide
  exact C5_insertRB_preserves_redBlack _ _ 4 3 hT
    (by simp [RBTree.BST]) (by simp [RBTree.RedBlack, RBTree.NoRedRed, RBTree.BlackBalanced])
    (by decide)

/-- C6: `deleteRB` preserves the Red-Black properties. In a state holding a tree `T`
that satisfies them (search-tree order, black root, no red node with a red child,
equal black counts), `deleteRB` of a stored key returns, and the new state holds a
tree that satisfies them again, with one occurrence of the key removed. -/
theorem C6_deleteRB_preserves_redBlack (s : State) (T : RBTree) (key : Int) (fuel : Nat)
    (h : Shape s T) (hB : T.BST) (hR : T.RedBlack) (hk : key ∈ T.keys)
    (hf : T.height ≤ fuel) :
    ∃ s' T', deleteRB fuel s key = some s' ∧ Shape s' T' ∧ T'.BST ∧
      (T'.color0 = true ∧ T'.NoRedRed ∧ T'.BlackBalanced) ∧ T'.keys = T.keys.erase key := by
  obtain ⟨s', T', r1, r2, r3, r4, r5, -⟩ := deleteRB_spec key fuel h hB hR hk hf
  exact ⟨s', T', r1, r2, r3, r4, r5⟩

/-- C6 on the tree built from `[5, 1, 4, 2, 8]`, deleting the root key `4`. -/
theorem C6_witness :
    ∃ s' T', deleteRB 3 (builtRB [5, 1, 4, 2, 8]) 4 = some s' ∧ Shape s' T' ∧ T'.BST ∧
      (T'.color0 = true ∧ T'.NoRedRed ∧ T'.BlackBalanced) ∧ T'.keys = [1, 2, 5, 8] := by
  have hT : Shape (builtRB [5, 1, 4, 2, 8])
      (.node 4 true 4 5 (.node 3 true 1 2 .nil (.node 5 false 2 1 .nil .nil))
        (.node 2 true 5 2 .nil (.node 6 false 8 1 .nil .nil))) := by
    refine ⟨?_, by decide, by decide, by decide, by unfold Sentinel; decide, by decide⟩
    simp only [RBTree.Rep, RBTree.addr]
    decide
  exact C6_deleteRB_preserves_redBlack _ _ 4 3 hT
    (by simp [RBTree.BST])
    (by simp [RBTree.RedBlack, RBTree.NoRedRed, RBTree.BlackBalanced])
    (by decide) (by decide)

/-- C7: every state reachable from `buildTreeRB` by `insertRB` and by `deleteRB` of
stored keys holds a tree in which every node satisfies
`size == 1 + size(left) + size(right)`, read on the heap with the sentinel's size
`0`, and the size at the root is the number of stored keys; a rotation at any
node of such a state leads to a state whose tree has exact sizes again. The same
holds inside the calls: `insertRB` of any key and `deleteRB` of a stored key, run
from such a state, return in a reachable state, and the heap at the return of every
rotation of `insertRBFix` and of `deleteRBFix` in that run holds a tree on the new
keys in which every node satisfies the equation, with the number of keys as the
size at the root. -/
theorem C7_size_invariant_reachable (s : State) (hr : RBReachable s) :
    ∃ T, Shape s T ∧ T.SizeInv ∧
      (∀ a ∈ T.addrs, s.size a = 1 + s.size (s.left a) + s.size (s.right a)) ∧
      s.size NIL = 0 ∧ s.size s.root = (T.keys.length : Int) ∧
      (∀ x ∈ T.addrs, s.right x ≠ NIL →
        ∃ T', Shape (leftRotateRB s x) T' ∧ T'.SizeInv ∧ T'.keys = T.keys) ∧
      (∀ x ∈ T.addrs, s.left x ≠ NIL →
        ∃ T', Shape (rightRotateRB s x) T' ∧ T'.SizeInv ∧ T'.keys = T.keys) ∧
      (∀ (key : Int) (fuel : Nat), T.height < fuel →
        ∃ s' log, insertRB.steps fuel s key = some (s', log) ∧
          insertRB fuel s key = some s' ∧ RBReachable s' ∧
          ∀ st, HeapStep.rotated st ∈ log →
            HeapExact (T.keys.filter (fun k => decide (k ≤ key)) ++
              key :: T.keys.filter (fun k => decide (key < k))) st) ∧
      (∀ (key : Int) (fuel : Nat), key ∈ T.keys → T.height ≤ fuel →
        ∃ s' log, deleteRB.steps fuel s key = some (s', log) ∧
          deleteRB fuel s key = some s' ∧ RBReachable s' ∧
          ∀ st, HeapStep.rotated st ∈ log → HeapExact (T.keys.erase key) st) := by
  obtain ⟨T, hT, hG⟩ := hr.inv
  have hN : s.size NIL = 0 := hT.sentinel.2.1
  refine ⟨T, hT, hG.2.1, RBTree.heap_sizeInv hN T NIL hT.rep hG.2.1, hN, ?_,
    fun x hx hx' => hT.leftRotate_sizeInv hG.2.1 x hx hx',
    fun x hx hx' => hT.rightRotate_sizeInv hG.2.1 x hx hx', ?_, ?_⟩
  · rw [hT.root, RBTree.size_read hT.rep hN, RBTree.size0_eq_length T hG.2.1]
  · intro key fuel hf
    obtain ⟨s', T', log, r1, r2, -, -, -, -, -, r8, -, -, r11⟩ :=
      insertRB_steps_spec True key fuel hT hG.1 (fun _ => hG.2.1) hG.2.2.1 hf
    refine ⟨s', log, r1, r2, RBReachable.insert fuel s s' key hr r2, ?_⟩
    intro st hm
    have h := (HeapStep.rotated_ok r11 st hm).exact
    rw [r8, RBTree.keys_ins_sorted key _ (by simp) T hG.1] at h
    exact h
  · intro key fuel hk hf
    obtain ⟨s', log, r1, -, r3⟩ :=
      deleteRB_steps_spec True key fuel hT hG.1 hG.2.2 (fun _ => hG.2.1) hk hf
    have r2 : deleteRB fuel s key = some s' := by
      have := deleteRB_steps_fst fuel s key
      rw [r1] at this
      exact this.symm
    exact ⟨s', log, r1, r2, RBReachable.delete fuel s s' key T hr hT hk r2,
      fun st hm => (HeapStep.rotated_ok r3 st hm).exact⟩

/-- C7 in the state after `buildTreeRB` on `[1, 2]`: the root's size is `2`, and
`insertRB` of the key `3` rotates; at the return of the rotation the heap holds a
tree on the keys `[1, 2, 3]` with exact sizes. -/
theorem C7_witness :
    (builtRB [1, 2]).size (builtRB [1, 2]).root = 2 ∧
      ∃ s' log st, insertRB.steps 3 (builtRB [1, 2]) 3 = some (s', log) ∧
        HeapStep.rotated st ∈ log ∧ HeapExact [1, 2, 3] st := by
  obtain ⟨T, h1, -, -, -, h5, -, -, h8, -⟩ :=
    C7_size_invariant_reachable (builtRB [1, 2]) (builtRB_reachable _)
  have hT : T = .node 2 true 1 2 .nil (.node 3 false 2 1 .nil .nil) :=
    h1.unique shape_builtRB_two
  subst hT
  obtain ⟨s', log, r1, -, -, r4⟩ := h8 3 3 (by decide)
  have hd : (insertRB.steps 3 (builtRB [1, 2]) 3).map (fun r => r.2.map HeapStep.target) =
      some [some (2, true), some (3, true), some (4, true), some (4, true), some (3, false),
        some (2, true), some (3, true), some (2, true), none, some (3, false)] := by
    decide
  rw [r1] at hd
  simp only [Option.map_some', Option.some.injEq] at hd
  obtain ⟨st, hst⟩ := HeapStep.exists_rotated (by rw [hd]; decide)
  exact ⟨h5.trans (by decide), s', log, st, r1, hst, r4 st hst⟩

/-- C8 (with the range on which the code returns): `buildTreeBT(v, i, j)` fails to
return exactly when the range is not empty and leaves `[-2^30, 2^30)` or has `2^31`
or more elements (an `int` operation overflows). Whenever it returns, every node of
the result satisfies `size == 1 + size(left) + size(right)` (an absent child counts
`0`); for `i <= j` the result is a node whose size is `j - i + 1`, and the result is
the absent tree exactly when `i > j`. -/
theorem C8_buildTreeBT_sizes (v : List Int) (i j : Int) :
    (buildTreeBT v i j = none ↔
      i ≤ j ∧ (i < -1073741824 ∨ 1073741824 ≤ j ∨ 2147483647 < j - i + 1)) ∧
    ∀ t, buildTreeBT v i j = some t →
      t.SizeInv ∧ (i ≤ j → ∃ k l r, t = BTNode.node k (j - i + 1) l r) ∧
        (t = BTNode.nullptr ↔ j < i) := by
  constructor
  · rw [BTNode.buildTreeBT_eq_none_iff]
    simp only [buildTreeBT.Safe]
    omega
  · intro t ht
    obtain ⟨-, rfl⟩ := BTNode.buildTreeBT_some v i j t ht
    refine ⟨(BTNode.balancedBT_sizeInv v i j).1, ?_, ?_⟩
    · intro h
      rw [BTNode.balancedBT_unfold, if_pos h]
      exact ⟨_, _, _, rfl⟩
    · constructor
      · intro h
        by_contra hc
        rw [BTNode.balancedBT_unfold, if_pos (by omega)] at h
        cases h
      · exact BTNode.balancedBT_null v i j

/-- C8 on the array `[1, 2, 4, 5, 8]` with the range `0..4`. -/
theorem C8_witness :
    ∃ t, buildTreeBT [1, 2, 4, 5, 8] 0 4 = some t ∧ t.SizeInv ∧ t.size0 = 5 := by
  obtain ⟨h1, h2, -⟩ := (C8_buildTreeBT_sizes [1, 2, 4, 5, 8] 0 4).2
    (balancedBT [1, 2, 4, 5, 8] 0 4) (by decide)
  obtain ⟨k, l, r, e⟩ := h2 (by decide)
  exact ⟨_, by decide, h1, by rw [e]; rfl⟩

/-- C8 does not hold for every array and range: for an array of `2^30 + 1` elements
and the range `2^30..2^30` (one valid index) the sum `i + j = 2^31` is not an `int`,
and `buildTreeBT` returns no tree, where the claim has a single node of size `1`. -/
theorem C8_counterexample :
    (1073741824 : Int) < ((List.replicate 1073741825 (0 : Int)).length : Int) ∧
      buildTreeBT (List.replicate 1073741825 0) 1073741824 1073741824 = none :=
  ⟨by rw [List.length_replicate]; decide, by decide⟩

/-- C9 (as the code behaves): on a tree whose nodes satisfy the size invariant,
`selectBT` and `selectRB` return the value `-1` for every rank outside
`[1, size(root)]`, negative ranks and the empty tree included. -/
theorem C9_select_out_of_range (t : BTNode) (s : State) (T : RBTree) (fuel : Nat) (i : Int)
    (ht : t.SizeInv) (hT : Shape s T) (hS : T.SizeInv) (hf : T.height < fuel) :
    ((i < 1 ∨ t.size0 < i) → selectBT t i = -1) ∧
      ((i < 1 ∨ s.size s.root < i) → selectRB fuel s s.root i = some (-1)) := by
  refine ⟨BTNode.selectBT_out_of_range t ht i, fun hi => ?_⟩
  rw [hT.root] at hi ⊢
  rw [RBTree.size_read hT.rep hT.sentinel.2.1] at hi
  exact selectRB_out_of_range T NIL s fuel hT.rep (fun a ha => (hT.alloc a ha).1) hS hf i hi

/-- C9 on the trees holding the keys `[1, 2]` and `[2, 1, 3]`, rank `0`. -/
theorem C9_witness :
    selectBT (BTNode.node 1 2 BTNode.nullptr (BTNode.node 2 1 BTNode.nullptr BTNode.nullptr)) 0 =
        -1 ∧
      selectRB 3 (builtRB [2, 1, 3]) (builtRB [2, 1, 3]).root 0 = some (-1) := by
  have hT : Shape (builtRB [2, 1, 3])
      (.node 2 true 2 3 (.node 3 false 1 1 .nil .nil) (.node 4 false 3 1 .nil .nil)) := by
    refine ⟨?_, by decide, by decide, by decide, by unfold Sentinel; decide, by decide⟩
    simp only [RBTree.Rep, RBTree.addr]
    decide
  have h := C9_select_out_of_range
    (BTNode.node 1 2 BTNode.nullptr (BTNode.node 2 1 BTNode.nullptr BTNode.nullptr))
    (builtRB [2, 1, 3]) _ 3 0 (by simp [BTNode.SizeInv, BTNode.size0]) hT
    (by simp [RBTree.SizeInv]) (by decide)
  exact ⟨h.1 (Or.inl (by decide)), h.2 (Or.inl (by decide))⟩

/-- C9 does not hold as stated: on trees that satisfy the size invariant and store
the key `-1`, `selectBT` and `selectRB` with the out-of-range ranks `0` and
`size + 1` return `-1`, a stored key and the same result as for rank `1`; no
failure is reported. -/
theorem C9_counterexample :
    (BTNode.node (-1) 1 .nullptr .nullptr).SizeInv ∧
      selectBT (BTNode.node (-1) 1 .nullptr .nullptr) 0 ∈
        (BTNode.node (-1) 1 .nullptr .nullptr).keys ∧
      selectBT (BTNode.node (-1) 1 .nullptr .nullptr) 0 =
        selectBT (BTNode.node (-1) 1 .nullptr .nullptr) 1 ∧
      selectBT (BTNode.node (-1) 1 .nullptr .nullptr) 2 =
        selectBT (BTNode.node (-1) 1 .nullptr .nullptr) 1 ∧
      Shape (builtRB [-1]) (.node 2 true (-1) 1 .nil .nil) ∧
      selectRB 2 (builtRB [-1]) (builtRB [-1]).root 0 = some (-1) ∧
      selectRB 2 (builtRB [-1]) (builtRB [-1]).root 2 = some (-1) ∧
      selectRB 2 (builtRB [-1]) (builtRB [-1]).root 1 = some (-1) := by
  refine ⟨by simp [BTNode.SizeInv, BTNode.size0], by decide, by decide, by decide, ?_, by decide,
    by decide, by decide⟩
  refine ⟨?_, by decide, by decide, by decide, by unfold Sentinel; decide, by decide⟩
  simp only [RBTree.Rep, RBTree.addr]
  decide

/-- C10 (as the code behaves): `deleteRB` of a key that is not stored returns the
state unchanged only on the empty tree; on a non-empty tree the search loop runs
off the tree and the call does not return, whatever the number of iterations
allowed. -/
theorem C10_deleteRB_absent_key (s : State) (T : RBTree) (key : Int) (h : Shape s T)
    (hk : key ∉ T.keys) (hm : key ≠ INT32_MIN) :
    (T = .nil → ∀ fuel, deleteRB fuel s key = some s) ∧
      (T ≠ .nil → ∀ fuel, deleteRB fuel s key = none) := by
  constructor
  · intro hT fuel
    subst hT
    have : s.root = NIL := h.root
    simp [deleteRB, this]
  · intro hT fuel
    have hroot : s.root ≠ NIL := by
      rw [h.root]
      exact fun e => hT ((RBTree.addr_eq_nil_iff (fun hm => (h.alloc NIL hm).1 rfl)).mp e)
    have := deleteRB_search_absent key h.sentinel hm T NIL fuel h.rep hk
    rw [← h.root] at this
    simp [deleteRB, hroot, this]

/-- C10 on the tree built from `[1]`: `deleteRB` of the key `2` has not returned
after `1000` iterations of the search loop. -/
theorem C10_witness : deleteRB 1000 (builtRB [1]) 2 = none := by
  have hT : Shape (builtRB [1]) (.node 2 true 1 1 .nil .nil) := by
    refine ⟨?_, by decide, by decide, by decide, by unfold Sentinel; decide, by decide⟩
    simp only [RBTree.Rep, RBTree.addr]
    decide
  exact (C10_deleteRB_absent_key _ _ 2 hT (by decide) (by decide)).2 (by simp) 1000

/-- C11 (behaviour of the code; the claimed no-op does not hold): for a static tree
`t` obtained from `buildTreeBT` on a strictly ascending array and a key that is not
stored, `deleteBT` keeps the keys and the links but decrements the size field of
every node on the search path of the key. The empty tree is returned unchanged; on
a non-empty tree the size at the root drops by one although no key was removed, so
the result differs from `t` and violates `size == 1 + size(left) + size(right)`. -/
theorem C11_deleteBT_absent_key (t : BTNode) (key : Int) (ht : BTReachable t)
    (hk : key ∉ t.keys) :
    deleteBT t key = BTNode.decSearchPath key t ∧ (deleteBT t key).keys = t.keys ∧
      (t = BTNode.nullptr → deleteBT t key = BTNode.nullptr) ∧
      (t ≠ BTNode.nullptr →
        (deleteBT t key).size0 = t.size0 - 1 ∧ deleteBT t key ≠ t ∧
          ¬ (deleteBT t key).SizeInv) := by
  obtain ⟨-, hS⟩ := BTNode.reachable_inv ht
  have e := BTNode.deleteBT_absent t key hk
  refine ⟨e, by rw [e, BTNode.decSearchPath_keys], ?_, ?_⟩
  · intro h
    rw [h]
    rfl
  · intro h
    have hsz : (deleteBT t key).size0 = t.size0 - 1 := by
      rw [e]
      cases t with
      | nullptr => exact absurd rfl h
      | node k s l r => exact BTNode.decSearchPath_size0 key k s l r hk
    refine ⟨hsz, ?_, ?_⟩
    · intro heq
      rw [heq] at hsz
      omega
    · rw [e]
      exact BTNode.decSearchPath_not_sizeInv key t h hS hk

/-- C11 on the tree built from `[1, 2, 3]` and the absent key `5`: the three keys
stay, the sizes at the nodes `2` and `3` drop to `2` and `0`. -/
theorem C11_witness :
    deleteBT (BTNode.node 2 3 (BTNode.node 1 1 BTNode.nullptr BTNode.nullptr)
        (BTNode.node 3 1 BTNode.nullptr BTNode.nullptr)) 5 =
        BTNode.node 2 2 (BTNode.node 1 1 BTNode.nullptr BTNode.nullptr)
          (BTNode.node 3 0 BTNode.nullptr BTNode.nullptr) ∧
      buildTreeBT [1, 2, 3] 0 2 =
        some (BTNode.node 2 3 (BTNode.node 1 1 BTNode.nullptr BTNode.nullptr)
          (BTNode.node 3 1 BTNode.nullptr BTNode.nullptr)) :=
  ⟨(C11_deleteBT_absent_key _ 5
      (BTReachable.build [1, 2, 3] (by decide) _ (by decide)) (by decide)).1.trans (by decide),
    by decide⟩

/-- C12: for a key sequence `v` and a permutation `p` of it, `buildTreeRB` returns on
both; the two trees store the same keys (as multisets, and hence the same in-order
sequence), and `selectRB` gives the same output on both for every rank `1..n`, namely
the entries of the sorted sequence. -/
theorem C12_buildTreeRB_permutation (v p : List Int) (fuel : Nat) (hp : p.Perm v)
    (hf : v.length < fuel) :
    ∃ s1 s2 T1 T2, buildTreeRB fuel v (v.length : Int) = some s1 ∧
      buildTreeRB fuel p (p.length : Int) = some s2 ∧ Shape s1 T1 ∧ Shape s2 T2 ∧
      T1.keys.Perm T2.keys ∧ T1.keys.Perm v ∧
      (∀ k : Nat, k < v.length →
        selectRB fuel s1 s1.root ((k : Int) + 1) = selectRB fuel s2 s2.root ((k : Int) + 1) ∧
        selectRB fuel s1 s1.root ((k : Int) + 1) =
          some ((v.insertionSort (· ≤ ·)).getD k 0)) ∧
      selectAllRB fuel s1 v.length = selectAllRB fuel s2 v.length := by
  have hlen : p.length = v.length := hp.length_eq
  obtain ⟨s1, T1, a1, a2, a3, a4, -⟩ := buildTreeRB_spec fuel v hf
  obtain ⟨s2, T2, b1, b2, b3, b4, -⟩ := buildTreeRB_spec fuel p (by omega)
  have hk1 : T1.keys = v.insertionSort (· ≤ ·) :=
    List.eq_of_perm_of_sorted (a4.trans (List.perm_insertionSort _ v).symm)
      ((RBTree.bst_iff_sorted T1).mp a3.1) (List.sorted_insertionSort _ v)
  have hk2 : T2.keys = v.insertionSort (· ≤ ·) :=
    List.eq_of_perm_of_sorted ((b4.trans hp).trans (List.perm_insertionSort _ v).symm)
      ((RBTree.bst_iff_sorted T2).mp b3.1) (List.sorted_insertionSort _ v)
  have l1 : T1.keys.length = v.length := a4.length_eq
  have l2 : T2.keys.length = v.length := by rw [b4.length_eq, hlen]
  have hh1 : T1.height < fuel := lt_of_le_of_lt (RBTree.height_le_length T1) (by omega)
  have hh2 : T2.height < fuel := lt_of_le_of_lt (RBTree.height_le_length T2) (by omega)
  have e1 : ∀ k : Nat, k < v.length →
      selectRB fuel s1 s1.root ((k : Int) + 1) = some ((v.insertionSort (· ≤ ·)).getD k 0) := by
    intro k hk
    rw [a2.root, selectRB_nth T1 NIL s1 fuel a2.rep (fun a ha => (a2.alloc a ha).1) a3.2.1 hh1 k
      (by omega), hk1]
  have e2 : ∀ k : Nat, k < v.length →
      selectRB fuel s2 s2.root ((k : Int) + 1) = some ((v.insertionSort (· ≤ ·)).getD k 0) := by
    intro k hk
    rw [b2.root, selectRB_nth T2 NIL s2 fuel b2.rep (fun a ha => (b2.alloc a ha).1) b3.2.1 hh2 k
      (by omega), hk2]
  refine ⟨s1, s2, T1, T2, a1, b1, a2, b2, by rw [hk1, hk2], a4, ?_, ?_⟩
  · intro k hk
    exact ⟨by rw [e1 k hk, e2 k hk], e1 k hk⟩
  · have c1 := selectAllRB_eq fuel a2 a3.2.1 hh1
    have c2 := selectAllRB_eq fuel b2 b3.2.1 hh2
    rw [l1] at c1
    rw [l2] at c2
    rw [c1, c2, hk1, hk2]

/-- C12 on `[1, 2, 3, 4]` and its reversal: the same select outputs, while the two
roots hold different keys (`2` and `3`), so the shapes differ. -/
theorem C12_witness :
    ∃ s1 s2, buildTreeRB 5 [1, 2, 3, 4] 4 = some s1 ∧ buildTreeRB 5 [4, 3, 2, 1] 4 = some s2 ∧
      selectAllRB 5 s1 4 = selectAllRB 5 s2 4 ∧ selectRB 5 s1 s1.root 2 = some 2 ∧
      s1.key s1.root = 2 ∧ s2.key s2.root = 3 := by
  obtain ⟨s1, s2, T1, T2, h1, h2, -, -, -, -, h3, h4⟩ :=
    C12_buildTreeRB_permutation [1, 2, 3, 4] [4, 3, 2, 1] 5 (by decide) (by decide)
  have e1 : s1 = builtRB [1, 2, 3, 4] := by
    have := builtRB_eq [1, 2, 3, 4]
    rw [show ((([1, 2, 3, 4] : List Int).length + 1 : Nat)) = 5 from rfl] at this
    exact Option.some.inj (h1.symm.trans this)
  have e2 : s2 = builtRB [4, 3, 2, 1] := by
    have := builtRB_eq [4, 3, 2, 1]
    rw [show ((([4, 3, 2, 1] : List Int).length + 1 : Nat)) = 5 from rfl] at this
    exact Option.some.inj (h2.symm.trans this)
  refine ⟨s1, s2, h1, h2, h4, (h3 1 (by decide)).2, ?_, ?_⟩
  · rw [e1]; decide
  · rw [e2]; decide

/-- C13 (for the arrays on which the code returns): for an array `v` of `n` keys
with `1 ≤ n ≤ 2^30` the call `buildTreeBT(v, 0, n-1)` returns a tree that is not
empty, its root holds `v[(n-1)/2]` and has size `n`, and `selectBT` with rank
`(n-1)/2 + 1` returns the key of the root. -/
theorem C13_buildTreeBT_root (v : List Int) (hn : 0 < v.length)
    (hb : v.length ≤ 1073741824) :
    ∃ t, buildTreeBT v 0 ((v.length : Int) - 1) = some t ∧ t ≠ BTNode.nullptr ∧
      t.key = v.getD ((v.length - 1) / 2) 0 ∧ t.size0 = (v.length : Int) ∧
      selectBT t ((((v.length - 1) / 2 : Nat) : Int) + 1) = t.key := by
  refine ⟨_, BTNode.buildTreeBT_eq v _ _ (BTNode.safe_of_length v hb), ?_⟩
  obtain ⟨l, r, h1, h2⟩ := BTNode.balancedBT_root v hn
  rw [h2, h1]
  exact ⟨by simp, rfl, rfl, rfl⟩

/-- C13 on the sorted keys `[1..7]`: root key `4`, size `7`, rank `4` selects `4`. -/
theorem C13_witness :
    ∃ t, buildTreeBT [1, 2, 3, 4, 5, 6, 7] 0 6 = some t ∧ t.key = 4 ∧ t.size0 = 7 ∧
      selectBT t 4 = 4 := by
  obtain ⟨t, h1, -, h3, h4, h5⟩ :=
    C13_buildTreeBT_root [1, 2, 3, 4, 5, 6, 7] (by decide) (by decide)
  exact ⟨t, h1, h3, h4, h5.trans h3⟩

/-- C13 does not hold for every array of `n ≥ 1` keys: for `n = 2^30 + 2` the
recursion of `buildTreeBT` overflows the `int` at the rightmost leaf and no root is
returned. -/
theorem C13_counterexample :
    0 < (List.replicate 1073741826 (7 : Int)).length ∧
      buildTreeBT (List.replicate 1073741826 7)
        0 (((List.replicate 1073741826 (7 : Int)).length : Int) - 1) = none :=
  ⟨by rw [List.length_replicate]; decide, BTNode.buildTreeBT_overflow _ _ _ (BTNode.not_safe_of_replicate _ _ (by decide))⟩

/-- C14 (for the arrays on which the code returns): `buildTreeBT(v, 0, n-1)` returns
exactly for the arrays `v` of `n ≤ 2^30` keys; the tree it returns has `n` nodes,
its height (nodes on the longest root-to-leaf path, `0` for the absent tree) is
`⌈log2(n+1)⌉`, and at every node the node counts of the left and the right subtree
differ by at most one. -/
theorem C14_buildTreeBT_balanced (v : List Int) :
    (buildTreeBT v 0 ((v.length : Int) - 1) = none ↔ 1073741824 < v.length) ∧
    ∀ t, buildTreeBT v 0 ((v.length : Int) - 1) = some t →
      t.height = Nat.clog 2 (v.length + 1) ∧ t.Balanced ∧ t.count = v.length := by
  constructor
  · rw [BTNode.buildTreeBT_eq_none_iff]
    simp only [buildTreeBT.Safe]
    omega
  · intro t ht
    obtain ⟨-, rfl⟩ := BTNode.buildTreeBT_some v _ _ t ht
    obtain ⟨h1, h2, h3⟩ := BTNode.balancedBT_shape v 0 ((v.length : Int) - 1)
    have e : ((v.length : Int) - 1 + 1 - 0).toNat = v.length := by omega
    rw [e] at h1 h3
    exact ⟨h3, h2, h1⟩

/-- C14 on the keys `[1..7]` (height `3`). -/
theorem C14_witness :
    ∃ t, buildTreeBT [1, 2, 3, 4, 5, 6, 7] 0 6 = some t ∧ t.height = 3 ∧ t.count = 7 := by
  obtain ⟨h1, -, h3⟩ := (C14_buildTreeBT_balanced [1, 2, 3, 4, 5, 6, 7]).2
    (balancedBT [1, 2, 3, 4, 5, 6, 7] 0 6) (by decide)
  exact ⟨_, by decide, h1.trans (by simp [Nat.clog]), h3⟩

/-- C14 does not hold for every `n ≥ 0`: for an array of `n = 2^30 + 1` keys an
`int` operation of `buildTreeBT` overflows and no tree is returned. -/
theorem C14_counterexample :
    (List.replicate 1073741825 (1 : Int)).length = 1073741825 ∧
      buildTreeBT (List.replicate 1073741825 1)
        0 (((List.replicate 1073741825 (1 : Int)).length : Int) - 1) = none :=
  ⟨List.length_replicate _ _,
    BTNode.buildTreeBT_overflow _ _ _ (BTNode.not_safe_of_replicate _ _ (by decide))⟩

/-- C15: `deleteBT` never increases the height of a static tree, whatever the tree
and the key; hence after any sequence `ks` of deletions from the tree that
`buildTreeBT` returns for `n0` keys the height is at most `⌈log2(n0+1)⌉`
(`buildTreeBT` returns a tree for every `n0 ≤ 2^30`). -/
theorem C15_deleteBT_height (t : BTNode) (key : Int) (v ks : List Int) :
    (deleteBT t key).height ≤ t.height ∧
      (∀ t0, buildTreeBT v 0 ((v.length : Int) - 1) = some t0 →
        (ks.foldl deleteBT t0).height ≤ Nat.clog 2 (v.length + 1)) ∧
      (v.length ≤ 1073741824 → ∃ t0, buildTreeBT v 0 ((v.length : Int) - 1) = some t0) := by
  refine ⟨BTNode.deleteBT_height t key, ?_,
    fun hn => ⟨_, BTNode.buildTreeBT_eq v _ _ (BTNode.safe_of_length v hn)⟩⟩
  intro t0 ht0
  obtain ⟨-, rfl⟩ := BTNode.buildTreeBT_some v _ _ t0 ht0
  have h := BTNode.foldl_deleteBT_height ks (balancedBT v 0 ((v.length : Int) - 1))
  obtain ⟨-, -, h3⟩ := BTNode.balancedBT_shape v 0 ((v.length : Int) - 1)
  have e : ((v.length : Int) - 1 + 1 - 0).toNat = v.length := by omega
  rw [e] at h3
  rw [← h3]
  exact h

/-- C15 on the tree built from `[1..7]` after deleting `4`, `6` and `1`. -/
theorem C15_witness :
    ∃ t0, buildTreeBT [1, 2, 3, 4, 5, 6, 7] 0 6 = some t0 ∧
      ([4, 6, 1].foldl deleteBT t0).height ≤ 3 :=
  ⟨balancedBT [1, 2, 3, 4, 5, 6, 7] 0 6, by decide,
    le_trans ((C15_deleteBT_height BTNode.nullptr 0 [1, 2, 3, 4, 5, 6, 7] [4, 6, 1]).2.1 _
      (by decide)) (by simp [Nat.clog])⟩

/-- C16: for a static tree with search-tree order and exact sizes and a stored key,
`deleteBT` is the removal that decrements the size at every surviving node on the
path from the root to the node taken out (the matched node if it has at most one
child, otherwise the leftmost node of its right subtree, whose key moves into the
matched node) and leaves every other node as it was (`BTNode.removeSpec`); the
result has exact sizes again and its root size is one less. -/
theorem C16_deleteBT_sizes (t : BTNode) (key : Int) (hb : t.BST) (hs : t.SizeInv)
    (hk : key ∈ t.keys) :
    deleteBT t key = BTNode.removeSpec key t ∧ (deleteBT t key).SizeInv ∧
      (deleteBT t key).size0 = t.size0 - 1 := by
  obtain ⟨-, e2, e3⟩ := BTNode.deleteBT_spec t key hb hs hk
  exact ⟨BTNode.deleteBT_eq_removeSpec t key hb, e2, e3⟩

/-- C16 on the tree built from `[1..7]`, deleting the root key `4` (two children): the
successor `5` moves to the root, the sizes of the root and of node `6` drop by one,
the left subtree is untouched. -/
theorem C16_witness :
    deleteBT (BTNode.node 4 7
        (BTNode.node 2 3 (BTNode.node 1 1 BTNode.nullptr BTNode.nullptr)
          (BTNode.node 3 1 BTNode.nullptr BTNode.nullptr))
        (BTNode.node 6 3 (BTNode.node 5 1 BTNode.nullptr BTNode.nullptr)
          (BTNode.node 7 1 BTNode.nullptr BTNode.nullptr))) 4 =
      BTNode.node 5 6
        (BTNode.node 2 3 (BTNode.node 1 1 BTNode.nullptr BTNode.nullptr)
          (BTNode.node 3 1 BTNode.nullptr BTNode.nullptr))
        (BTNode.node 6 2 BTNode.nullptr (BTNode.node 7 1 BTNode.nullptr BTNode.nullptr)) :=
  (C16_deleteBT_sizes _ 4 (by simp [BTNode.BST, BTNode.keys])
    (by simp [BTNode.SizeInv, BTNode.size0]) (by decide)).1.trans (by decide)

/-- C17: in a state holding a tree `T` with exact sizes, for a node `x` of `T` whose
right child `y` is a real node, `leftRotateRB(&root, x)` gives `y` the old size of
`x`, sets `x.size` to `size(x.left) + size(x.right) + 1` (read after the rotation),
leaves the size of every other node and the colour of every node unchanged, and the
new state holds a tree on the same nodes in which every node satisfies
`size == 1 + size(left) + size(right)`; symmetrically for `rightRotateRB` and a real
left child. -/
theorem C17_rotation_sizes (s : State) (T : RBTree) (x : Nat) (h : Shape s T)
    (hS : T.SizeInv) (hx : x ∈ T.addrs) :
    (s.right x ≠ NIL →
      (leftRotateRB s x).size (s.right x) = s.size x ∧
      (leftRotateRB s x).size x =
        (leftRotateRB s x).size ((leftRotateRB s x).left x) +
          (leftRotateRB s x).size ((leftRotateRB s x).right x) + 1 ∧
      (∀ a, a ≠ x → a ≠ s.right x → (leftRotateRB s x).size a = s.size a) ∧
      (leftRotateRB s x).color = s.color ∧
      ∃ T', Shape (leftRotateRB s x) T' ∧ T'.SizeInv ∧ T'.addrs = T.addrs ∧
        ∀ a ∈ T.addrs, (leftRotateRB s x).size a =
          1 + (leftRotateRB s x).size ((leftRotateRB s x).left a) +
            (leftRotateRB s x).size ((leftRotateRB s x).right a)) ∧
    (s.left x ≠ NIL →
      (rightRotateRB s x).size (s.left x) = s.size x ∧
      (rightRotateRB s x).size x =
        (rightRotateRB s x).size ((rightRotateRB s x).left x) +
          (rightRotateRB s x).size ((rightRotateRB s x).right x) + 1 ∧
      (∀ a, a ≠ x → a ≠ s.left x → (rightRotateRB s x).size a = s.size a) ∧
      (rightRotateRB s x).color = s.color ∧
      ∃ T', Shape (rightRotateRB s x) T' ∧ T'.SizeInv ∧ T'.addrs = T.addrs ∧
        ∀ a ∈ T.addrs, (rightRotateRB s x).size a =
          1 + (rightRotateRB s x).size ((rightRotateRB s x).left a) +
            (rightRotateRB s x).size ((rightRotateRB s x).right a)) := by
  constructor
  · intro hr
    obtain ⟨T', r1, -, r3, r4, -, r6, r7, -⟩ := h.leftRotate_full x hx hr
    refine ⟨r6, r7, fun a h1 h2 => leftRotateRB_size_other s x a h1 h2,
      leftRotateRB_color s x, T', r1, r4 hS, r3, ?_⟩
    intro a ha
    exact RBTree.heap_sizeInv r1.sentinel.2.1 T' NIL r1.rep (r4 hS) a (by rw [r3]; exact ha)
  · intro hl
    obtain ⟨T', r1, -, r3, r4, -, r6, r7, -⟩ := h.rightRotate_full x hx hl
    refine ⟨r6, r7, fun a h1 h2 => rightRotateRB_size_other s x a h1 h2,
      rightRotateRB_color s x, T', r1, r4 hS, r3, ?_⟩
    intro a ha
    exact RBTree.heap_sizeInv r1.sentinel.2.1 T' NIL r1.rep (r4 hS) a (by rw [r3]; exact ha)

/-- C17 on the tree built from `[5, 1, 4, 2, 8]`, rotating left at the root (object
`4`, size `5`, right child object `2`): afterwards object `2` has size `5` and the
root object `4` has size `3`. -/
theorem C17_witness :
    (leftRotateRB (builtRB [5, 1, 4, 2, 8]) 4).size 2 = 5 ∧
      (leftRotateRB (builtRB [5, 1, 4, 2, 8]) 4).size 4 = 3 ∧
      (leftRotateRB (builtRB [5, 1, 4, 2, 8]) 4).size 3 = 2 := by
  have h := (C17_rotation_sizes (builtRB [5, 1, 4, 2, 8]) _ 4 shape_builtRB_demo
    (by simp [RBTree.SizeInv, RBTree.size0]) (by decide)).1 (by decide)
  refine ⟨h.1.trans (by decide), h.2.1.trans (by decide), (h.2.2.1 3 (by decide) (by decide)).trans (by decide)⟩

/-- C18: in a state holding a tree `T` (parent fields agreeing with child fields), for
a node `x` of `T` whose right child is a real node, after `leftRotateRB(&root, x)` the
state holds a tree with the same in-order sequence of keys on the same nodes, every
real child's parent field points to the node it hangs from, and `*root` becomes the
old right child of `x` if `x` was the root and is unchanged otherwise; symmetrically
for `rightRotateRB` and a real left child. -/
theorem C18_rotation_structure (s : State) (T : RBTree) (x : Nat) (h : Shape s T)
    (hx : x ∈ T.addrs) :
    (s.right x ≠ NIL →
      ∃ T', Shape (leftRotateRB s x) T' ∧ T'.keys = T.keys ∧ T'.addrs = T.addrs ∧
        (∀ a ∈ T.addrs,
          ((leftRotateRB s x).left a ≠ NIL →
            (leftRotateRB s x).parent ((leftRotateRB s x).left a) = a) ∧
          ((leftRotateRB s x).right a ≠ NIL →
            (leftRotateRB s x).parent ((leftRotateRB s x).right a) = a)) ∧
        (x = s.root →
          (leftRotateRB s x).root = s.right x ∧ (leftRotateRB s x).root ≠ s.root) ∧
        (x ≠ s.root → (leftRotateRB s x).root = s.root)) ∧
    (s.left x ≠ NIL →
      ∃ T', Shape (rightRotateRB s x) T' ∧ T'.keys = T.keys ∧ T'.addrs = T.addrs ∧
        (∀ a ∈ T.addrs,
          ((rightRotateRB s x).left a ≠ NIL →
            (rightRotateRB s x).parent ((rightRotateRB s x).left a) = a) ∧
          ((rightRotateRB s x).right a ≠ NIL →
            (rightRotateRB s x).parent ((rightRotateRB s x).right a) = a)) ∧
        (x = s.root →
          (rightRotateRB s x).root = s.left x ∧ (rightRotateRB s x).root ≠ s.root) ∧
        (x ≠ s.root → (rightRotateRB s x).root = s.root)) := by
  constructor
  · intro hr
    obtain ⟨T', r1, r2, r3, -, r5, -, -, r8, r9⟩ := h.leftRotate_full x hx hr
    refine ⟨T', r1, r2, r3, ?_, ?_, r9⟩
    · intro a ha
      exact RBTree.heap_links T' NIL r1.rep a (by rw [r3]; exact ha)
    · intro hxr
      refine ⟨r8 hxr, ?_⟩
      rw [r8 hxr, ← hxr]
      exact r5
  · intro hl
    obtain ⟨T', r1, r2, r3, -, r5, -, -, r8, r9⟩ := h.rightRotate_full x hx hl
    refine ⟨T', r1, r2, r3, ?_, ?_, r9⟩
    · intro a ha
      exact RBTree.heap_links T' NIL r1.rep a (by rw [r3]; exact ha)
    · intro hxr
      refine ⟨r8 hxr, ?_⟩
      rw [r8 hxr, ← hxr]
      exact r5

/-- C18 on the tree built from `[5, 1, 4, 2, 8]`: a left rotation at the root (object
`4`) keeps the keys `[1, 2, 4, 5, 8]` and moves `*root` to object `2`. -/
theorem C18_witness :
    ∃ T', Shape (leftRotateRB (builtRB [5, 1, 4, 2, 8]) 4) T' ∧ T'.keys = [1, 2, 4, 5, 8] ∧
      (leftRotateRB (builtRB [5, 1, 4, 2, 8]) 4).root = 2 := by
  obtain ⟨T', h1, h2, -, -, h5, -⟩ :=
    (C18_rotation_structure (builtRB [5, 1, 4, 2, 8]) _ 4 shape_builtRB_demo (by decide)).1
      (by decide)
  exact ⟨T', h1, h2.trans (by decide), (h5 (by decide)).1.trans (by decide)⟩

/-- C19 (with the black root that the code needs): in a state holding a tree `T` with
search-tree order, exact sizes and a black root (no other condition on the colours),
`insertRB` of any key returns. The new node is the fresh object `s.next`; in the
in-order sequence of the nodes it stands behind all nodes with a key `≤ key` (equal
keys included) and before all nodes with a larger key, and the old nodes keep their
order. So the new in-order key sequence is the old one with one occurrence of the
key at its sorted position, it is sorted, every old key is still present, and the
size read at the root has grown by one; the result has search-tree order, exact
sizes and a black root again. If `T` is empty the result is a single black root
with size `1` and no children. -/
theorem C19_insertRB_keys (s : State) (T : RBTree) (key : Int) (fuel : Nat) (h : Shape s T)
    (hB : T.BST) (hS : T.SizeInv) (hc : T.color0 = true) (hf : T.height < fuel) :
    ∃ s' T', insertRB fuel s key = some s' ∧ Shape s' T' ∧
      T'.BST ∧ T'.SizeInv ∧ T'.color0 = true ∧
      (∀ e ∈ T.entries, e.1 ≠ s.next) ∧
      T'.entries = T.entries.filter (fun e => decide (e.2 ≤ key)) ++
        (s.next, key) :: T.entries.filter (fun e => decide (key < e.2)) ∧
      T'.keys = T.keys.filter (fun k => decide (k ≤ key)) ++
        key :: T.keys.filter (fun k => decide (key < k)) ∧
      T'.keys.Sorted (· ≤ ·) ∧ T'.keys.Perm (key :: T.keys) ∧ (∀ k ∈ T.keys, k ∈ T'.keys) ∧
      s'.size s'.root = s.size s.root + 1 ∧
      (T = RBTree.nil →
        s'.root ≠ NIL ∧ s'.key s'.root = key ∧ s'.color s'.root = true ∧
          s'.size s'.root = 1 ∧ s'.left s'.root = NIL ∧ s'.right s'.root = NIL ∧
          s'.parent s'.root = NIL) := by
  obtain ⟨s', T', log, -, r1, r2, r4, r5, r3, r7, r6, -⟩ :=
    insertRB_steps_spec True key fuel h hB (fun _ => hS) hc hf
  have hS' := r5 trivial
  have hperm : T'.keys.Perm (key :: T.keys) := by
    rw [r6]
    simpa using RBTree.keys_ins_perm key (.node s.next false key 1 .nil .nil) T
  have hkeys := RBTree.keys_ins_sorted key (.node s.next false key 1 .nil .nil) (by simp) T hB
  refine ⟨s', T', r1, r2, r3, hS', r4, ?_, r7, r6.trans hkeys, (RBTree.bst_iff_sorted T').mp r3,
    hperm, ?_, ?_, ?_⟩
  · intro e he
    have ha : e.1 ∈ T.addrs := by
      rw [← RBTree.entries_addrs]
      exact List.mem_map_of_mem _ he
    exact Nat.ne_of_lt (h.alloc _ ha).2
  · intro k hk
    exact hperm.symm.subset (List.mem_cons_of_mem _ hk)
  · rw [r2.root, h.root, RBTree.size_read r2.rep r2.sentinel.2.1,
      RBTree.size_read h.rep h.sentinel.2.1, RBTree.size0_eq_length T' hS',
      RBTree.size0_eq_length T hS, hperm.length_eq]
    simp
  · intro hT
    subst hT
    have hk1 : T'.keys = [key] := by
      have := r6.trans hkeys
      simpa using this
    obtain ⟨a, c, sz, rfl⟩ := RBTree.eq_single_of_keys hk1
    have hc1 : c = true := r4
    have hsz : sz = 1 := by
      have := hS'.1
      simpa [RBTree.size0] using this
    obtain ⟨⟨h1, h2, h3, h4, h5, h6⟩, -, -⟩ := r2.rep
    have hroot : s'.root = a := r2.root
    rw [hroot]
    exact ⟨(r2.alloc a (by simp)).1, h1, h6.trans hc1, h2.trans hsz, h4, h5, h3⟩

/-- C19 on the tree built from `[5, 1, 4, 2, 8]`, inserting the stored key `4` again:
the keys become `[1, 2, 4, 4, 5, 8]`, the new object `7` stands behind the old node
with the key `4` (object `4`), and the root size is `6`. -/
theorem C19_witness :
    ∃ s' T', insertRB 4 (builtRB [5, 1, 4, 2, 8]) 4 = some s' ∧ Shape s' T' ∧
      T'.keys = [1, 2, 4, 4, 5, 8] ∧
      T'.entries = [(3, 1), (5, 2), (4, 4), (7, 4), (2, 5), (6, 8)] ∧
      s'.size s'.root = 6 := by
  obtain ⟨s', T', h1, h2, -, -, -, -, h3, h4, -, -, -, h7, -⟩ :=
    C19_insertRB_keys (builtRB [5, 1, 4, 2, 8]) _ 4 4 shape_builtRB_demo
      (by simp [RBTree.BST]) (by simp [RBTree.SizeInv, RBTree.size0])
      (by decide) (by decide)
  exact ⟨s', T', h1, h2, h4.trans (by decide), h3.trans (by decide), h7.trans (by decide)⟩

/-- C19 does not hold without a black root. The heap `redRootState` holds the tree
with the single red node `5`, which has search-tree order and exact sizes.
`insertRB` of the key `3` returns with `*root == NIL`: the returned heap holds no
tree with the keys `[3, 5]`, and the size read at its root is `1` as before the
call, not `2`. -/
theorem C19_counterexample :
    Shape redRootState (.node 2 false 5 1 .nil .nil) ∧
      (RBTree.node 2 false 5 1 .nil .nil).BST ∧ (RBTree.node 2 false 5 1 .nil .nil).SizeInv ∧
      redRootState.size redRootState.root = 1 ∧
      ∃ s', insertRB 5 redRootState 3 = some s' ∧ s'.root = NIL ∧ s'.size s'.root = 1 ∧
        ¬ ∃ T', Shape s' T' ∧ T'.keys = [3, 5] := by
  refine ⟨shape_redRootState, by simp [RBTree.BST], by simp [RBTree.SizeInv, RBTree.size0],
    by decide, ?_⟩
  have hd := insertRB_redRootState
  cases hres : insertRB 5 redRootState 3 with
  | none =>
    rw [hres] at hd
    exact absurd hd (by simp)
  | some s' =>
    rw [hres] at hd
    simp only [Option.map_some', Option.some.injEq, Prod.mk.injEq] at hd
    refine ⟨s', rfl, hd.1, by rw [hd.1]; exact hd.2, ?_⟩
    rintro ⟨T', hT', -⟩
    have := hT'.sentinel.2.1
    rw [hd.2] at this
    exact absurd this (by decide)

/-- C20: a state reachable from `buildTreeRB` by `insertRB` and by `deleteRB` of stored
keys holds a tree whose height `h` (nodes on the longest root-to-nil path) satisfies
`h ≤ 2 * ⌊log2(n + 1)⌋` for its `n` keys. With that bound `b`: `selectRB` with a rank
in `1..n` returns within `b` calls, with any rank within `b + 1` calls (the last one
on the sentinel); the descent of `insertRB` returns within `b + 1` loop tests (the
last one on the sentinel); the search of `deleteRB` for a stored key returns within
`b` loop tests. -/
theorem C20_height_logarithmic (s : State) (T : RBTree) (hr : RBReachable s)
    (hT : Shape s T) :
    T.height ≤ 2 * Nat.log 2 (T.keys.length + 1) ∧
      (∀ k : Nat, k < T.keys.length →
        selectRB (2 * Nat.log 2 (T.keys.length + 1)) s s.root ((k : Int) + 1) =
          some (T.keys.getD k 0)) ∧
      (∀ i : Int, ∃ r, selectRB (2 * Nat.log 2 (T.keys.length + 1) + 1) s s.root i = some r) ∧
      (∀ key : Int, ∃ r,
        insertRB.descend key (2 * Nat.log 2 (T.keys.length + 1) + 1) s NIL s.root = some r) ∧
      (∀ key ∈ T.keys, ∃ z,
        deleteRB.search key (2 * Nat.log 2 (T.keys.length + 1)) s s.root = some z ∧
          s.key z = key) := by
  obtain ⟨T0, hT0, hG⟩ := hr.inv
  have hTT : T0 = T := hT0.unique hT
  rw [hTT] at hG
  have hh := RBTree.redBlack_height_le hG.2.2
  have hN : ∀ a ∈ T.addrs, a ≠ NIL := fun a ha => (hT.alloc a ha).1
  refine ⟨hh, ?_, ?_, ?_, ?_⟩
  · intro k hk
    rw [hT.root]
    exact selectRB_nth_tight T NIL s _ hT.rep hN hG.2.1 hh k hk
  · intro i
    rw [hT.root]
    by_cases hi : 1 ≤ i ∧ i ≤ T.size0
    · have hlen := RBTree.size0_eq_length T hG.2.1
      obtain ⟨k, hk⟩ : ∃ k : Nat, i = (k : Int) + 1 := ⟨(i - 1).toNat, by omega⟩
      subst hk
      exact ⟨_, selectRB_nth T NIL s _ hT.rep hN hG.2.1 (by omega) k (by omega)⟩
    · exact ⟨_, selectRB_out_of_range T NIL s _ hT.rep hN hG.2.1 (by omega) i (by omega)⟩
  · intro key
    obtain ⟨s', d1, -⟩ := insertRB_descend_spec key T [] s
      (2 * Nat.log 2 (T.keys.length + 1) + 1) hT.toZ (by omega)
    rw [hT.root]
    exact ⟨_, d1⟩
  · intro key hk
    obtain ⟨⟨t', cs'⟩, hfind⟩ := RBPath.find_isSome key T [] hG.1 hk
    obtain ⟨e1, e2⟩ := deleteRB_search_spec key T [] s (2 * Nat.log 2 (T.keys.length + 1))
      t' cs' hT.toZ hfind (by omega)
    obtain ⟨-, ⟨a, c, sz, l, r, rfl⟩, -⟩ := RBPath.find_plug key T [] _ _ hfind
    rw [hT.root]
    exact ⟨_, e1, e2.key_root⟩

/-- C20 on the tree built from `[5, 1, 4, 2, 8]` (`n = 5`, bound `4`): height at most
`4`, and `selectRB` with rank `3` returns the key `4` within `4` calls. -/
theorem C20_witness :
    ∃ T, Shape (builtRB [5, 1, 4, 2, 8]) T ∧ T.height ≤ 4 ∧
      selectRB 4 (builtRB [5, 1, 4, 2, 8]) (builtRB [5, 1, 4, 2, 8]).root 3 = some 4 := by
  have h := C20_height_logarithmic (builtRB [5, 1, 4, 2, 8]) _ (builtRB_reachable _)
    shape_builtRB_demo
  have e : 2 * Nat.log 2 ((RBTree.node 4 true 4 5
      (.node 3 true 1 2 .nil (.node 5 false 2 1 .nil .nil))
      (.node 2 true 5 2 .nil (.node 6 false 8 1 .nil .nil))).keys.length + 1) = 4 := by
    simp [RBTree.keys, Nat.log]
  rw [e] at h
  exact ⟨_, shape_builtRB_demo, h.1, (h.2.1 2 (by decide)).trans (by decide)⟩

/-- C21: `insertRB` on a tree with the Red-Black properties returns, and the record
of its call of `insertRBFix` consists of iterations of the red-uncle branch
(recolouring only), followed by at most one iteration of the black-uncle branch;
that iteration issues one or two rotations and ends with the parent of `z` black,
and nothing follows it. Hence one `insertRB` performs at most two rotations. -/
theorem C21_insertRBFix_rotations (s : State) (T : RBTree) (key : Int) (fuel : Nat)
    (h : Shape s T) (hR : T.RedBlack) (hf : T.height < fuel) :
    ∃ s' log, insertRB.traced fuel s key = some (s', log) ∧ insertRB fuel s key = some s' ∧
      InsertFixLog log ∧ (log.filter FixEvent.isRotate).length ≤ 2 ∧
      ∀ (pre post : List FixEvent) (z : Nat) (c : Bool),
        log = pre ++ FixEvent.uncleBlackEnd z c :: post → c = true ∧ post = [] := by
  obtain ⟨s', log, r1, r2⟩ := insertRB_traced_spec key fuel h hR hf
  refine ⟨s', log, r1, ?_, r2, r2.rotations_le,
    fun pre post z c => r2.uncleBlack_last pre post z c⟩
  have := insertRB_traced_fst fuel s key
  rw [r1] at this
  exact this.symm

/-- C21 on the tree built from `[1, 2]`, inserting `3`: the uncle is the sentinel, one
left rotation at the grandparent (object `2`), after which the loop ends. -/
theorem C21_witness :
    ∃ s', insertRB.traced 3 (builtRB [1, 2]) 3 =
        some (s', [FixEvent.grandparent 4 2, FixEvent.rotateLeft 2 3,
          FixEvent.uncleBlackEnd 4 true]) ∧
      insertRB 3 (builtRB [1, 2]) 3 = some s' := by
  obtain ⟨s', log, h1, h2, -⟩ := C21_insertRBFix_rotations (builtRB [1, 2]) _ 3 3
    shape_builtRB_two (by simp [RBTree.RedBlack, RBTree.NoRedRed, RBTree.BlackBalanced])
    (by decide)
  have hd : (insertRB.traced 3 (builtRB [1, 2]) 3).map Prod.snd =
      some [FixEvent.grandparent 4 2, FixEvent.rotateLeft 2 3,
        FixEvent.uncleBlackEnd 4 true] := by decide
  rw [h1] at hd
  simp only [Option.map_some', Option.some.injEq] at hd
  subst hd
  exact ⟨s', h1, h2⟩

/-- C22: in a state holding a tree with the Red-Black properties the sentinel is
black with size `0`, and it is so again after `insertRB` of any key and after
`deleteRB` of a stored key (its key and its child fields are unchanged as well).
Inside these calls, as recorded by `insertRB.steps` and `deleteRB.steps` (every
write of a colour or of a size by the descent, the linking, the splice, the
size-repair walk, the fixups and their rotations): every colour written on the
sentinel is black, no size is written on the sentinel, and at the return of every
rotation the sentinel is black with size `0`. A rotation at a node with a real
child on the rotated side and `transplantRB` leave the colour and the size of the
sentinel as they are. -/
theorem C22_sentinel_black_size_zero (s : State) (T : RBTree) (key : Int) (fuel : Nat)
    (h : Shape s T) (hB : T.BST) (hR : T.RedBlack) :
    (s.color NIL = true ∧ s.size NIL = 0) ∧
      (T.height < fuel →
        ∃ s' log, insertRB.steps fuel s key = some (s', log) ∧
          insertRB fuel s key = some s' ∧ s'.color NIL = true ∧ s'.size NIL = 0 ∧
          s'.key NIL = s.key NIL ∧ s'.left NIL = NIL ∧ s'.right NIL = NIL ∧
          (∀ c, HeapStep.colorWrite NIL c ∈ log → c = true) ∧
          (∀ v, HeapStep.sizeWrite NIL v ∉ log) ∧
          (∀ st, HeapStep.rotated st ∈ log → st.color NIL = true ∧ st.size NIL = 0)) ∧
      (key ∈ T.keys → T.height ≤ fuel →
        ∃ s' log, deleteRB.steps fuel s key = some (s', log) ∧
          deleteRB fuel s key = some s' ∧ s'.color NIL = true ∧ s'.size NIL = 0 ∧
          s'.key NIL = s.key NIL ∧ s'.left NIL = NIL ∧ s'.right NIL = NIL ∧
          (∀ c, HeapStep.colorWrite NIL c ∈ log → c = true) ∧
          (∀ v, HeapStep.sizeWrite NIL v ∉ log) ∧
          (∀ st, HeapStep.rotated st ∈ log → st.color NIL = true ∧ st.size NIL = 0)) ∧
      (∀ x ∈ T.addrs, s.right x ≠ NIL →
        (leftRotateRB s x).color NIL = true ∧ (leftRotateRB s x).size NIL = 0) ∧
      (∀ x ∈ T.addrs, s.left x ≠ NIL →
        (rightRotateRB s x).color NIL = true ∧ (rightRotateRB s x).size NIL = 0) ∧
      (∀ u v, (transplantRB s u v).color NIL = true ∧ (transplantRB s u v).size NIL = 0) := by
  obtain ⟨k0, z0, l0, r0, c0⟩ := h.sentinel
  refine ⟨⟨c0, z0⟩, ?_, ?_, ?_, ?_, ?_⟩
  · intro hf
    obtain ⟨s', T', log, e1, e2, e3, -, -, -, -, -, -, -, e11⟩ :=
      insertRB_steps_spec False key fuel h hB (fun hc => hc.elim) hR.1 hf
    obtain ⟨k1, z1, l1, r1', c1⟩ := e3.sentinel
    exact ⟨s', log, e1, e2, c1, z1, by rw [k1, k0], l1, r1',
      HeapStep.colorWrite_nil_black e11, HeapStep.no_sizeWrite_nil e11,
      fun st hm => (HeapStep.rotated_ok e11 st hm).sentinel⟩
  · intro hk hf
    obtain ⟨s', log, e1, -, e3⟩ :=
      deleteRB_steps_spec False key fuel h hB hR (fun hc => hc.elim) hk hf
    have e2 : deleteRB fuel s key = some s' := by
      have := deleteRB_steps_fst fuel s key
      rw [e1] at this
      exact this.symm
    obtain ⟨s'', T', r1, r2, -⟩ := deleteRB_spec key fuel h hB hR hk hf
    have hs : s'' = s' := Option.some.inj (r1.symm.trans e2)
    subst hs
    obtain ⟨k1, z1, l1, r1', c1⟩ := r2.sentinel
    exact ⟨s'', log, e1, e2, c1, z1, by rw [k1, k0], l1, r1',
      HeapStep.colorWrite_nil_black e3, HeapStep.no_sizeWrite_nil e3,
      fun st hm => (HeapStep.rotated_ok e3 st hm).sentinel⟩
  · intro x hx hr
    have hxN : x ≠ NIL := (h.alloc x hx).1
    rw [leftRotateRB_color, leftRotateRB_size_other s x NIL hxN.symm hr.symm]
    exact ⟨c0, z0⟩
  · intro x hx hl
    have hxN : x ≠ NIL := (h.alloc x hx).1
    rw [rightRotateRB_color, rightRotateRB_size_other s x NIL hxN.symm hl.symm]
    exact ⟨c0, z0⟩
  · intro u v
    rw [transplantRB_color, transplantRB_size]
    exact ⟨c0, z0⟩

/-- C22 on two runs. On the tree built from `[1]`, deleting the only key: the fixup
runs on the sentinel and writes its colour once, with black; the sentinel stays
black with size `0`, and no size is written on it. On the tree built from
`[5, 1, 4, 2, 8]`, deleting the leaf `8`: the sentinel stays black with size `0`,
only its parent field changes (from the sentinel to object `2`). -/
theorem C22_witness :
    (∃ s' log, deleteRB.steps 1 (builtRB [1]) 1 = some (s', log) ∧
      log.map HeapStep.target = [some (NIL, false)] ∧
      deleteRB 1 (builtRB [1]) 1 = some s' ∧ s'.color NIL = true ∧ s'.size NIL = 0 ∧
      (∀ c, HeapStep.colorWrite NIL c ∈ log → c = true) ∧
      ∀ v, HeapStep.sizeWrite NIL v ∉ log) ∧
    ∃ s', deleteRB 3 (builtRB [5, 1, 4, 2, 8]) 8 = some s' ∧ s'.color NIL = true ∧
      s'.size NIL = 0 ∧ s'.parent NIL = 2 ∧ (builtRB [5, 1, 4, 2, 8]).parent NIL = NIL := by
  have hT : Shape (builtRB [1]) (.node 2 true 1 1 .nil .nil) := by
    refine ⟨?_, by decide, by decide, by decide, by unfold Sentinel; decide, by decide⟩
    simp only [RBTree.Rep, RBTree.addr]
    decide
  obtain ⟨s', log, h1, h2, h3, h4, -, -, -, h8, h9, -⟩ :=
    (C22_sentinel_black_size_zero (builtRB [1]) _ 1 1 hT (by simp [RBTree.BST])
      (by simp [RBTree.RedBlack, RBTree.NoRedRed, RBTree.BlackBalanced])).2.2.1
      (by decide) (by decide)
  have hd : (deleteRB.steps 1 (builtRB [1]) 1).map (fun r => r.2.map HeapStep.target) =
      some [some (NIL, false)] := by decide
  rw [h1] at hd
  refine ⟨⟨s', log, h1, Option.some.inj hd, h2, h3, h4, h8, h9⟩, ?_⟩
  obtain ⟨t', log', -, g2, g3, g4, -⟩ :=
    (C22_sentinel_black_size_zero (builtRB [5, 1, 4, 2, 8]) _ 8 3
      shape_builtRB_demo (by simp [RBTree.BST])
      (by simp [RBTree.RedBlack, RBTree.NoRedRed, RBTree.BlackBalanced])).2.2.1
      (by decide) (by decide)
  have hp : (deleteRB 3 (builtRB [5, 1, 4, 2, 8]) 8).map (fun t => t.parent NIL) = some 2 := by
    decide
  rw [g2] at hp
  exact ⟨t', g2, g3, g4, Option.some.inj hp, by decide⟩

/-- C23: on a tree with the Red-Black properties (and search-tree order, which the
search of `deleteRB` needs) the traced `insertRB` of any key and the traced
`deleteRB` of a stored key return the states of `insertRB` and `deleteRB`, and in
the record of the fixup every event is on real nodes: each `leftRotateRB(root, x)`
has `x` and `x->right` real, each `rightRotateRB(root, x)` has `x` and `x->left`
real, each grandparent read by `insertRBFix` and each sibling `w` read by
`deleteRBFix` is real. -/
theorem C23_fixups_on_real_nodes (s : State) (T : RBTree) (key : Int) (fuel : Nat)
    (h : Shape s T) (hB : T.BST) (hR : T.RedBlack) :
    (T.height < fuel →
      ∃ s' log, insertRB.traced fuel s key = some (s', log) ∧
        insertRB fuel s key = some s' ∧ ∀ e ∈ log, e.Real) ∧
    (key ∈ T.keys → T.height ≤ fuel →
      ∃ s' log, deleteRB.traced fuel s key = some (s', log) ∧
        deleteRB fuel s key = some s' ∧ ∀ e ∈ log, e.Real) := by
  constructor
  · intro hf
    obtain ⟨s', log, r1, r2⟩ := insertRB_traced_spec key fuel h hR hf
    refine ⟨s', log, r1, ?_, r2.real⟩
    have := insertRB_traced_fst fuel s key
    rw [r1] at this
    exact this.symm
  · intro hk hf
    obtain ⟨s', log, r1, r2⟩ := deleteRB_traced_spec key fuel h hB hR hk hf
    refine ⟨s', log, r1, ?_, r2⟩
    have := deleteRB_traced_fst fuel s key
    rw [r1] at this
    exact this.symm

/-- C23 on the tree built from `[1, 2, 3, 4]`, deleting `1`: the fixup runs on the
sentinel as `x`, reads the sibling object `4` and rotates left at object `3`, whose
right child is object `4`. -/
theorem C23_witness :
    ∃ s', deleteRB.traced 3 (builtRB [1, 2, 3, 4]) 1 =
        some (s', [FixEvent.sibling 1 4, FixEvent.rotateLeft 3 4]) ∧
      deleteRB 3 (builtRB [1, 2, 3, 4]) 1 = some s' := by
  obtain ⟨s', log, h1, h2, -⟩ := (C23_fixups_on_real_nodes (builtRB [1, 2, 3, 4]) _ 1 3
    shape_builtRB_four (by simp [RBTree.BST])
    (by simp [RBTree.RedBlack, RBTree.NoRedRed, RBTree.BlackBalanced])).2
    (by decide) (by decide)
  have hd : (deleteRB.traced 3 (builtRB [1, 2, 3, 4]) 1).map Prod.snd =
      some [FixEvent.sibling 1 4, FixEvent.rotateLeft 3 4] := by decide
  rw [h1] at hd
  simp only [Option.map_some', Option.some.injEq] at hd
  subst hd
  exact ⟨s', h1, h2⟩

/-- C24: on a tree `T` with the Red-Black properties and search-tree order, with
height `h`: `insertRB` of any key returns when each loop may run `h + 1` times, and
`deleteRB` of a stored key returns when each loop may run `h` times; the search of
`deleteRB` stops at a node of `T` (not the sentinel) that holds the key; `treeMinRB`
from any node of `T` returns a real node without left child; the size-repair walk
from any node of `T` reaches the sentinel; and the loops of `insertRBFix` and
`deleteRBFix`, started in any state on a node at depth `d` under their
preconditions, return within `d + 1` tests of the loop condition. -/
theorem C24_termination (s : State) (T : RBTree) (key : Int) (h : Shape s T) (hB : T.BST)
    (hR : T.RedBlack) :
    (∃ s', insertRB (T.height + 1) s key = some s') ∧
    (key ∈ T.keys →
      (∃ s', deleteRB T.height s key = some s') ∧
      ∃ z, deleteRB.search key T.height s s.root = some z ∧ z ∈ T.addrs ∧ z ≠ NIL ∧
        s.key z = key) ∧
    (∀ a ∈ T.addrs, ∃ y, treeMinRB T.height s a = some y ∧ y ≠ NIL ∧ s.left y = NIL) ∧
    (∀ a ∈ T.addrs, ∃ s', deleteRB.repair (T.height + 1) s a = some s') ∧
    (∀ (s1 : State) (cs : RBPath) (z : Nat) (k sz : Int) (l r : RBTree),
      ShapeZ s1 (.node z false k sz l r) cs → (RBTree.node z false k sz l r).WF →
      RBPath.Accepts cs true (RBTree.node z false k sz l r).blackHeight →
      ∃ s', insertRBFix (cs.length + 1) s1 z = some s') ∧
    (∀ (s1 : State) (cs : RBPath) (x : RBTree),
      ShapeZ s1 x cs → s1.parent x.addr = RBPath.addr cs NIL → x.setBlack.WF →
      RBPath.Accepts cs true (x.blackHeight + 1) →
      ∃ s', deleteRBFix (cs.length + 1) s1 x.addr = some s') := by
  refine ⟨?_, ?_, fun a ha => treeMinRB_terminates h a ha,
    fun a ha => deleteRB_repair_terminates h a ha, ?_, ?_⟩
  · obtain ⟨s', T', r1, -⟩ := insertRB_spec key (T.height + 1) h hB hR (by omega)
    exact ⟨s', r1⟩
  · intro hk
    obtain ⟨s', T', r1, -⟩ := deleteRB_spec key T.height h hB hR hk (le_refl _)
    refine ⟨⟨s', r1⟩, ?_⟩
    obtain ⟨⟨t', cs'⟩, hfind⟩ := RBPath.find_isSome key T [] hB hk
    obtain ⟨e1, e2⟩ := deleteRB_search_spec key T [] s T.height t' cs' h.toZ hfind (by omega)
    obtain ⟨hplug, ⟨a, c, sz, l, r, rfl⟩, -⟩ := RBPath.find_plug key T [] _ _ hfind
    simp only [RBPath.plug_nil] at hplug
    rw [h.root]
    have hm : a ∈ T.addrs := by
      rw [← hplug]
      exact (RBPath.plug_addrs_perm cs' _).symm.subset (by simp)
    exact ⟨a, e1, hm, (h.alloc a hm).1, e2.key_root⟩
  · intro s1 cs z k sz l r hz hW hA
    obtain ⟨s', log, r1, -⟩ := insertRBFix_traced_spec cs.length cs s1 z k sz l r
      (cs.length + 1) (le_refl _) hz hW hA (by omega)
    refine ⟨s', ?_⟩
    have := insertRBFix_traced_fst (cs.length + 1) s1 z
    rw [r1] at this
    exact this.symm
  · intro s1 cs x hz hp hW hA
    obtain ⟨s', T', r1, -⟩ := deleteRBFix_spec cs s1 x (cs.length + 1) hz hp hW hA (by omega)
    exact ⟨s', r1⟩

/-- C24 on the tree built from `[5, 1, 4, 2, 8]` (height `3`): `insertRB` of `3`
returns with `4` iterations allowed, `deleteRB` of `4` with `3`. -/
theorem C24_witness :
    (∃ s', insertRB 4 (builtRB [5, 1, 4, 2, 8]) 3 = some s') ∧
      (∃ s', deleteRB 3 (builtRB [5, 1, 4, 2, 8]) 4 = some s') ∧
      deleteRB.search 4 3 (builtRB [5, 1, 4, 2, 8]) (builtRB [5, 1, 4, 2, 8]).root = some 4 := by
  have h := C24_termination (builtRB [5, 1, 4, 2, 8]) _ 4 shape_builtRB_demo
    (by simp [RBTree.BST]) (by simp [RBTree.RedBlack, RBTree.NoRedRed, RBTree.BlackBalanced])
  have h3 := C24_termination (builtRB [5, 1, 4, 2, 8]) _ 3 shape_builtRB_demo
    (by simp [RBTree.BST]) (by simp [RBTree.RedBlack, RBTree.NoRedRed, RBTree.BlackBalanced])
  exact ⟨h3.1, (h.2.1 (by decide)).1, by decide⟩

/-- C25: for every key sequence `v` of length `n`, repeated keys included,
`buildTreeRB` returns and `selectRB` over the ranks `1..n` lists the keys of `v` in
non-decreasing order, each as often as in `v`. In a reachable state holding the
tree `T`, `deleteRB` of a stored key returns, the size at the root drops by one,
and `selectRB` lists the remaining keys: one occurrence of the key less, every
other key as often as before. -/
theorem C25_duplicate_keys (v : List Int) (s : State) (T : RBTree) (key : Int) (fuel : Nat)
    (hf : v.length < fuel) (hr : RBReachable s) (hT : Shape s T) (hk : key ∈ T.keys)
    (hf2 : T.keys.length < fuel) :
    (∃ s0, buildTreeRB fuel v (v.length : Int) = some s0 ∧
      selectAllRB fuel s0 v.length = (v.insertionSort (· ≤ ·)).map some ∧
      (v.insertionSort (· ≤ ·)).Sorted (· ≤ ·) ∧
      ∀ k, (v.insertionSort (· ≤ ·)).count k = v.count k) ∧
    (∃ s', deleteRB fuel s key = some s' ∧ s'.size s'.root = s.size s.root - 1 ∧
      selectAllRB fuel s T.keys.length = T.keys.map some ∧
      selectAllRB fuel s' (T.keys.length - 1) = (T.keys.erase key).map some ∧
      (T.keys.erase key).count key = T.keys.count key - 1 ∧
      ∀ k, k ≠ key → (T.keys.erase key).count k = T.keys.count k) := by
  constructor
  · obtain ⟨s0, T0, h1, h2, h3, h4, -⟩ := buildTreeRB_spec fuel v hf
    have hk0 : T0.keys = v.insertionSort (· ≤ ·) :=
      List.eq_of_perm_of_sorted (h4.trans (List.perm_insertionSort _ v).symm)
        ((RBTree.bst_iff_sorted T0).mp h3.1) (List.sorted_insertionSort _ v)
    have hlen : T0.keys.length = v.length := h4.length_eq
    have hh : T0.height < fuel := lt_of_le_of_lt (RBTree.height_le_length T0) (by omega)
    refine ⟨s0, h1, ?_, List.sorted_insertionSort _ v,
      fun k => (List.perm_insertionSort _ v).count_eq k⟩
    rw [← hlen, selectAllRB_eq fuel h2 h3.2.1 hh, hk0]
  · obtain ⟨T0, hT0, hG⟩ := hr.inv
    have hTT : T0 = T := hT0.unique hT
    rw [hTT] at hG
    obtain ⟨s', T', r1, r2, r3, r4, r5, r6, -⟩ := deleteRB_spec key fuel hT hG.1 hG.2.2 hk
      (le_trans (RBTree.height_le_length _) (le_of_lt hf2))
    have hS' := r6 hG.2.1
    have hlen : T'.keys.length = T.keys.length - 1 := by
      rw [r5, List.length_erase_of_mem hk]
    have hpos : 0 < T.keys.length := List.length_pos_of_mem hk
    have hh' : T'.height < fuel :=
      lt_of_le_of_lt (RBTree.height_le_length T') (by omega)
    refine ⟨s', r1, ?_, ?_, ?_, List.count_erase_self key T.keys,
      fun k hne => List.count_erase_of_ne hne T.keys⟩
    · rw [r2.root, hT.root, RBTree.size_read r2.rep r2.sentinel.2.1,
        RBTree.size_read hT.rep hT.sentinel.2.1, RBTree.size0_eq_length T' hS',
        RBTree.size0_eq_length T hG.2.1, hlen]
      omega
    · exact selectAllRB_eq fuel hT hG.2.1 (lt_of_le_of_lt (RBTree.height_le_length T) hf2)
    · rw [← hlen, selectAllRB_eq fuel r2 hS' hh', r5]

/-- C25 on the array `[2, 1, 2]`: `selectRB` lists `1, 2, 2`; after `deleteRB` of `2`
it lists `1, 2`. -/
theorem C25_witness :
    selectAllRB 4 (builtRB [2, 1, 2]) 3 = [some 1, some 2, some 2] ∧
      ∃ s', deleteRB 4 (builtRB [2, 1, 2]) 2 = some s' ∧ selectAllRB 4 s' 2 = [some 1, some 2] := by
  obtain ⟨-, s', h1, -, h3, h4, -⟩ := C25_duplicate_keys [2, 1, 2] (builtRB [2, 1, 2]) _ 2 4
    (by decide) (builtRB_reachable _) shape_builtRB_dup (by decide) (by decide)
  exact ⟨h3.trans (by decide), s', h1, h4.trans (by decide)⟩

/-- The static view keeps the in-order keys. -/
theorem RBTree.toBT_keys : ∀ t : RBTree, t.toBT.keys = t.keys
  | .nil => rfl
  | .node _ _ k s l r => by
    simp only [RBTree.toBT, BTNode.keys, RBTree.keys, RBTree.toBT_keys l, RBTree.toBT_keys r]

/-- The static view keeps the size field of the root. -/
theorem RBTree.toBT_size0 (t : RBTree) : t.toBT.size0 = t.size0 := by
  cases t <;> rfl

/-- C26: for a dynamic tree `t` stored in the heap (any key and size fields) and the
static tree `t.toBT` obtained from it by replacing each link to the sentinel with an
absent child, `selectRB(root, i)` returns, and it returns `selectBT(root', i)`, for
every integer rank `i`; the static tree has the same keys in order and the same size
field at the root. -/
theorem C26_selectRB_is_selectBT (s : State) (t : RBTree) (par : Nat) (fuel : Nat)
    (h : RBTree.Rep s par t) (hN : ∀ a ∈ t.addrs, a ≠ NIL) (hf : t.height < fuel) :
    (∀ i : Int, selectRB fuel s t.addr i = some (selectBT t.toBT i)) ∧
      t.toBT.keys = t.keys ∧ t.toBT.size0 = t.size0 ∧
      (t.toBT = BTNode.nullptr ↔ t.addr = NIL) := by
  refine ⟨selectRB_eq_selectBT t par s fuel h hN hf, RBTree.toBT_keys t, RBTree.toBT_size0 t, ?_⟩
  rw [RBTree.toBT_eq_nullptr_iff]
  cases t with
  | nil => simp [RBTree.addr]
  | node a c k sz l r => simpa using hN a (by simp)

/-- C26 on the tree built from `[5, 1, 4, 2, 8]`: rank `3` gives the key `4` in both
trees, rank `0` and rank `6` give `-1` in both. -/
theorem C26_witness :
    selectRB 4 (builtRB [5, 1, 4, 2, 8]) 4 3 = some 4 ∧
      selectRB 4 (builtRB [5, 1, 4, 2, 8]) 4 0 = some (-1) ∧
      selectRB 4 (builtRB [5, 1, 4, 2, 8]) 4 6 = some (-1) := by
  have h := (C26_selectRB_is_selectBT (builtRB [5, 1, 4, 2, 8]) _ NIL 4 shape_builtRB_demo.rep
    (fun a ha => (shape_builtRB_demo.alloc a ha).1) (by decide)).1
  exact ⟨(h 3).trans (by decide), (h 0).trans (by decide), (h 6).trans (by decide)⟩

/-- C27: for every profiler (a state `p` of any type and any `countOperation`), every
heap and every argument, the instrumented `leftRotateRB`, `rightRotateRB`,
`insertRBFix`, `insertRB`, `transplantRB`, `treeMinRB`, `deleteRBFix`, `deleteRB`,
`buildTreeRB` and `selectRB` of `main.cpp` return exactly when the functions of the
same name of `rb.cpp` return, with the same heap and the same return value. -/
theorem C27_instrumentation_erasure {P : Type} (cnt : OpKind → Nat → P → P) (s : State) (p : P)
    (fuel : Nat) :
    (∀ x, (MainCpp.leftRotateRB cnt s p x).1 = leftRotateRB s x) ∧
    (∀ x, (MainCpp.rightRotateRB cnt s p x).1 = rightRotateRB s x) ∧
    (∀ z, (MainCpp.insertRBFix cnt fuel s p z).map Prod.fst = insertRBFix fuel s z) ∧
    (∀ key, (MainCpp.insertRB cnt fuel s p key).map Prod.fst = insertRB fuel s key) ∧
    (∀ u v, (MainCpp.transplantRB cnt s p u v).1 = transplantRB s u v) ∧
    (∀ root, (MainCpp.treeMinRB cnt fuel s p root).map Prod.fst = treeMinRB fuel s root) ∧
    (∀ x, (MainCpp.deleteRBFix cnt fuel s p x).map Prod.fst = deleteRBFix fuel s x) ∧
    (∀ key, (MainCpp.deleteRB cnt fuel s p key).map Prod.fst = deleteRB fuel s key) ∧
    (∀ v n, (MainCpp.buildTreeRB cnt fuel v n p).map Prod.fst = buildTreeRB fuel v n) ∧
    (∀ root i, (MainCpp.selectRB cnt fuel s p root i).map Prod.fst = selectRB fuel s root i) :=
  ⟨mainCpp_leftRotateRB_fst cnt s p, mainCpp_rightRotateRB_fst cnt s p,
    mainCpp_insertRBFix_fst cnt fuel s p, mainCpp_insertRB_fst cnt fuel s p,
    mainCpp_transplantRB_fst cnt s p, mainCpp_treeMinRB_fst cnt fuel s p,
    mainCpp_deleteRBFix_fst cnt fuel s p, mainCpp_deleteRB_fst cnt fuel s p,
    fun v n => mainCpp_buildTreeRB_fst cnt fuel v n p, mainCpp_selectRB_fst cnt fuel s p⟩

/-- C28: on a stored tree `T` whose nodes are objects (none at the null address),
`destroyRB` of `rb.cpp` returns and its `delete` trace is the nodes of `T` in
post-order, each one followed by a `delete` of the sentinel: every real node is
freed once, the sentinel as often as `T` has nodes (never for the empty tree).
`destroyRB` of `main.cpp` followed by the `delete NIL` of `demo` frees the nodes in
post-order and then the sentinel once. -/
theorem C28_destroyRB_trace (s : State) (T : RBTree) (fuel : Nat) (h : Shape s T)
    (h0 : ∀ a ∈ T.addrs, a ≠ RBNode.nullptr) (hf : T.height < fuel) :
    (∃ s', destroyRB fuel s s.root = some s' ∧ s'.freed = s.freed ++ T.postorderNil) ∧
      T.postorderNil.filter (fun a => !decide (a = NIL)) = T.postorder ∧
      T.postorderNil.count NIL = T.addrs.length ∧
      (∃ s', MainCpp.teardown fuel s = some s' ∧ s'.freed = s.freed ++ T.postorder ++ [NIL]) ∧
      T.postorder.Perm T.addrs ∧ T.postorder.Nodup ∧ NIL ∉ T.postorder := by
  have hN : ∀ a ∈ T.addrs, a ≠ NIL := fun a ha => (h.alloc a ha).1
  have hA : ∀ a ∈ T.addrs, a ≠ NIL ∧ a ≠ RBNode.nullptr := fun a ha => ⟨hN a ha, h0 a ha⟩
  have d1 := destroyRB_spec T NIL s fuel h.rep hA hf s.freed
  have d2 := mainCpp_destroyRB_spec T NIL s fuel h.rep hA hf s.freed
  refine ⟨⟨_, by rw [h.root]; exact d1, rfl⟩, RBTree.postorderNil_filter T hN,
    RBTree.postorderNil_count T hN, ?_, RBTree.postorder_perm T,
    (RBTree.postorder_perm T).nodup_iff.mpr h.nodup,
    fun hm => hN NIL ((RBTree.postorder_perm T).subset hm) rfl⟩
  have d3 : MainCpp.destroyRB fuel s s.root =
      some { s with freed := s.freed ++ T.postorder } := by
    rw [← h.root] at d2
    exact d2
  refine ⟨({ s with freed := s.freed ++ T.postorder } : State).free NIL, ?_, rfl⟩
  unfold MainCpp.teardown
  rw [d3]

/-- C28 on the tree built from `[1, 2]` (root object `2`, its right child object `3`,
sentinel object `1`): `destroyRB` of `rb.cpp` frees `3, NIL, 2, NIL`, the tear-down
of `main.cpp` frees `3, 2, NIL`. -/
theorem C28_witness :
    (∃ s', destroyRB 3 (builtRB [1, 2]) (builtRB [1, 2]).root = some s' ∧
      s'.freed = [3, 1, 2, 1]) ∧
    (∃ s', MainCpp.teardown 3 (builtRB [1, 2]) = some s' ∧ s'.freed = [3, 2, 1]) := by
  obtain ⟨⟨s1, h1, h2⟩, -, -, ⟨s2, h3, h4⟩, -⟩ := C28_destroyRB_trace (builtRB [1, 2]) _ 3
    shape_builtRB_two (by decide) (by decide)
  exact ⟨⟨s1, h1, h2.trans (by decide)⟩, ⟨s2, h3, h4.trans (by decide)⟩⟩
